import Mathlib

/-!
# txtfmt: a typographic normaliser for prose

A shallow embedding of the Go packages `ast`, `config`, `parser`, `rewrite` and `printer`
of `n0madic/txtfmt`, followed by theorems about the embedded functions.

Conventions of the embedding:

* a Go `string` is a Lean `String`; `[]rune(s)` is `s.data` and `string(runes)` is
  `String.mk runes`; a `rune` is a `Char`;
* a Go slice is a `List`; `nil` and the empty slice are both `[]`;
* Go's `unicode` tables are not part of the repository: they are the fields of the class
  `Unicode`, and every definition that consults them takes the tables as an instance;
* an interface value (`ast.Inline`, `ast.Block`) is a value of an inductive type with one
  constructor per implementing struct;
* a loop over indices is a recursion over the list (or a fold over the index range when the
  body updates the slice in place).
-/

namespace Txtfmt

/-! ## Go's `unicode` package -/

/-- Tables of Go's `unicode` package that the program consults. -/
class Unicode where
  /-- Table behind `unicode.IsLetter`, also the regexp class `\p{L}`. -/
  IsLetter : Char → Bool
  /-- Table behind `unicode.IsDigit`. -/
  IsDigit : Char → Bool
  /-- Table behind the regexp class `\p{N}`. -/
  IsNumber : Char → Bool
  /-- Table behind `unicode.IsSpace`. -/
  IsSpace : Char → Bool
  /-- Table behind `unicode.IsControl`. -/
  IsControl : Char → Bool
  /-- Table behind `unicode.In(r, unicode.Cf)`. -/
  IsFormat : Char → Bool
  /-- Table behind `unicode.IsUpper`. -/
  IsUpper : Char → Bool
  /-- Table behind `unicode.IsLower`. -/
  IsLower : Char → Bool
  /-- Mapping behind `unicode.ToLower`. -/
  ToLower : Char → Char
  /-- Mapping behind `unicode.ToUpper`. -/
  ToUpper : Char → Char
  /-- Mapping behind `unicode.SimpleFold`, which walks the runes that are equal under simple
  case folding; `regexp` reads the flag `(?i)` through it. -/
  SimpleFold : Char → Char

/-! ## Package `ast` -/

/-- Go: `type SpaceKind int` with the constants `SpaceNormal`, `SpaceNBSP`, `SpaceThin`. -/
inductive SpaceKind
  | SpaceNormal
  | SpaceNBSP
  | SpaceThin
  deriving DecidableEq, Repr, Inhabited

/-- Go: `type DashKind int` with the constants `DashHyphen`, `DashNDash`, `DashEmDash`. -/
inductive DashKind
  | DashHyphen
  | DashNDash
  | DashEmDash
  deriving DecidableEq, Repr, Inhabited

/-- Go: `type QuoteLevel int`. The named constants start at `iota + 1`, so the zero value
of the type is neither of them; the level is kept as a number. -/
abbrev QuoteLevel := Nat

/-- Go: `QuotePrimary QuoteLevel = iota + 1`. -/
def QuotePrimary : QuoteLevel := 1

/-- Go: `QuoteSecondary`, the constant after `QuotePrimary`. -/
def QuoteSecondary : QuoteLevel := 2

/-- Go: `type Pos struct { Off, Line, Col int }`. -/
structure Pos where
  Off : Nat
  Line : Nat
  Col : Nat
  deriving DecidableEq, Repr, Inhabited

/-- Go: `type Diag struct { Pos; Code; Message }`. -/
structure Diag where
  Pos : Pos
  Code : String
  Message : String
  deriving DecidableEq, Repr, Inhabited

/-- Go: the interface `ast.Inline` and the seven structs that implement it. -/
inductive Inline
  | Word (S : String)
  | Space (Kind : SpaceKind)
  | Punct (Ch : Char)
  | Dash (Kind : DashKind)
  | Ellipsis
  | QuoteSpan (Level : QuoteLevel) (In : List Inline)
  | ParenSpan (Open : Char) (Close : Char) (In : List Inline)
  deriving Repr, Inhabited

mutual
/-- Decidable equality of inlines (structural). -/
def Inline.decEq : (a b : Inline) → Decidable (a = b)
  | .Word s, .Word t =>
    if h : s = t then isTrue (by rw [h]) else isFalse (by intro e; cases e; exact h rfl)
  | .Space s, .Space t =>
    if h : s = t then isTrue (by rw [h]) else isFalse (by intro e; cases e; exact h rfl)
  | .Punct s, .Punct t =>
    if h : s = t then isTrue (by rw [h]) else isFalse (by intro e; cases e; exact h rfl)
  | .Dash s, .Dash t =>
    if h : s = t then isTrue (by rw [h]) else isFalse (by intro e; cases e; exact h rfl)
  | .Ellipsis, .Ellipsis => isTrue rfl
  | .QuoteSpan l xs, .QuoteSpan m ys =>
    if h : l = m then
      match Inline.decEqList xs ys with
      | isTrue h2 => isTrue (by rw [h, h2])
      | isFalse h2 => isFalse (by intro e; cases e; exact h2 rfl)
    else isFalse (by intro e; cases e; exact h rfl)
  | .ParenSpan o c xs, .ParenSpan o2 c2 ys =>
    if h : o = o2 ∧ c = c2 then
      match Inline.decEqList xs ys with
      | isTrue h2 => isTrue (by rw [h.1, h.2, h2])
      | isFalse h2 => isFalse (by intro e; cases e; exact h2 rfl)
    else isFalse (by intro e; cases e; exact h ⟨rfl, rfl⟩)
  | .Word _, .Space _ | .Word _, .Punct _ | .Word _, .Dash _ | .Word _, .Ellipsis
  | .Word _, .QuoteSpan _ _ | .Word _, .ParenSpan _ _ _ => isFalse (by intro e; cases e)
  | .Space _, .Word _ | .Space _, .Punct _ | .Space _, .Dash _ | .Space _, .Ellipsis
  | .Space _, .QuoteSpan _ _ | .Space _, .ParenSpan _ _ _ => isFalse (by intro e; cases e)
  | .Punct _, .Word _ | .Punct _, .Space _ | .Punct _, .Dash _ | .Punct _, .Ellipsis
  | .Punct _, .QuoteSpan _ _ | .Punct _, .ParenSpan _ _ _ => isFalse (by intro e; cases e)
  | .Dash _, .Word _ | .Dash _, .Space _ | .Dash _, .Punct _ | .Dash _, .Ellipsis
  | .Dash _, .QuoteSpan _ _ | .Dash _, .ParenSpan _ _ _ => isFalse (by intro e; cases e)
  | .Ellipsis, .Word _ | .Ellipsis, .Space _ | .Ellipsis, .Punct _ | .Ellipsis, .Dash _
  | .Ellipsis, .QuoteSpan _ _ | .Ellipsis, .ParenSpan _ _ _ => isFalse (by intro e; cases e)
  | .QuoteSpan _ _, .Word _ | .QuoteSpan _ _, .Space _ | .QuoteSpan _ _, .Punct _
  | .QuoteSpan _ _, .Dash _ | .QuoteSpan _ _, .Ellipsis
  | .QuoteSpan _ _, .ParenSpan _ _ _ => isFalse (by intro e; cases e)
  | .ParenSpan _ _ _, .Word _ | .ParenSpan _ _ _, .Space _ | .ParenSpan _ _ _, .Punct _
  | .ParenSpan _ _ _, .Dash _ | .ParenSpan _ _ _, .Ellipsis
  | .ParenSpan _ _ _, .QuoteSpan _ _ => isFalse (by intro e; cases e)
/-- Decidable equality of inline lists (structural). -/
def Inline.decEqList : (a b : List Inline) → Decidable (a = b)
  | [], [] => isTrue rfl
  | [], _ :: _ => isFalse (by intro e; cases e)
  | _ :: _, [] => isFalse (by intro e; cases e)
  | x :: xs, y :: ys =>
    match Inline.decEq x y with
    | isTrue h =>
      match Inline.decEqList xs ys with
      | isTrue h2 => isTrue (by rw [h, h2])
      | isFalse h2 => isFalse (by intro e; cases e; exact h2 rfl)
    | isFalse h => isFalse (by intro e; cases e; exact h rfl)
end

instance : DecidableEq Inline := Inline.decEq

/-- Go: `type DialogueTurn struct { In []Inline }`. -/
structure DialogueTurn where
  In : List Inline
  deriving DecidableEq, Repr, Inhabited

/-- Go: `type ContentsEntry struct { Level int; In []Inline }`. -/
structure ContentsEntry where
  Level : Nat
  In : List Inline
  deriving DecidableEq, Repr, Inhabited

/-- Go: the interface `ast.Block` and the seven structs that implement it. -/
inductive Block
  | Paragraph (In : List Inline)
  | DialogueBlock (Turns : List DialogueTurn)
  | Heading (Level : Nat) (In : List Inline)
  | TitleBlock (In : List Inline)
  | ContentsBlock (In : List Inline) (Entries : List ContentsEntry)
  | MetaLineBlock (Key : String) (In : List Inline)
  | SceneBreak (Marker : String)
  deriving DecidableEq, Repr, Inhabited

/-! ## Package `config` -/

/-- Go: `type Lang string`. -/
abbrev Lang := String

/-- Go: `LangEN Lang = "en"`. -/
def LangEN : Lang := "en"

/-- Go: `LangRU Lang = "ru"`. -/
def LangRU : Lang := "ru"

/-- Go: `LangUA Lang = "ua"`. -/
def LangUA : Lang := "ua"

/-- Go: `type InnerQuotes string`. -/
abbrev InnerQuotes := String

/-- Go: `InnerQuotesGerman InnerQuotes = "german"`. -/
def InnerQuotesGerman : InnerQuotes := "german"

/-- Go: `InnerQuotesEnglish InnerQuotes = "english"`. -/
def InnerQuotesEnglish : InnerQuotes := "english"

/-- Go: `InnerQuotesGuillemet InnerQuotes = "guillemets"`. -/
def InnerQuotesGuillemet : InnerQuotes := "guillemets"

/-- Go: `type QuotePair struct { Open, Close rune }`. -/
structure QuotePair where
  Open : Char
  Close : Char
  deriving DecidableEq, Repr, Inhabited

/-- Go: `type Style struct { Outer, Inner QuotePair }`. -/
structure Style where
  Outer : QuotePair
  Inner : QuotePair
  deriving DecidableEq, Repr, Inhabited

/-- Go: `type Config struct { Lang; InnerQuotes; UseNBSP; Style }`. -/
structure Config where
  Lang : Lang
  InnerQuotes : InnerQuotes
  UseNBSP : Bool
  Style : Style
  deriving DecidableEq, Repr, Inhabited

/-- Go: `defaultStyleForLang`. -/
def defaultStyleForLang (lang : Lang) : Style :=
  if lang = LangEN then
    { Outer := { Open := '“', Close := '”' }, Inner := { Open := '‘', Close := '’' } }
  else
    { Outer := { Open := '«', Close := '»' }, Inner := { Open := '„', Close := '“' } }

/-- Go: `innerPair`. -/
def innerPair (inner : InnerQuotes) : QuotePair :=
  if inner = InnerQuotesEnglish then { Open := '‘', Close := '’' }
  else if inner = InnerQuotesGuillemet then { Open := '«', Close := '»' }
  else { Open := '„', Close := '“' }

/-- Go: `DefaultConfig`. -/
def DefaultConfig : Config :=
  { Lang := LangRU, InnerQuotes := InnerQuotesGerman, UseNBSP := false,
    Style := defaultStyleForLang LangRU }

/-- Go: `type Document struct { Lang; Style; Blocks; Diags }`. -/
structure Document where
  Lang : Lang
  Style : Style
  Blocks : List Block
  Diags : List Diag
  deriving DecidableEq, Repr, Inhabited

/-! ## Package `rewrite` -/

/-- Go: `applyToAllInlines`, the part that rewrites one block. -/
def applyToAllInlinesBlock (fn : List Inline → List Inline) : Block → Block
  | .Paragraph ins => .Paragraph (fn ins)
  | .Heading level ins => .Heading level (fn ins)
  | .ContentsBlock ins entries =>
    .ContentsBlock (fn ins) (entries.map fun e => { e with In := fn e.In })
  | .MetaLineBlock key ins => .MetaLineBlock key (fn ins)
  | .DialogueBlock turns => .DialogueBlock (turns.map fun t => { t with In := fn t.In })
  | blk => blk

/-- Go: `applyToAllInlines`. -/
def applyToAllInlines (doc : Document) (fn : List Inline → List Inline) : Document :=
  { doc with Blocks := doc.Blocks.map (applyToAllInlinesBlock fn) }

/-- Go: the body of the loop of `normalizeChildren` for one item. -/
def normalizeChild (fn : List Inline → List Inline) : Inline → Inline
  | .QuoteSpan level c => .QuoteSpan level (fn c)
  | .ParenSpan o cl c => .ParenSpan o cl (fn c)
  | it => it

/-- Go: `normalizeChildren`. -/
def normalizeChildren (ins : List Inline) (fn : List Inline → List Inline) : List Inline :=
  ins.map (normalizeChild fn)

/-! ### `spacing.go` -/

/-- Go: `isTightRight`. -/
def isTightRight : Inline → Bool
  | .Ellipsis => true
  | .Punct ch => ch = ',' || ch = '.' || ch = ';' || ch = ':' || ch = '?' || ch = '!'
  | _ => false

/-- Go: `isHyphenOrNDash`. -/
def isHyphenOrNDash : Inline → Bool
  | .Dash k => k = .DashHyphen || k = .DashNDash
  | _ => false

/-- Go: `isEmDash`. -/
def isEmDash : Inline → Bool
  | .Dash k => k = .DashEmDash
  | _ => false

/-- Go: `startsWordLike`. -/
def startsWordLike : Inline → Bool
  | .Word _ => true
  | .QuoteSpan _ _ => true
  | .ParenSpan _ _ _ => true
  | _ => false

/-- Go: `needSpaceBetween`. -/
def needSpaceBetween (prev cur : Inline) : Bool :=
  if isTightRight cur then false
  else if isHyphenOrNDash prev || isHyphenOrNDash cur then false
  else if isEmDash cur then true
  else if isEmDash prev then !isTightRight cur
  else
    match prev with
    | .Punct ch =>
      if ch = ',' || ch = ';' || ch = ':' then startsWordLike cur || isEmDash cur
      else if ch = '.' || ch = '?' || ch = '!' then startsWordLike cur || isEmDash cur
      else if startsWordLike prev && startsWordLike cur then true
      else false
    | .Ellipsis => startsWordLike cur || isEmDash cur
    | _ => if startsWordLike prev && startsWordLike cur then true else false

/-- Go: `isSpace` (dashes.go), the type test `item.(ast.Space)`. -/
def isSpace : Inline → Bool
  | .Space _ => true
  | _ => false

/-- Go: the second loop of `normalizeSpacingList`. `prev` is `out[len(out)-1]`, the item
appended last; the result is what the loop appends to `out` for the remaining items. -/
def spacingLoop (prev : Inline) : List Inline → List Inline
  | [] => []
  | cur :: rest =>
    if needSpaceBetween prev cur then .Space .SpaceNormal :: cur :: spacingLoop cur rest
    else cur :: spacingLoop cur rest

/-- Go: `normalizeSpacingList` after its call of `normalizeChildren`: drop the spaces,
then rebuild them. -/
def rebuildSpacing (ins : List Inline) : List Inline :=
  match ins.filter (fun item => !isSpace item) with
  | [] => []
  | first :: rest => first :: spacingLoop first rest

mutual
/-- Go: the function `normalizeChildren` applies to one item when called by
`normalizeSpacingList`. -/
def normalizeSpacingItem : Inline → Inline
  | .QuoteSpan level c => .QuoteSpan level (rebuildSpacing (normalizeSpacingItems c))
  | .ParenSpan o cl c => .ParenSpan o cl (rebuildSpacing (normalizeSpacingItems c))
  | it => it
/-- Go: `normalizeChildren(in, normalizeSpacingList)`. -/
def normalizeSpacingItems : List Inline → List Inline
  | [] => []
  | item :: rest => normalizeSpacingItem item :: normalizeSpacingItems rest
end

/-- Go: `normalizeSpacingList`. -/
def normalizeSpacingList (ins : List Inline) : List Inline :=
  rebuildSpacing (normalizeSpacingItems ins)

/-- Go: `normalizeSpacingDocument`. -/
def normalizeSpacingDocument (doc : Document) : Document :=
  applyToAllInlines doc normalizeSpacingList

/-! ### `dialogue.go` -/

/-- Go: `trimLeadingSpaces`. -/
def trimLeadingSpaces : List Inline → List Inline
  | [] => []
  | item :: rest => if isSpace item then trimLeadingSpaces rest else item :: rest

/-- Go: `normalizeDialogueTurn`. -/
def normalizeDialogueTurn (ins : List Inline) : List Inline × Bool :=
  match trimLeadingSpaces ins with
  | [] => ([.Dash .DashEmDash], true)
  | .Dash _ :: tail =>
    match trimLeadingSpaces tail with
    | [] => ([.Dash .DashEmDash], true)
    | rest => (.Dash .DashEmDash :: .Space .SpaceNormal :: rest, false)
  | trimmed =>
    match trimLeadingSpaces trimmed with
    | [] => ([.Dash .DashEmDash], true)
    | rest => (.Dash .DashEmDash :: .Space .SpaceNormal :: rest, false)

/-- Go: the diagnostic literal appended by `normalizeDialogueBlocks`. -/
def dialogueEmptyDiag : Diag :=
  { Pos := { Off := 0, Line := 0, Col := 0 }, Code := "DIALOGUE_EMPTY",
    Message := "empty dialogue turn after dash marker" }

/-- Go: the inner loop of `normalizeDialogueBlocks` over the turns of one block, threading
the document's diagnostics. -/
def normalizeDialogueTurns : List DialogueTurn → List Diag → List DialogueTurn × List Diag
  | [], diags => ([], diags)
  | turn :: rest, diags =>
    let r := normalizeDialogueTurn turn.In
    let diags1 := if r.2 then diags ++ [dialogueEmptyDiag] else diags
    let rs := normalizeDialogueTurns rest diags1
    ({ turn with In := r.1 } :: rs.1, rs.2)

/-- Go: the outer loop of `normalizeDialogueBlocks`. -/
def normalizeDialogueBlocksLoop : List Block → List Diag → List Block × List Diag
  | [], diags => ([], diags)
  | .DialogueBlock turns :: rest, diags =>
    let r := normalizeDialogueTurns turns diags
    let rs := normalizeDialogueBlocksLoop rest r.2
    (.DialogueBlock r.1 :: rs.1, rs.2)
  | blk :: rest, diags =>
    let rs := normalizeDialogueBlocksLoop rest diags
    (blk :: rs.1, rs.2)

/-- Go: `normalizeDialogueBlocks`. -/
def normalizeDialogueBlocks (doc : Document) : Document :=
  let r := normalizeDialogueBlocksLoop doc.Blocks doc.Diags
  { doc with Blocks := r.1, Diags := r.2 }

/-! ### `quotes.go` -/

/-- Go: `quoteLevelFromDepth`. -/
def quoteLevelFromDepth (depth : Nat) : QuoteLevel :=
  if depth % 2 = 1 then QuotePrimary else QuoteSecondary

mutual
/-- Go: the body of the loop of `normalizeQuoteLevels` for one item. -/
def normalizeQuoteLevelsItem : Inline → Nat → Inline
  | .QuoteSpan _ c, depth =>
    .QuoteSpan (quoteLevelFromDepth (depth + 1)) (normalizeQuoteLevels c (depth + 1))
  | .ParenSpan o cl c, depth => .ParenSpan o cl (normalizeQuoteLevels c depth)
  | item, _ => item
/-- Go: `normalizeQuoteLevels`. -/
def normalizeQuoteLevels : List Inline → Nat → List Inline
  | [], _ => []
  | item :: rest, depth => normalizeQuoteLevelsItem item depth :: normalizeQuoteLevels rest depth
end

/-- Go: `emitCanonicalPairsDocument`, the part that rewrites one block. -/
def emitCanonicalPairsBlock : Block → Block
  | .TitleBlock ins => .TitleBlock (normalizeQuoteLevels ins 0)
  | .Paragraph ins => .Paragraph (normalizeQuoteLevels ins 0)
  | .Heading level ins => .Heading level (normalizeQuoteLevels ins 0)
  | .ContentsBlock ins entries =>
    .ContentsBlock (normalizeQuoteLevels ins 0)
      (entries.map fun e => { e with In := normalizeQuoteLevels e.In 0 })
  | .MetaLineBlock key ins => .MetaLineBlock key (normalizeQuoteLevels ins 0)
  | .DialogueBlock turns =>
    .DialogueBlock (turns.map fun t => { t with In := normalizeQuoteLevels t.In 0 })
  | blk => blk

/-- Go: `emitCanonicalPairsDocument`. -/
def emitCanonicalPairsDocument (doc : Document) : Document :=
  { doc with Blocks := doc.Blocks.map emitCanonicalPairsBlock }

/-! ### `dashes.go` -/

/-- Go: `isWordLike`. -/
def isWordLike : Inline → Bool
  | .Word _ => true
  | .QuoteSpan _ _ => true
  | .ParenSpan _ _ _ => true
  | _ => false

/-- Go: `isNumericInline`. -/
def isNumericInline [Unicode] : Inline → Bool
  | .Word S => S != "" && S.data.all Unicode.IsDigit
  | _ => false

/-- Go: `prevNonSpace`; the loop runs `i` from `idx - 1` down to `0`. -/
def prevNonSpace (ins : List Inline) : Nat → Option Inline
  | 0 => none
  | i + 1 =>
    match ins[i]? with
    | some item => if isSpace item then prevNonSpace ins i else some item
    | none => none

/-- Go: `nextNonSpace`; the loop runs `i` from `idx + 1` up to `len(in) - 1`. -/
def nextNonSpace (ins : List Inline) (idx : Nat) : Option Inline :=
  (ins.drop (idx + 1)).find? fun item => !isSpace item

/-- Go: the body of the loop of `classifyDashesList` at index `i`, on the slice `out` that
the loop updates in place. -/
def classifyDashAt [Unicode] (out : List Inline) (i : Nat) : List Inline :=
  match out[i]? with
  | some (.Dash _) =>
    let leftSpace := decide (0 < i) && (out[i - 1]?.any isSpace)
    let rightSpace := out[i + 1]?.any isSpace
    match prevNonSpace out i, nextNonSpace out i with
    | some left, some right =>
      if !leftSpace && !rightSpace && isWordLike left && isWordLike right then
        if isNumericInline left && isNumericInline right then out.set i (.Dash .DashNDash)
        else out.set i (.Dash .DashHyphen)
      else out.set i (.Dash .DashEmDash)
    | _, _ => out.set i (.Dash .DashEmDash)
  | _ => out

/-- Go: the loop `for i := range out` of `classifyDashesList`. -/
def classifyDashesLoop [Unicode] (out : List Inline) : List Inline :=
  (List.range out.length).foldl classifyDashAt out

mutual
/-- Go: the function `normalizeChildren` applies to one item when called by
`classifyDashesList`. -/
def classifyDashesItem [Unicode] : Inline → Inline
  | .QuoteSpan level c => .QuoteSpan level (classifyDashesLoop (classifyDashesItems c))
  | .ParenSpan o cl c => .ParenSpan o cl (classifyDashesLoop (classifyDashesItems c))
  | it => it
/-- Go: `normalizeChildren(in, classifyDashesList)`. -/
def classifyDashesItems [Unicode] : List Inline → List Inline
  | [] => []
  | item :: rest => classifyDashesItem item :: classifyDashesItems rest
end

/-- Go: `classifyDashesList`. -/
def classifyDashesList [Unicode] (ins : List Inline) : List Inline :=
  classifyDashesLoop (classifyDashesItems ins)

/-- Go: `classifyDashesDocument`. -/
def classifyDashesDocument [Unicode] (doc : Document) : Document :=
  applyToAllInlines doc classifyDashesList

/-! ### `ellipsis.go` -/

/-- Go: the closure `flush` of `splitWordEllipsis`, as the new value of `out`. -/
def flushWord (buf : List Char) (out : List Inline) : List Inline :=
  if buf.length = 0 then out else out ++ [.Word (String.mk buf)]

/-- Go: the loop of `splitWordEllipsis` over the remaining runes, with the buffer `buf` and
the result `out` so far, followed by the final `flush()`. -/
def splitWordEllipsisLoop : List Char → List Char → List Inline → List Inline
  | [], buf, out => flushWord buf out
  | r :: r1 :: r2 :: rest2, buf, out =>
    if r = '…' then
      splitWordEllipsisLoop (r1 :: r2 :: rest2) [] (flushWord buf out ++ [.Ellipsis])
    else if r = '.' && r1 = '.' && r2 = '.' then
      splitWordEllipsisLoop rest2 [] (flushWord buf out ++ [.Ellipsis])
    else splitWordEllipsisLoop (r1 :: r2 :: rest2) (buf ++ [r]) out
  | r :: rest, buf, out =>
    if r = '…' then splitWordEllipsisLoop rest [] (flushWord buf out ++ [.Ellipsis])
    else splitWordEllipsisLoop rest (buf ++ [r]) out

/-- Go: `splitWordEllipsis`. -/
def splitWordEllipsis (s : String) : List Inline :=
  let out := splitWordEllipsisLoop s.data [] []
  if out.length = 0 then [.Word s] else out

/-- Go: the loop of `normalizeEllipsisList` over the items from index `i` on, after the
call of `normalizeChildren`. -/
def foldEllipsis : List Inline → List Inline
  | [] => []
  | .Punct p1 :: .Punct p2 :: .Punct p3 :: rest2 =>
    if p1 = '.' && p2 = '.' && p3 = '.' then .Ellipsis :: foldEllipsis rest2
    else .Punct p1 :: foldEllipsis (.Punct p2 :: .Punct p3 :: rest2)
  | .Word S :: rest => splitWordEllipsis S ++ foldEllipsis rest
  | item :: rest => item :: foldEllipsis rest

mutual
/-- Go: the function `normalizeChildren` applies to one item when called by
`normalizeEllipsisList`. -/
def normalizeEllipsisItem : Inline → Inline
  | .QuoteSpan level c => .QuoteSpan level (foldEllipsis (normalizeEllipsisItems c))
  | .ParenSpan o cl c => .ParenSpan o cl (foldEllipsis (normalizeEllipsisItems c))
  | it => it
/-- Go: `normalizeChildren(in, normalizeEllipsisList)`. -/
def normalizeEllipsisItems : List Inline → List Inline
  | [] => []
  | item :: rest => normalizeEllipsisItem item :: normalizeEllipsisItems rest
end

/-- Go: `normalizeEllipsisList`. -/
def normalizeEllipsisList (ins : List Inline) : List Inline :=
  foldEllipsis (normalizeEllipsisItems ins)

/-- Go: `normalizeEllipsisDocument`. -/
def normalizeEllipsisDocument (doc : Document) : Document :=
  applyToAllInlines doc normalizeEllipsisList

/-! ### `nbsp.go` -/

/-- Go: `strings.ToLower`, rune by rune through `unicode.ToLower`. -/
def stringsToLower [Unicode] (s : String) : String :=
  String.mk (s.data.map Unicode.ToLower)

/-- Go: the keys of the map `shortWordsRU`. -/
def shortWordsRU : List String := ["в", "к", "с", "у", "о", "и", "а"]

/-- Go: the keys of the map `shortWordsUA`. -/
def shortWordsUA : List String := ["в", "у", "з", "із", "й", "і"]

/-- Go: `prevNonSpaceIndex`; `none` stands for the result `-1`. -/
def prevNonSpaceIndex (ins : List Inline) : Nat → Option Nat
  | 0 => none
  | i + 1 =>
    match ins[i]? with
    | some item => if isSpace item then prevNonSpaceIndex ins i else some i
    | none => none

/-- Go: the loop of `nextNonSpaceIndex` from index `i` on; `fuel` bounds the number of
iterations and `none` stands for the result `-1`. -/
def nextNonSpaceIndexFrom (ins : List Inline) : Nat → Nat → Option Nat
  | 0, _ => none
  | fuel + 1, i =>
    match ins[i]? with
    | some item => if isSpace item then nextNonSpaceIndexFrom ins fuel (i + 1) else some i
    | none => none

/-- Go: `nextNonSpaceIndex`. -/
def nextNonSpaceIndex (ins : List Inline) (idx : Nat) : Option Nat :=
  nextNonSpaceIndexFrom ins ins.length (idx + 1)

/-- Go: `isNumericWordInline`. -/
def isNumericWordInline [Unicode] : Inline → Bool
  | .Word S => S != "" && S.data.all Unicode.IsDigit
  | _ => false

/-- Go: `isUpperSingleLetter`. -/
def isUpperSingleLetter [Unicode] (s : String) : Bool :=
  match s.data with
  | [r] => Unicode.IsLetter r && Unicode.IsUpper r
  | _ => false

/-- Go: `shouldNBSPShortWord`. -/
def shouldNBSPShortWord [Unicode] (prev next : Inline) (lang : Lang) : Bool :=
  if lang = LangEN then false
  else
    match prev, next with
    | .Word pw, .Word nw =>
      if nw = "" then false
      else if lang = LangRU then decide (stringsToLower pw ∈ shortWordsRU)
      else if lang = LangUA then decide (stringsToLower pw ∈ shortWordsUA)
      else false
    | _, _ => false

/-- Go: `shouldNBSPNumero`. -/
def shouldNBSPNumero [Unicode] (ins : List Inline) (prevIdx nextIdx : Nat) : Bool :=
  match ins[prevIdx]?, ins[nextIdx]? with
  | some (.Word pw), some next => if pw != "№" then false else isNumericWordInline next
  | _, _ => false

/-- Go: `shouldNBSPPageAbbr`. -/
def shouldNBSPPageAbbr [Unicode] (ins : List Inline) (prevIdx nextIdx : Nat) : Bool :=
  match ins[prevIdx]? with
  | some (.Punct ch) =>
    if ch != '.' || prevIdx < 1 then false
    else
      match ins[prevIdx - 1]?, ins[nextIdx]? with
      | some (.Word w), some next =>
        if stringsToLower w != "стр" then false else isNumericWordInline next
      | _, _ => false
  | _ => false

/-- Go: `isInitialEndingAt`. -/
def isInitialEndingAt [Unicode] (ins : List Inline) (idx : Nat) : Bool :=
  match ins[idx]? with
  | some (.Punct ch) =>
    if ch != '.' || idx < 1 then false
    else
      match ins[idx - 1]? with
      | some (.Word w) => isUpperSingleLetter w
      | _ => false
  | _ => false

/-- Go: `isInitialStartingAt`. -/
def isInitialStartingAt [Unicode] (ins : List Inline) (idx : Nat) : Bool :=
  match ins[idx]? with
  | some (.Word w) =>
    if !isUpperSingleLetter w then false
    else
      match ins[idx + 1]? with
      | some (.Punct ch) => ch = '.'
      | _ => false
  | _ => false

/-- Go: `shouldNBSPInitialPattern`. -/
def shouldNBSPInitialPattern [Unicode] (ins : List Inline) (prevIdx nextIdx : Nat) : Bool :=
  if !isInitialEndingAt ins prevIdx then false
  else if isInitialStartingAt ins nextIdx then true
  else
    match ins[nextIdx]? with
    | some (.Word w) => decide (w.data.length > 1)
    | _ => false

/-- Go: the body of the second loop of `applyNBSPList` at index `i`, on the slice `out`
that the loop updates in place. -/
def applyNBSPAt [Unicode] (lang : Lang) (out : List Inline) (i : Nat) : List Inline :=
  match out[i]? with
  | some (.Space .SpaceNormal) =>
    match prevNonSpaceIndex out i, nextNonSpaceIndex out i with
    | some prevIdx, some nextIdx =>
      match out[prevIdx]?, out[nextIdx]? with
      | some prev, some next =>
        if shouldNBSPShortWord prev next lang || shouldNBSPNumero out prevIdx nextIdx
            || shouldNBSPPageAbbr out prevIdx nextIdx
            || shouldNBSPInitialPattern out prevIdx nextIdx then
          out.set i (.Space .SpaceNBSP)
        else out
      | _, _ => out
    | _, _ => out
  | _ => out

/-- Go: the second loop of `applyNBSPList`, `for i := range out`. -/
def applyNBSPLoop [Unicode] (lang : Lang) (out : List Inline) : List Inline :=
  (List.range out.length).foldl (applyNBSPAt lang) out

mutual
/-- Go: the body of the first loop of `applyNBSPList` for one item. -/
def applyNBSPItem [Unicode] (lang : Lang) : Inline → Inline
  | .QuoteSpan level c => .QuoteSpan level (applyNBSPLoop lang (applyNBSPItems lang c))
  | .ParenSpan o cl c => .ParenSpan o cl (applyNBSPLoop lang (applyNBSPItems lang c))
  | it => it
/-- Go: the first loop of `applyNBSPList`. -/
def applyNBSPItems [Unicode] (lang : Lang) : List Inline → List Inline
  | [] => []
  | item :: rest => applyNBSPItem lang item :: applyNBSPItems lang rest
end

/-- Go: `applyNBSPList`. -/
def applyNBSPList [Unicode] (ins : List Inline) (lang : Lang) : List Inline :=
  applyNBSPLoop lang (applyNBSPItems lang ins)

/-- Go: `applyNBSPDocument`. -/
def applyNBSPDocument [Unicode] (doc : Document) (cfg : Config) : Document :=
  applyToAllInlines doc fun ins => applyNBSPList ins cfg.Lang

/-! ### `rewrite.go` -/

/-- Go: `Apply`; the document is updated in place there and returned here. -/
def Apply [Unicode] (doc : Document) (cfg : Config) : Document :=
  let doc := normalizeEllipsisDocument doc
  let doc := classifyDashesDocument doc
  let doc := emitCanonicalPairsDocument doc
  let doc := normalizeSpacingDocument doc
  let doc := normalizeDialogueBlocks doc
  if cfg.UseNBSP then applyNBSPDocument doc cfg else doc

/-! ## A concrete instance of the `unicode` tables -/

/-- Whether the code point of `r` lies between `lo` and `hi`, both included. -/
def runeIn (r : Char) (lo hi : Nat) : Bool :=
  decide (lo ≤ r.toNat) && decide (r.toNat ≤ hi)

/-- Go's `unicode` tables on Basic Latin (U+0000 to U+007F) and on the Cyrillic letters
U+0400 to U+045F, with the full tables of `unicode.IsSpace` and `unicode.IsControl` and the
format runes of Latin-1 and General Punctuation; `SimpleFold` also covers the runes outside
these ranges that fold to a letter inside them. Every other rune is in no class and is its
own lower and upper case; that is Go's answer too for the punctuation the closed examples
below contain (quotation marks, dashes, the ellipsis). The closed examples use this
instance; the theorems with a `[Unicode]` argument hold for every table. -/
def basicTables : Unicode where
  IsLetter r := runeIn r 0x41 0x5A || runeIn r 0x61 0x7A || runeIn r 0x400 0x45F
  IsDigit r := runeIn r 0x30 0x39
  IsNumber r := runeIn r 0x30 0x39
  IsSpace r :=
    runeIn r 0x09 0x0D || r.toNat = 0x20 || r.toNat = 0x85 || r.toNat = 0xA0
      || r.toNat = 0x1680 || runeIn r 0x2000 0x200A || r.toNat = 0x2028 || r.toNat = 0x2029
      || r.toNat = 0x202F || r.toNat = 0x205F || r.toNat = 0x3000
  IsControl r := runeIn r 0x00 0x1F || runeIn r 0x7F 0x9F
  IsFormat r :=
    r.toNat = 0xAD || runeIn r 0x200B 0x200F || runeIn r 0x202A 0x202E
      || runeIn r 0x2060 0x2064 || runeIn r 0x2066 0x206F || r.toNat = 0xFEFF
  IsUpper r := runeIn r 0x41 0x5A || runeIn r 0x400 0x42F
  IsLower r := runeIn r 0x61 0x7A || runeIn r 0x430 0x45F
  ToLower r :=
    if runeIn r 0x41 0x5A || runeIn r 0x410 0x42F then Char.ofNat (r.toNat + 0x20)
    else if runeIn r 0x400 0x40F then Char.ofNat (r.toNat + 0x50)
    else r
  ToUpper r :=
    if runeIn r 0x61 0x7A || runeIn r 0x430 0x44F then Char.ofNat (r.toNat - 0x20)
    else if runeIn r 0x450 0x45F then Char.ofNat (r.toNat - 0x50)
    else r
  SimpleFold r :=
    if r = 'K' then 'k' else if r = 'k' then Char.ofNat 0x212A
    else if r = Char.ofNat 0x212A then 'K'
    else if r = 'S' then 's' else if r = 's' then Char.ofNat 0x17F
    else if r = Char.ofNat 0x17F then 'S'
    else if r = 'В' then 'в' else if r = 'в' then Char.ofNat 0x1C80
    else if r = Char.ofNat 0x1C80 then 'В'
    else if r = 'Д' then 'д' else if r = 'д' then Char.ofNat 0x1C81
    else if r = Char.ofNat 0x1C81 then 'Д'
    else if r = 'О' then 'о' else if r = 'о' then Char.ofNat 0x1C82
    else if r = Char.ofNat 0x1C82 then 'О'
    else if r = 'С' then 'с' else if r = 'с' then Char.ofNat 0x1C83
    else if r = Char.ofNat 0x1C83 then 'С'
    else if r = 'Т' then 'т' else if r = 'т' then Char.ofNat 0x1C84
    else if r = Char.ofNat 0x1C84 then Char.ofNat 0x1C85
    else if r = Char.ofNat 0x1C85 then 'Т'
    else if r = 'Ъ' then 'ъ' else if r = 'ъ' then Char.ofNat 0x1C86
    else if r = Char.ofNat 0x1C86 then 'Ъ'
    else if runeIn r 0x41 0x5A || runeIn r 0x410 0x42F then Char.ofNat (r.toNat + 0x20)
    else if runeIn r 0x400 0x40F then Char.ofNat (r.toNat + 0x50)
    else if runeIn r 0x61 0x7A || runeIn r 0x430 0x44F then Char.ofNat (r.toNat - 0x20)
    else if runeIn r 0x450 0x45F then Char.ofNat (r.toNat - 0x50)
    else r

/-! ## Package `parser`: `inline.go` (types) and `spans.go` -/

/-- Go: `type tokenKind int` and its constants. -/
inductive tokenKind
  | tokenWord
  | tokenSpace
  | tokenPunct
  | tokenDash
  | tokenEllipsis
  | tokenQuote
  | tokenParenOpen
  | tokenParenClose
  deriving DecidableEq, Repr, Inhabited

/-- Go: `type token struct { kind; text; ch; dashKind; pos }`. -/
structure token where
  kind : tokenKind
  text : String
  ch : Char
  dashKind : DashKind
  pos : Pos
  deriving DecidableEq, Repr, Inhabited

/-- Go: `type nodeKind int` and its constants. -/
inductive nodeKind
  | nodeWord
  | nodeSpace
  | nodePunct
  | nodeDash
  | nodeEllipsis
  | nodeQuoteMark
  | nodeParenSpan
  | nodeQuoteSpan
  deriving DecidableEq, Repr, Inhabited

/-- Go: `type node struct { kind; text; ch; dashKind; pos; level; open; close; children }`.
The fields `open` and `close` are `openRune` and `closeRune` here. -/
inductive node
  | mk (kind : nodeKind) (text : String) (ch : Char) (dashKind : DashKind) (pos : Pos)
      (level : QuoteLevel) (openRune : Char) (closeRune : Char) (children : List node)
  deriving Repr, Inhabited

/-- Go: the field `kind` of a node. -/
def node.kind : node → nodeKind
  | .mk kind _ _ _ _ _ _ _ _ => kind

/-- Go: the field `text` of a node. -/
def node.text : node → String
  | .mk _ text _ _ _ _ _ _ _ => text

/-- Go: the field `ch` of a node. -/
def node.ch : node → Char
  | .mk _ _ ch _ _ _ _ _ _ => ch

/-- Go: the field `dashKind` of a node. -/
def node.dashKind : node → DashKind
  | .mk _ _ _ dashKind _ _ _ _ _ => dashKind

/-- Go: the field `pos` of a node. -/
def node.pos : node → Pos
  | .mk _ _ _ _ pos _ _ _ _ => pos

/-- Go: the field `level` of a node. -/
def node.level : node → QuoteLevel
  | .mk _ _ _ _ _ level _ _ _ => level

/-- Go: the field `open` of a node. -/
def node.openRune : node → Char
  | .mk _ _ _ _ _ _ openRune _ _ => openRune

/-- Go: the field `close` of a node. -/
def node.closeRune : node → Char
  | .mk _ _ _ _ _ _ _ closeRune _ => closeRune

/-- Go: the field `children` of a node. -/
def node.children : node → List node
  | .mk _ _ _ _ _ _ _ _ children => children

/-- The zero value of a Go `rune`. -/
def zeroRune : Char := Char.ofNat 0

/-- The zero value of `ast.Pos`. -/
def zeroPos : Pos := { Off := 0, Line := 0, Col := 0 }

/-- Go: the literal `node{kind: nodeWord, text: text, pos: pos}`. -/
def wordNode (text : String) (pos : Pos) : node :=
  .mk .nodeWord text zeroRune .DashHyphen pos 0 zeroRune zeroRune []

/-- Go: `type parenFrame struct { open; pos; nodes }`. -/
structure parenFrame where
  openRune : Char
  pos : Pos
  nodes : List node

/-- Go: `type quoteFrame struct { quote; pos; level; nodes }`. -/
structure quoteFrame where
  quote : Char
  pos : Pos
  level : QuoteLevel
  nodes : List node

/-- Go: `tokenToNode`. -/
def tokenToNode (tok : token) : node :=
  match tok.kind with
  | .tokenWord => wordNode tok.text tok.pos
  | .tokenSpace => .mk .nodeSpace " " zeroRune .DashHyphen tok.pos 0 zeroRune zeroRune []
  | .tokenPunct => .mk .nodePunct tok.text tok.ch .DashHyphen tok.pos 0 zeroRune zeroRune []
  | .tokenDash => .mk .nodeDash tok.text tok.ch tok.dashKind tok.pos 0 zeroRune zeroRune []
  | .tokenEllipsis => .mk .nodeEllipsis tok.text zeroRune .DashHyphen tok.pos 0 zeroRune zeroRune []
  | .tokenQuote => .mk .nodeQuoteMark tok.text tok.ch .DashHyphen tok.pos 0 zeroRune zeroRune []
  | _ => wordNode tok.text tok.pos

/-- Go: `prevNonSpaceToken`; the loop runs `i` from `idx - 1` down to `0`. -/
def prevNonSpaceToken (tokens : List token) : Nat → Option token
  | 0 => none
  | i + 1 =>
    match tokens[i]? with
    | some tok => if tok.kind = .tokenSpace then prevNonSpaceToken tokens i else some tok
    | none => none

/-- Go: `nextNonSpaceToken`; the loop runs `i` from `idx + 1` up to `len(tokens) - 1`. -/
def nextNonSpaceToken (tokens : List token) (idx : Nat) : Option token :=
  (tokens.drop (idx + 1)).find? fun tok => tok.kind != .tokenSpace

/-- Go: `isRomanRune`. -/
def isRomanRune [Unicode] (r : Char) : Bool :=
  let u := Unicode.ToUpper r
  u = 'I' || u = 'V' || u = 'X' || u = 'L' || u = 'C' || u = 'D' || u = 'M'

/-- Go: `isEnumerationWord`. -/
def isEnumerationWord [Unicode] (s : String) : Bool :=
  if s = "" then false
  else s.data.all Unicode.IsDigit || s.data.all isRomanRune

/-- Go: `isEnumeratorClose`. -/
def isEnumeratorClose [Unicode] (tokens : List token) (idx : Nat) : Bool :=
  match tokens[idx]? with
  | none => false
  | some tok =>
    if tok.kind != .tokenParenClose || tok.ch != ')' then false
    else
      match prevNonSpaceToken tokens idx with
      | none => false
      | some prev =>
        if prev.kind != .tokenWord then false
        else if !isEnumerationWord prev.text then false
        else
          match nextNonSpaceToken tokens idx with
          | none => true
          | some next =>
            match next.kind with
            | .tokenWord | .tokenQuote | .tokenParenOpen =>
              match tokens[idx + 1]? with
              | some after => after.kind = .tokenSpace
              | none => false
            | _ => true

/-- Go: `matchingClose`. -/
def matchingClose (opener : Char) : Char :=
  if opener = '(' then ')' else if opener = '[' then ']' else zeroRune

/-- The variables `root`, `stack` and `diags` of `buildParenNodes`; the head of `stack` is
the top frame `stack[len(stack)-1]`. -/
structure parenState where
  root : List node
  stack : List parenFrame
  diags : List Diag

/-- Go: the closure `appendCurrent` of `buildParenNodes`. -/
def parenAppendCurrent (st : parenState) (n : node) : parenState :=
  match st.stack with
  | [] => { st with root := st.root ++ [n] }
  | top :: below => { st with stack := { top with nodes := top.nodes ++ [n] } :: below }

/-- Go: the body of the first loop of `buildParenNodes` for the token `tok` at index `idx`. -/
def parenStep [Unicode] (tokens : List token) (st : parenState) (idx : Nat) (tok : token) :
    parenState :=
  match tok.kind with
  | .tokenParenOpen =>
    { st with stack := { openRune := tok.ch, pos := tok.pos, nodes := [] } :: st.stack }
  | .tokenParenClose =>
    match st.stack with
    | [] =>
      if isEnumeratorClose tokens idx then parenAppendCurrent st (wordNode tok.text tok.pos)
      else
        parenAppendCurrent
          { st with diags := st.diags ++
              [{ Pos := tok.pos, Code := "PAREN_MISMATCH",
                 Message := "unexpected closing parenthesis" }] }
          (wordNode tok.text tok.pos)
    | top :: below =>
      if matchingClose top.openRune != tok.ch then
        parenAppendCurrent
          { st with diags := st.diags ++
              [{ Pos := tok.pos, Code := "PAREN_MISMATCH",
                 Message := "mismatched closing parenthesis" }] }
          (wordNode tok.text tok.pos)
      else
        parenAppendCurrent { st with stack := below }
          (.mk .nodeParenSpan "" zeroRune .DashHyphen top.pos 0 top.openRune tok.ch top.nodes)
  | _ => parenAppendCurrent st (tokenToNode tok)

/-- Go: the first loop of `buildParenNodes`, from index `idx` on. -/
def parenLoop [Unicode] (tokens : List token) : List token → Nat → parenState → parenState
  | [], _, st => st
  | tok :: rest, idx, st => parenLoop tokens rest (idx + 1) (parenStep tokens st idx tok)

/-- Go: the second loop of `buildParenNodes`, which pops the unclosed frames. `carry` is the
material of the frames popped so far: the loop appends it to the frame below, or to `root`
once the stack is empty. -/
def parenUnwind : List parenFrame → List node → List node → List Diag → List node × List Diag
  | [], carry, root, diags => (root ++ carry, diags)
  | top :: below, carry, root, diags =>
    parenUnwind below
      (wordNode (String.singleton top.openRune) top.pos :: (top.nodes ++ carry)) root
      (diags ++ [{ Pos := top.pos, Code := "PAREN_UNCLOSED", Message := "unclosed parenthesis" }])

/-- Go: `buildParenNodes`. -/
def buildParenNodes [Unicode] (tokens : List token) : List node × List Diag :=
  let st := parenLoop tokens tokens 0 { root := [], stack := [], diags := [] }
  parenUnwind st.stack [] st.root st.diags

/-- Go: `quoteLevelForDepth`. -/
def quoteLevelForDepth (depth : Nat) : QuoteLevel :=
  if depth % 2 = 1 then QuotePrimary else QuoteSecondary

/-- Go: `isExplicitOpenQuote`. -/
def isExplicitOpenQuote (ch : Char) : Bool :=
  ch = '«' || ch = '„' || ch = '‘'

/-- Go: `isExplicitCloseQuote`. -/
def isExplicitCloseQuote (ch : Char) : Bool :=
  ch = '»' || ch = '”' || ch = '’'

/-- Go: `isSymmetricQuote`; the first rune is the ASCII double quote. -/
def isSymmetricQuote (ch : Char) : Bool :=
  ch = Char.ofNat 0x22 || ch = '“' || ch = '‟'

/-- Go: `utf8.RuneError`. -/
def RuneError : Char := Char.ofNat 0xFFFD

/-- Go: `utf8.DecodeLastRuneInString`, the rune only. -/
def DecodeLastRuneInString (s : String) : Char :=
  s.data.getLast?.getD RuneError

/-- Go: `utf8.DecodeRuneInString`, the rune only. -/
def DecodeRuneInString (s : String) : Char :=
  s.data.head?.getD RuneError

/-- Go: `prevSignificant`; the loop runs `i` from `idx - 1` down to `0`. -/
def prevSignificant (nodes : List node) : Nat → Option node
  | 0 => none
  | i + 1 =>
    match nodes[i]? with
    | some n => if n.kind = .nodeSpace then prevSignificant nodes i else some n
    | none => none

/-- Go: `nextSignificant`; the loop runs `i` from `idx + 1` up to `len(nodes) - 1`. -/
def nextSignificant (nodes : List node) (idx : Nat) : Option node :=
  (nodes.drop (idx + 1)).find? fun n => n.kind != .nodeSpace

/-- Go: `prevSuggestsQuoteClose`. -/
def prevSuggestsQuoteClose [Unicode] (n : node) : Bool :=
  match n.kind with
  | .nodeParenSpan | .nodeQuoteSpan => true
  | .nodeEllipsis => true
  | .nodePunct =>
    n.ch = ',' || n.ch = '.' || n.ch = ';' || n.ch = ':' || n.ch = '!' || n.ch = '?'
  | .nodeWord =>
    let r := DecodeLastRuneInString n.text
    if Unicode.IsLetter r || Unicode.IsDigit r then true
    else r = ')' || r = ']' || r = '»' || r = '”' || r = '’'
  | _ => false

/-- Go: `prevSuggestsQuoteOpen`. -/
def prevSuggestsQuoteOpen (n : node) : Bool :=
  match n.kind with
  | .nodeDash => true
  | .nodePunct =>
    n.ch = ':' || n.ch = ';' || n.ch = ',' || n.ch = '(' || n.ch = '[' || n.ch = '-'
      || n.ch = '—'
  | .nodeWord =>
    let r := DecodeLastRuneInString n.text
    r = ':' || r = ';' || r = ',' || r = '(' || r = '[' || r = '-' || r = '—'
  | _ => false

/-- Go: `nextSuggestsQuoteClose`. -/
def nextSuggestsQuoteClose (n : node) : Bool :=
  match n.kind with
  | .nodePunct | .nodeEllipsis => true
  | .nodeWord =>
    let r := DecodeRuneInString n.text
    r = ')' || r = ']' || r = '»' || r = '”' || r = '’' || r = ',' || r = '.' || r = ';'
      || r = ':' || r = '!' || r = '?'
  | _ => false

/-- Go: `nextSuggestsQuoteOpen`. -/
def nextSuggestsQuoteOpen [Unicode] (n : node) : Bool :=
  match n.kind with
  | .nodeParenSpan | .nodeQuoteSpan => true
  | .nodeWord =>
    let r := DecodeRuneInString n.text
    Unicode.IsLetter r || Unicode.IsDigit r
  | _ => false

/-- Go: `shouldCloseSymmetric`. The quote `nodes[idx]` exists at every call. -/
def shouldCloseSymmetric [Unicode] (nodes : List node) (idx : Nat) (stackLen : Nat) : Bool :=
  if stackLen = 0 then false
  else
    match nodes[idx]? with
    | none => false
    | some quote =>
      let hasSpaceBefore :=
        decide (0 < idx) && (nodes[idx - 1]?.any fun n => n.kind = .nodeSpace)
      let hasSpaceAfter := nodes[idx + 1]?.any fun n => n.kind = .nodeSpace
      match prevSignificant nodes idx with
      | none => false
      | some prev =>
        match nextSignificant nodes idx with
        | none => true
        | some next =>
          if hasSpaceBefore && !hasSpaceAfter && nextSuggestsQuoteOpen next then false
          else if !hasSpaceBefore && hasSpaceAfter then true
          else if prevSuggestsQuoteClose prev then
            if hasSpaceBefore && nextSuggestsQuoteOpen next then false else true
          else if nextSuggestsQuoteClose next then true
          else if decide (next.pos.Line > quote.pos.Line) && prevSuggestsQuoteClose prev then true
          else false

/-- Go: `shouldOpenSymmetric`. -/
def shouldOpenSymmetric [Unicode] (nodes : List node) (idx : Nat) (stackLen : Nat) : Bool :=
  match nextSignificant nodes idx with
  | none => false
  | some next =>
    if !nextSuggestsQuoteOpen next then false
    else
      let hasSpaceBefore :=
        decide (0 < idx) && (nodes[idx - 1]?.any fun n => n.kind = .nodeSpace)
      let hasSpaceAfter := nodes[idx + 1]?.any fun n => n.kind = .nodeSpace
      match prevSignificant nodes idx with
      | none => true
      | some prev =>
        if !hasSpaceBefore && hasSpaceAfter then false
        else if prevSuggestsQuoteOpen prev then true
        else if decide (stackLen > 0) && hasSpaceBefore && !hasSpaceAfter then true
        else if prevSuggestsQuoteClose prev && !hasSpaceBefore then false
        else if hasSpaceBefore then true
        else false

/-- Go: `shouldReportUnclosedQuote`. -/
def shouldReportUnclosedQuote (f : quoteFrame) : Bool :=
  !isSymmetricQuote f.quote

/-- The variables `root`, `stack` and `diags` of `buildQuoteNodes`; the head of `stack` is
the top frame `stack[len(stack)-1]`. -/
structure quoteState where
  root : List node
  stack : List quoteFrame
  diags : List Diag

/-- Go: the closure `appendCurrent` of `buildQuoteNodes`. -/
def quoteAppendCurrent (st : quoteState) (n : node) : quoteState :=
  match st.stack with
  | [] => { st with root := st.root ++ [n] }
  | top :: below => { st with stack := { top with nodes := top.nodes ++ [n] } :: below }

/-- Go: the literal `node{kind: nodeQuoteSpan, level: top.level, pos: top.pos, children:
top.nodes}`. -/
def quoteSpanNode (top : quoteFrame) : node :=
  .mk .nodeQuoteSpan "" zeroRune .DashHyphen top.pos top.level zeroRune zeroRune top.nodes

/-- Go: the two statements that pop the top frame and append its QuoteSpan. An empty stack
is not met: the callers test it first. -/
def quotePopSpan (st : quoteState) : quoteState :=
  match st.stack with
  | [] => st
  | top :: below => quoteAppendCurrent { st with stack := below } (quoteSpanNode top)

/-- Go: the statement that pushes a frame for the quote node `n`. -/
def quotePush (st : quoteState) (n : node) : quoteState :=
  { st with stack :=
      { quote := n.ch, pos := n.pos, level := quoteLevelForDepth (st.stack.length + 1),
        nodes := [] } :: st.stack }

/-- Go: the body of the second loop of `buildQuoteNodes` for the node `n` at index `i` of
`prepared`. -/
def quoteStep [Unicode] (prepared : List node) (st : quoteState) (i : Nat) (n : node) :
    quoteState :=
  if n.kind != .nodeQuoteMark then quoteAppendCurrent st n
  else if isExplicitOpenQuote n.ch then quotePush st n
  else if isExplicitCloseQuote n.ch then
    if st.stack.length = 0 then
      quoteAppendCurrent
        { st with diags := st.diags ++
            [{ Pos := n.pos, Code := "QUOTE_MISMATCH", Message := "unexpected closing quote" }] }
        (wordNode (String.singleton n.ch) n.pos)
    else quotePopSpan st
  else if isSymmetricQuote n.ch then
    if shouldCloseSymmetric prepared i st.stack.length then quotePopSpan st
    else if shouldOpenSymmetric prepared i st.stack.length then quotePush st n
    else quoteAppendCurrent st (wordNode (String.singleton n.ch) n.pos)
  else quoteAppendCurrent st (wordNode (String.singleton n.ch) n.pos)

/-- Go: the second loop of `buildQuoteNodes`, from index `i` on. -/
def quoteLoop [Unicode] (prepared : List node) : List node → Nat → quoteState → quoteState
  | [], _, st => st
  | n :: rest, i, st => quoteLoop prepared rest (i + 1) (quoteStep prepared st i n)

/-- Go: the third loop of `buildQuoteNodes`, which pops the unclosed frames. `carry` is the
material of the frames popped so far: the loop appends it to the frame below, or to `root`
once the stack is empty. -/
def quoteUnwind : List quoteFrame → List node → List node → List Diag → List node × List Diag
  | [], carry, root, diags => (root ++ carry, diags)
  | top :: below, carry, root, diags =>
    quoteUnwind below
      (wordNode (String.singleton top.quote) top.pos :: (top.nodes ++ carry)) root
      (if shouldReportUnclosedQuote top then
        diags ++ [{ Pos := top.pos, Code := "QUOTE_UNCLOSED", Message := "unclosed quote" }]
       else diags)

/-- Go: `buildQuoteNodes` after its first loop: the second and third loops on `prepared`,
starting from the diagnostics `diags` of the first loop. -/
def quotePass [Unicode] (prepared : List node) (diags : List Diag) : List node × List Diag :=
  let st := quoteLoop prepared prepared 0 { root := [], stack := [], diags := diags }
  quoteUnwind st.stack [] st.root st.diags

mutual
/-- Go: the body of the first loop of `buildQuoteNodes` for one node: the node with its
children rebuilt when it is a ParenSpan, and the diagnostics of that recursive call. -/
def prepareQuoteNode [Unicode] : node → node × List Diag
  | .mk kind text ch dashKind pos level openRune closeRune children =>
    if kind = .nodeParenSpan then
      let prepared := prepareQuoteNodes children
      let inner := quotePass prepared.1 prepared.2
      (.mk kind text ch dashKind pos level openRune closeRune inner.1, inner.2)
    else (.mk kind text ch dashKind pos level openRune closeRune children, [])
/-- Go: the first loop of `buildQuoteNodes`: `prepared` and the diagnostics so far. -/
def prepareQuoteNodes [Unicode] : List node → List node × List Diag
  | [] => ([], [])
  | n :: rest =>
    let first := prepareQuoteNode n
    let others := prepareQuoteNodes rest
    (first.1 :: others.1, first.2 ++ others.2)
end

/-- Go: `buildQuoteNodes`. -/
def buildQuoteNodes [Unicode] (nodes : List node) : List node × List Diag :=
  let prepared := prepareQuoteNodes nodes
  quotePass prepared.1 prepared.2

mutual
/-- Go: the body of the loop of `nodesToInlines` for one node: the inlines it appends. -/
def nodeToInlines : node → List Inline
  | .mk kind text ch dashKind _ level openRune closeRune children =>
    match kind with
    | .nodeWord => if text != "" then [.Word text] else []
    | .nodeSpace => [.Space .SpaceNormal]
    | .nodePunct => [.Punct ch]
    | .nodeDash => [.Dash dashKind]
    | .nodeEllipsis => [.Ellipsis]
    | .nodeParenSpan => [.ParenSpan openRune closeRune (nodesToInlines children)]
    | .nodeQuoteSpan => [.QuoteSpan level (nodesToInlines children)]
    | .nodeQuoteMark => [.Word (String.singleton ch)]
/-- Go: `nodesToInlines`. -/
def nodesToInlines : List node → List Inline
  | [] => []
  | n :: rest => nodeToInlines n ++ nodesToInlines rest
end

/-- Go: `buildSpans`. -/
def buildSpans [Unicode] (tokens : List token) : List Inline × List Diag :=
  let parens := buildParenNodes tokens
  let quotes := buildQuoteNodes parens.1
  (nodesToInlines quotes.1, parens.2 ++ quotes.2)

/-! ## Package `parser`: `inline.go` -/

/-- Go: the keys of the map `punctRunes`. -/
def punctRunes : List Char := [',', '.', ';', ':', '!', '?']

/-- Go: the keys of the map `quoteRunes`; the first rune is the ASCII double quote. -/
def quoteRunes : List Char := [Char.ofNat 0x22, '«', '»', '„', '“', '”', '‟', '‘', '’']

/-- Go: `isIgnorableInlineRune`. -/
def isIgnorableInlineRune [Unicode] (r : Char) : Bool :=
  (Unicode.IsControl r && !Unicode.IsSpace r) || Unicode.IsFormat r

/-- Go: `dashKindFromRune`. -/
def dashKindFromRune (r : Char) : DashKind :=
  if r = '–' then .DashNDash else if r = '—' then .DashEmDash else .DashHyphen

/-- Go: `isWordRune`; the rune `runes[i]` exists at every call. The second rune compared is
the ASCII apostrophe. -/
def isWordRune [Unicode] (runes : List Char) (i : Nat) : Bool :=
  match runes[i]? with
  | none => false
  | some r =>
    if Unicode.IsLetter r || Unicode.IsDigit r then true
    else if r = Char.ofNat 0x27 || r = '’' || r = '№' then true
    else if r = '-' then
      if i = 0 || i + 1 ≥ runes.length then false
      else
        match runes[i - 1]?, runes[i + 1]? with
        | some before, some after => Unicode.IsLetter before && Unicode.IsLetter after
        | _, _ => false
    else false

/-- Go: a loop `for i < len(runes) && p(i) { i++ }`: the index where it stops. `fuel` bounds
the number of iterations; `len(runes) - i` is enough. -/
def scanWhile (p : Nat → Bool) : Nat → Nat → Nat
  | 0, i => i
  | fuel + 1, i => if p i then scanWhile p fuel (i + 1) else i

/-- Go: `collapseSpaces`, the loop with the result `out` so far. -/
def collapseSpacesLoop : List token → List token → List token
  | [], out => out
  | tok :: rest, out =>
    if tok.kind = .tokenSpace && (out.getLast?.any fun last => last.kind = .tokenSpace) then
      collapseSpacesLoop rest out
    else collapseSpacesLoop rest (out ++ [tok])

/-- Go: `collapseSpaces`. -/
def collapseSpaces (tokens : List token) : List token :=
  collapseSpacesLoop tokens []

/-- Go: the literal of a one-rune token of `tokenizeInline`. -/
def runeToken (kind : tokenKind) (r : Char) (pos : Pos) : token :=
  { kind := kind, text := String.singleton r, ch := r, dashKind := .DashHyphen, pos := pos }

/-- Go: the loop of `tokenizeInline` from index `i` on, with the column `col`, the offset
`off` and the tokens `out` so far. `fuel` bounds the number of iterations; every iteration
moves `i` forward, so `len(runes) - i` is enough. -/
def tokenizeLoop [Unicode] (runes : List Char) (line : Nat) :
    Nat → Nat → Nat → Nat → List token → List token
  | 0, _, _, _, out => out
  | fuel + 1, i, col, off, out =>
    match runes[i]? with
    | none => out
    | some r =>
      let pos : Pos := { Line := line, Col := col, Off := off }
      if isIgnorableInlineRune r then tokenizeLoop runes line fuel (i + 1) (col + 1) (off + 1) out
      else if Unicode.IsSpace r then
        let j := scanWhile (fun k => (runes[k]?.any Unicode.IsSpace)) (runes.length - i) i
        tokenizeLoop runes line fuel j (col + (j - i)) (off + (j - i))
          (out ++ [{ kind := .tokenSpace, text := " ", ch := zeroRune, dashKind := .DashHyphen,
                     pos := pos }])
      else if r = '.' && runes[i + 1]? = some '.' && runes[i + 2]? = some '.' then
        tokenizeLoop runes line fuel (i + 3) (col + 3) (off + 3)
          (out ++ [{ kind := .tokenEllipsis, text := "...", ch := zeroRune,
                     dashKind := .DashHyphen, pos := pos }])
      else if r = '…' then
        tokenizeLoop runes line fuel (i + 1) (col + 1) (off + 1)
          (out ++ [{ kind := .tokenEllipsis, text := "…", ch := zeroRune,
                     dashKind := .DashHyphen, pos := pos }])
      else if r = '-' || r = '–' || r = '—' then
        tokenizeLoop runes line fuel (i + 1) (col + 1) (off + 1)
          (out ++ [{ kind := .tokenDash, text := String.singleton r, ch := r,
                     dashKind := dashKindFromRune r, pos := pos }])
      else if r = '(' || r = '[' then
        tokenizeLoop runes line fuel (i + 1) (col + 1) (off + 1)
          (out ++ [runeToken .tokenParenOpen r pos])
      else if r = ')' || r = ']' then
        tokenizeLoop runes line fuel (i + 1) (col + 1) (off + 1)
          (out ++ [runeToken .tokenParenClose r pos])
      else if r ∈ punctRunes then
        tokenizeLoop runes line fuel (i + 1) (col + 1) (off + 1)
          (out ++ [runeToken .tokenPunct r pos])
      else if r ∈ quoteRunes then
        tokenizeLoop runes line fuel (i + 1) (col + 1) (off + 1)
          (out ++ [runeToken .tokenQuote r pos])
      else
        let j := scanWhile (fun k => decide (k < runes.length) && isWordRune runes k)
          (runes.length - i) i
        if j > i then
          tokenizeLoop runes line fuel j (col + (j - i)) (off + (j - i))
            (out ++ [{ kind := .tokenWord, text := String.mk ((runes.drop i).take (j - i)),
                       ch := zeroRune, dashKind := .DashHyphen, pos := pos }])
        else
          tokenizeLoop runes line fuel (i + 1) (col + 1) (off + 1)
            (out ++ [{ kind := .tokenWord, text := String.singleton r, ch := zeroRune,
                       dashKind := .DashHyphen, pos := pos }])

/-- Go: `tokenizeInline`. -/
def tokenizeInline [Unicode] (s : String) (line startCol : Nat) : List token :=
  collapseSpaces (tokenizeLoop s.data line s.data.length 0 startCol 0 [])

/-! ## Go's `strings` package, on valid UTF-8 -/

/-- Go: `strings.TrimLeftFunc(s, f)` on the runes of `s`. -/
def trimLeftFunc (f : Char → Bool) (runes : List Char) : List Char :=
  runes.dropWhile f

/-- Go: `strings.TrimRightFunc(s, f)` on the runes of `s`. -/
def trimRightFunc (f : Char → Bool) (runes : List Char) : List Char :=
  (runes.reverse.dropWhile f).reverse

/-- Go: `strings.TrimSpace`. -/
def TrimSpace [Unicode] (s : String) : String :=
  String.mk (trimRightFunc Unicode.IsSpace (trimLeftFunc Unicode.IsSpace s.data))

/-- Go: `strings.TrimLeft(s, " \t")`. -/
def TrimLeftBlanks (s : String) : String :=
  String.mk (trimLeftFunc (fun r => r = ' ' || r = '\t') s.data)

/-- Go: `strings.Fields` on the runes of a string: the loop over the runes, with the field
`cur` being read and the fields `out` found so far. -/
def fieldsLoop [Unicode] : List Char → List Char → List String → List String
  | [], cur, out => if cur.length = 0 then out else out ++ [String.mk cur]
  | r :: rest, cur, out =>
    if Unicode.IsSpace r then
      if cur.length = 0 then fieldsLoop rest [] out else fieldsLoop rest [] (out ++ [String.mk cur])
    else fieldsLoop rest (cur ++ [r]) out

/-- Go: `strings.Fields`. -/
def Fields [Unicode] (s : String) : List String :=
  fieldsLoop s.data [] []

/-- Go: `strings.Join`. -/
def Join (parts : List String) (sep : String) : String :=
  match parts with
  | [] => ""
  | first :: rest => rest.foldl (fun acc part => acc ++ sep ++ part) first

/-- Go: `strings.Split(s, "\n")` on the runes of `s`, with the piece `cur` being read. -/
def splitLinesLoop : List Char → List Char → List String
  | [], cur => [String.mk cur]
  | r :: rest, cur =>
    if r = '\n' then String.mk cur :: splitLinesLoop rest [] else splitLinesLoop rest (cur ++ [r])

/-- Go: `strings.Split(s, "\n")`. -/
def SplitLines (s : String) : List String :=
  splitLinesLoop s.data []

/-- Go: `strings.ReplaceAll(s, "\r\n", "\n")` on the runes of `s`. -/
def replaceCRLF : List Char → List Char
  | [] => []
  | '\r' :: '\n' :: rest => '\n' :: replaceCRLF rest
  | r :: rest => r :: replaceCRLF rest

/-- Go: `strings.ReplaceAll(s, " ", "")`. -/
def removeBlanks (s : String) : String :=
  String.mk (s.data.filter fun r => r != ' ')

/-- Go: `strings.Repeat(s, n)`. -/
def Repeat (s : String) : Nat → String
  | 0 => ""
  | n + 1 => s ++ Repeat s n

/-! ## Go's `regexp` package: the five expressions of `blocks.go` -/

/-- Go `regexp`: the class `\s`, which is `[\t\n\f\r ]`. -/
def reSpace (r : Char) : Bool :=
  r = '\t' || r = '\n' || r = Char.ofNat 0x0C || r = '\r' || r = ' '

/-- Go `regexp`: a literal rune under the flag `(?i)`: `r` matches the pattern rune `p` when
it is one of the runes `unicode.SimpleFold` walks from `p`; no such orbit has more than four
runes. -/
def foldEq [Unicode] (p r : Char) : Bool :=
  r = p || r = Unicode.SimpleFold p || r = Unicode.SimpleFold (Unicode.SimpleFold p)
    || r = Unicode.SimpleFold (Unicode.SimpleFold (Unicode.SimpleFold p))

/-- Go `regexp`: a literal word under the flag `(?i)` matched against all of `runes`. -/
def foldEqWord [Unicode] : List Char → List Char → Bool
  | [], [] => true
  | p :: ps, r :: rs => foldEq p r && foldEqWord ps rs
  | _, _ => false

/-- Go `regexp`: the tail `\s+(X.*)$` of three of the expressions, matched against `runes`,
where `X` is `\S` when `strict` holds and `.` otherwise: the submatch in the parentheses.
With `.` the spaces give one back to the submatch when nothing else is left. -/
def matchSpacesThenRest (strict : Bool) (runes : List Char) : Option (List Char) :=
  let spaces := runes.takeWhile reSpace
  let rest := runes.dropWhile reSpace
  if spaces.length = 0 then none
  else if rest.any (fun r => r = '\n') then none
  else
    match rest with
    | _ :: _ => some rest
    | [] =>
      if strict then none
      else
        match spaces.getLast? with
        | some last => if spaces.length ≥ 2 && last != '\n' then some [last] else none
        | none => none

/-! ## Package `parser`: `blocks.go` -/

/-- Go: `type candidate struct { lines []string; lineNums []int }`. -/
structure candidate where
  lines : List String
  lineNums : List Nat
  deriving DecidableEq, Repr, Inhabited

/-- Go: `type sourceLine struct { text string; line int }`. -/
structure sourceLine where
  text : String
  line : Nat
  deriving DecidableEq, Repr, Inhabited

/-- Go: `normalizeStructureLine`. -/
def normalizeStructureLine [Unicode] (line : String) : String :=
  Join (Fields (TrimSpace line)) " "

/-- Go: `isSceneBreakRune`. -/
def isSceneBreakRune (r : Char) : Bool :=
  r = '*' || r = '-' || r = '—' || r = '–' || r = '_' || r = '=' || r = '~' || r = '·'
    || r = '•' || r = 'x' || r = 'X' || r = 'х' || r = 'Х'

/-- Go: `isXLikeRune`; the runes are Latin x, X and Cyrillic х, Х. -/
def isXLikeRune (r : Char) : Bool :=
  r = 'x' || r = 'X' || r = 'х' || r = 'Х'

/-- Go `regexp`: the group `(?:\s+[xXхХ])` repeated as often as it matches from the start of
`runes`: the number of repetitions and what is left. `fuel` bounds the repetitions. -/
def matchXGroups : Nat → List Char → Nat × List Char
  | 0, runes => (0, runes)
  | fuel + 1, runes =>
    let spaces := runes.takeWhile reSpace
    match runes.dropWhile reSpace with
    | r :: rest =>
      if spaces.length ≥ 1 && isXLikeRune r then
        let m := matchXGroups fuel rest
        (m.1 + 1, m.2)
      else (0, runes)
    | [] => (0, runes)

/-- Go: `xSceneBreakRe.MatchString`, the expression `^[xXхХ](?:\s+[xXхХ]){2,}$`. -/
def xSceneBreakRe (t : String) : Bool :=
  match t.data with
  | r :: rest =>
    if isXLikeRune r then
      let m := matchXGroups rest.length rest
      decide (m.1 ≥ 2) && m.2.isEmpty
    else false
  | [] => false

/-- Go: `isSceneBreak`. -/
def isSceneBreak [Unicode] (line : String) : Bool :=
  let t := normalizeStructureLine line
  if t = "" then false
  else if xSceneBreakRe t then true
  else
    let compact := removeBlanks t
    if compact.data.length < 3 then false
    else if !compact.data.all isSceneBreakRune then false
    else if compact.data.all isXLikeRune then xSceneBreakRe t
    else true

/-- Go: `sceneBreakRuneCount`. -/
def sceneBreakRuneCount [Unicode] (line : String) : Nat :=
  (line.data.filter fun r => !Unicode.IsSpace r).length

/-- Go: `splitTrailingSceneBreak`; `none` stands for the result `ok == false`. -/
def splitTrailingSceneBreak [Unicode] (line : String) : Option (String × String) :=
  let r := trimRightFunc Unicode.IsSpace line.data
  if r.length = 0 then none
  else
    let tail := (r.reverse.takeWhile fun c => Unicode.IsSpace c || isSceneBreakRune c).reverse
    let lead := (r.reverse.dropWhile fun c => Unicode.IsSpace c || isSceneBreakRune c).reverse
    let suffix := TrimSpace (String.mk tail)
    let pre := TrimSpace (String.mk lead)
    if pre = "" || suffix = "" then none
    else if !isSceneBreak suffix || sceneBreakRuneCount suffix < 6 then none
    else some (pre, suffix)

/-- Go: `stripInvisibleRunes`. -/
def stripInvisibleRunes [Unicode] (s : String) : String :=
  String.mk (s.data.filter fun r =>
    !((Unicode.IsControl r && !Unicode.IsSpace r) || Unicode.IsFormat r))

/-- Go: `prepareSourceLines`, the loop from the raw line with index `i` on. -/
def prepareSourceLinesFrom [Unicode] : List String → Nat → List sourceLine
  | [], _ => []
  | line :: rest, i =>
    let cleaned := stripInvisibleRunes line
    match splitTrailingSceneBreak cleaned with
    | some (lead, sep) =>
      { text := lead, line := i + 1 } :: { text := sep, line := i + 1 }
        :: prepareSourceLinesFrom rest (i + 1)
    | none => { text := cleaned, line := i + 1 } :: prepareSourceLinesFrom rest (i + 1)

/-- Go: `prepareSourceLines`. -/
def prepareSourceLines [Unicode] (raw : List String) : List sourceLine :=
  prepareSourceLinesFrom raw 0

/-- Go: `isHeadingDecorationRune`. -/
def isHeadingDecorationRune (r : Char) : Bool :=
  r = '*' || r = '-' || r = '—' || r = '–' || r = '_' || r = '=' || r = '~' || r = '·'
    || r = '•'

/-- Go: `trimHeadingDecorations`, the loop on the runes of `s`. `fuel` bounds the number of
iterations; every iteration shortens `s` by two runes, so `len(s)` is enough. -/
def trimHeadingDecorationsLoop [Unicode] : Nat → String → String
  | 0, s => TrimSpace s
  | fuel + 1, s =>
    let r := (TrimSpace s).data
    if r.length < 2 then TrimSpace s
    else
      match r.head?, r.getLast? with
      | some first, some last =>
        if !isHeadingDecorationRune first || !isHeadingDecorationRune last then
          TrimSpace (String.mk r)
        else trimHeadingDecorationsLoop fuel (String.mk ((r.drop 1).take (r.length - 2)))
      | _, _ => TrimSpace s

/-- Go: `trimHeadingDecorations`. -/
def trimHeadingDecorations [Unicode] (s : String) : String :=
  trimHeadingDecorationsLoop s.data.length s

/-- Go: `headingRe.FindStringSubmatch`, the expression `^(#{1,6})\s+(\S.*)$`: the two
submatches. -/
def headingRe (t : String) : Option (String × String) :=
  let hashes := t.data.takeWhile fun r => r = '#'
  if hashes.length < 1 || hashes.length > 6 then none
  else
    match matchSpacesThenRest true (t.data.dropWhile fun r => r = '#') with
    | some rest => some (String.mk hashes, String.mk rest)
    | none => none

/-- Go: the alternatives of `bookHeadingRe`, in their order. -/
def bookHeadingWords : List String :=
  ["глава", "chapter", "часть", "частина", "part", "раздел", "section", "книга", "book",
    "том", "volume", "розділ"]

/-- Go `regexp`: the expression `(?i)^(w)\s+(.+)$` for one alternative `w` of
`bookHeadingRe`: the two submatches. -/
def matchBookHeadingWord [Unicode] (w : String) (t : String) : Option (String × String) :=
  let head := t.data.take w.data.length
  if !foldEqWord w.data head then none
  else
    match matchSpacesThenRest false (t.data.drop w.data.length) with
    | some rest => some (String.mk head, String.mk rest)
    | none => none

/-- Go: `bookHeadingRe.FindStringSubmatch`: the submatches of the first alternative that
matches. -/
def bookHeadingRe [Unicode] (t : String) : Option (String × String) :=
  bookHeadingWords.findSome? fun w => matchBookHeadingWord w t

/-- Go: the alternatives of `contentsHeadingRe`. -/
def contentsHeadingWords : List String := ["содержание", "оглавление", "contents", "зміст"]

/-- Go: `contentsHeadingRe.MatchString`, the expression
`(?i)^(содержание|оглавление|contents|зміст)$`. -/
def contentsHeadingRe [Unicode] (t : String) : Bool :=
  contentsHeadingWords.any fun w => foldEqWord w.data t.data

/-- Go `regexp`: the class `[\p{L}\p{N}_-]` of `metaLineRe`. -/
def isMetaKeyRune [Unicode] (r : Char) : Bool :=
  Unicode.IsLetter r || Unicode.IsNumber r || r = '_' || r = '-'

/-- Go: `metaLineRe.FindStringSubmatch`, the expression
`^(\p{L}[\p{L}\p{N}_-]{1,30}):\s+(\S.*)$`: the two submatches. -/
def metaLineRe [Unicode] (t : String) : Option (String × String) :=
  match t.data with
  | first :: rest =>
    if !Unicode.IsLetter first then none
    else
      let tail := rest.takeWhile isMetaKeyRune
      if tail.length < 1 || tail.length > 30 then none
      else
        match rest.dropWhile isMetaKeyRune with
        | ':' :: after =>
          match matchSpacesThenRest true after with
          | some value => some (String.mk (first :: tail), String.mk value)
          | none => none
        | _ => none
  | [] => none

/-- Go: `headingLevelForKeyword`. -/
def headingLevelForKeyword (kw : String) : Nat :=
  if kw ∈ ["часть", "частина", "part", "книга", "book", "том", "volume"] then 1 else 2

/-- Go: `parseHeading`; `none` stands for the result `ok == false`. -/
def parseHeading [Unicode] (line : String) : Option (Nat × String) :=
  let t := normalizeStructureLine line
  if t = "" then none
  else
    match headingRe t with
    | some (hashes, text) =>
      let body := TrimSpace text
      if body = "" then none else some (hashes.data.length, body)
    | none =>
      let t := trimHeadingDecorations t
      if t = "" then none
      else
        match bookHeadingRe t with
        | some (word, text) =>
          let kw := stringsToLower word
          let body := TrimSpace text
          if body = "" then none else some (headingLevelForKeyword kw, t)
        | none => none

/-- Go: `parseContentsLine`; `none` stands for the result `ok == false`. -/
def parseContentsLine [Unicode] (line : String) : Option String :=
  let t := normalizeStructureLine line
  if t = "" then none
  else if contentsHeadingRe t then some t
  else
    let t := trimHeadingDecorations t
    if t = "" then none
    else if contentsHeadingRe t then some t
    else none

/-- Go: `parseContentsEntryLine`; `none` stands for the result `ok == false`. -/
def parseContentsEntryLine [Unicode] (line : String) : Option (Nat × String) :=
  let t := normalizeStructureLine line
  if t = "" then none
  else
    let t := trimHeadingDecorations t
    if t = "" then none
    else
      match bookHeadingRe t with
      | none => none
      | some (word, text) =>
        let kw := stringsToLower word
        let body := TrimSpace text
        if body = "" then none else some (headingLevelForKeyword kw, t)

/-- Go: `parseMetaLine`; `none` stands for the result `ok == false`. -/
def parseMetaLine [Unicode] (line : String) : Option (String × String) :=
  let t := normalizeStructureLine line
  if t = "" then none
  else
    match metaLineRe t with
    | none => none
    | some (k, v) =>
      let key := TrimSpace k
      let value := TrimSpace v
      if key = "" || value = "" then none else some (key, value)

/-- Go: `isStandaloneStructuralLine`. -/
def isStandaloneStructuralLine [Unicode] (line : String) : Bool :=
  if TrimSpace line = "" then false
  else if isSceneBreak line then true
  else if (parseMetaLine line).isSome then true
  else if (parseContentsLine line).isSome then true
  else (parseHeading line).isSome

/-- Go: the closure `flush` of `splitCandidates`, as the new value of `out`. -/
def flushCandidate (cur : candidate) (out : List candidate) : List candidate :=
  if cur.lines.length = 0 then out else out ++ [cur]

/-- Go: the loop of `splitCandidates`, with the candidate `cur` being built and the
candidates `out` found so far, followed by the final `flush()`. -/
def splitCandidatesLoop [Unicode] : List sourceLine → candidate → List candidate → List candidate
  | [], cur, out => flushCandidate cur out
  | line :: rest, cur, out =>
    if TrimSpace line.text = "" then
      splitCandidatesLoop rest { lines := [], lineNums := [] } (flushCandidate cur out)
    else if isStandaloneStructuralLine line.text then
      splitCandidatesLoop rest { lines := [], lineNums := [] }
        (flushCandidate cur out ++ [{ lines := [line.text], lineNums := [line.line] }])
    else
      splitCandidatesLoop rest
        { lines := cur.lines ++ [line.text], lineNums := cur.lineNums ++ [line.line] } out

/-- Go: `splitCandidates`. -/
def splitCandidates [Unicode] (lines : List sourceLine) : List candidate :=
  splitCandidatesLoop lines { lines := [], lineNums := [] } []

/-- Go: `isDialogueLine`. -/
def isDialogueLine [Unicode] (s : String) : Bool :=
  match (TrimLeftBlanks s).data with
  | r0 :: r1 :: _ => (r0 = '—' || r0 = '-') && Unicode.IsSpace r1
  | _ => false

/-- Go: `isDialogueCandidate`. -/
def isDialogueCandidate [Unicode] (lines : List String) : Bool :=
  if lines.length = 0 then false else lines.all isDialogueLine

/-- Go: `hasLeadingIndent`. -/
def hasLeadingIndent (s : String) : Bool :=
  match s.data with
  | r :: _ => r = ' ' || r = '\t'
  | [] => false

/-- Go: `lineRuneLen`. -/
def lineRuneLen (s : String) : Nat :=
  s.data.length

/-- Go: `startsLikelyContinuation`. -/
def startsLikelyContinuation [Unicode] (line : String) : Bool :=
  match (TrimSpace line).data with
  | [] => false
  | r :: _ =>
    if Unicode.IsLower r || Unicode.IsDigit r then true
    else r ∈ [',', '.', ';', ':', '!', '?', '…', ')', ']', Char.ofNat 0x7D, '»']

/-- Go: `shouldSplitBetweenLines`. -/
def shouldSplitBetweenLines [Unicode] (prev cur : String) : Bool :=
  if isDialogueLine prev != isDialogueLine cur then true
  else hasLeadingIndent cur && !hasLeadingIndent prev

/-- Go: `shouldSplitLongIndentedLines`. -/
def shouldSplitLongIndentedLines [Unicode] (lines : List String) : Bool :=
  if lines.length < 2 then false
  else
    let indented := (lines.filter hasLeadingIndent).length
    let lens := lines.map fun line => lineRuneLen (TrimSpace line)
    let totalLen := lens.foldl (fun a b => a + b) 0
    let longLines := (lens.filter fun l => l ≥ 120).length
    let avgLen := totalLen / lines.length
    decide (indented = lines.length) && (decide (avgLen ≥ 140)
      || decide (longLines * 100 / lines.length ≥ 60))

/-- Go: the literal `candidate{lines: lines[i:j], lineNums: lineNums[i:j]}` for a run of
lines paired with their numbers. -/
def candidateOf (run : List (String × Nat)) : candidate :=
  { lines := run.map Prod.fst, lineNums := run.map Prod.snd }

/-- Go: the loop of `splitLongIndentedParagraphs` over the lines from index `i` on, each
paired with its number. `fuel` bounds the number of iterations; every iteration takes a
line, so the number of lines is enough. -/
def splitLongIndentedLoop [Unicode] : Nat → List (String × Nat) → List candidate
  | 0, _ => []
  | _, [] => []
  | fuel + 1, first :: rest =>
    if isDialogueLine first.1 then
      candidateOf (first :: rest.takeWhile fun l => isDialogueLine l.1)
        :: splitLongIndentedLoop fuel (rest.dropWhile fun l => isDialogueLine l.1)
    else
      candidateOf (first :: rest.takeWhile fun l =>
          !isDialogueLine l.1 && startsLikelyContinuation l.1)
        :: splitLongIndentedLoop fuel (rest.dropWhile fun l =>
          !isDialogueLine l.1 && startsLikelyContinuation l.1)

/-- Go: `splitLongIndentedParagraphs`. -/
def splitLongIndentedParagraphs [Unicode] (lines : List String) (lineNums : List Nat) :
    List candidate :=
  splitLongIndentedLoop lines.length (lines.zip lineNums)

/-- Go: the loop of `splitParagraphByIndent` from the line after `prev` on: `cur` holds the
lines from index `start` up to `prev`. -/
def splitByIndentLoop [Unicode] (prev : String) (cur : List (String × Nat)) :
    List (String × Nat) → List candidate
  | [] => [candidateOf cur]
  | line :: rest =>
    if shouldSplitBetweenLines prev line.1 then
      candidateOf cur :: splitByIndentLoop line.1 [line] rest
    else splitByIndentLoop line.1 (cur ++ [line]) rest

/-- Go: `splitParagraphByIndent`. -/
def splitParagraphByIndent [Unicode] (lines : List String) (lineNums : List Nat) :
    List candidate :=
  if lines.length = 0 then []
  else if shouldSplitLongIndentedLines lines then splitLongIndentedParagraphs lines lineNums
  else
    match lines.zip lineNums with
    | [] => []
    | first :: rest => splitByIndentLoop first.1 [first] rest

/-- Go: `trimLeftWithCol`. -/
def trimLeftWithCol (s : String) : String × Nat :=
  (TrimLeftBlanks s, 1 + (s.data.takeWhile fun r => r = ' ' || r = '\t').length)

/-- Go: the loop of `parseInlineLinesWithCols`: the tokens of the lines from index `i` on. -/
def tokensOfLines [Unicode] : List String → List Nat → List Nat → Bool → List token
  | [], _, _, _ => []
  | line :: rest, lineNums, cols, joinWithSpace =>
    tokenizeInline line (lineNums.headD 0) (cols.headD 0)
      ++ (if joinWithSpace && !rest.isEmpty then
            [{ kind := .tokenSpace, text := " ", ch := zeroRune, dashKind := .DashHyphen,
               pos := { Line := lineNums.headD 0, Col := line.data.length + 1, Off := 0 } }]
          else [])
      ++ tokensOfLines rest lineNums.tail cols.tail joinWithSpace

/-- Go: `parseInlineLinesWithCols`. -/
def parseInlineLinesWithCols [Unicode] (lines : List String) (lineNums cols : List Nat)
    (joinWithSpace : Bool) : List Inline × List Diag :=
  buildSpans (tokensOfLines lines lineNums cols joinWithSpace)

/-- Go: `parseInlineLines`. -/
def parseInlineLines [Unicode] (lines : List String) (lineNums : List Nat)
    (joinWithSpace : Bool) : List Inline × List Diag :=
  parseInlineLinesWithCols lines lineNums (lines.map fun _ => 1) joinWithSpace

/-- Go: `parseDialogueTurns`, the loop from the line with index `i` on. -/
def parseDialogueTurns [Unicode] : List String → List Nat → List DialogueTurn × List Diag
  | [], _ => ([], [])
  | line :: rest, lineNums =>
    let tc := trimLeftWithCol line
    let r := parseInlineLinesWithCols [tc.1] [lineNums.headD 0] [tc.2] false
    let rs := parseDialogueTurns rest lineNums.tail
    ({ In := r.1 } :: rs.1, r.2 ++ rs.2)

/-- Go: the last loop of `parseCandidate`, over the parts of a split candidate. -/
def parseParts [Unicode] : List candidate → List Block × List Diag
  | [] => ([], [])
  | part :: rest =>
    let rs := parseParts rest
    if isDialogueCandidate part.lines then
      let r := parseDialogueTurns part.lines part.lineNums
      (.DialogueBlock r.1 :: rs.1, r.2 ++ rs.2)
    else
      let r := parseInlineLines part.lines part.lineNums true
      (.Paragraph r.1 :: rs.1, r.2 ++ rs.2)

/-- Go: `parseCandidate`; `none` stands for the result `ok == false`. -/
def parseCandidate [Unicode] (c : candidate) : Option (List Block × List Diag) :=
  match c.lines with
  | [] => none
  | [line] =>
    if isSceneBreak line then some ([.SceneBreak "***"], [])
    else
      match parseMetaLine line with
      | some (key, value) =>
        let r := parseInlineLines [value] c.lineNums false
        some ([.MetaLineBlock key r.1], r.2)
      | none =>
        match parseHeading line with
        | some (level, body) =>
          let r := parseInlineLines [body] c.lineNums false
          some ([.Heading level r.1], r.2)
        | none =>
          if isDialogueCandidate c.lines then
            let r := parseDialogueTurns c.lines c.lineNums
            some ([.DialogueBlock r.1], r.2)
          else some (parseParts (splitParagraphByIndent c.lines c.lineNums))
  | _ =>
    if isDialogueCandidate c.lines then
      let r := parseDialogueTurns c.lines c.lineNums
      some ([.DialogueBlock r.1], r.2)
    else some (parseParts (splitParagraphByIndent c.lines c.lineNums))

/-- Go: `parseContentsCandidate`; `none` stands for the result `ok == false`. The block is
returned as its title inlines, the entries being empty at this point. -/
def parseContentsCandidate [Unicode] (c : candidate) : Option (List Inline × List Diag) :=
  match c.lines with
  | [line] =>
    match parseContentsLine line with
    | some body => some (parseInlineLines [body] c.lineNums false)
    | none => none
  | _ => none

/-- Go: `parseContentsEntryCandidate`; `none` stands for the result `ok == false`. -/
def parseContentsEntryCandidate [Unicode] (c : candidate) :
    Option (ContentsEntry × List Diag) :=
  match c.lines with
  | [line] =>
    match parseContentsEntryLine line with
    | some (level, body) =>
      let r := parseInlineLines [body] c.lineNums false
      some ({ Level := level, In := r.1 }, r.2)
    | none => none
  | _ => none

/-- Go: the inner loop of `Parse` that consumes the contents entries after a contents
heading: the entries, their diagnostics and the candidates left. -/
def takeContentsEntries [Unicode] :
    List candidate → List ContentsEntry × List Diag × List candidate
  | [] => ([], [], [])
  | c :: rest =>
    match parseContentsEntryCandidate c with
    | some (entry, diags) =>
      let r := takeContentsEntries rest
      (entry :: r.1, diags ++ r.2.1, r.2.2)
    | none => ([], [], c :: rest)

/-- Go: the loop of `Parse` over the candidates from index `i` on, with the blocks and the
diagnostics so far. `fuel` bounds the number of iterations; every iteration takes a
candidate, so the number of candidates is enough. -/
def parseLoop [Unicode] : Nat → List candidate → List Block → List Diag → List Block × List Diag
  | 0, _, blocks, diags => (blocks, diags)
  | _, [], blocks, diags => (blocks, diags)
  | fuel + 1, c :: rest, blocks, diags =>
    match parseContentsCandidate c with
    | some (title, titleDiags) =>
      let r := takeContentsEntries rest
      parseLoop fuel r.2.2 (blocks ++ [.ContentsBlock title r.1]) (diags ++ titleDiags ++ r.2.1)
    | none =>
      match parseCandidate c with
      | some (bs, ds) => parseLoop fuel rest (blocks ++ bs) (diags ++ ds)
      | none => parseLoop fuel rest blocks diags

/-- Go: `Parse`. -/
def Parse [Unicode] (input : String) (cfg : Config) : Document :=
  let rawLines := SplitLines (String.mk (replaceCRLF input.data))
  let lines := prepareSourceLines rawLines
  let candidates := splitCandidates lines
  let r := parseLoop candidates.length candidates [] []
  { Lang := cfg.Lang, Style := cfg.Style, Blocks := r.1, Diags := r.2 }

/-! ## Package `printer` (plain text) -/

/-- Go: `pairForLevel`. -/
def pairForLevel (style : Style) (level : QuoteLevel) : QuotePair :=
  if level = QuoteSecondary then style.Inner else style.Outer

mutual
/-- Go: the body of the loop of `printInlines` for one item: what it writes. -/
def printInline (style : Style) : Inline → String
  | .Word S => S
  | .Space kind =>
    match kind with
    | .SpaceNBSP => String.singleton (Char.ofNat 0xA0)
    | .SpaceThin => String.singleton (Char.ofNat 0x2009)
    | _ => " "
  | .Punct ch => String.singleton ch
  | .Dash kind =>
    match kind with
    | .DashNDash => "–"
    | .DashEmDash => "—"
    | _ => "-"
  | .Ellipsis => "…"
  | .ParenSpan o cl c =>
    String.singleton o ++ printInlines style c ++ String.singleton cl
  | .QuoteSpan level c =>
    String.singleton (pairForLevel style level).Open ++ printInlines style c
      ++ String.singleton (pairForLevel style level).Close
/-- Go: `printInlines`. -/
def printInlines (style : Style) : List Inline → String
  | [] => ""
  | item :: rest => printInline style item ++ printInlines style rest
end

/-- Go: `printContentsBlock`. -/
def printContentsBlock (title : List Inline) (entries : List ContentsEntry) (style : Style) :
    String :=
  Join (printInlines style title :: entries.map fun e => printInlines style e.In) "\n"

/-- Go: the body of the loop of `printPlain` for one block: the part it appends. -/
def printPlainBlock (style : Style) : Block → String
  | .TitleBlock ins => printInlines style ins
  | .Paragraph ins => printInlines style ins
  | .Heading level ins => Repeat "#" level ++ " " ++ printInlines style ins
  | .ContentsBlock ins entries => printContentsBlock ins entries style
  | .MetaLineBlock key ins =>
    let value := printInlines style ins
    if value = "" then key ++ ":" else key ++ ": " ++ value
  | .DialogueBlock turns => Join (turns.map fun t => printInlines style t.In) "\n"
  | .SceneBreak _ => "***"

/-- Go: `printPlain`. -/
def printPlain (doc : Document) : String :=
  Join (doc.Blocks.map (printPlainBlock doc.Style)) "\n\n"

/-- Go: `Print`, which is `PrintWithFormat(doc, FormatPlain)`. -/
def Print (doc : Document) : String :=
  printPlain doc

/-- Go: `formatText` of `golden_test.go`, the pipeline the specification calls formatting. -/
def formatText [Unicode] (input : String) (cfg : Config) : String :=
  Print (Apply (Parse input cfg) cfg)

/-- Go: the two errors `config.New` returns, `fmt.Errorf("unsupported --lang value %q ...")`
and `fmt.Errorf("unsupported --inner-quotes value %q ...")`, with the value they quote. -/
inductive ConfigError
  | unsupportedLang (value : String)
  | unsupportedInnerQuotes (value : String)
  deriving DecidableEq, Repr, Inhabited

/-- Go: `validateLang`; `none` stands for the result `nil`. -/
def validateLang (lang : Lang) : Option ConfigError :=
  if lang = LangEN || lang = LangRU || lang = LangUA then none
  else some (.unsupportedLang lang)

/-- Go: `validateInnerQuotes`; `none` stands for the result `nil`. -/
def validateInnerQuotes (inner : InnerQuotes) : Option ConfigError :=
  if inner = InnerQuotesGerman || inner = InnerQuotesEnglish || inner = InnerQuotesGuillemet
  then none
  else some (.unsupportedInnerQuotes inner)

/-- Go: `config.New`. -/
def New [Unicode] (langRaw innerRaw : String) (useNBSP : Bool) : Except ConfigError Config :=
  let cfg := { DefaultConfig with UseNBSP := useNBSP }
  let cfg := if langRaw != "" then { cfg with Lang := stringsToLower langRaw } else cfg
  match validateLang cfg.Lang with
  | some err => .error err
  | none =>
    let cfg := { cfg with Style := defaultStyleForLang cfg.Lang }
    if innerRaw != "" then
      let inner := stringsToLower innerRaw
      match validateInnerQuotes inner with
      | some err => .error err
      | none =>
        .ok { cfg with InnerQuotes := inner,
                       Style := { cfg.Style with Inner := innerPair inner } }
    else .ok cfg

/-- Go: the zero value `Config{}`, which `config.New` returns beside an error. -/
def zeroConfig : Config :=
  { Lang := "", InnerQuotes := "", UseNBSP := false,
    Style := { Outer := { Open := zeroRune, Close := zeroRune },
               Inner := { Open := zeroRune, Close := zeroRune } } }

/-- Go: the two results `(Config, error)` of `config.New` side by side: the Config and `nil`
on success, `Config{}` and the error on failure. -/
def NewPair [Unicode] (langRaw innerRaw : String) (useNBSP : Bool) :
    Config × Option ConfigError :=
  match New langRaw innerRaw useNBSP with
  | .ok cfg => (cfg, none)
  | .error err => (zeroConfig, some err)

/-! ## Definitions used to state the claims -/

/-- Claim C10, the table of the specification for the space between two neighbours: the
first rule that applies decides. -/
def needSpaceTable (prev cur : Inline) : Bool :=
  let tightRight : Bool :=
    match cur with
    | .Ellipsis => true
    | .Punct ch => ch ∈ [',', '.', ';', ':', '!', '?']
    | _ => false
  let hyphenOrEnDash : Inline → Bool := fun x =>
    match x with
    | .Dash .DashHyphen => true
    | .Dash .DashNDash => true
    | _ => false
  let emDash : Inline → Bool := fun x =>
    match x with
    | .Dash .DashEmDash => true
    | _ => false
  let wordLike : Inline → Bool := fun x =>
    match x with
    | .Word _ => true
    | .QuoteSpan _ _ => true
    | .ParenSpan _ _ _ => true
    | _ => false
  let sentencePunctOrEllipsis : Bool :=
    match prev with
    | .Ellipsis => true
    | .Punct ch => ch ∈ [',', ';', ':', '.', '?', '!']
    | _ => false
  if tightRight then false
  else if hyphenOrEnDash prev || hyphenOrEnDash cur then false
  else if emDash cur then true
  else if emDash prev then true
  else if sentencePunctOrEllipsis then wordLike cur
  else wordLike prev && wordLike cur

/-- Claim C3, the test of the specification: after dropping leading Spaces the turn is
empty, or is one Dash followed only by Spaces. -/
def dialogueTurnIsEmpty (ins : List Inline) : Bool :=
  match ins.dropWhile isSpace with
  | [] => true
  | .Dash _ :: tail => tail.all isSpace
  | _ => false

/-- Claim C3, the content of a turn as the specification words it: leading Spaces removed,
one leading Dash removed, Spaces after that Dash removed. -/
def dialogueTurnContent (ins : List Inline) : List Inline :=
  match ins.dropWhile isSpace with
  | .Dash _ :: tail => tail.dropWhile isSpace
  | t => t

mutual
/-- Claim C4: `quoteLevelsAlternateItem d item` holds when every QuoteSpan in `item`, with
`d` QuoteSpans around `item`, has level Primary at an odd nesting depth and Secondary at an
even one; a ParenSpan is not counted. -/
def quoteLevelsAlternateItem : Nat → Inline → Bool
  | d, .QuoteSpan level c =>
    (if Odd (d + 1) then decide (level = QuotePrimary) else decide (level = QuoteSecondary))
      && quoteLevelsAlternate (d + 1) c
  | d, .ParenSpan _ _ c => quoteLevelsAlternate d c
  | _, _ => true
/-- Claim C4: the same for every item of a list. -/
def quoteLevelsAlternate : Nat → List Inline → Bool
  | _, [] => true
  | d, item :: rest => quoteLevelsAlternateItem d item && quoteLevelsAlternate d rest
end

mutual
/-- Claim C4: the item with the level of every QuoteSpan in it reset to zero. -/
def eraseQuoteLevelsItem : Inline → Inline
  | .QuoteSpan _ c => .QuoteSpan 0 (eraseQuoteLevels c)
  | .ParenSpan o cl c => .ParenSpan o cl (eraseQuoteLevels c)
  | item => item
/-- Claim C4: the list with the level of every QuoteSpan in it reset to zero. -/
def eraseQuoteLevels : List Inline → List Inline
  | [] => []
  | item :: rest => eraseQuoteLevelsItem item :: eraseQuoteLevels rest
end

/-- Claim C9, the list the specification describes: the items in order, with one Normal
Space before `cur` for each pair of consecutive items `prev`, `cur` that needs one. -/
def spaceSeparated (items : List Inline) : List Inline :=
  match items with
  | [] => []
  | first :: rest =>
    first :: (List.zip items rest).flatMap fun pc =>
      if needSpaceBetween pc.1 pc.2 then [.Space .SpaceNormal, pc.2] else [pc.2]

/-- Claim C8: a Word whose payload is made of digits only. -/
def isAllDigitWord [Unicode] : Inline → Bool
  | .Word S => S != "" && S.data.all Unicode.IsDigit
  | _ => false

/-- Claim C8: the kind the specification gives a Dash whose immediate neighbours in the
list are `left` and `right` (`none` where the list ends). -/
def dashKindByNeighbours [Unicode] (left right : Option Inline) : DashKind :=
  match left, right with
  | some l, some r =>
    if isSpace l || isSpace r then .DashEmDash
    else if isAllDigitWord l && isAllDigitWord r then .DashNDash
    else
      match l, r with
      | .Word _, .Word _ | .Word _, .QuoteSpan _ _ | .Word _, .ParenSpan _ _ _
      | .QuoteSpan _ _, .Word _ | .QuoteSpan _ _, .QuoteSpan _ _
      | .QuoteSpan _ _, .ParenSpan _ _ _
      | .ParenSpan _ _ _, .Word _ | .ParenSpan _ _ _, .QuoteSpan _ _
      | .ParenSpan _ _ _, .ParenSpan _ _ _ => .DashHyphen
      | _, _ => .DashEmDash
  | _, _ => .DashEmDash

mutual
/-- Claim C8: the item as the specification leaves it, `left` and `right` being its
immediate neighbours in the input list. -/
def reclassifyDashesItem [Unicode] (left right : Option Inline) : Inline → Inline
  | .Dash _ => .Dash (dashKindByNeighbours left right)
  | .QuoteSpan level c => .QuoteSpan level (reclassifyDashes none c)
  | .ParenSpan o cl c => .ParenSpan o cl (reclassifyDashes none c)
  | it => it
/-- Claim C8: the list as the specification leaves it, `left` being the item before it. -/
def reclassifyDashes [Unicode] (left : Option Inline) : List Inline → List Inline
  | [] => []
  | item :: rest =>
    reclassifyDashesItem left rest.head? item :: reclassifyDashes (some item) rest
end

/-- The zipper of claim C8 on one level: children are left alone. -/
def flatDashItem [Unicode] (left right : Option Inline) : Inline → Inline
  | .Dash _ => .Dash (dashKindByNeighbours left right)
  | it => it

/-- The zipper of claim C8 on one level, over a list. -/
def flatDashes [Unicode] (left : Option Inline) : List Inline → List Inline
  | [] => []
  | item :: rest => flatDashItem left rest.head? item :: flatDashes (some item) rest

/-- What the classification of a dash reads in a neighbour. -/
def dashView [Unicode] (x : Inline) : Bool × Bool × Bool :=
  (isSpace x, isWordLike x, isNumericInline x)

/-- The children of a span as claim C8 leaves them. -/
def dashChild [Unicode] : Inline → Inline
  | .QuoteSpan level c => .QuoteSpan level (reclassifyDashes none c)
  | .ParenSpan o cl c => .ParenSpan o cl (reclassifyDashes none c)
  | it => it

mutual
/-- Claim C7: the flattening of a node: a ParenSpan as its open glyph, its flattened
children and its close glyph, every other node as its text. -/
def flattenNode : node → List String
  | .mk kind text _ _ _ _ openRune closeRune children =>
    if kind = .nodeParenSpan then
      String.singleton openRune :: (flattenNodes children ++ [String.singleton closeRune])
    else [text]
/-- Claim C7: the flattening of a list of nodes. -/
def flattenNodes : List node → List String
  | [] => []
  | n :: rest => flattenNode n ++ flattenNodes rest
end

/-- Claim C7: the text of a token is its glyph: one blank for a Space token, the bracket
`ch` for a ParenOpen and a ParenClose token. The tokenizer builds no other token. -/
def tokenTextIsGlyph (tok : token) : Bool :=
  match tok.kind with
  | .tokenSpace => tok.text = " "
  | .tokenParenOpen | .tokenParenClose => tok.text = String.singleton tok.ch
  | _ => true

/-- The texts a state of `buildParenNodes` holds in its open frames, bottom frame first. -/
def flattenParenStack : List parenFrame → List String
  | [] => []
  | top :: below =>
    flattenParenStack below ++ String.singleton top.openRune :: flattenNodes top.nodes

/-- The texts a state of `buildParenNodes` holds. -/
def flattenParenState (st : parenState) : List String :=
  flattenNodes st.root ++ flattenParenStack st.stack

mutual
/-- The quote marks of a node tree: glyph and position of every node of kind
`nodeQuoteMark` in it, at any depth. -/
def quoteMarksOfNode : node → List (Char × Pos)
  | .mk kind _ ch _ pos _ _ _ children =>
    (if kind = .nodeQuoteMark then [(ch, pos)] else []) ++ quoteMarksOf children
/-- The quote marks of a list of node trees. -/
def quoteMarksOf : List node → List (Char × Pos)
  | [] => []
  | n :: rest => quoteMarksOfNode n ++ quoteMarksOf rest
end

/-- The quote marks held by the open frames of `buildParenNodes`. -/
def quoteMarksOfParenStack : List parenFrame → List (Char × Pos)
  | [] => []
  | top :: below => quoteMarksOf top.nodes ++ quoteMarksOfParenStack below

/-- The quote marks held by a state of `buildParenNodes`. -/
def quoteMarksOfParenState (st : parenState) : List (Char × Pos) :=
  quoteMarksOf st.root ++ quoteMarksOfParenStack st.stack

/-- A quote mark that stems from a Quote token of `tokens`. -/
def markFromToken (tokens : List token) (m : Char × Pos) : Prop :=
  ∃ t ∈ tokens, t.kind = .tokenQuote ∧ t.ch = m.1 ∧ t.pos = m.2

/-- The diagnostics of a state of `buildParenNodes` carry the two parenthesis codes. -/
def parenCodes (diags : List Diag) : Prop :=
  ∀ d ∈ diags, d.Code = "PAREN_MISMATCH" ∨ d.Code = "PAREN_UNCLOSED"

/-- A frame of `buildQuoteNodes` that was pushed for a quote mark of `prepared` whose glyph
is an explicit opening quote or a symmetric quote. -/
def frameFromMark (prepared : List node) (f : quoteFrame) : Prop :=
  ∃ n ∈ prepared, n.kind = .nodeQuoteMark ∧ f.quote = n.ch ∧ f.pos = n.pos
    ∧ (isExplicitOpenQuote n.ch = true ∨ isSymmetricQuote n.ch = true)

/-- A diagnostic of `buildQuoteNodes` after the first loop: one the first loop brought, a
QUOTE_MISMATCH, or a QUOTE_UNCLOSED at an explicit opening quote mark of `prepared`. -/
def quoteDiagOK (prepared : List node) (diags0 : List Diag) (d : Diag) : Prop :=
  d ∈ diags0 ∨ d.Code = "QUOTE_MISMATCH"
    ∨ ∃ n ∈ prepared, n.kind = .nodeQuoteMark ∧ isExplicitOpenQuote n.ch = true ∧ d.Pos = n.pos

/-- The invariant of the second loop of `buildQuoteNodes`. -/
def quoteInv (prepared : List node) (diags0 : List Diag) (st : quoteState) : Prop :=
  (∀ f ∈ st.stack, frameFromMark prepared f) ∧ (∀ d ∈ st.diags, quoteDiagOK prepared diags0 d)

/-- A QUOTE_UNCLOSED diagnostic among `diags` sits at an explicit opening quote mark among
`marks`. -/
def unclosedAtMarks (marks : List (Char × Pos)) (diags : List Diag) : Prop :=
  ∀ d ∈ diags, d.Code = "QUOTE_UNCLOSED" →
    ∃ m ∈ marks, isExplicitOpenQuote m.1 = true ∧ m.2 = d.Pos

/-- Claim C2: no two adjacent items of the list are Spaces. -/
def noAdjacentSpaces : List Inline → Bool
  | x :: y :: rest => !(isSpace x && isSpace y) && noAdjacentSpaces (y :: rest)
  | _ => true

/-- Claim C2 for one list, spans not entered: no two adjacent Spaces, no Space at the start,
no Space at the end. -/
def spacingInvariantFlat (l : List Inline) : Bool :=
  noAdjacentSpaces l && !(l.head?.any isSpace) && !(l.getLast?.any isSpace)

mutual
/-- Claim C2 inside one item: the contents of every QuoteSpan and ParenSpan in it, at any
depth, satisfy the spacing invariant. -/
def spansSpacingInvariantItem : Inline → Bool
  | .QuoteSpan _ c => spacingInvariantFlat c && spansSpacingInvariant c
  | .ParenSpan _ _ c => spacingInvariantFlat c && spansSpacingInvariant c
  | _ => true
/-- Claim C2 inside the items of a list. -/
def spansSpacingInvariant : List Inline → Bool
  | [] => true
  | item :: rest => spansSpacingInvariantItem item && spansSpacingInvariant rest
end

/-- Claim C2 for an inline list: the list and, recursively, the contents of every QuoteSpan
and ParenSpan in it have no two adjacent Spaces and neither start nor end with a Space. -/
def spacingInvariant (l : List Inline) : Bool :=
  spacingInvariantFlat l && spansSpacingInvariant l

/-- Claim C2 for a block: the inline lists of a paragraph, a heading, a contents title and
its entries, a meta value and the dialogue turns. -/
def blockSpacingInvariant : Block → Bool
  | .Paragraph ins => spacingInvariant ins
  | .Heading _ ins => spacingInvariant ins
  | .ContentsBlock ins entries =>
    spacingInvariant ins && entries.all fun e => spacingInvariant e.In
  | .MetaLineBlock _ ins => spacingInvariant ins
  | .DialogueBlock turns => turns.all fun t => spacingInvariant t.In
  | _ => true

/-- Claim C2 for a document. -/
def documentSpacingInvariant (doc : Document) : Bool :=
  doc.Blocks.all blockSpacingInvariant

/-- The flat spacing invariant read from the list of the answers of `isSpace`. -/
def noAdjacentTrue : List Bool → Bool
  | x :: y :: rest => !(x && y) && noAdjacentTrue (y :: rest)
  | _ => true

/-- Claim C1, the input of the closed example: the five runes `"x-"y`, the quotes being the
ASCII double quote. -/
def idempotenceInput : String :=
  String.mk [Char.ofNat 0x22, 'x', '-', Char.ofNat 0x22, 'y']

/-- Claim C6, the tokens of the closed example: the tokens of the line `[1) a]`. -/
def enumeratorInBrackets : List token :=
  [ { kind := .tokenParenOpen, text := "[", ch := '[', dashKind := .DashHyphen,
      pos := { Off := 0, Line := 1, Col := 1 } },
    { kind := .tokenWord, text := "1", ch := zeroRune, dashKind := .DashHyphen,
      pos := { Off := 1, Line := 1, Col := 2 } },
    { kind := .tokenParenClose, text := ")", ch := ')', dashKind := .DashHyphen,
      pos := { Off := 2, Line := 1, Col := 3 } },
    { kind := .tokenSpace, text := " ", ch := zeroRune, dashKind := .DashHyphen,
      pos := { Off := 3, Line := 1, Col := 4 } },
    { kind := .tokenWord, text := "a", ch := zeroRune, dashKind := .DashHyphen,
      pos := { Off := 4, Line := 1, Col := 5 } },
    { kind := .tokenParenClose, text := "]", ch := ']', dashKind := .DashHyphen,
      pos := { Off := 5, Line := 1, Col := 6 } } ]

/-- Claim C11: the runes with every occurrence of three full stops, read from left to right
without overlap, replaced by the ellipsis glyph. -/
def replaceTripleDots : List Char → List Char
  | [] => []
  | c :: c1 :: c2 :: rest =>
    if c = '.' ∧ c1 = '.' ∧ c2 = '.' then '…' :: replaceTripleDots rest
    else c :: replaceTripleDots (c1 :: c2 :: rest)
  | c :: rest => c :: replaceTripleDots rest

/-- Claim C11: the rendering of a list of Word and Ellipsis inlines: a Word as its payload,
an Ellipsis as the ellipsis glyph. -/
def renderWordsAndEllipses : List Inline → List Char
  | [] => []
  | .Word S :: rest => S.data ++ renderWordsAndEllipses rest
  | .Ellipsis :: rest => '…' :: renderWordsAndEllipses rest
  | _ :: rest => renderWordsAndEllipses rest

/-- Claim C11: the item is an Ellipsis, or a Word that is not empty and holds neither the
ellipsis glyph nor three full stops in a row. -/
def isEllipsisOrCleanWord : Inline → Prop
  | .Ellipsis => True
  | .Word S => S.data ≠ [] ∧ '…' ∉ S.data ∧ ¬ ['.', '.', '.'] <:+: S.data
  | _ => False

/-- What the buffer of `splitWordEllipsis` satisfies before the remaining runes `rs`: it
holds no ellipsis glyph, and no run of three full stops of `buf ++ rs` starts in it. -/
def ellipsisBufferOK (buf rs : List Char) : Prop :=
  '…' ∉ buf ∧ ∀ p q, buf ++ rs = p ++ '.' :: '.' :: '.' :: q → buf.length ≤ p.length

/-- Claims C13 and C14: the non-space neighbours on the left of a position, nearest first:
the items before it, read backwards, without the Spaces next to the position. -/
def leftNeighbours (before : List Inline) : List Inline :=
  before.reverse.dropWhile isSpace

/-- Claims C13 and C14: the non-space neighbours on the right of a position, nearest
first: the items after it without the Spaces next to the position. -/
def rightNeighbours (after : List Inline) : List Inline :=
  after.dropWhile isSpace

/-- Claim C13: the short words of a language, none for a language other than ru and ua. -/
def shortWordsOf (lang : Lang) : List String :=
  if lang = "ru" then ["в", "к", "с", "у", "о", "и", "а"]
  else if lang = "ua" then ["в", "у", "з", "із", "й", "і"]
  else []

/-- Claim C13: a Word whose lowercased payload is a short word of the language. -/
def isShortWordOf [Unicode] (lang : Lang) : Inline → Bool
  | .Word S => decide (stringsToLower S ∈ shortWordsOf lang)
  | _ => false

/-- Claim C13, as the code has it: a Word that is not empty. -/
def isNonEmptyWord : Inline → Bool
  | .Word S => S != ""
  | _ => false

/-- Claim C14: the Word `№`. -/
def isNumeroWord : Inline → Bool
  | .Word S => S = "№"
  | _ => false

/-- Claim C14: the Punct `.`. -/
def isFullStop : Inline → Bool
  | .Punct ch => ch = '.'
  | _ => false

/-- Claim C14: a Word equal to `стр` once lowercased. -/
def isPageWord [Unicode] : Inline → Bool
  | .Word S => stringsToLower S = "стр"
  | _ => false

/-- Claim C14: a Word that is one upper-case letter. -/
def isUpperLetterWord [Unicode] : Inline → Bool
  | .Word S => S.data.length = 1 && S.data.all fun r => Unicode.IsLetter r && Unicode.IsUpper r
  | _ => false

/-- Claim C14: a Word of more than one rune. -/
def isLongWord : Inline → Bool
  | .Word S => decide (1 < S.data.length)
  | _ => false

/-- Claim C13, as the code has it: the left neighbour is a short word of the language and
the right neighbour is a Word that is not empty. -/
def shortWordRule [Unicode] (lang : Lang) (left right : List Inline) : Bool :=
  left[0]?.any (isShortWordOf lang) && right[0]?.any isNonEmptyWord

/-- Claim C14, Numero: the left neighbour is the Word `№` and the right neighbour is an
all-digit Word. -/
def numeroRule [Unicode] (left right : List Inline) : Bool :=
  left[0]?.any isNumeroWord && right[0]?.any isAllDigitWord

/-- Claim C14, Page abbreviation: the left neighbour is the Punct `.` directly preceded by a
Word that is `стр` once lowercased, and the right neighbour is an all-digit Word. -/
def pageAbbrRule [Unicode] (left right : List Inline) : Bool :=
  left[0]?.any isFullStop && left[1]?.any isPageWord && right[0]?.any isAllDigitWord

/-- Claim C14, Initials: the left neighbour is the Punct `.` directly preceded by a Word of
one upper-case letter, and the right neighbour is either such a Word directly followed by
the Punct `.`, or a Word of more than one rune. -/
def initialsRule [Unicode] (left right : List Inline) : Bool :=
  left[0]?.any isFullStop && left[1]?.any isUpperLetterWord
    && ((right[0]?.any isUpperLetterWord && right[1]?.any isFullStop)
        || right[0]?.any isLongWord)

/-- Claim C14: there is a neighbour on both sides and one of the rules that do not depend
on the language holds between the neighbours. -/
def languageIndependentRule [Unicode] (left right : List Inline) : Bool :=
  !left.isEmpty && !right.isEmpty
    && (numeroRule left right || pageAbbrRule left right || initialsRule left right)

/-- The condition under which the second loop of `applyNBSPList` promotes a Normal Space
with the neighbours `left` and `right`. -/
def nbspRule [Unicode] (lang : Lang) (left right : List Inline) : Bool :=
  shortWordRule lang left right || languageIndependentRule left right

/-- What the second loop of `applyNBSPList` makes of an item with the items `before` and
`after` around it. -/
def promoteSpace [Unicode] (lang : Lang) (before after : List Inline) : Inline → Inline
  | .Space .SpaceNormal =>
    if nbspRule lang (leftNeighbours before) (rightNeighbours after) then .Space .SpaceNBSP
    else .Space .SpaceNormal
  | it => it

/-- What the rules of `applyNBSPList` read in an item: its children and the kind of a Space
do not matter. -/
def nbspView : Inline → Inline
  | .Space _ => .Space .SpaceNormal
  | .QuoteSpan _ _ => .QuoteSpan 0 []
  | .ParenSpan _ _ _ => .ParenSpan ' ' ' ' []
  | it => it

/-- The second loop of `applyNBSPList` on the items `ins` that follow the items
`before`. -/
def promoteFlat [Unicode] (lang : Lang) (before : List Inline) : List Inline → List Inline
  | [] => []
  | x :: rest => promoteSpace lang before rest x :: promoteFlat lang (before ++ [x]) rest

mutual
/-- Claim C12: the item `b` is the item `a`, except that Spaces of kind Normal, in it or
inside it, may have become NonBreaking. -/
def nbspPromotedItem : Inline → Inline → Bool
  | .Space k, b => b = .Space k || (k = .SpaceNormal && b = .Space .SpaceNBSP)
  | .QuoteSpan level c, .QuoteSpan level2 c2 => level = level2 && nbspPromotedList c c2
  | .QuoteSpan _ _, _ => false
  | .ParenSpan o cl c, .ParenSpan o2 cl2 c2 => o = o2 && cl = cl2 && nbspPromotedList c c2
  | .ParenSpan _ _ _, _ => false
  | .Word S, b => b = .Word S
  | .Punct ch, b => b = .Punct ch
  | .Dash k, b => b = .Dash k
  | .Ellipsis, b => b = .Ellipsis
/-- Claim C12: the list `bs` has the length of `as` and is `as` item by item, except that
Spaces of kind Normal may have become NonBreaking. -/
def nbspPromotedList : List Inline → List Inline → Bool
  | [], [] => true
  | a :: as, b :: bs => nbspPromotedItem a b && nbspPromotedList as bs
  | _, _ => false
end

/-- Claim C13: a short word of ru, a Normal Space and a QuoteSpan, the inlines of the text
`в «доме»`. -/
def shortWordBeforeQuote : List Inline :=
  [.Word "в", .Space .SpaceNormal, .QuoteSpan 1 [.Word "доме"]]

/-- Claim C15: the scene-break glyphs. -/
def sceneBreakGlyphs : List Char :=
  ['*', '-', '—', '–', '_', '=', '~', '·', '•', 'x', 'X', 'х', 'Х']

/-- Claim C15: the x-like glyphs, Latin x, X and Cyrillic х, Х. -/
def xLikeGlyphs : List Char := ['x', 'X', 'х', 'Х']

/-- Claim C15: a word that is one x-like glyph. -/
def isXLikeWord (w : String) : Bool :=
  match w.data with
  | [c] => decide (c ∈ xLikeGlyphs)
  | _ => false

/-- Claim C15: what the claim says of a line. Its words are what is left of it after
trimming with whitespace as the only separator; the line is a break when it is three or more
x-like glyphs, each a word of its own, or when its words put together are at least three
runes, all of them scene-break glyphs and not all of them x-like. -/
def sceneBreakSpec [Unicode] (line : String) : Bool :=
  let words := Fields line
  let compact := (words.map String.data).flatten
  (decide (3 ≤ words.length) && words.all isXLikeWord)
    || (decide (3 ≤ compact.length) && compact.all (fun c => decide (c ∈ sceneBreakGlyphs))
        && !compact.all (fun c => decide (c ∈ xLikeGlyphs)))

/-- The runes of a line after its first word: a blank before each further word. -/
def blankBefore (ws : List String) : List Char :=
  (ws.map fun w => ' ' :: w.data).flatten

/-- Claim C16: what the claim says of a line, with `ws` as the whitespace characters: the
first character that is not whitespace is `-` or `—` and the character right after it is
whitespace. -/
def dialogueLineSpec (ws : Char → Bool) (s : String) : Bool :=
  match s.data.dropWhile ws with
  | c :: next :: _ => (c = '-' || c = '—') && ws next
  | _ => false

/-- Claim C16: the characters `strings.TrimLeft(s, " \t")` removes, the space and the
tab. -/
def isBlankOrTab (c : Char) : Bool :=
  c = ' ' || c = '\t'

/-- Claim C17: a title line, a line of dashes, a blank line and a body line. -/
def leadingTitleInput : String :=
  "Заглавие\n-----\n\nТекст."

/-- Claim C17: the block is a TitleBlock. -/
def isTitleBlock : Block → Bool
  | .TitleBlock _ => true
  | _ => false

/-- Claim C19: the outer pair of a language: “ ” for en, « » for ru and ua. -/
def outerPairOf (lang : Lang) : Option QuotePair :=
  if lang = "en" then some { Open := '“', Close := '”' }
  else if lang = "ru" ∨ lang = "ua" then some { Open := '«', Close := '»' }
  else none

/-- Claim C19: the default inner pair of a language: ‘ ’ for en, „ “ for ru and ua. -/
def defaultInnerPairOf (lang : Lang) : Option QuotePair :=
  if lang = "en" then some { Open := '‘', Close := '’' }
  else if lang = "ru" ∨ lang = "ua" then some { Open := '„', Close := '“' }
  else none

/-- Claim C19: the inner pair of an inner-quotes option: „ “ for german, ‘ ’ for english,
« » for guillemets. -/
def innerPairOf (inner : InnerQuotes) : Option QuotePair :=
  if inner = "german" then some { Open := '„', Close := '“' }
  else if inner = "english" then some { Open := '‘', Close := '’' }
  else if inner = "guillemets" then some { Open := '«', Close := '»' }
  else none

/-- Claims C18 and C19: the arguments `config.New` rejects: a language that is not empty and
is not en, ru or ua once lowercased, or an inner-quotes option that is not empty and is not
german, english or guillemets once lowercased. -/
def newRejects [Unicode] (lang inner : String) : Prop :=
  (lang ≠ "" ∧ stringsToLower lang ∉ ["en", "ru", "ua"])
    ∨ (inner ≠ "" ∧ stringsToLower inner ∉ ["german", "english", "guillemets"])

/-- Claim C20: the DIALOGUE_EMPTY diagnostics of the blocks: one for each dialogue turn that
is the lone EmDash, in block and turn order. -/
def emptyTurnDiags : List Block → List Diag
  | [] => []
  | .DialogueBlock turns :: rest =>
    ((turns.filter fun t => t.In = [.Dash .DashEmDash]).map fun _ => dialogueEmptyDiag)
      ++ emptyTurnDiags rest
  | _ :: rest => emptyTurnDiags rest

/-- Claim C21: the glyph of a Dash of the kind: `-` for Hyphen, `–` for EnDash, `—` for
EmDash. -/
def dashGlyph : DashKind → Char
  | .DashHyphen => '-'
  | .DashNDash => '–'
  | .DashEmDash => '—'

/-- Claim C21: the glyph of a Space of the kind: U+0020 for Normal, U+00A0 for NonBreaking,
U+2009 for Thin. -/
def spaceGlyph : SpaceKind → Char
  | .SpaceNormal => Char.ofNat 0x20
  | .SpaceNBSP => Char.ofNat 0xA0
  | .SpaceThin => Char.ofNat 0x2009

mutual
/-- Claim C21: the runes the claim gives an inline: a Word is its payload and a Punct its
rune; a QuoteSpan takes the outer pair of the style at the level Primary and the inner pair
at the level Secondary, and no rendering is claimed at any other level. -/
def renderInline (style : Style) : Inline → Option (List Char)
  | .Word S => some S.data
  | .Punct ch => some [ch]
  | .Space kind => some [spaceGlyph kind]
  | .Dash kind => some [dashGlyph kind]
  | .Ellipsis => some ['…']
  | .ParenSpan o cl c => (renderInlines style c).map fun inner => o :: (inner ++ [cl])
  | .QuoteSpan level c =>
    if level = QuotePrimary then
      (renderInlines style c).map fun inner =>
        style.Outer.Open :: (inner ++ [style.Outer.Close])
    else if level = QuoteSecondary then
      (renderInlines style c).map fun inner =>
        style.Inner.Open :: (inner ++ [style.Inner.Close])
    else none
/-- Claim C21: the runes the claim gives a list of inlines, one after the other. -/
def renderInlines (style : Style) : List Inline → Option (List Char)
  | [] => some []
  | item :: rest =>
    match renderInline style item, renderInlines style rest with
    | some a, some b => some (a ++ b)
    | _, _ => none
end

/-- Claim C28: the nodes `buildQuoteNodes` works on for the line `a:" b`: `a`, a colon, a
quote, a space and `b`. -/
def colonQuoteNodes : List node :=
  (@prepareQuoteNodes basicTables (@buildParenNodes basicTables
    (@tokensOfLines basicTables [String.mk ['a', ':', Char.ofNat 0x22, ' ', 'b']]
      [1] [1] true)).1).1

/-- Claims C27 and C28: there is a space to the left of the node at `idx`. -/
def spaceToTheLeft (nodes : List node) (idx : Nat) : Bool :=
  decide (0 < idx) && nodes[idx - 1]?.any fun n => n.kind = .nodeSpace

/-- Claims C27 and C28: there is a space to the right of the node at `idx`. -/
def spaceToTheRight (nodes : List node) (idx : Nat) : Bool :=
  nodes[idx + 1]?.any fun n => n.kind = .nodeSpace

/-- Claim C28 as the claim states it: the next non-space node suggests an open, and no
previous non-space node exists, or the previous one suggests an open, or a frame is open
with a space to the left and none to the right, or there is a space to the left. -/
def openSymmetricClaim [Unicode] (nodes : List node) (idx stackOpen : Nat) : Bool :=
  (nextSignificant nodes idx).any nextSuggestsQuoteOpen
    && ((prevSignificant nodes idx).isNone
        || (prevSignificant nodes idx).any prevSuggestsQuoteOpen
        || (decide (0 < stackOpen) && spaceToTheLeft nodes idx && !spaceToTheRight nodes idx)
        || spaceToTheLeft nodes idx)

/-- Claim C28, amended: as `openSymmetricClaim`, but when a previous non-space node exists
the quote must not have a space to its right and none to its left. -/
def openSymmetricSpec [Unicode] (nodes : List node) (idx stackOpen : Nat) : Bool :=
  (nextSignificant nodes idx).any nextSuggestsQuoteOpen
    && ((prevSignificant nodes idx).isNone
        || (!(!spaceToTheLeft nodes idx && spaceToTheRight nodes idx)
            && ((prevSignificant nodes idx).any prevSuggestsQuoteOpen
                || (decide (0 < stackOpen) && spaceToTheLeft nodes idx
                    && !spaceToTheRight nodes idx)
                || spaceToTheLeft nodes idx)))

/-- Claim C27: the nodes `buildQuoteNodes` works on for the two lines `"а б "` and `в`,
joined with a space: a quote, `а`, a space, `б`, a space, a quote at the end of the first
line, the joining space, and `в` on the second line. -/
def lineEndQuoteNodes : List node :=
  (@prepareQuoteNodes basicTables (@buildParenNodes basicTables
    (@tokensOfLines basicTables [String.mk [Char.ofNat 0x22, 'а', ' ', 'б', ' ', Char.ofNat 0x22],
      "в"] [1, 2] [1, 1] true)).1).1

/-- Claim C27 as the claim states it: a frame is open, a previous non-space node exists,
and no next non-space node exists, or there is no space to the left and one to the right,
or the previous node suggests a close and not both a space is to the left and the next node
suggests an open, or the next node suggests a close, or the previous node suggests a close
and the next node is on a later line than the quote. -/
def closeSymmetricClaim [Unicode] (nodes : List node) (idx stackOpen : Nat) : Bool :=
  decide (0 < stackOpen) && (prevSignificant nodes idx).isSome
    && ((nextSignificant nodes idx).isNone
        || (!spaceToTheLeft nodes idx && spaceToTheRight nodes idx)
        || ((prevSignificant nodes idx).any prevSuggestsQuoteClose
            && !(spaceToTheLeft nodes idx
                && (nextSignificant nodes idx).any nextSuggestsQuoteOpen))
        || (nextSignificant nodes idx).any nextSuggestsQuoteClose
        || ((prevSignificant nodes idx).any prevSuggestsQuoteClose
            && (nextSignificant nodes idx).any fun next =>
                nodes[idx]?.any fun quote => decide (quote.pos.Line < next.pos.Line)))

/-- Claim C26: a rune that is whitespace or a scene-break glyph. -/
def isBreakOrSpace [Unicode] (c : Char) : Bool :=
  Unicode.IsSpace c || decide (c ∈ sceneBreakGlyphs)

/-- Claim C26 as the claim states it, for a line with a letter or digit: the text after the
last letter or digit is made of scene-break glyphs and whitespace only and has at least six
runes that are not whitespace; the lead is then the line up to that letter or digit and the
tail the text after it, both trimmed. -/
def trailingBreakClaim [Unicode] (line : String) : Option (String × String) :=
  let isAlnum := fun c => Unicode.IsLetter c || Unicode.IsDigit c
  let after := (line.data.reverse.takeWhile fun c => !isAlnum c).reverse
  let upTo := (line.data.reverse.dropWhile fun c => !isAlnum c).reverse
  if after.all isBreakOrSpace && decide (6 ≤ (after.filter fun c => !Unicode.IsSpace c).length)
  then some (TrimSpace (String.mk upTo), TrimSpace (String.mk after))
  else none

/-- Claim C30: the line starts with a space or a tab. -/
def startsWithSpaceOrTab (line : String) : Bool :=
  line.data.head?.any fun c => c = ' ' || c = '\t'

/-- Claim C30: the condition of the claim on two consecutive lines: exactly one of them is
a dialogue line, or the later one starts with a space or tab and the earlier one does not. -/
def partBoundaryClaim [Unicode] (prev cur : String) : Bool :=
  xor (isDialogueLine prev) (isDialogueLine cur)
    || (startsWithSpaceOrTab cur && !startsWithSpaceOrTab prev)

/-- Claim C30: the condition of the claim holds between the last line of one part and the
first line of the next. -/
def boundaryAt [Unicode] (p q : List String) : Bool :=
  match p.getLast?, q.head? with
  | some a, some c => partBoundaryClaim a c
  | _, _ => false

/-- Claim C30: the parts split the lines exactly at the boundaries of the claim: put end to
end they are the lines, none is empty, no two consecutive lines of one part meet the
condition, and the last line of each part and the first line of the next meet it. -/
def splitsAtBoundaries [Unicode] (lines : List String) (parts : List (List String)) : Prop :=
  parts.flatten = lines
    ∧ (∀ p ∈ parts, p ≠ [] ∧ p.Chain' fun a c => partBoundaryClaim a c = false)
    ∧ parts.Chain' fun p q => boundaryAt p q = true

/-- Claim C23, amended: a rune a key may hold after its first: a letter, a number (a rune of
the class `\p{N}`, `unicode.IsNumber`: the digits and the other numbers, such as `½`), `_`
or `-`. -/
def isKeyRuneClaim [Unicode] (c : Char) : Prop :=
  Unicode.IsLetter c = true ∨ Unicode.IsNumber c = true ∨ c = '_' ∨ c = '-'

/-- Claim C23, amended: the normalized line `t` consists of the key, which starts with a
letter and has 2 to 31 runes, each after the first a letter, a number, `_` or `-`, followed
by a colon,
whitespace and a text that is not empty, and `value` is that text trimmed. -/
def metaLineClaim [Unicode] (t key value : String) : Prop :=
  ∃ (first : Char) (tail ws rest : List Char),
    t.data = first :: tail ++ ':' :: ws ++ rest
      ∧ key = String.mk (first :: tail)
      ∧ Unicode.IsLetter first = true
      ∧ (∀ c ∈ tail, isKeyRuneClaim c)
      ∧ 2 ≤ (first :: tail).length ∧ (first :: tail).length ≤ 31
      ∧ ws ≠ [] ∧ (∀ c ∈ ws, Unicode.IsSpace c = true)
      ∧ rest ≠ []
      ∧ value = TrimSpace (String.mk rest)

/-- The shape of the runes of a normalized line, or of the end of one: the only whitespace
in it is the space U+0020, no two whitespace runes are neighbours, and the last rune is not
whitespace. -/
def tidyRunes [Unicode] (d : List Char) : Prop :=
  (∀ c ∈ d, Unicode.IsSpace c = true → c = ' ')
    ∧ d.Chain' (fun a b => ¬ (Unicode.IsSpace a = true ∧ Unicode.IsSpace b = true))
    ∧ (∀ c, d.getLast? = some c → Unicode.IsSpace c = false)

/-- Claim C24: `after` is whitespace followed by the text `text`, which is not empty. -/
def spaceThenText [Unicode] (after text : List Char) : Prop :=
  ∃ ws, after = ws ++ text ∧ ws ≠ [] ∧ (∀ c ∈ ws, Unicode.IsSpace c = true) ∧ text ≠ []

/-- Claim C24: the normalized line `t` is made of `n` runes `#`, with `n` from one to six,
whitespace and the text `text`, which is not empty. -/
def isHashHeading [Unicode] (t : String) (n : Nat) (text : String) : Prop :=
  1 ≤ n ∧ n ≤ 6 ∧ ∃ after, t.data = List.replicate n '#' ++ after
    ∧ spaceThenText after text.data

/-- Claim C24: the keywords of level 1. -/
def levelOneKeywords : List String :=
  ["часть", "частина", "part", "книга", "book", "том", "volume"]

/-- The level `parseHeading` gives a heading that starts with the text `kw`: 1 when `kw`,
lowered rune by rune with `unicode.ToLower`, is one of the keywords of level 1, and 2
otherwise. -/
def keywordLevel [Unicode] (kw : String) : Nat :=
  if stringsToLower kw ∈ levelOneKeywords then 1 else 2

/-- Claim C24: the line `t` starts with the text `kw`, which is a chapter keyword up to the
case of its letters, followed by whitespace and a remainder that is not empty. -/
def isKeywordHeading [Unicode] (t : String) (kw : String) : Prop :=
  (∃ w ∈ bookHeadingWords, foldEqWord w.data kw.data = true)
    ∧ ∃ after rem, t.data = kw.data ++ after ∧ spaceThenText after rem

/-- The three cases of claim C24 for the result `res` of `parseHeading` on a line, with the
level of a keyword heading taken from the matched text as `keywordLevel` does: a normalized
line of `#`, whitespace and text gives the number of `#` and the text; failing that, a line
that starts with a chapter keyword after its decorations are trimmed gives `keywordLevel` of
the text matched (and the trimmed line as body); anything else gives no heading; and a level
returned is from 1 to 6. -/
def headingClaim [Unicode] (line : String) (res : Option (Nat × String)) : Prop :=
  (∀ n text, isHashHeading (normalizeStructureLine line) n text → res = some (n, text))
    ∧ ((¬ ∃ n text, isHashHeading (normalizeStructureLine line) n text) →
        (∀ kw, isKeywordHeading (trimHeadingDecorations (normalizeStructureLine line)) kw →
            res = some (keywordLevel kw, trimHeadingDecorations (normalizeStructureLine line)))
          ∧ ((¬ ∃ kw, isKeywordHeading (trimHeadingDecorations (normalizeStructureLine line)) kw)
              → res = none))
    ∧ (∀ level body, res = some (level, body) → 1 ≤ level ∧ level ≤ 6)

/-- The letters of the chapter keywords. -/
def keywordLetters : List Char :=
  ['г', 'л', 'а', 'в', 'c', 'h', 'p', 't', 'e', 'r', 'ч', 'с', 'т', 'ь', 'и', 'н', 'р', 'з',
    'д', 'е', 's', 'i', 'o', 'n', 'к', 'b', 'k', 'о', 'м', 'v', 'l', 'u', 'm', 'і', 'a']

/-- One iteration of the loop of `tokenizeInline` at the index `i`, where the rune is `r`:
the index at which the next iteration starts and the tokens the iteration appends. -/
def nextToken [Unicode] (runes : List Char) (line i col off : Nat) (r : Char) :
    Nat × List token :=
  let pos : Pos := { Line := line, Col := col, Off := off }
  if isIgnorableInlineRune r then (i + 1, [])
  else if Unicode.IsSpace r then
    (scanWhile (fun k => (runes[k]?.any Unicode.IsSpace)) (runes.length - i) i,
      [{ kind := .tokenSpace, text := " ", ch := zeroRune, dashKind := .DashHyphen,
         pos := pos }])
  else if r = '.' && runes[i + 1]? = some '.' && runes[i + 2]? = some '.' then
    (i + 3, [{ kind := .tokenEllipsis, text := "...", ch := zeroRune,
               dashKind := .DashHyphen, pos := pos }])
  else if r = '…' then
    (i + 1, [{ kind := .tokenEllipsis, text := "…", ch := zeroRune,
               dashKind := .DashHyphen, pos := pos }])
  else if r = '-' || r = '–' || r = '—' then
    (i + 1, [{ kind := .tokenDash, text := String.singleton r, ch := r,
               dashKind := dashKindFromRune r, pos := pos }])
  else if r = '(' || r = '[' then (i + 1, [runeToken .tokenParenOpen r pos])
  else if r = ')' || r = ']' then (i + 1, [runeToken .tokenParenClose r pos])
  else if r ∈ punctRunes then (i + 1, [runeToken .tokenPunct r pos])
  else if r ∈ quoteRunes then (i + 1, [runeToken .tokenQuote r pos])
  else
    let j := scanWhile (fun k => decide (k < runes.length) && isWordRune runes k)
      (runes.length - i) i
    if j > i then
      (j, [{ kind := .tokenWord, text := String.mk ((runes.drop i).take (j - i)),
             ch := zeroRune, dashKind := .DashHyphen, pos := pos }])
    else
      (i + 1, [{ kind := .tokenWord, text := String.singleton r, ch := zeroRune,
                 dashKind := .DashHyphen, pos := pos }])

/-- The runes that start a token of their own in `tokenizeInline`: the ellipsis, the three
dashes, the brackets, the punctuation and the quotation marks. -/
def otherTokenRunes : List Char :=
  ['…', '-', '–', '—', '(', '[', ')', ']'] ++ punctRunes ++ quoteRunes

/-- Claim C25: the rune before the index `k` and the rune after it exist and are letters. -/
def betweenLetters [Unicode] (runes : List Char) (k : Nat) : Bool :=
  decide (0 < k) && (runes[k - 1]?.any Unicode.IsLetter)
    && (runes[k + 1]?.any Unicode.IsLetter)

/-- Claim C25: the token is a Word that holds, at the place of the rune of index `k` of the
line, a `-`. -/
def hyphenInWord (tk : token) (k : Nat) : Prop :=
  tk.kind = .tokenWord ∧ tk.pos.Off ≤ k ∧ tk.text.data[k - tk.pos.Off]? = some '-'

/-- Claim C25: the token is a Dash of kind Hyphen made of the rune of index `k` of the
line. -/
def hyphenDashAt (tk : token) (k : Nat) : Prop :=
  tk.kind = .tokenDash ∧ tk.dashKind = .DashHyphen ∧ tk.ch = '-' ∧ tk.pos.Off = k

/-- Claim C31: the rune lengths of the lines of a candidate, each line trimmed. -/
def trimmedLengths [Unicode] (lines : List String) : List Nat :=
  lines.map fun line => (TrimSpace line).data.length

/-- Claim C31: the exact average of the lengths, a rational number. -/
def exactAverage (lens : List Nat) : ℚ :=
  (lens.sum : ℚ) / (lens.length : ℚ)

/-- Claim C31: the share of the lengths that are at least 120, a rational number. -/
def longShare (lens : List Nat) : ℚ :=
  ((lens.filter fun l => 120 ≤ l).length : ℚ) / (lens.length : ℚ)

/-- Claim C31: the condition of the claim on a candidate: at least two lines, every line
starts with a space or a tab, and the exact average of the trimmed lengths is at least 140
or at least 60% of the lines have a trimmed length of at least 120. -/
def longIndentedClaim [Unicode] (lines : List String) : Prop :=
  2 ≤ lines.length ∧ (∀ l ∈ lines, startsWithSpaceOrTab l = true)
    ∧ (140 ≤ exactAverage (trimmedLengths lines)
        ∨ (60 : ℚ) / 100 ≤ longShare (trimmedLengths lines))

/-- Claim C32: the document of one block, in the language ru with its default style. -/
def oneBlockDocument (b : Block) : Document :=
  { Lang := LangRU, Style := DefaultConfig.Style, Blocks := [b], Diags := [] }

/-- Claim C32: an inline list with a doubled Space, three full stops and a hyphen between
words. -/
def unfoldedInlines : List Inline :=
  [.Word "а", .Space .SpaceNormal, .Space .SpaceNormal, .Word "б", .Punct '.', .Punct '.',
    .Punct '.', .Dash .DashHyphen, .Word "в"]

/-- Claim C33: the Word is not empty and is made of digits only or of Roman-numeral letters
(I V X L C D M in either case) only. -/
def isEnumerationPayload [Unicode] (s : String) : Bool :=
  decide (s ≠ "") && (s.data.all Unicode.IsDigit
    || s.data.all fun r => decide (Unicode.ToUpper r ∈ ['I', 'V', 'X', 'L', 'C', 'D', 'M']))

/-- Claim C33: the token at `idx` is a closing bracket `)`. -/
def isCloseParenAt (tokens : List token) (idx : Nat) : Bool :=
  tokens[idx]?.any fun tok => decide (tok.kind = .tokenParenClose) && decide (tok.ch = ')')

/-- Claim C33: the nearest non-space token before `idx` is a Word of digits or of
Roman-numeral letters. -/
def enumerationWordBefore [Unicode] (tokens : List token) (idx : Nat) : Bool :=
  (prevNonSpaceToken tokens idx).any fun prev =>
    decide (prev.kind = .tokenWord) && isEnumerationPayload prev.text

/-- Claim C33: the token right after `idx` is a Space. -/
def spaceRightAfter (tokens : List token) (idx : Nat) : Bool :=
  tokens[idx + 1]?.any fun after => decide (after.kind = .tokenSpace)

/-- Claim C33: the token is a Word, a quote mark or an opening bracket. -/
def startsNewItem (tok : token) : Bool :=
  decide (tok.kind = .tokenWord) || decide (tok.kind = .tokenQuote)
    || decide (tok.kind = .tokenParenOpen)

/-- Claim C33 as the claim states it: the token is `)`, an enumeration Word comes before
it, and the nearest non-space token after it is a Word, a quote mark or an opening bracket
with a Space between. -/
def enumeratorCloseClaim [Unicode] (tokens : List token) (idx : Nat) : Bool :=
  isCloseParenAt tokens idx && enumerationWordBefore tokens idx
    && (nextNonSpaceToken tokens idx).any fun next =>
        startsNewItem next && spaceRightAfter tokens idx

/-- Claim C33, amended: the token is `)`, an enumeration Word comes before it, and the
nearest non-space token after it, when there is one and it is a Word, a quote mark or an
opening bracket, has a Space between. -/
def enumeratorCloseSpec [Unicode] (tokens : List token) (idx : Nat) : Bool :=
  isCloseParenAt tokens idx && enumerationWordBefore tokens idx
    && (nextNonSpaceToken tokens idx).all fun next =>
        !startsNewItem next || spaceRightAfter tokens idx

/-- Claim C33: the tokens of the line `1)`. -/
def lineEndEnumerator : List token :=
  @tokenizeInline basicTables "1)" 1 1

/-- Claim C33: the tokens of the line `1), 2)`. -/
def commaEnumerator : List token :=
  @tokenizeInline basicTables "1), 2)" 1 1

/-- Claims C22 and C38: the explicit closing glyphs. -/
def explicitCloseGlyphs : List Char := ['»', '”', '’']

/-- Claim C38: the quote mark node of the glyph `ch` at the position `pos`. -/
def quoteMarkNode (ch : Char) (pos : Pos) : node :=
  .mk .nodeQuoteMark (String.singleton ch) ch .DashHyphen pos 0 zeroRune zeroRune []

/-- Claim C34: the list holds three Punct inlines `.` in a row. -/
def hasThreeFullStops : List Inline → Bool
  | .Punct a :: .Punct b :: .Punct c :: rest =>
    (decide (a = '.') && decide (b = '.') && decide (c = '.'))
      || hasThreeFullStops (.Punct b :: .Punct c :: rest)
  | _ :: rest => hasThreeFullStops rest
  | [] => false

/-- Claim C34: the inlines of the line `а . . .`: a Word and three full stops, each after a
Space. -/
def spacedFullStops : List Inline :=
  [.Word "а", .Space .SpaceNormal, .Punct '.', .Space .SpaceNormal, .Punct '.',
    .Space .SpaceNormal, .Punct '.']

/-- Claim C37: the parts are a partition of the candidate: no part is empty, and the parts
put end to end give back the lines and the line numbers. -/
def isPartitionOf (lines : List String) (lineNums : List Nat) (parts : List candidate) : Prop :=
  (∀ p ∈ parts, p.lines ≠ [])
    ∧ (parts.map fun p => p.lines).flatten = lines
    ∧ (parts.map fun p => p.lineNums).flatten = lineNums

/-- Claim C37: a candidate of two indented lines of 141 runes each, the second of which
starts with a capital letter. -/
def longIndentedLines : List String :=
  [String.mk (' ' :: List.replicate 140 'а'), String.mk (' ' :: 'Б' :: List.replicate 139 'б')]

/-- Claim C39: the blank and the scene-break glyphs, the runes of a normalized scene-break
line. -/
def sceneBreakOrBlank : List Char := ' ' :: sceneBreakGlyphs

/-- Claim C35: the runes of a line that are neither whitespace nor ignorable, in order. -/
def visibleOf [Unicode] (runes : List Char) : List Char :=
  runes.filter fun c => !Unicode.IsSpace c && !isIgnorableInlineRune c

/-- Claim C35: the texts of the tokens other than Space, put together in order. -/
def tokenTexts (tokens : List token) : List Char :=
  ((tokens.filter fun t => t.kind != .tokenSpace).map fun t => t.text.data).flatten

/-- The runes other than letters and digits that `isWordRune` accepts: the two apostrophes,
the numero sign and the hyphen. -/
def wordGlyphs : List Char := [Char.ofNat 0x27, '’', '№', '-']

mutual
/-- The payloads of the Words of an inline, at every nesting level, in order. -/
def wordPayloadsOf : Inline → List String
  | .Word s => [s]
  | .QuoteSpan _ c => wordPayloads c
  | .ParenSpan _ _ c => wordPayloads c
  | _ => []
/-- The payloads of the Words of a list of inlines, at every nesting level, in order. -/
def wordPayloads : List Inline → List String
  | [] => []
  | it :: rest => wordPayloadsOf it ++ wordPayloads rest
end

/-- Claim C29: what the claim says of a Word payload: it is not empty, none of its runes is
whitespace, it holds no `…` and no three full stops in a row. -/
def wordPayloadOK [Unicode] (s : String) : Prop :=
  s ≠ "" ∧ (∀ c ∈ s.data, Unicode.IsSpace c = false) ∧ '…' ∉ s.data
    ∧ ¬ (['.', '.', '.'] <:+: s.data)

/-- The glyphs `buildParenNodes` and `buildQuoteNodes` turn into Words: the brackets and the
quotation marks. -/
def reifiedGlyphs : List Char := ['(', ')', '[', ']'] ++ quoteRunes

/-- A token whose text or glyph may become a Word payload holds a good one. -/
def tokenOK [Unicode] (tok : token) : Prop :=
  match tok.kind with
  | .tokenWord => wordPayloadOK tok.text
  | .tokenParenOpen => tok.text = String.singleton tok.ch ∧ tok.ch ∈ reifiedGlyphs
  | .tokenParenClose => tok.text = String.singleton tok.ch ∧ tok.ch ∈ reifiedGlyphs
  | .tokenQuote => tok.ch ∈ reifiedGlyphs
  | _ => True

mutual
/-- A node whose text or glyph may become a Word payload holds a good one, and so do the
nodes below it. -/
def nodeOK [Unicode] : node → Prop
  | .mk kind text ch _ _ _ _ _ children =>
    (kind = .nodeWord → wordPayloadOK text) ∧ (kind = .nodeQuoteMark → ch ∈ reifiedGlyphs)
      ∧ nodesOK children
/-- Every node of the list is good. -/
def nodesOK [Unicode] : List node → Prop
  | [] => True
  | n :: rest => nodeOK n ∧ nodesOK rest
end

/-- The invariant of the loop of `buildParenNodes`. -/
def parenStateOK [Unicode] (st : parenState) : Prop :=
  nodesOK st.root ∧ ∀ f ∈ st.stack, f.openRune ∈ reifiedGlyphs ∧ nodesOK f.nodes

/-- The invariant of the second loop of `buildQuoteNodes`. -/
def quoteStateOK [Unicode] (st : quoteState) : Prop :=
  nodesOK st.root ∧ ∀ f ∈ st.stack, f.quote ∈ reifiedGlyphs ∧ nodesOK f.nodes

/-- Claim C40: the inline lists of a block: its own list, then those of the entries of a
ContentsBlock, or those of the turns of a DialogueBlock. -/
def blockInlines : Block → List (List Inline)
  | .Paragraph ins => [ins]
  | .DialogueBlock turns => turns.map fun t => t.In
  | .Heading _ ins => [ins]
  | .TitleBlock ins => [ins]
  | .ContentsBlock ins entries => ins :: entries.map fun e => e.In
  | .MetaLineBlock _ ins => [ins]
  | .SceneBreak _ => []

/-- Claim C40: the variant of a block, numbered in the order of the declaration. -/
def blockVariant : Block → Nat
  | .Paragraph _ => 0
  | .DialogueBlock _ => 1
  | .Heading _ _ => 2
  | .TitleBlock _ => 3
  | .ContentsBlock _ _ => 4
  | .MetaLineBlock _ _ => 5
  | .SceneBreak _ => 6

/-- Claim C40: the Word payloads of each inline list of a block, in order. -/
def blockWordPayloads (b : Block) : List (List String) :=
  (blockInlines b).map wordPayloads

/-- Claim C40: the payload holds neither `…` nor three full stops in a row. -/
def noEllipsisInWord (w : String) : Prop :=
  '…' ∉ w.data ∧ ¬ (['.', '.', '.'] <:+: w.data)

/-- Claim C40: the two documents have the same number of blocks, of the same variants in
the same order, with the same Word payloads in each inline list. -/
def sameWordsAndBlocks (a b : Document) : Prop :=
  a.Blocks.map blockVariant = b.Blocks.map blockVariant
    ∧ a.Blocks.map blockWordPayloads = b.Blocks.map blockWordPayloads

/-- Claim C22: the QUOTE_MISMATCH diagnostic at the position of the glyph. -/
def mismatchDiag (p : Char × Pos) : Diag :=
  { Pos := p.2, Code := "QUOTE_MISMATCH", Message := "unexpected closing quote" }

/-- Claim C22: the diagnostic has the code QUOTE_MISMATCH. -/
def isMismatch (d : Diag) : Bool := decide (d.Code = "QUOTE_MISMATCH")

/-- Claim C22: the number of open quote frames after the node `n` at index `i` of the
sequence `all`, when `d` frames are open before it: an explicit opening glyph opens one, an
explicit closing glyph closes one if there is one, a symmetric glyph closes or opens one as
`shouldCloseSymmetric` and `shouldOpenSymmetric` say, and every other node leaves them. -/
def quoteDepthStep [Unicode] (all : List node) (d i : Nat) (n : node) : Nat :=
  if n.kind != .nodeQuoteMark then d
  else if isExplicitOpenQuote n.ch then d + 1
  else if n.ch ∈ explicitCloseGlyphs then d - 1
  else if isSymmetricQuote n.ch then
    if shouldCloseSymmetric all i d then d - 1
    else if shouldOpenSymmetric all i d then d + 1
    else d
  else d

/-- Claim C22: the node is an explicit closing glyph met while no quote frame is open. -/
def isStrayClose (d : Nat) (n : node) : Bool :=
  decide (n.kind = .nodeQuoteMark) && decide (n.ch ∈ explicitCloseGlyphs) && decide (d = 0)

/-- Claim C22: the explicit closing glyphs met while no quote frame is open, with their
positions, among the nodes from index `i` on of the sequence `all`, `d` frames being open at
index `i`. -/
def strayClosesFrom [Unicode] (all : List node) : List node → Nat → Nat → List (Char × Pos)
  | [], _, _ => []
  | n :: rest, i, d =>
    (if isStrayClose d n then [(n.ch, n.pos)] else [])
      ++ strayClosesFrom all rest (i + 1) (quoteDepthStep all d i n)

/-- Claim C22: the explicit closing glyphs of a sequence met while no quote frame is open in
it, in order. -/
def strayCloses [Unicode] (nodes : List node) : List (Char × Pos) :=
  strayClosesFrom nodes nodes 0 0

/-- Claim C22: one QUOTE_MISMATCH for each stray closing glyph of the sequence itself. -/
def ownMismatches [Unicode] (nodes : List node) : List Diag :=
  (strayCloses nodes).map mismatchDiag

mutual
/-- Claim C22: the QUOTE_MISMATCH diagnostics of the sequences inside a node: those of the
children of a ParenSpan, the sequences inside them first. -/
def mismatchesOfNode [Unicode] : node → List Diag
  | .mk kind _ _ _ _ _ _ _ children =>
    if kind = .nodeParenSpan then mismatchesInside children ++ ownMismatches children else []
/-- Claim C22: the QUOTE_MISMATCH diagnostics of the sequences inside the nodes of a
sequence, in order. -/
def mismatchesInside [Unicode] : List node → List Diag
  | [] => []
  | n :: rest => mismatchesOfNode n ++ mismatchesInside rest
end

/-- Claim C22: the nodes of the line `a» («b» c”) d’` after `buildParenNodes`. -/
def strayCloseNodes : List node :=
  (@buildParenNodes basicTables (@tokenizeInline basicTables "a» («b» c”) d’" 1 1)).1

/-- The node without its children. -/
def stripChildren : node → node
  | .mk kind text ch dk pos level o c _ => .mk kind text ch dk pos level o c []

mutual
/-- Claim C36: the leaves of a node that are not quote marks, in order: those of the children
of a ParenSpan or a QuoteSpan, nothing for a quote mark, the node itself otherwise. -/
def nonQuoteLeavesOf : node → List node
  | .mk kind text ch dk pos level o c children =>
    if kind = .nodeParenSpan ∨ kind = .nodeQuoteSpan then nonQuoteLeaves children
    else if kind = .nodeQuoteMark then []
    else [.mk kind text ch dk pos level o c children]
/-- Claim C36: the leaves of a node sequence that are not quote marks, in order. -/
def nonQuoteLeaves : List node → List node
  | [] => []
  | n :: rest => nonQuoteLeavesOf n ++ nonQuoteLeaves rest
end

mutual
/-- Claim C36, amended: the leaves of a node, in order, with the Word of its glyph at its
position in the place of a quote mark. -/
def leavesWithMarksOf : node → List node
  | .mk kind text ch dk pos level o c children =>
    if kind = .nodeParenSpan ∨ kind = .nodeQuoteSpan then leavesWithMarks children
    else if kind = .nodeQuoteMark then [wordNode (String.singleton ch) pos]
    else [.mk kind text ch dk pos level o c children]
/-- Claim C36, amended: the leaves of a node sequence, in order, with the Word of its glyph
in the place of every quote mark. -/
def leavesWithMarks : List node → List node
  | [] => []
  | n :: rest => leavesWithMarksOf n ++ leavesWithMarks rest
end

/-- The leaves that are not quote marks in the open frames of a state of `buildQuoteNodes`,
bottom frame first. -/
def loStack : List quoteFrame → List node
  | [] => []
  | top :: below => loStack below ++ nonQuoteLeaves top.nodes

/-- The leaves in the open frames of a state of `buildQuoteNodes`, bottom frame first, each
frame with the Word of its opening glyph first. -/
def hiStack : List quoteFrame → List node
  | [] => []
  | top :: below =>
    hiStack below ++ wordNode (String.singleton top.quote) top.pos :: leavesWithMarks top.nodes

/-- The leaves that are not quote marks of a state of `buildQuoteNodes`. -/
def loState (st : quoteState) : List node :=
  nonQuoteLeaves st.root ++ loStack st.stack

/-- The leaves of a state of `buildQuoteNodes`, the opening glyphs of its frames as Words. -/
def hiState (st : quoteState) : List node :=
  leavesWithMarks st.root ++ hiStack st.stack

/-- The tables `basicTables` with the numbers of Latin-1 that are not decimal digits: `²`,
`³`, `¹`, `¼`, `½` and `¾` are numbers for `unicode.IsNumber` (category No) and are not
digits for `unicode.IsDigit`, as in Go's tables. -/
def latin1Tables : Unicode :=
  { basicTables with
    IsNumber := fun r =>
      runeIn r 0x30 0x39 || decide (r.toNat = 0xB2) || decide (r.toNat = 0xB3)
        || decide (r.toNat = 0xB9) || runeIn r 0xBC 0xBE }

/-- Claim C23 as worded: a rune a key may hold after its first is a letter, a digit, `_` or
`-`. -/
def isKeyRuneWorded [Unicode] (c : Char) : Prop :=
  Unicode.IsLetter c = true ∨ Unicode.IsDigit c = true ∨ c = '_' ∨ c = '-'

mutual
/-- Claim C40, amended: what is left of an inline when Spaces, Dashes and QuoteSpan levels
are set aside: nothing for a Space or a Dash, the span with its level reset and its children
treated the same way for a QuoteSpan or a ParenSpan, the inline itself otherwise. -/
def coreItem : Inline → List Inline
  | .Space _ => []
  | .Dash _ => []
  | .QuoteSpan _ c => [.QuoteSpan 0 (coreList c)]
  | .ParenSpan o cl c => [.ParenSpan o cl (coreList c)]
  | .Word s => [.Word s]
  | .Punct ch => [.Punct ch]
  | .Ellipsis => [.Ellipsis]
/-- Claim C40, amended: what is left of an inline list when Spaces, Dashes and QuoteSpan
levels are set aside, at every nesting level. -/
def coreList : List Inline → List Inline
  | [] => []
  | it :: rest => coreItem it ++ coreList rest
end

/-- Claim C40, amended: the list with every three adjacent Puncts `.` replaced by one
Ellipsis, from left to right. -/
def foldStopsFlat : List Inline → List Inline
  | [] => []
  | .Punct p1 :: .Punct p2 :: .Punct p3 :: rest2 =>
    if p1 = '.' && p2 = '.' && p3 = '.' then .Ellipsis :: foldStopsFlat rest2
    else .Punct p1 :: foldStopsFlat (.Punct p2 :: .Punct p3 :: rest2)
  | item :: rest => item :: foldStopsFlat rest

mutual
/-- Claim C40, amended: the inline with the full stops folded inside its children. -/
def foldStopsItem : Inline → Inline
  | .QuoteSpan level c => .QuoteSpan level (foldStopsFlat (foldStopsItems c))
  | .ParenSpan o cl c => .ParenSpan o cl (foldStopsFlat (foldStopsItems c))
  | it => it
/-- Claim C40, amended: the inlines of the list with the full stops folded inside their
children. -/
def foldStopsItems : List Inline → List Inline
  | [] => []
  | item :: rest => foldStopsItem item :: foldStopsItems rest
end

/-- Claim C40, amended: the list with every three adjacent Puncts `.` replaced by one
Ellipsis, at every nesting level. -/
def foldFullStops (ins : List Inline) : List Inline :=
  foldStopsFlat (foldStopsItems ins)

/-- Claim C40, amended: the block with `f` applied to each of its inline lists, and nothing
else changed. -/
def mapBlockInlines (f : List Inline → List Inline) : Block → Block
  | .Paragraph ins => .Paragraph (f ins)
  | .DialogueBlock turns => .DialogueBlock (turns.map fun t => { t with In := f t.In })
  | .Heading level ins => .Heading level (f ins)
  | .TitleBlock ins => .TitleBlock (f ins)
  | .ContentsBlock ins entries =>
    .ContentsBlock (f ins) (entries.map fun e => { e with In := f e.In })
  | .MetaLineBlock key ins => .MetaLineBlock key (f ins)
  | .SceneBreak m => .SceneBreak m

/-- Claim C40, amended: the block with the full stops folded in its inline lists; a
TitleBlock is left as it is. -/
def foldStopsBlock : Block → Block
  | .TitleBlock ins => .TitleBlock ins
  | b => mapBlockInlines foldFullStops b

/-- Claim C40, amended: the blocks of `a` are those of `b` with the full stops folded, up to
Spaces, Dashes and QuoteSpan levels. -/
def sameUpToSpacesAndDashes (a b : Document) : Prop :=
  a.Blocks.map (mapBlockInlines coreList)
    = b.Blocks.map fun blk => mapBlockInlines coreList (foldStopsBlock blk)

/-- Claim C40: a document with a dialogue turn, a paragraph with a quotation that ends in
four full stops, and a title with three. -/
def frameDocument : Document :=
  { Lang := LangRU, Style := DefaultConfig.Style,
    Blocks := [.DialogueBlock [{ In := [.Dash .DashHyphen, .Word "да", .Punct '.'] }],
      .Paragraph [.Word "в", .Space .SpaceNormal, .Space .SpaceNormal,
        .QuoteSpan 2 [.Word "дом", .Dash .DashHyphen, .Word "2", .Punct '.', .Punct '.',
          .Punct '.', .Punct '.']],
      .TitleBlock [.Word "т", .Space .SpaceNormal, .Punct '.', .Punct '.', .Punct '.']],
    Diags := [] }

/-! # Theorems -/

/-! ## Spacing: `needSpaceBetween` and `normalizeSpacingList` -/

/-- Claim C10: for every pair of inlines, `needSpaceBetween` is the first applicable rule of
the table of the specification: no before a tight-right item, no next to a Hyphen or EnDash,
yes before and after an EmDash, after sentence punctuation or an Ellipsis yes exactly before
a word-like item, otherwise yes exactly between two word-like items. -/
theorem needSpaceBetween_eq_table (prev cur : Inline) :
    needSpaceBetween prev cur = needSpaceTable prev cur := by
  have tight : ∀ ch : Char,
      (ch = ',' || ch = '.' || ch = ';' || ch = ':' || ch = '?' || ch = '!')
        = decide (ch ∈ [',', '.', ';', ':', '!', '?']) := by
    intro ch
    by_cases h1 : ch = ',' <;> by_cases h2 : ch = '.' <;> by_cases h3 : ch = ';' <;>
      by_cases h4 : ch = ':' <;> by_cases h5 : ch = '?' <;> by_cases h6 : ch = '!' <;>
      simp [h1, h2, h3, h4, h5, h6]
  cases prev with
  | Dash k =>
    cases k <;> cases cur <;>
      simp [needSpaceBetween, needSpaceTable, isTightRight, isHyphenOrNDash, isEmDash,
        startsWordLike, tight]
    all_goals (rename_i k2; cases k2 <;> simp)
  | Punct ch =>
    by_cases hs : ch = ',' ∨ ch = ';' ∨ ch = ':' ∨ ch = '.' ∨ ch = '?' ∨ ch = '!'
    · rcases hs with h | h | h | h | h | h <;> subst h <;> cases cur <;>
        simp [needSpaceBetween, needSpaceTable, isTightRight, isHyphenOrNDash, isEmDash,
          startsWordLike, tight]
      all_goals (rename_i k2; cases k2 <;> simp)
    · simp only [not_or] at hs
      obtain ⟨h1, h2, h3, h4, h5, h6⟩ := hs
      cases cur <;>
        simp [needSpaceBetween, needSpaceTable, isTightRight, isHyphenOrNDash, isEmDash,
          startsWordLike, tight, h1, h2, h3, h4, h5, h6]
      all_goals (rename_i k2; cases k2 <;> simp)
  | _ =>
    cases cur <;>
      simp [needSpaceBetween, needSpaceTable, isTightRight, isHyphenOrNDash, isEmDash,
        startsWordLike, tight]
    all_goals (rename_i k2; cases k2 <;> simp)

/-- The item-level function of the spacing pass is the loop body of `normalizeChildren`
applied with `normalizeSpacingList`. -/
theorem normalizeSpacingItem_eq (item : Inline) :
    normalizeSpacingItem item = normalizeChild normalizeSpacingList item := by
  cases item <;> simp [normalizeSpacingItem, normalizeSpacingList, normalizeChild]

/-- The mutual recursion of the spacing pass is the call
`normalizeChildren(in, normalizeSpacingList)` of the source. -/
theorem normalizeSpacingItems_eq (ins : List Inline) :
    normalizeSpacingItems ins = normalizeChildren ins normalizeSpacingList := by
  induction ins with
  | nil => simp [normalizeSpacingItems, normalizeChildren]
  | cons x xs ih =>
    simp only [normalizeSpacingItems, ih, normalizeChildren, List.map_cons,
      normalizeSpacingItem_eq]

/-- The source's body of `normalizeSpacingList`. -/
theorem normalizeSpacingList_eq (ins : List Inline) :
    normalizeSpacingList ins = rebuildSpacing (normalizeChildren ins normalizeSpacingList) := by
  rw [← normalizeSpacingItems_eq]; rfl

theorem isSpace_normalizeChild (fn : List Inline → List Inline) (item : Inline) :
    isSpace (normalizeChild fn item) = isSpace item := by
  cases item <;> rfl

theorem normalizeChildren_filter (fn : List Inline → List Inline) (ins : List Inline) :
    (normalizeChildren ins fn).filter (fun item => !isSpace item)
      = normalizeChildren (ins.filter fun item => !isSpace item) fn := by
  induction ins with
  | nil => rfl
  | cons x xs ih =>
    simp only [normalizeChildren, List.map_cons, List.filter_cons] at ih ⊢
    rw [isSpace_normalizeChild]
    cases h : isSpace x <;> simp [ih]

theorem spacingLoop_eq (prev : Inline) (rest : List Inline) :
    spacingLoop prev rest = (List.zip (prev :: rest) rest).flatMap fun pc =>
      if needSpaceBetween pc.1 pc.2 then [.Space .SpaceNormal, pc.2] else [pc.2] := by
  induction rest generalizing prev with
  | nil => simp [spacingLoop]
  | cons cur rest ih =>
    simp only [spacingLoop, List.zip_cons_cons, List.flatMap_cons, ih cur]
    split <;> simp

theorem rebuildSpacing_eq (l : List Inline) :
    rebuildSpacing l = spaceSeparated (l.filter fun item => !isSpace item) := by
  unfold rebuildSpacing
  cases l.filter (fun item => !isSpace item) with
  | nil => rfl
  | cons first rest => simp [spaceSeparated, spacingLoop_eq]

/-- Claim C9: `normalizeSpacingList` returns the non-Space items of its input in their
order, the children of QuoteSpans and ParenSpans normalised the same way, with one Normal
Space between two consecutive items exactly when `needSpaceBetween` holds for them and no
other Space; a list of Spaces only yields the empty list. -/
theorem normalizeSpacingList_spec (ins : List Inline) :
    normalizeSpacingList ins
        = spaceSeparated
            (normalizeChildren (ins.filter fun item => !isSpace item) normalizeSpacingList)
      ∧ normalizeSpacingList (ins.filter isSpace) = [] := by
  constructor
  · rw [normalizeSpacingList_eq, rebuildSpacing_eq, normalizeChildren_filter]
  · rw [normalizeSpacingList_eq, rebuildSpacing_eq, normalizeChildren_filter]
    simp [List.filter_filter, normalizeChildren, spaceSeparated]

/-! ## Dialogue turns: `normalizeDialogueTurn` -/

theorem trimLeadingSpaces_eq_dropWhile (ins : List Inline) :
    trimLeadingSpaces ins = ins.dropWhile isSpace := by
  induction ins with
  | nil => rfl
  | cons x xs ih =>
    simp only [trimLeadingSpaces, List.dropWhile]
    cases h : isSpace x <;> simp [ih]

theorem dropWhile_isSpace_head (ins : List Inline) (x : Inline) (rest : List Inline)
    (h : ins.dropWhile isSpace = x :: rest) : isSpace x = false := by
  induction ins with
  | nil => simp at h
  | cons y ys ih =>
    simp only [List.dropWhile] at h
    cases hy : isSpace y
    · simp [hy] at h
      rw [← h.1]; exact hy
    · simp [hy] at h
      exact ih h

theorem dropWhile_isSpace_eq_nil (ins : List Inline) :
    ins.dropWhile isSpace = [] ↔ ins.all isSpace = true := by
  induction ins with
  | nil => simp
  | cons y ys ih =>
    cases hy : isSpace y <;> simp [List.dropWhile, hy, ih]

/-- Claim C3: `normalizeDialogueTurn` returns exactly `[Dash EmDash]` with the flag set when
the turn, leading Spaces dropped, is empty or one Dash followed only by Spaces; otherwise it
returns Dash EmDash, Space Normal and the content of the turn with the flag unset, and that
content starts with an item that is not a Space. -/
theorem normalizeDialogueTurn_shape (ins : List Inline) :
    normalizeDialogueTurn ins =
        (if dialogueTurnIsEmpty ins then ([.Dash .DashEmDash], true)
         else (.Dash .DashEmDash :: .Space .SpaceNormal :: dialogueTurnContent ins, false))
      ∧ (dialogueTurnIsEmpty ins = true ∨
          ∃ x rest, dialogueTurnContent ins = x :: rest ∧ isSpace x = false) := by
  unfold normalizeDialogueTurn dialogueTurnIsEmpty dialogueTurnContent
  rw [trimLeadingSpaces_eq_dropWhile]
  cases h : ins.dropWhile isSpace with
  | nil => simp
  | cons x rest =>
    have hx := dropWhile_isSpace_head ins x rest h
    cases x with
    | Dash k =>
      simp only [trimLeadingSpaces_eq_dropWhile]
      cases h2 : rest.dropWhile isSpace with
      | nil =>
        have := (dropWhile_isSpace_eq_nil rest).1 h2
        simp [this]
      | cons y tail =>
        have hy := dropWhile_isSpace_head rest y tail h2
        have hne : rest.all isSpace ≠ true := by
          intro hall
          rw [(dropWhile_isSpace_eq_nil rest).2 hall] at h2
          cases h2
        simp [hne, hy]
    | Space k => simp [isSpace] at hx
    | Word s => simp [trimLeadingSpaces, isSpace]
    | Punct c => simp [trimLeadingSpaces, isSpace]
    | Ellipsis => simp [trimLeadingSpaces, isSpace]
    | QuoteSpan l c => simp [trimLeadingSpaces, isSpace]
    | ParenSpan o c i => simp [trimLeadingSpaces, isSpace]

/-! ## Quote levels: `normalizeQuoteLevels` -/

mutual
theorem normalizeQuoteLevelsItem_spec : ∀ (item : Inline) (d : Nat),
    quoteLevelsAlternateItem d (normalizeQuoteLevelsItem item d) = true
      ∧ eraseQuoteLevelsItem (normalizeQuoteLevelsItem item d) = eraseQuoteLevelsItem item
  | .QuoteSpan level c, d => by
    have ih := normalizeQuoteLevels_spec c (d + 1)
    simp only [normalizeQuoteLevelsItem, quoteLevelsAlternateItem, eraseQuoteLevelsItem, ih.1,
      ih.2, Bool.and_true, and_true]
    by_cases h : Odd (d + 1)
    · have h2 : (d + 1) % 2 = 1 := Nat.odd_iff.mp h
      simp [h, quoteLevelFromDepth, h2]
    · have h2 : ¬ (d + 1) % 2 = 1 := fun e => h (Nat.odd_iff.mpr e)
      simp [h, quoteLevelFromDepth, h2]
  | .ParenSpan o cl c, d => by
    have ih := normalizeQuoteLevels_spec c d
    simp [normalizeQuoteLevelsItem, quoteLevelsAlternateItem, eraseQuoteLevelsItem, ih.1, ih.2]
  | .Word _, _ => by simp [normalizeQuoteLevelsItem, quoteLevelsAlternateItem]
  | .Space _, _ => by simp [normalizeQuoteLevelsItem, quoteLevelsAlternateItem]
  | .Punct _, _ => by simp [normalizeQuoteLevelsItem, quoteLevelsAlternateItem]
  | .Dash _, _ => by simp [normalizeQuoteLevelsItem, quoteLevelsAlternateItem]
  | .Ellipsis, _ => by simp [normalizeQuoteLevelsItem, quoteLevelsAlternateItem]
theorem normalizeQuoteLevels_spec : ∀ (ins : List Inline) (d : Nat),
    quoteLevelsAlternate d (normalizeQuoteLevels ins d) = true
      ∧ eraseQuoteLevels (normalizeQuoteLevels ins d) = eraseQuoteLevels ins
  | [], _ => by simp [normalizeQuoteLevels, quoteLevelsAlternate]
  | item :: rest, d => by
    have h1 := normalizeQuoteLevelsItem_spec item d
    have h2 := normalizeQuoteLevels_spec rest d
    simp [normalizeQuoteLevels, quoteLevelsAlternate, eraseQuoteLevels, h1.1, h1.2, h2.1, h2.2]
end

/-- Claim C4: after `normalizeQuoteLevels(in, 0)` every QuoteSpan at an odd nesting depth
(QuoteSpans around it and itself counted, ParenSpans not) has level Primary and every
QuoteSpan at an even depth has level Secondary, and the result differs from the input in
the levels of QuoteSpans only. -/
theorem normalizeQuoteLevels_alternate (ins : List Inline) :
    quoteLevelsAlternate 0 (normalizeQuoteLevels ins 0) = true
      ∧ eraseQuoteLevels (normalizeQuoteLevels ins 0) = eraseQuoteLevels ins :=
  normalizeQuoteLevels_spec ins 0

/-! ## Dashes: `classifyDashesList` -/

theorem dashKindByNeighbours_some [Unicode] (l r : Inline) :
    dashKindByNeighbours (some l) (some r) =
      if isSpace l || isSpace r then DashKind.DashEmDash
      else if isNumericInline l && isNumericInline r then DashKind.DashNDash
      else if isWordLike l && isWordLike r then DashKind.DashHyphen
      else DashKind.DashEmDash := by
  cases l <;> cases r <;>
    simp [dashKindByNeighbours, isSpace, isAllDigitWord, isNumericInline, isWordLike]

theorem dashKindByNeighbours_congr [Unicode] (l l2 r r2 : Option Inline)
    (hl : l.map dashView = l2.map dashView) (hr : r.map dashView = r2.map dashView) :
    dashKindByNeighbours l r = dashKindByNeighbours l2 r2 := by
  cases l <;> cases l2 <;> simp at hl
  · simp [dashKindByNeighbours]
  · cases r <;> cases r2 <;> simp at hr
    · simp [dashKindByNeighbours]
    · simp only [dashKindByNeighbours_some]
      simp only [dashView, Prod.mk.injEq] at hl hr
      rw [hl.1, hl.2.1, hl.2.2, hr.1, hr.2.1, hr.2.2]

theorem prevNonSpace_append (pre suf : List Inline) (n : Nat) (h : n ≤ pre.length) :
    prevNonSpace (pre ++ suf) n = prevNonSpace pre n := by
  induction n with
  | zero => rfl
  | succ k ih =>
    have hk : k < pre.length := h
    simp only [prevNonSpace, List.getElem?_append_left hk]
    rw [ih (Nat.le_of_lt hk)]

theorem prevNonSpace_concat (p : List Inline) (a : Inline) (h : isSpace a = false) :
    prevNonSpace (p ++ [a]) (p.length + 1) = some a := by
  simp [prevNonSpace, h]

theorem nextNonSpace_append (pre rest : List Inline) (x : Inline) :
    nextNonSpace (pre ++ x :: rest) pre.length = rest.find? fun item => !isSpace item := by
  simp [nextNonSpace, List.drop_append]

theorem getElem?_append_length (pre rest : List Inline) (x : Inline) :
    (pre ++ x :: rest)[pre.length]? = some x := by
  rw [List.getElem?_append_right (Nat.le_refl _)]; simp

theorem getElem?_append_length_succ (pre rest : List Inline) (x : Inline) :
    (pre ++ x :: rest)[pre.length + 1]? = rest.head? := by
  rw [List.getElem?_append_right (Nat.le_succ _)]
  cases rest <;> simp

theorem getElem?_concat_append_pred (p rest : List Inline) (a : Inline) :
    ((p ++ [a]) ++ rest)[(p ++ [a]).length - 1]? = some a := by
  have h : (p ++ [a]).length - 1 = p.length := by simp
  rw [h, List.append_assoc]
  exact getElem?_append_length p rest a

theorem find?_nonSpace_cons (b : Inline) (r : List Inline) (hb : isSpace b = false) :
    (b :: r).find? (fun item => !isSpace item) = some b := by
  simp [List.find?, hb]

theorem classifyDashAt_append [Unicode] (pre rest : List Inline) (x : Inline) :
    classifyDashAt (pre ++ x :: rest) pre.length
      = pre ++ flatDashItem pre.getLast? rest.head? x :: rest := by
  have hget := getElem?_append_length pre rest x
  have hset : ∀ v, (pre ++ x :: rest).set pre.length v = pre ++ v :: rest := by
    intro v; simp
  cases x with
  | Dash k =>
    simp only [classifyDashAt, hget, hset, flatDashItem, nextNonSpace_append,
      prevNonSpace_append pre (Inline.Dash k :: rest) pre.length (Nat.le_refl _),
      getElem?_append_length_succ]
    rcases List.eq_nil_or_concat' pre with hp | ⟨p, a, hp⟩
    · subst hp
      simp [prevNonSpace, dashKindByNeighbours]
    · subst hp
      rw [getElem?_concat_append_pred]
      have hlen : (p ++ [a]).length = p.length + 1 := by simp
      cases ha : isSpace a
      · rw [hlen, prevNonSpace_concat p a ha]
        cases rest with
        | nil => simp [dashKindByNeighbours]
        | cons b r =>
          cases hb : isSpace b
          · rw [find?_nonSpace_cons b r hb]
            simp only [List.getLast?_concat, List.head?_cons, dashKindByNeighbours_some, ha, hb,
              Option.any_some, Bool.and_false, Bool.not_false, Bool.true_and, Bool.or_self,
              Bool.false_eq_true, if_false]
            by_cases hw : (isWordLike a && isWordLike b) = true
            · by_cases hn : (isNumericInline a && isNumericInline b) = true
              · simp [hw, hn]
              · simp [hw, hn]
            · have hn : ¬ (isNumericInline a && isNumericInline b) = true := by
                intro hn
                apply hw
                cases a <;> cases b <;> simp_all [isNumericInline, isWordLike]
              simp [hw, hn]
          · have : dashKindByNeighbours (p ++ [a]).getLast? (b :: r).head?
                = DashKind.DashEmDash := by
              simp [dashKindByNeighbours_some, hb]
            rw [this]
            simp only [List.head?_cons, Option.any_some, hb]
            split <;> simp
      · have : dashKindByNeighbours (p ++ [a]).getLast? rest.head?
            = DashKind.DashEmDash := by
          cases rest <;> simp [dashKindByNeighbours, dashKindByNeighbours_some, ha]
        rw [this]
        simp only [Option.any_some, ha, hlen]
        split <;> simp
  | _ => simp [classifyDashAt, hget, flatDashItem]

theorem dashView_flatDashItem [Unicode] (l r : Option Inline) (x : Inline) :
    dashView (flatDashItem l r x) = dashView x := by
  cases x <;> rfl

theorem flatDashes_congr [Unicode] (l l2 : Option Inline) (ins : List Inline)
    (h : l.map dashView = l2.map dashView) : flatDashes l ins = flatDashes l2 ins := by
  cases ins with
  | nil => rfl
  | cons x rest =>
    simp only [flatDashes]
    cases x <;> simp only [flatDashItem]
    rw [dashKindByNeighbours_congr l l2 rest.head? rest.head? h rfl]

theorem foldl_classifyDashAt [Unicode] (suf pre : List Inline) :
    (List.range' pre.length suf.length).foldl classifyDashAt (pre ++ suf)
      = pre ++ flatDashes pre.getLast? suf := by
  induction suf generalizing pre with
  | nil => simp [flatDashes]
  | cons x rest ih =>
    rw [List.length_cons, List.range'_succ, List.foldl_cons, classifyDashAt_append]
    have h := ih (pre ++ [flatDashItem pre.getLast? rest.head? x])
    simp only [List.length_append, List.length_singleton, List.append_assoc,
      List.singleton_append, List.getLast?_concat] at h
    rw [h, flatDashes]
    congr 2
    apply flatDashes_congr
    simp [dashView_flatDashItem]

theorem classifyDashesLoop_eq [Unicode] (out : List Inline) :
    classifyDashesLoop out = flatDashes none out := by
  have h := foldl_classifyDashAt out []
  simpa [classifyDashesLoop, List.range_eq_range'] using h

theorem dashView_dashChild [Unicode] (x : Inline) : dashView (dashChild x) = dashView x := by
  cases x <;> rfl

theorem flatDashes_map_dashChild [Unicode] (ins : List Inline) (l l2 : Option Inline)
    (h : l.map dashView = l2.map dashView) :
    flatDashes l (ins.map dashChild) = reclassifyDashes l2 ins := by
  induction ins generalizing l l2 with
  | nil => rfl
  | cons x rest ih =>
    simp only [List.map_cons, flatDashes, reclassifyDashes]
    rw [ih (some (dashChild x)) (some x) (by simp [dashView_dashChild])]
    congr 1
    have hr : (rest.map dashChild).head?.map dashView = rest.head?.map dashView := by
      cases rest <;> simp [dashView_dashChild]
    cases x <;> simp only [dashChild, flatDashItem, reclassifyDashesItem]
    rw [dashKindByNeighbours_congr l l2 _ _ h hr]

mutual
theorem classifyDashesItem_eq [Unicode] : ∀ (item : Inline),
    classifyDashesItem item = dashChild item
  | .QuoteSpan level c => by
    simp only [classifyDashesItem, dashChild, classifyDashesItems_eq c, classifyDashesLoop_eq,
      flatDashes_map_dashChild c none none rfl]
  | .ParenSpan o cl c => by
    simp only [classifyDashesItem, dashChild, classifyDashesItems_eq c, classifyDashesLoop_eq,
      flatDashes_map_dashChild c none none rfl]
  | .Word _ => by simp [classifyDashesItem, dashChild]
  | .Space _ => by simp [classifyDashesItem, dashChild]
  | .Punct _ => by simp [classifyDashesItem, dashChild]
  | .Dash _ => by simp [classifyDashesItem, dashChild]
  | .Ellipsis => by simp [classifyDashesItem, dashChild]
theorem classifyDashesItems_eq [Unicode] : ∀ (ins : List Inline),
    classifyDashesItems ins = ins.map dashChild
  | [] => by simp [classifyDashesItems]
  | item :: rest => by
    simp [classifyDashesItems, classifyDashesItem_eq item, classifyDashesItems_eq rest]
end

/-- Claim C8: `classifyDashesList` gives every Dash, at any nesting level and whatever kind
it had, the kind EnDash when its two immediate neighbours are all-digit Words, Hyphen when
they are word-like (Word, QuoteSpan, ParenSpan) but not both all-digit Words, and EmDash in
every other case (a Space on a side, a missing neighbour, a neighbour that is not
word-like); every other item is unchanged. -/
theorem classifyDashesList_spec [Unicode] (ins : List Inline) :
    classifyDashesList ins = reclassifyDashes none ins := by
  rw [classifyDashesList, classifyDashesItems_eq, classifyDashesLoop_eq,
    flatDashes_map_dashChild ins none none rfl]

theorem classifyDashesItem_eq_child [Unicode] (item : Inline) :
    classifyDashesItem item = normalizeChild classifyDashesList item := by
  cases item <;> simp [classifyDashesItem, classifyDashesList, normalizeChild]

theorem classifyDashesItems_eq_children [Unicode] (ins : List Inline) :
    classifyDashesItems ins = normalizeChildren ins classifyDashesList := by
  induction ins with
  | nil => simp [classifyDashesItems, normalizeChildren]
  | cons x xs ih =>
    simp only [classifyDashesItems, ih, normalizeChildren, List.map_cons,
      classifyDashesItem_eq_child]

/-! ## Parentheses: `buildParenNodes` keeps every token -/

theorem flattenNodes_append (a b : List node) :
    flattenNodes (a ++ b) = flattenNodes a ++ flattenNodes b := by
  induction a with
  | nil => simp [flattenNodes]
  | cons x xs ih => simp [flattenNodes, ih]

theorem flattenParenState_append (st : parenState) (n : node) :
    flattenParenState (parenAppendCurrent st n) = flattenParenState st ++ flattenNode n := by
  obtain ⟨root, stack, diags⟩ := st
  cases stack with
  | nil => simp [flattenParenState, parenAppendCurrent, flattenParenStack, flattenNodes_append,
      flattenNodes]
  | cons top below =>
    simp [flattenParenState, parenAppendCurrent, flattenParenStack, flattenNodes_append,
      flattenNodes]

theorem flattenNode_tokenToNode (tok : token) (h : tokenTextIsGlyph tok = true)
    (h1 : tok.kind ≠ .tokenParenOpen) (h2 : tok.kind ≠ .tokenParenClose) :
    flattenNode (tokenToNode tok) = [tok.text] := by
  obtain ⟨kind, text, ch, dk, pos⟩ := tok
  cases kind <;> simp_all [tokenToNode, flattenNode, wordNode, tokenTextIsGlyph]

theorem flattenParenState_step [Unicode] (tokens : List token) (st : parenState) (idx : Nat)
    (tok : token) (h : tokenTextIsGlyph tok = true) :
    flattenParenState (parenStep tokens st idx tok) = flattenParenState st ++ [tok.text] := by
  unfold parenStep
  split
  · rename_i hk
    simp [tokenTextIsGlyph, hk] at h
    obtain ⟨root, stack, diags⟩ := st
    simp [flattenParenState, flattenParenStack, h, flattenNodes]
  · rename_i hk
    simp [tokenTextIsGlyph, hk] at h
    split
    · rename_i hs
      split
      · simp [flattenParenState_append, flattenNode, wordNode]
      · simp [flattenParenState_append, flattenNode, wordNode]
        simp [flattenParenState, parenAppendCurrent, hs, flattenParenStack]
    · rename_i top below hs
      split
      · simp [flattenParenState_append, flattenNode, wordNode]
        simp [flattenParenState, hs]
      · simp only [flattenParenState_append, flattenNode]
        simp [flattenParenState, hs, flattenParenStack, h]
  · rename_i h1 h2
    rw [flattenParenState_append, flattenNode_tokenToNode tok h h1 h2]

theorem flattenParenState_loop [Unicode] (tokens rest : List token) (idx : Nat)
    (st : parenState) (h : ∀ tok ∈ rest, tokenTextIsGlyph tok = true) :
    flattenParenState (parenLoop tokens rest idx st)
      = flattenParenState st ++ rest.map token.text := by
  induction rest generalizing idx st with
  | nil => simp [parenLoop]
  | cons tok rest ih =>
    simp only [parenLoop]
    rw [ih _ _ (fun t ht => h t (List.mem_cons_of_mem _ ht)),
      flattenParenState_step tokens st idx tok (h tok (List.mem_cons_self _ _))]
    simp

theorem flattenNodes_parenUnwind (stack : List parenFrame) (carry root : List node)
    (diags : List Diag) :
    flattenNodes (parenUnwind stack carry root diags).1
      = flattenNodes root ++ flattenParenStack stack ++ flattenNodes carry := by
  induction stack generalizing carry diags with
  | nil => simp [parenUnwind, flattenParenStack, flattenNodes_append]
  | cons top below ih =>
    simp [parenUnwind, ih, flattenParenStack, flattenNodes, flattenNodes_append, flattenNode,
      wordNode]

/-- The two loops of `buildParenNodes` together keep the texts of the tokens. -/
theorem flattenNodes_buildParenNodes [Unicode] (tokens : List token)
    (h : ∀ tok ∈ tokens, tokenTextIsGlyph tok = true) :
    flattenNodes (buildParenNodes tokens).1 = tokens.map token.text := by
  unfold buildParenNodes
  simp only [flattenNodes_parenUnwind]
  have := flattenParenState_loop tokens tokens 0 { root := [], stack := [], diags := [] } h
  simp only [flattenParenState] at this
  simp [this, flattenNodes, flattenParenStack]

/-- Claim C7: `buildParenNodes` loses and reorders nothing. For every token sequence whose
Space and bracket tokens carry their glyph as text (as every token of the tokenizer does),
the flattening of the result, a ParenSpan as its open glyph, its flattened children and its
close glyph and every other node as its text, is the list of the texts of the tokens in
their order, whether the brackets are matched, mismatched, stray or unclosed. -/
theorem buildParenNodes_flatten [Unicode] (tokens : List token)
    (h : ∀ tok ∈ tokens, tokenTextIsGlyph tok = true) :
    flattenNodes (buildParenNodes tokens).1 = tokens.map token.text :=
  flattenNodes_buildParenNodes tokens h

theorem mem_collapseSpacesLoop (tokens out : List token) (t : token)
    (h : t ∈ collapseSpacesLoop tokens out) : t ∈ out ∨ t ∈ tokens := by
  induction tokens generalizing out with
  | nil => exact Or.inl (by simpa [collapseSpacesLoop] using h)
  | cons tok rest ih =>
    simp only [collapseSpacesLoop] at h
    split at h
    · rcases ih _ h with h1 | h1
      · exact Or.inl h1
      · exact Or.inr (List.mem_cons_of_mem _ h1)
    · rcases ih _ h with h1 | h1
      · simp only [List.mem_append, List.mem_singleton] at h1
        rcases h1 with h1 | h1
        · exact Or.inl h1
        · exact Or.inr (by simp [h1])
      · exact Or.inr (List.mem_cons_of_mem _ h1)

theorem tokenizeLoop_textIsGlyph [Unicode] (runes : List Char) (line fuel i col off : Nat)
    (out : List token) (h : ∀ t ∈ out, tokenTextIsGlyph t = true) :
    ∀ t ∈ tokenizeLoop runes line fuel i col off out, tokenTextIsGlyph t = true := by
  induction fuel generalizing i col off out with
  | zero => simpa [tokenizeLoop] using h
  | succ fuel ih =>
    have step : ∀ (tok : token), tokenTextIsGlyph tok = true →
        ∀ t ∈ out ++ [tok], tokenTextIsGlyph t = true := by
      intro tok htok t ht
      simp only [List.mem_append, List.mem_singleton] at ht
      rcases ht with ht | ht
      · exact h t ht
      · rw [ht]; exact htok
    intro t ht
    rw [tokenizeLoop] at ht
    cases hr : runes[i]? with
    | none =>
      rw [hr] at ht
      exact h t ht
    | some r =>
      rw [hr] at ht
      dsimp only at ht
      by_cases h1 : isIgnorableInlineRune r = true
      · rw [if_pos h1] at ht; exact ih _ _ _ _ h t ht
      rw [if_neg h1] at ht
      by_cases h2 : Unicode.IsSpace r = true
      · rw [if_pos h2] at ht; exact ih _ _ _ _ (by exact step _ (by simp [tokenTextIsGlyph, runeToken])) t ht
      rw [if_neg h2] at ht
      by_cases h3 : (r = '.' && runes[i + 1]? = some '.' && runes[i + 2]? = some '.') = true
      · rw [if_pos h3] at ht; exact ih _ _ _ _ (by exact step _ (by simp [tokenTextIsGlyph, runeToken])) t ht
      rw [if_neg h3] at ht
      by_cases h4 : r = '…'
      · rw [if_pos h4] at ht; exact ih _ _ _ _ (by exact step _ (by simp [tokenTextIsGlyph, runeToken])) t ht
      rw [if_neg h4] at ht
      by_cases h5 : (r = '-' || r = '–' || r = '—') = true
      · rw [if_pos h5] at ht; exact ih _ _ _ _ (by exact step _ (by simp [tokenTextIsGlyph, runeToken])) t ht
      rw [if_neg h5] at ht
      by_cases h6 : (r = '(' || r = '[') = true
      · rw [if_pos h6] at ht; exact ih _ _ _ _ (by exact step _ (by simp [tokenTextIsGlyph, runeToken])) t ht
      rw [if_neg h6] at ht
      by_cases h7 : (r = ')' || r = ']') = true
      · rw [if_pos h7] at ht; exact ih _ _ _ _ (by exact step _ (by simp [tokenTextIsGlyph, runeToken])) t ht
      rw [if_neg h7] at ht
      by_cases h8 : r ∈ punctRunes
      · rw [if_pos h8] at ht; exact ih _ _ _ _ (by exact step _ (by simp [tokenTextIsGlyph, runeToken])) t ht
      rw [if_neg h8] at ht
      by_cases h9 : r ∈ quoteRunes
      · rw [if_pos h9] at ht; exact ih _ _ _ _ (by exact step _ (by simp [tokenTextIsGlyph, runeToken])) t ht
      rw [if_neg h9] at ht
      split at ht
      · exact ih _ _ _ _ (by exact step _ (by simp [tokenTextIsGlyph, runeToken])) t ht
      · exact ih _ _ _ _ (by exact step _ (by simp [tokenTextIsGlyph, runeToken])) t ht

/-- Every token of `tokenizeInline` carries its glyph as text. -/
theorem tokenizeInline_textIsGlyph [Unicode] (s : String) (line startCol : Nat) :
    ∀ t ∈ tokenizeInline s line startCol, tokenTextIsGlyph t = true := by
  intro t ht
  rcases mem_collapseSpacesLoop _ _ t ht with h | h
  · simp at h
  · exact tokenizeLoop_textIsGlyph _ _ _ _ _ _ _ (by simp) t h

/-- Every token that `parseInlineLinesWithCols` hands to `buildSpans` carries its glyph as
text: the hypothesis of `buildParenNodes_flatten` holds on all of them. -/
theorem tokensOfLines_textIsGlyph [Unicode] (lines : List String) (lineNums cols : List Nat)
    (joinWithSpace : Bool) :
    ∀ t ∈ tokensOfLines lines lineNums cols joinWithSpace, tokenTextIsGlyph t = true := by
  induction lines generalizing lineNums cols with
  | nil => simp [tokensOfLines]
  | cons line rest ih =>
    intro t ht
    simp only [tokensOfLines, List.mem_append] at ht
    rcases ht with (ht | ht) | ht
    · exact tokenizeInline_textIsGlyph _ _ _ t ht
    · split at ht
      · simp only [List.mem_singleton] at ht
        rw [ht]; rfl
      · simp at ht
    · exact ih _ _ t ht

/-- On the tokens of any lines, as `parseInlineLinesWithCols` hands them to `buildSpans`,
`buildParenNodes` keeps every text in its place: no hypothesis on the tokens is left. -/
theorem flattenNodes_buildParenNodes_lines [Unicode] (lines : List String)
    (lineNums cols : List Nat) (joinWithSpace : Bool) :
    flattenNodes (buildParenNodes (tokensOfLines lines lineNums cols joinWithSpace)).1
      = (tokensOfLines lines lineNums cols joinWithSpace).map token.text :=
  flattenNodes_buildParenNodes _ (tokensOfLines_textIsGlyph lines lineNums cols joinWithSpace)

/-! ## Quotes: QUOTE_UNCLOSED is raised for explicit opening quotes only -/

theorem quoteMarksOf_append (a b : List node) :
    quoteMarksOf (a ++ b) = quoteMarksOf a ++ quoteMarksOf b := by
  induction a with
  | nil => simp [quoteMarksOf]
  | cons x xs ih => simp [quoteMarksOf, ih]

theorem mem_quoteMarks_appendCurrent (st : parenState) (n : node) (m : Char × Pos)
    (h : m ∈ quoteMarksOfParenState (parenAppendCurrent st n)) :
    m ∈ quoteMarksOfParenState st ∨ m ∈ quoteMarksOfNode n := by
  obtain ⟨root, stack, diags⟩ := st
  cases stack with
  | nil =>
    simp [quoteMarksOfParenState, parenAppendCurrent, quoteMarksOf_append, quoteMarksOf,
      quoteMarksOfParenStack] at h ⊢
    tauto
  | cons top below =>
    simp [quoteMarksOfParenState, parenAppendCurrent, quoteMarksOf_append, quoteMarksOf,
      quoteMarksOfParenStack] at h ⊢
    tauto

theorem quoteMarksOfNode_wordNode (text : String) (pos : Pos) :
    quoteMarksOfNode (wordNode text pos) = [] := by
  simp [wordNode, quoteMarksOfNode, quoteMarksOf]

theorem mem_quoteMarks_tokenToNode (tok : token) (m : Char × Pos)
    (h : m ∈ quoteMarksOfNode (tokenToNode tok)) :
    tok.kind = .tokenQuote ∧ m = (tok.ch, tok.pos) := by
  obtain ⟨kind, text, ch, dk, pos⟩ := tok
  cases kind <;> simp_all [tokenToNode, quoteMarksOfNode, quoteMarksOf, wordNode]

theorem quoteMarks_parenStep [Unicode] (tokens : List token) (st : parenState) (idx : Nat)
    (tok : token) (htok : tok ∈ tokens)
    (h : ∀ m ∈ quoteMarksOfParenState st, markFromToken tokens m) :
    ∀ m ∈ quoteMarksOfParenState (parenStep tokens st idx tok), markFromToken tokens m := by
  intro m hm
  unfold parenStep at hm
  split at hm
  · apply h
    simpa [quoteMarksOfParenState, quoteMarksOf, quoteMarksOfParenStack] using hm
  · split at hm
    · rename_i hs
      split at hm
      all_goals
        rcases mem_quoteMarks_appendCurrent _ _ _ hm with h1 | h1
        · apply h; simpa [quoteMarksOfParenState] using h1
        · simp [quoteMarksOfNode_wordNode] at h1
    · rename_i top below hs
      split at hm
      · rcases mem_quoteMarks_appendCurrent _ _ _ hm with h1 | h1
        · apply h; simpa [quoteMarksOfParenState] using h1
        · simp [quoteMarksOfNode_wordNode] at h1
      · rcases mem_quoteMarks_appendCurrent _ _ _ hm with h1 | h1
        · apply h
          simp [quoteMarksOfParenState, hs, quoteMarksOfParenStack] at h1 ⊢
          tauto
        · apply h
          simp [quoteMarksOfNode] at h1
          simp [quoteMarksOfParenState, hs, quoteMarksOfParenStack]
          tauto
  · rcases mem_quoteMarks_appendCurrent _ _ _ hm with h1 | h1
    · exact h m h1
    · obtain ⟨hk, rfl⟩ := mem_quoteMarks_tokenToNode tok m h1
      exact ⟨tok, htok, hk, rfl, rfl⟩

theorem quoteMarks_parenLoop [Unicode] (tokens rest : List token) (idx : Nat)
    (st : parenState) (hrest : ∀ t ∈ rest, t ∈ tokens)
    (h : ∀ m ∈ quoteMarksOfParenState st, markFromToken tokens m) :
    ∀ m ∈ quoteMarksOfParenState (parenLoop tokens rest idx st), markFromToken tokens m := by
  induction rest generalizing idx st with
  | nil => simpa [parenLoop] using h
  | cons tok rest ih =>
    simp only [parenLoop]
    apply ih _ _ (fun t ht => hrest t (List.mem_cons_of_mem _ ht))
    exact quoteMarks_parenStep tokens st idx tok (hrest tok (List.mem_cons_self _ _)) h

theorem quoteMarks_parenUnwind (stack : List parenFrame) (carry root : List node)
    (diags : List Diag) (m : Char × Pos)
    (h : m ∈ quoteMarksOf (parenUnwind stack carry root diags).1) :
    m ∈ quoteMarksOf root ∨ m ∈ quoteMarksOf carry
      ∨ m ∈ quoteMarksOfParenStack stack := by
  induction stack generalizing carry diags with
  | nil =>
    simp [parenUnwind, quoteMarksOf_append] at h
    tauto
  | cons top below ih =>
    simp only [parenUnwind] at h
    rcases ih _ _ h with h1 | h1 | h1
    · exact Or.inl h1
    · simp [quoteMarksOf, quoteMarksOfNode_wordNode, quoteMarksOf_append] at h1
      simp [quoteMarksOfParenStack]
      tauto
    · simp [quoteMarksOfParenStack]
      tauto

theorem quoteMarks_buildParenNodes [Unicode] (tokens : List token) :
    ∀ m ∈ quoteMarksOf (buildParenNodes tokens).1, markFromToken tokens m := by
  intro m hm
  have hloop := quoteMarks_parenLoop tokens tokens 0 { root := [], stack := [], diags := [] }
    (fun t ht => ht) (by simp [quoteMarksOfParenState, quoteMarksOf, quoteMarksOfParenStack])
  apply hloop
  unfold buildParenNodes at hm
  rcases quoteMarks_parenUnwind _ _ _ _ m hm with h1 | h1 | h1
  · simp [quoteMarksOfParenState, h1]
  · simp [quoteMarksOf] at h1
  · simp only [quoteMarksOfParenState, List.mem_append]
    exact Or.inr h1

/-! ### diagnostics of `buildParenNodes` -/

theorem diags_parenAppendCurrent (st : parenState) (n : node) :
    (parenAppendCurrent st n).diags = st.diags := by
  obtain ⟨root, stack, diags⟩ := st
  cases stack <;> rfl

theorem parenCodes_step [Unicode] (tokens : List token) (st : parenState) (idx : Nat)
    (tok : token) (h : parenCodes st.diags) : parenCodes (parenStep tokens st idx tok).diags := by
  unfold parenStep
  split
  · exact h
  · split
    · split
      · rw [diags_parenAppendCurrent]; exact h
      · rw [diags_parenAppendCurrent]
        intro d hd
        simp only [List.mem_append, List.mem_singleton] at hd
        rcases hd with hd | hd
        · exact h d hd
        · left; rw [hd]
    · split
      · rw [diags_parenAppendCurrent]
        intro d hd
        simp only [List.mem_append, List.mem_singleton] at hd
        rcases hd with hd | hd
        · exact h d hd
        · left; rw [hd]
      · rw [diags_parenAppendCurrent]; exact h
  · rw [diags_parenAppendCurrent]; exact h

theorem parenCodes_loop [Unicode] (tokens rest : List token) (idx : Nat) (st : parenState)
    (h : parenCodes st.diags) : parenCodes (parenLoop tokens rest idx st).diags := by
  induction rest generalizing idx st with
  | nil => simpa [parenLoop] using h
  | cons tok rest ih =>
    simp only [parenLoop]
    exact ih _ _ (parenCodes_step tokens st idx tok h)

theorem parenCodes_unwind (stack : List parenFrame) (carry root : List node)
    (diags : List Diag) (h : parenCodes diags) :
    parenCodes (parenUnwind stack carry root diags).2 := by
  induction stack generalizing carry diags with
  | nil => simpa [parenUnwind] using h
  | cons top below ih =>
    simp only [parenUnwind]
    apply ih
    intro d hd
    simp only [List.mem_append, List.mem_singleton] at hd
    rcases hd with hd | hd
    · exact h d hd
    · right; rw [hd]

theorem parenCodes_buildParenNodes [Unicode] (tokens : List token) :
    parenCodes (buildParenNodes tokens).2 := by
  unfold buildParenNodes
  apply parenCodes_unwind
  apply parenCodes_loop
  intro d hd
  simp at hd

/-! ### diagnostics of `buildQuoteNodes` -/

theorem quoteInv_appendCurrent (prepared : List node) (diags0 : List Diag) (st : quoteState)
    (n : node) (h : quoteInv prepared diags0 st) :
    quoteInv prepared diags0 (quoteAppendCurrent st n) := by
  obtain ⟨root, stack, diags⟩ := st
  cases stack with
  | nil => exact h
  | cons top below =>
    refine ⟨?_, h.2⟩
    intro f hf
    simp only [quoteAppendCurrent, List.mem_cons] at hf
    rcases hf with hf | hf
    · subst hf
      exact h.1 top (List.mem_cons_self _ _)
    · exact h.1 f (List.mem_cons_of_mem _ hf)

theorem quoteInv_popSpan (prepared : List node) (diags0 : List Diag) (st : quoteState)
    (h : quoteInv prepared diags0 st) : quoteInv prepared diags0 (quotePopSpan st) := by
  obtain ⟨root, stack, diags⟩ := st
  cases stack with
  | nil => exact h
  | cons top below =>
    simp only [quotePopSpan]
    apply quoteInv_appendCurrent
    exact ⟨fun f hf => h.1 f (List.mem_cons_of_mem _ hf), h.2⟩

theorem quoteInv_push (prepared : List node) (diags0 : List Diag) (st : quoteState)
    (n : node) (hn : n ∈ prepared) (hk : n.kind = .nodeQuoteMark)
    (hq : isExplicitOpenQuote n.ch = true ∨ isSymmetricQuote n.ch = true)
    (h : quoteInv prepared diags0 st) : quoteInv prepared diags0 (quotePush st n) := by
  refine ⟨?_, h.2⟩
  intro f hf
  simp only [quotePush, List.mem_cons] at hf
  rcases hf with hf | hf
  · subst hf
    exact ⟨n, hn, hk, rfl, rfl, hq⟩
  · exact h.1 f hf

theorem quoteInv_step [Unicode] (prepared : List node) (diags0 : List Diag) (st : quoteState)
    (i : Nat) (n : node) (hn : n ∈ prepared) (h : quoteInv prepared diags0 st) :
    quoteInv prepared diags0 (quoteStep prepared st i n) := by
  unfold quoteStep
  split
  · exact quoteInv_appendCurrent _ _ _ _ h
  · rename_i hk
    have hk : n.kind = .nodeQuoteMark := by simpa using hk
    split
    · rename_i ho
      exact quoteInv_push _ _ _ _ hn hk (Or.inl ho) h
    · split
      · split
        · apply quoteInv_appendCurrent
          refine ⟨h.1, ?_⟩
          intro d hd
          simp only [List.mem_append, List.mem_singleton] at hd
          rcases hd with hd | hd
          · exact h.2 d hd
          · right; left; rw [hd]
        · exact quoteInv_popSpan _ _ _ h
      · split
        · rename_i hsym
          split
          · exact quoteInv_popSpan _ _ _ h
          · split
            · exact quoteInv_push _ _ _ _ hn hk (Or.inr hsym) h
            · exact quoteInv_appendCurrent _ _ _ _ h
        · exact quoteInv_appendCurrent _ _ _ _ h

theorem quoteInv_loop [Unicode] (prepared rest : List node) (diags0 : List Diag) (i : Nat)
    (st : quoteState) (hrest : ∀ n ∈ rest, n ∈ prepared) (h : quoteInv prepared diags0 st) :
    quoteInv prepared diags0 (quoteLoop prepared rest i st) := by
  induction rest generalizing i st with
  | nil => simpa [quoteLoop] using h
  | cons n rest ih =>
    simp only [quoteLoop]
    apply ih _ _ (fun t ht => hrest t (List.mem_cons_of_mem _ ht))
    exact quoteInv_step prepared diags0 st i n (hrest n (List.mem_cons_self _ _)) h

theorem quoteDiagOK_unwind (prepared : List node) (diags0 : List Diag)
    (stack : List quoteFrame) (carry root : List node) (diags : List Diag)
    (hs : ∀ f ∈ stack, frameFromMark prepared f)
    (hd : ∀ d ∈ diags, quoteDiagOK prepared diags0 d) :
    ∀ d ∈ (quoteUnwind stack carry root diags).2, quoteDiagOK prepared diags0 d := by
  induction stack generalizing carry diags with
  | nil => simpa [quoteUnwind] using hd
  | cons top below ih =>
    simp only [quoteUnwind]
    apply ih _ _ (fun f hf => hs f (List.mem_cons_of_mem _ hf))
    split
    · rename_i hrep
      intro d hd2
      simp only [List.mem_append, List.mem_singleton] at hd2
      rcases hd2 with hd2 | hd2
      · exact hd d hd2
      · obtain ⟨n, hn, hk, hq, hp, hor⟩ := hs top (List.mem_cons_self _ _)
        right; right
        refine ⟨n, hn, hk, ?_, by rw [hd2]; exact hp⟩
        rcases hor with hor | hor
        · exact hor
        · simp [shouldReportUnclosedQuote, hq, hor] at hrep
    · exact hd

theorem quoteDiagOK_quotePass [Unicode] (prepared : List node) (diags0 : List Diag) :
    ∀ d ∈ (quotePass prepared diags0).2, quoteDiagOK prepared diags0 d := by
  unfold quotePass
  have h := quoteInv_loop prepared prepared diags0 0
    { root := [], stack := [], diags := diags0 } (fun n hn => hn)
    ⟨by simp, fun d hd => Or.inl hd⟩
  exact quoteDiagOK_unwind prepared diags0 _ _ _ _ h.1 h.2

theorem prepareQuoteNode_fields [Unicode] (n : node) :
    (prepareQuoteNode n).1.kind = n.kind ∧ (prepareQuoteNode n).1.ch = n.ch
      ∧ (prepareQuoteNode n).1.pos = n.pos := by
  cases n with
  | mk kind text ch dk pos level o c children =>
    simp only [prepareQuoteNode]
    split <;> simp [node.kind, node.ch, node.pos]

theorem mem_quoteMarksOfNode_self (n : node) (h : n.kind = .nodeQuoteMark) :
    (n.ch, n.pos) ∈ quoteMarksOfNode n := by
  cases n with
  | mk kind text ch dk pos level o c children =>
    simp only [node.kind] at h
    simp [quoteMarksOfNode, h, node.ch, node.pos]

theorem topMarks_prepareQuoteNodes [Unicode] (nodes : List node) :
    ∀ n ∈ (prepareQuoteNodes nodes).1, n.kind = .nodeQuoteMark →
      (n.ch, n.pos) ∈ quoteMarksOf nodes := by
  induction nodes with
  | nil => simp [prepareQuoteNodes]
  | cons x rest ih =>
    intro n hn hk
    simp only [prepareQuoteNodes, List.mem_cons] at hn
    simp only [quoteMarksOf, List.mem_append]
    rcases hn with hn | hn
    · left
      obtain ⟨h1, h2, h3⟩ := prepareQuoteNode_fields x
      rw [hn, h2, h3]
      apply mem_quoteMarksOfNode_self
      rw [← h1, ← hn]; exact hk
    · right
      exact ih n hn hk

theorem unclosedAtMarks_buildQuoteNodes [Unicode] (nodes : List node)
    (h : unclosedAtMarks (quoteMarksOf nodes) (prepareQuoteNodes nodes).2) :
    unclosedAtMarks (quoteMarksOf nodes) (buildQuoteNodes nodes).2 := by
  intro d hd hc
  unfold buildQuoteNodes at hd
  rcases quoteDiagOK_quotePass _ _ d hd with h1 | h1 | ⟨n, hn, hk, ho, hp⟩
  · exact h d h1 hc
  · rw [hc] at h1
    exact absurd h1 (by decide)
  · exact ⟨(n.ch, n.pos), topMarks_prepareQuoteNodes nodes n hn hk, ho, hp.symm⟩

mutual
theorem unclosedAtMarks_prepareQuoteNode [Unicode] : ∀ (n : node),
    unclosedAtMarks (quoteMarksOfNode n) (prepareQuoteNode n).2
  | .mk kind text ch dk pos level o c children => by
    have ih := unclosedAtMarks_prepareQuoteNodes children
    simp only [prepareQuoteNode]
    split
    · intro d hd hc
      obtain ⟨m, hm, h1, h2⟩ := unclosedAtMarks_buildQuoteNodes children ih d hd hc
      exact ⟨m, by simp [quoteMarksOfNode, hm], h1, h2⟩
    · intro d hd
      simp at hd
theorem unclosedAtMarks_prepareQuoteNodes [Unicode] : ∀ (nodes : List node),
    unclosedAtMarks (quoteMarksOf nodes) (prepareQuoteNodes nodes).2
  | [] => by
    intro d hd
    simp [prepareQuoteNodes] at hd
  | n :: rest => by
    have h1 := unclosedAtMarks_prepareQuoteNode n
    have h2 := unclosedAtMarks_prepareQuoteNodes rest
    intro d hd hc
    simp only [prepareQuoteNodes, List.mem_append] at hd
    simp only [quoteMarksOf, List.mem_append]
    rcases hd with hd | hd
    · obtain ⟨m, hm, h3, h4⟩ := h1 d hd hc
      exact ⟨m, Or.inl hm, h3, h4⟩
    · obtain ⟨m, hm, h3, h4⟩ := h2 d hd hc
      exact ⟨m, Or.inr hm, h3, h4⟩
end

theorem not_explicitOpen_of_symmetric (ch : Char) (h : isSymmetricQuote ch = true) :
    isExplicitOpenQuote ch = false := by
  simp only [isSymmetricQuote, Bool.or_eq_true, decide_eq_true_eq] at h
  rcases h with (h | h) | h <;> subst h <;> decide

/-- Claim C5: every QUOTE_UNCLOSED diagnostic of `buildSpans` sits at a Quote token whose
glyph is an explicit opening quote; so a token sequence whose Quote tokens are all symmetric
quotes yields no QUOTE_UNCLOSED diagnostic, whatever the heuristics decide. -/
theorem buildSpans_quoteUnclosed_explicit [Unicode] (tokens : List token) :
    (∀ d ∈ (buildSpans tokens).2, d.Code = "QUOTE_UNCLOSED" →
        ∃ t ∈ tokens, t.kind = .tokenQuote ∧ isExplicitOpenQuote t.ch = true ∧ t.pos = d.Pos)
      ∧ ((∀ t ∈ tokens, t.kind = .tokenQuote → isSymmetricQuote t.ch = true) →
          ∀ d ∈ (buildSpans tokens).2, d.Code ≠ "QUOTE_UNCLOSED") := by
  have main : ∀ d ∈ (buildSpans tokens).2, d.Code = "QUOTE_UNCLOSED" →
      ∃ t ∈ tokens, t.kind = .tokenQuote ∧ isExplicitOpenQuote t.ch = true ∧ t.pos = d.Pos := by
    intro d hd hc
    simp only [buildSpans, List.mem_append] at hd
    rcases hd with hd | hd
    · rcases parenCodes_buildParenNodes tokens d hd with h | h <;> rw [hc] at h <;>
        exact absurd h (by decide)
    · obtain ⟨m, hm, h1, h2⟩ := unclosedAtMarks_buildQuoteNodes _
        (unclosedAtMarks_prepareQuoteNodes _) d hd hc
      obtain ⟨t, ht, hk, hch, hpos⟩ := quoteMarks_buildParenNodes tokens m hm
      exact ⟨t, ht, hk, by rw [hch]; exact h1, by rw [hpos]; exact h2⟩
  refine ⟨main, ?_⟩
  intro hsym d hd hc
  obtain ⟨t, ht, hk, ho, _⟩ := main d hd hc
  have := not_explicitOpen_of_symmetric t.ch (hsym t ht hk)
  rw [this] at ho
  exact absurd ho (by decide)

/-! ## The spacing invariant after `Apply` -/

/-! ### the spacing pass establishes the invariant -/

theorem spacingLoop_flat (prev : Inline) (rest : List Inline) (hp : isSpace prev = false)
    (hr : ∀ x ∈ rest, isSpace x = false) :
    noAdjacentSpaces (prev :: spacingLoop prev rest) = true
      ∧ ((prev :: spacingLoop prev rest).getLast?.any isSpace) = false := by
  induction rest generalizing prev with
  | nil => simp [spacingLoop, noAdjacentSpaces, hp]
  | cons cur rest ih =>
    have hc : isSpace cur = false := hr cur (List.mem_cons_self _ _)
    have := ih cur hc (fun x hx => hr x (List.mem_cons_of_mem _ hx))
    simp only [spacingLoop]
    split
    · have hs : isSpace (Inline.Space SpaceKind.SpaceNormal) = true := rfl
      simp only [noAdjacentSpaces, hp, this.1, hc, hs]
      refine ⟨by simp, ?_⟩
      rw [List.getLast?_cons_cons, List.getLast?_cons_cons]
      exact this.2
    · simp only [noAdjacentSpaces, hp, this.1]
      refine ⟨by simp, ?_⟩
      rw [List.getLast?_cons_cons]
      exact this.2

theorem rebuildSpacing_flat (l : List Inline) : spacingInvariantFlat (rebuildSpacing l) = true := by
  unfold rebuildSpacing
  cases h : l.filter (fun item => !isSpace item) with
  | nil => simp [spacingInvariantFlat, noAdjacentSpaces]
  | cons first rest =>
    have hall : ∀ x ∈ first :: rest, isSpace x = false := by
      intro x hx
      rw [← h] at hx
      simpa using (List.mem_filter.mp hx).2
    have hf := hall first (List.mem_cons_self _ _)
    have := spacingLoop_flat first rest hf (fun x hx => hall x (List.mem_cons_of_mem _ hx))
    simp [spacingInvariantFlat, this.1, this.2, hf]

theorem spansSpacingInvariant_append (a b : List Inline) :
    spansSpacingInvariant (a ++ b) = (spansSpacingInvariant a && spansSpacingInvariant b) := by
  induction a with
  | nil => simp [spansSpacingInvariant]
  | cons x xs ih => simp [spansSpacingInvariant, ih, Bool.and_assoc]

theorem spansSpacingInvariant_iff (l : List Inline) :
    spansSpacingInvariant l = true ↔ ∀ x ∈ l, spansSpacingInvariantItem x = true := by
  induction l with
  | nil => simp [spansSpacingInvariant]
  | cons x xs ih => simp [spansSpacingInvariant, ih]

theorem mem_spacingLoop (prev : Inline) (rest : List Inline) (x : Inline)
    (h : x ∈ spacingLoop prev rest) : x = .Space .SpaceNormal ∨ x ∈ rest := by
  induction rest generalizing prev with
  | nil => simp [spacingLoop] at h
  | cons cur rest ih =>
    simp only [spacingLoop] at h
    split at h
    · simp only [List.mem_cons] at h ⊢
      rcases h with h | h | h
      · exact Or.inl h
      · exact Or.inr (Or.inl h)
      · rcases ih cur h with h2 | h2
        · exact Or.inl h2
        · exact Or.inr (Or.inr h2)
    · simp only [List.mem_cons] at h ⊢
      rcases h with h | h
      · exact Or.inr (Or.inl h)
      · rcases ih cur h with h2 | h2
        · exact Or.inl h2
        · exact Or.inr (Or.inr h2)

theorem rebuildSpacing_spans (l : List Inline) (h : spansSpacingInvariant l = true) :
    spansSpacingInvariant (rebuildSpacing l) = true := by
  rw [spansSpacingInvariant_iff] at h ⊢
  intro x hx
  unfold rebuildSpacing at hx
  cases hf : l.filter (fun item => !isSpace item) with
  | nil => simp [hf] at hx
  | cons first rest =>
    rw [hf] at hx
    have hsub : ∀ y ∈ first :: rest, y ∈ l := by
      intro y hy
      rw [← hf] at hy
      exact (List.mem_filter.mp hy).1
    simp only [List.mem_cons] at hx
    rcases hx with hx | hx
    · exact h x (hsub x (by simp [hx]))
    · rcases mem_spacingLoop first rest x hx with h2 | h2
      · rw [h2]; rfl
      · exact h x (hsub x (List.mem_cons_of_mem _ h2))

mutual
theorem normalizeSpacingItem_spans : ∀ (item : Inline),
    spansSpacingInvariantItem (normalizeSpacingItem item) = true
  | .QuoteSpan level c => by
    simp [normalizeSpacingItem, spansSpacingInvariantItem, rebuildSpacing_flat,
      rebuildSpacing_spans _ (normalizeSpacingItems_spans c)]
  | .ParenSpan o cl c => by
    simp [normalizeSpacingItem, spansSpacingInvariantItem, rebuildSpacing_flat,
      rebuildSpacing_spans _ (normalizeSpacingItems_spans c)]
  | .Word _ => by simp [normalizeSpacingItem, spansSpacingInvariantItem]
  | .Space _ => by simp [normalizeSpacingItem, spansSpacingInvariantItem]
  | .Punct _ => by simp [normalizeSpacingItem, spansSpacingInvariantItem]
  | .Dash _ => by simp [normalizeSpacingItem, spansSpacingInvariantItem]
  | .Ellipsis => by simp [normalizeSpacingItem, spansSpacingInvariantItem]
theorem normalizeSpacingItems_spans : ∀ (ins : List Inline),
    spansSpacingInvariant (normalizeSpacingItems ins) = true
  | [] => by simp [normalizeSpacingItems, spansSpacingInvariant]
  | item :: rest => by
    simp [normalizeSpacingItems, spansSpacingInvariant, normalizeSpacingItem_spans item,
      normalizeSpacingItems_spans rest]
end

theorem normalizeSpacingList_invariant (ins : List Inline) :
    spacingInvariant (normalizeSpacingList ins) = true := by
  simp [spacingInvariant, normalizeSpacingList, rebuildSpacing_flat,
    rebuildSpacing_spans _ (normalizeSpacingItems_spans ins)]

/-! ### the dialogue pass keeps the invariant -/

theorem noAdjacentSpaces_tail (x : Inline) (l : List Inline)
    (h : noAdjacentSpaces (x :: l) = true) : noAdjacentSpaces l = true := by
  cases l with
  | nil => rfl
  | cons y rest =>
    simp only [noAdjacentSpaces, Bool.and_eq_true] at h
    exact h.2

theorem noAdjacentSpaces_suffix (pre s : List Inline)
    (h : noAdjacentSpaces (pre ++ s) = true) : noAdjacentSpaces s = true := by
  induction pre with
  | nil => simpa using h
  | cons x xs ih => exact ih (noAdjacentSpaces_tail x _ h)

theorem dialogueShape_invariant (l s : List Inline) (y : Inline) (tail : List Inline)
    (hsuf : s <:+ l) (hs : s = y :: tail) (hy : isSpace y = false)
    (hl : spacingInvariant l = true) :
    spacingInvariant (.Dash .DashEmDash :: .Space .SpaceNormal :: s) = true := by
  obtain ⟨pre, hpre⟩ := hsuf
  simp only [spacingInvariant, spacingInvariantFlat, Bool.and_eq_true, Bool.not_eq_true'] at hl
  obtain ⟨⟨⟨hadj, _⟩, hlast⟩, hspans⟩ := hl
  rw [← hpre] at hadj hlast hspans
  have hadj2 := noAdjacentSpaces_suffix pre s hadj
  have hne : s ≠ [] := by rw [hs]; simp
  rw [List.getLast?_append_of_ne_nil _ hne] at hlast
  rw [spansSpacingInvariant_append, Bool.and_eq_true] at hspans
  subst hs
  have hs1 : isSpace (Inline.Space SpaceKind.SpaceNormal) = true := rfl
  have hs2 : isSpace (Inline.Dash DashKind.DashEmDash) = false := rfl
  have hsp := hspans.2
  simp only [spansSpacingInvariant, Bool.and_eq_true] at hsp
  simp only [spacingInvariant, spacingInvariantFlat, noAdjacentSpaces, hadj2, hs1, hs2, hy,
    List.head?_cons, Option.any_some, List.getLast?_cons_cons, hlast, spansSpacingInvariant,
    spansSpacingInvariantItem, hsp.1, hsp.2]
  simp

theorem normalizeDialogueTurn_invariant (ins : List Inline)
    (h : spacingInvariant ins = true) :
    spacingInvariant (normalizeDialogueTurn ins).1 = true := by
  unfold normalizeDialogueTurn
  rw [trimLeadingSpaces_eq_dropWhile]
  have hsuf : ins.dropWhile isSpace <:+ ins := List.dropWhile_suffix _
  cases hd : ins.dropWhile isSpace with
  | nil => decide
  | cons x rest =>
    rw [hd] at hsuf
    have hx := dropWhile_isSpace_head ins x rest hd
    have other : spacingInvariant
        (match trimLeadingSpaces (x :: rest) with
          | [] => ([Inline.Dash DashKind.DashEmDash], true)
          | r => (Inline.Dash DashKind.DashEmDash :: Inline.Space SpaceKind.SpaceNormal :: r,
              false)).1 = true := by
      simp only [trimLeadingSpaces, hx, Bool.false_eq_true, if_false]
      exact dialogueShape_invariant ins (x :: rest) x rest hsuf rfl hx h
    cases x with
    | Dash k =>
      simp only [trimLeadingSpaces_eq_dropWhile]
      cases hd2 : rest.dropWhile isSpace with
      | nil => decide
      | cons y tail =>
        have hy := dropWhile_isSpace_head rest y tail hd2
        have hsuf2 : y :: tail <:+ ins := by
          rw [← hd2]
          exact (List.dropWhile_suffix _).trans ((List.suffix_cons _ _).trans hsuf)
        exact dialogueShape_invariant ins (y :: tail) y tail hsuf2 rfl hy h
    | Space k => simp [isSpace] at hx
    | Word s => exact other
    | Punct c => exact other
    | Ellipsis => exact other
    | QuoteSpan l c => exact other
    | ParenSpan o c i => exact other

theorem normalizeDialogueTurns_invariant (turns : List DialogueTurn) (diags : List Diag)
    (h : ∀ t ∈ turns, spacingInvariant t.In = true) :
    ∀ t ∈ (normalizeDialogueTurns turns diags).1, spacingInvariant t.In = true := by
  induction turns generalizing diags with
  | nil => simp [normalizeDialogueTurns]
  | cons turn rest ih =>
    intro t ht
    simp only [normalizeDialogueTurns, List.mem_cons] at ht
    rcases ht with ht | ht
    · rw [ht]
      exact normalizeDialogueTurn_invariant _ (h turn (List.mem_cons_self _ _))
    · exact ih _ (fun t ht => h t (List.mem_cons_of_mem _ ht)) t ht

theorem normalizeDialogueBlocksLoop_invariant (blocks : List Block) (diags : List Diag)
    (h : ∀ b ∈ blocks, blockSpacingInvariant b = true) :
    ∀ b ∈ (normalizeDialogueBlocksLoop blocks diags).1, blockSpacingInvariant b = true := by
  induction blocks generalizing diags with
  | nil => simp [normalizeDialogueBlocksLoop]
  | cons blk rest ih =>
    have hrest : ∀ b ∈ rest, blockSpacingInvariant b = true :=
      fun b hb => h b (List.mem_cons_of_mem _ hb)
    have hblk := h blk (List.mem_cons_self _ _)
    intro b hb
    cases blk with
    | DialogueBlock turns =>
      simp only [normalizeDialogueBlocksLoop, List.mem_cons] at hb
      rcases hb with hb | hb
      · rw [hb]
        simp only [blockSpacingInvariant, List.all_eq_true] at hblk ⊢
        exact normalizeDialogueTurns_invariant turns diags hblk
      · exact ih _ hrest b hb
    | Paragraph _ | Heading _ _ | TitleBlock _ | ContentsBlock _ _ | MetaLineBlock _ _
    | SceneBreak _ =>
      simp only [normalizeDialogueBlocksLoop, List.mem_cons] at hb
      rcases hb with hb | hb
      · rw [hb]; exact hblk
      · exact ih _ hrest b hb

theorem normalizeDialogueBlocks_invariant (doc : Document)
    (h : documentSpacingInvariant doc = true) :
    documentSpacingInvariant (normalizeDialogueBlocks doc) = true := by
  simp only [documentSpacingInvariant, List.all_eq_true] at h ⊢
  exact normalizeDialogueBlocksLoop_invariant doc.Blocks doc.Diags h

/-! ### the non-breaking-space pass keeps the invariant -/

theorem noAdjacentSpaces_eq_map (l : List Inline) :
    noAdjacentSpaces l = noAdjacentTrue (l.map isSpace) := by
  induction l with
  | nil => rfl
  | cons x xs ih =>
    cases xs with
    | nil => rfl
    | cons y rest =>
      simp only [noAdjacentSpaces, List.map_cons, noAdjacentTrue, ih]

theorem spacingInvariantFlat_congr (l l2 : List Inline)
    (h : l.map isSpace = l2.map isSpace) :
    spacingInvariantFlat l = spacingInvariantFlat l2 := by
  have h1 : l.head?.any isSpace = l2.head?.any isSpace := by
    have := congrArg List.head? h
    cases l <;> cases l2 <;> simp_all
  have h2 : l.getLast?.any isSpace = l2.getLast?.any isSpace := by
    have := congrArg List.getLast? h
    simp only [List.getLast?_map] at this
    cases hl : l.getLast? <;> cases hl2 : l2.getLast? <;> simp_all
  simp only [spacingInvariantFlat, noAdjacentSpaces_eq_map, h, h1, h2]

theorem map_isSpace_set (l : List Inline) (i : Nat) (k0 k : SpaceKind)
    (h : l[i]? = some (.Space k0)) :
    (l.set i (.Space k)).map isSpace = l.map isSpace := by
  induction l generalizing i with
  | nil => rfl
  | cons x xs ih =>
    cases i with
    | zero =>
      simp only [List.getElem?_cons_zero, Option.some.injEq] at h
      subst h
      rfl
    | succ j =>
      simp only [List.getElem?_cons_succ] at h
      simp only [List.set_cons_succ, List.map_cons, ih j h]

theorem spansSpacingInvariant_set (l : List Inline) (i : Nat) (k : SpaceKind)
    (h : spansSpacingInvariant l = true) :
    spansSpacingInvariant (l.set i (.Space k)) = true := by
  rw [spansSpacingInvariant_iff] at h ⊢
  intro x hx
  rcases List.mem_or_eq_of_mem_set hx with h1 | h1
  · exact h x h1
  · rw [h1]; rfl

/-- What one step of the second loop of `applyNBSPList` does to the slice. -/
theorem applyNBSPAt_cases [Unicode] (lang : Lang) (out : List Inline) (i : Nat) :
    applyNBSPAt lang out i = out
      ∨ (out[i]? = some (.Space .SpaceNormal)
          ∧ applyNBSPAt lang out i = out.set i (.Space .SpaceNBSP)) := by
  unfold applyNBSPAt
  split
  · rename_i h
    split
    · split
      · split
        · exact Or.inr ⟨h, rfl⟩
        · exact Or.inl rfl
      · exact Or.inl rfl
    · exact Or.inl rfl
  · exact Or.inl rfl

theorem applyNBSPAt_invariant [Unicode] (lang : Lang) (out : List Inline) (i : Nat) :
    (applyNBSPAt lang out i).map isSpace = out.map isSpace
      ∧ (spansSpacingInvariant out = true →
          spansSpacingInvariant (applyNBSPAt lang out i) = true) := by
  rcases applyNBSPAt_cases lang out i with h | ⟨h1, h2⟩
  · rw [h]; exact ⟨rfl, id⟩
  · rw [h2]
    exact ⟨map_isSpace_set out i _ _ h1, spansSpacingInvariant_set out i _⟩

theorem foldl_applyNBSPAt_invariant [Unicode] (lang : Lang) (idxs : List Nat)
    (out : List Inline) :
    (idxs.foldl (applyNBSPAt lang) out).map isSpace = out.map isSpace
      ∧ (spansSpacingInvariant out = true →
          spansSpacingInvariant (idxs.foldl (applyNBSPAt lang) out) = true) := by
  induction idxs generalizing out with
  | nil => exact ⟨rfl, id⟩
  | cons i rest ih =>
    simp only [List.foldl_cons]
    have h1 := applyNBSPAt_invariant lang out i
    have h2 := ih (applyNBSPAt lang out i)
    exact ⟨h2.1.trans h1.1, fun h => h2.2 (h1.2 h)⟩

theorem applyNBSPLoop_invariant [Unicode] (lang : Lang) (out : List Inline) :
    (applyNBSPLoop lang out).map isSpace = out.map isSpace
      ∧ (spansSpacingInvariant out = true →
          spansSpacingInvariant (applyNBSPLoop lang out) = true) :=
  foldl_applyNBSPAt_invariant lang _ out

theorem isSpace_applyNBSPItem [Unicode] (lang : Lang) (item : Inline) :
    isSpace (applyNBSPItem lang item) = isSpace item := by
  cases item <;> simp [applyNBSPItem, isSpace]

theorem map_isSpace_applyNBSPItems [Unicode] (lang : Lang) (l : List Inline) :
    (applyNBSPItems lang l).map isSpace = l.map isSpace := by
  induction l with
  | nil => rfl
  | cons x xs ih => simp [applyNBSPItems, isSpace_applyNBSPItem, ih]

mutual
theorem applyNBSPItem_spans [Unicode] (lang : Lang) : ∀ (item : Inline),
    spansSpacingInvariantItem item = true →
      spansSpacingInvariantItem (applyNBSPItem lang item) = true
  | .QuoteSpan level c => by
    intro h
    simp only [spansSpacingInvariantItem, Bool.and_eq_true] at h
    have ih := applyNBSPItems_spans lang c h.2
    have hl := applyNBSPLoop_invariant lang (applyNBSPItems lang c)
    simp only [applyNBSPItem, spansSpacingInvariantItem, Bool.and_eq_true]
    refine ⟨?_, hl.2 ih⟩
    rw [spacingInvariantFlat_congr _ c (hl.1.trans (map_isSpace_applyNBSPItems lang c))]
    exact h.1
  | .ParenSpan o cl c => by
    intro h
    simp only [spansSpacingInvariantItem, Bool.and_eq_true] at h
    have ih := applyNBSPItems_spans lang c h.2
    have hl := applyNBSPLoop_invariant lang (applyNBSPItems lang c)
    simp only [applyNBSPItem, spansSpacingInvariantItem, Bool.and_eq_true]
    refine ⟨?_, hl.2 ih⟩
    rw [spacingInvariantFlat_congr _ c (hl.1.trans (map_isSpace_applyNBSPItems lang c))]
    exact h.1
  | .Word _ => by simp [applyNBSPItem]
  | .Space _ => by simp [applyNBSPItem]
  | .Punct _ => by simp [applyNBSPItem]
  | .Dash _ => by simp [applyNBSPItem]
  | .Ellipsis => by simp [applyNBSPItem]
theorem applyNBSPItems_spans [Unicode] (lang : Lang) : ∀ (l : List Inline),
    spansSpacingInvariant l = true → spansSpacingInvariant (applyNBSPItems lang l) = true
  | [] => by simp [applyNBSPItems]
  | item :: rest => by
    intro h
    simp only [spansSpacingInvariant, Bool.and_eq_true] at h
    simp only [applyNBSPItems, spansSpacingInvariant, Bool.and_eq_true]
    exact ⟨applyNBSPItem_spans lang item h.1, applyNBSPItems_spans lang rest h.2⟩
end

theorem applyNBSPList_invariant [Unicode] (ins : List Inline) (lang : Lang)
    (h : spacingInvariant ins = true) : spacingInvariant (applyNBSPList ins lang) = true := by
  simp only [spacingInvariant, Bool.and_eq_true] at h ⊢
  have hl := applyNBSPLoop_invariant lang (applyNBSPItems lang ins)
  refine ⟨?_, hl.2 (applyNBSPItems_spans lang ins h.2)⟩
  unfold applyNBSPList
  rw [spacingInvariantFlat_congr _ ins (hl.1.trans (map_isSpace_applyNBSPItems lang ins))]
  exact h.1

/-! ### the passes on a document -/

theorem applyToAllInlines_establishes (fn : List Inline → List Inline)
    (hfn : ∀ l, spacingInvariant (fn l) = true) (doc : Document) :
    documentSpacingInvariant (applyToAllInlines doc fn) = true := by
  simp only [documentSpacingInvariant, applyToAllInlines, List.all_eq_true, List.mem_map]
  rintro b ⟨blk, _, rfl⟩
  cases blk <;> simp [applyToAllInlinesBlock, blockSpacingInvariant, hfn]

theorem applyToAllInlines_keeps (fn : List Inline → List Inline)
    (hfn : ∀ l, spacingInvariant l = true → spacingInvariant (fn l) = true) (doc : Document)
    (h : documentSpacingInvariant doc = true) :
    documentSpacingInvariant (applyToAllInlines doc fn) = true := by
  simp only [documentSpacingInvariant, applyToAllInlines, List.all_eq_true, List.mem_map] at h ⊢
  rintro b ⟨blk, hblk, rfl⟩
  have hb := h blk hblk
  cases blk <;> simp_all [applyToAllInlinesBlock, blockSpacingInvariant]

theorem Apply_spacingInvariant [Unicode] (doc : Document) (cfg : Config) :
    documentSpacingInvariant (Apply doc cfg) = true := by
  unfold Apply
  have h1 : documentSpacingInvariant (normalizeDialogueBlocks (normalizeSpacingDocument
      (emitCanonicalPairsDocument (classifyDashesDocument (normalizeEllipsisDocument doc)))))
      = true := by
    apply normalizeDialogueBlocks_invariant
    exact applyToAllInlines_establishes _ normalizeSpacingList_invariant _
  simp only []
  split
  · exact applyToAllInlines_keeps _ (fun l hl => applyNBSPList_invariant l cfg.Lang hl) _ h1
  · exact h1

/-- Claim C2: for every input text and every config, in the document that `Parse` followed
by `Apply` yields, every inline list of a paragraph, a heading, a contents title or entry, a
meta value or a dialogue turn, and recursively the contents of every QuoteSpan and ParenSpan
in it, has no two adjacent Spaces and neither starts nor ends with a Space. -/
theorem Parse_Apply_spacingInvariant [Unicode] (input : String) (cfg : Config) :
    documentSpacingInvariant (Apply (Parse input cfg) cfg) = true :=
  Apply_spacingInvariant (Parse input cfg) cfg

/-! ## Closed examples -/

/-- The first formatting of the input of claim C1. -/
theorem formatText_idempotenceInput :
    @formatText basicTables idempotenceInput DefaultConfig
      = String.mk [Char.ofNat 0x22, ' ', 'x', '-', Char.ofNat 0x22, ' ', 'y'] := by
  decide

/-- The formatting of the output of the first formatting of the input of claim C1. -/
theorem formatText_idempotenceOutput :
    @formatText basicTables
        (String.mk [Char.ofNat 0x22, ' ', 'x', '-', Char.ofNat 0x22, ' ', 'y']) DefaultConfig
      = "«x —» y" := by
  decide

/-- Claim C1 on the input `"x-"y` with the config of `New("ru", "", false)`: formatting
gives `" x-" y`, and formatting that gives `«x —» y`, so formatting twice differs from
formatting once. The first pass keeps both quotes as literal words and puts a space after
the second one; on re-parsing, that space makes the second quote close the first. -/
theorem formatText_not_idempotent :
    (@New basicTables "ru" "" false).toOption = some DefaultConfig
      ∧ @formatText basicTables idempotenceInput DefaultConfig
          = String.mk [Char.ofNat 0x22, ' ', 'x', '-', Char.ofNat 0x22, ' ', 'y']
      ∧ @formatText basicTables (@formatText basicTables idempotenceInput DefaultConfig)
          DefaultConfig = "«x —» y"
      ∧ @formatText basicTables (@formatText basicTables idempotenceInput DefaultConfig)
          DefaultConfig ≠ @formatText basicTables idempotenceInput DefaultConfig := by
  refine ⟨by decide, formatText_idempotenceInput, ?_, ?_⟩
  · rw [formatText_idempotenceInput]
    exact formatText_idempotenceOutput
  · rw [formatText_idempotenceInput, formatText_idempotenceOutput]
    decide

/-- Claim C6 on the tokens of `[1) a]`: the tokenizer yields these tokens, the `)` at index 2
is an enumerator close, and `buildParenNodes` still reports it with PAREN_MISMATCH, because
the bracket `[` is open and the branch for a mismatched close does not ask
`isEnumeratorClose`; the diagnostic reaches the document that `Parse` returns. -/
theorem enumeratorClose_mismatch_reported :
    @tokenizeInline basicTables "[1) a]" 1 1 = enumeratorInBrackets
      ∧ @isEnumeratorClose basicTables enumeratorInBrackets 2 = true
      ∧ (@buildParenNodes basicTables enumeratorInBrackets).2
          = [{ Pos := { Off := 2, Line := 1, Col := 3 }, Code := "PAREN_MISMATCH",
               Message := "mismatched closing parenthesis" }]
      ∧ (@Parse basicTables "[1) a]" DefaultConfig).Diags
          = [{ Pos := { Off := 2, Line := 1, Col := 3 }, Code := "PAREN_MISMATCH",
               Message := "mismatched closing parenthesis" }] := by
  decide

/-- Claim C7 at the tokens of the line `(a] b)) [c`, with a matched, a mismatched, a stray
and an unclosed bracket: the tokens carry their glyphs and the flattening of the result is
the list of their texts. -/
theorem buildParenNodes_flatten_witness :
    (∀ tok ∈ @tokenizeInline basicTables "(a] b)) [c" 1 1, tokenTextIsGlyph tok = true)
      ∧ flattenNodes (@buildParenNodes basicTables
            (@tokenizeInline basicTables "(a] b)) [c" 1 1)).1
          = ["(", "a", "]", " ", "b", ")", ")", " ", "[", "c"] :=
  ⟨by decide,
    (@buildParenNodes_flatten basicTables (@tokenizeInline basicTables "(a] b)) [c" 1 1)
      (by decide)).trans (by decide)⟩

/-- Claim C5 at the tokens of the line `«a`, whose explicit opening quote stays open and is
reported, and of the line `a “b`, whose only quote is symmetric and stays open: it yields no
QUOTE_UNCLOSED diagnostic. -/
theorem buildSpans_quoteUnclosed_witness :
    (@buildSpans basicTables (@tokenizeInline basicTables "«a" 1 1)).2
        = [{ Pos := { Off := 0, Line := 1, Col := 1 }, Code := "QUOTE_UNCLOSED",
             Message := "unclosed quote" }]
      ∧ (∀ t ∈ @tokenizeInline basicTables "a “b" 1 1,
          t.kind = .tokenQuote → isSymmetricQuote t.ch = true)
      ∧ ∀ d ∈ (@buildSpans basicTables (@tokenizeInline basicTables "a “b" 1 1)).2,
          d.Code ≠ "QUOTE_UNCLOSED" :=
  ⟨by decide, by decide,
    (@buildSpans_quoteUnclosed_explicit basicTables
      (@tokenizeInline basicTables "a “b" 1 1)).2 (by decide)⟩

/-! ## Ellipsis: what `splitWordEllipsis` returns -/

theorem renderWordsAndEllipses_append (a b : List Inline) :
    renderWordsAndEllipses (a ++ b) = renderWordsAndEllipses a ++ renderWordsAndEllipses b := by
  induction a with
  | nil => rfl
  | cons x a ih => cases x <;> simp [renderWordsAndEllipses, ih]

theorem renderWordsAndEllipses_flushWord (buf : List Char) (out : List Inline) :
    renderWordsAndEllipses (flushWord buf out) = renderWordsAndEllipses out ++ buf := by
  unfold flushWord
  split
  · have : buf = [] := List.length_eq_zero.mp ‹_›
    simp [this]
  · simp [renderWordsAndEllipses_append, renderWordsAndEllipses]

theorem renderWordsAndEllipses_loop (rs buf : List Char) (out : List Inline) :
    renderWordsAndEllipses (splitWordEllipsisLoop rs buf out)
      = renderWordsAndEllipses out ++ buf ++ replaceTripleDots rs := by
  induction rs, buf, out using splitWordEllipsisLoop.induct with
  | case1 buf out => simp [splitWordEllipsisLoop, renderWordsAndEllipses_flushWord, replaceTripleDots]
  | case2 r1 r2 rest2 buf out ih =>
    simp [splitWordEllipsisLoop, ih, renderWordsAndEllipses_append,
      renderWordsAndEllipses_flushWord, renderWordsAndEllipses, replaceTripleDots]
  | case3 r r1 r2 rest2 buf out h1 h2 ih =>
    simp only [Bool.and_eq_true, decide_eq_true_eq] at h2
    obtain ⟨⟨rfl, rfl⟩, rfl⟩ := h2
    simp [splitWordEllipsisLoop, ih, renderWordsAndEllipses_append,
      renderWordsAndEllipses_flushWord, renderWordsAndEllipses, replaceTripleDots]
  | case4 r r1 r2 rest2 buf out h1 h2 ih =>
    have h3 : ¬ (r = '.' ∧ r1 = '.' ∧ r2 = '.') := by
      simpa [and_assoc] using h2
    rw [splitWordEllipsisLoop, if_neg h1, if_neg h2, ih, replaceTripleDots, if_neg h3]
    simp
  | case5 rest buf out hrest ih =>
    have : splitWordEllipsisLoop ('…' :: rest) buf out
        = splitWordEllipsisLoop rest [] (flushWord buf out ++ [.Ellipsis]) := by
      match rest, hrest with
      | [], _ => simp [splitWordEllipsisLoop]
      | [a], _ => simp [splitWordEllipsisLoop]
      | a :: b :: c, h => exact absurd rfl (fun e => h a b c e)
    have h2 : replaceTripleDots ('…' :: rest) = '…' :: replaceTripleDots rest := by
      match rest, hrest with
      | [], _ => simp [replaceTripleDots]
      | [a], _ => simp [replaceTripleDots]
      | a :: b :: c, h => exact absurd rfl (fun e => h a b c e)
    rw [this, ih, h2]
    simp [renderWordsAndEllipses_append, renderWordsAndEllipses_flushWord, renderWordsAndEllipses]
  | case6 r rest buf out hrest h1 ih =>
    have : splitWordEllipsisLoop (r :: rest) buf out
        = splitWordEllipsisLoop rest (buf ++ [r]) out := by
      match rest, hrest with
      | [], _ => simp [splitWordEllipsisLoop, h1]
      | [a], _ => simp [splitWordEllipsisLoop, h1]
      | a :: b :: c, h => exact absurd rfl (fun e => h a b c e)
    have h2 : replaceTripleDots (r :: rest) = r :: replaceTripleDots rest := by
      match rest, hrest with
      | [], _ => simp [replaceTripleDots]
      | [a], _ => simp [replaceTripleDots]
      | a :: b :: c, h => exact absurd rfl (fun e => h a b c e)
    rw [this, ih, h2]
    simp

theorem splitWordEllipsisLoop_ellipsis (rest buf : List Char) (out : List Inline) :
    splitWordEllipsisLoop ('…' :: rest) buf out
      = splitWordEllipsisLoop rest [] (flushWord buf out ++ [.Ellipsis]) := by
  match rest with
  | [] => simp [splitWordEllipsisLoop]
  | [a] => simp [splitWordEllipsisLoop]
  | a :: b :: c => simp [splitWordEllipsisLoop]

theorem splitWordEllipsisLoop_tripleDot (rest buf : List Char) (out : List Inline) :
    splitWordEllipsisLoop ('.' :: '.' :: '.' :: rest) buf out
      = splitWordEllipsisLoop rest [] (flushWord buf out ++ [.Ellipsis]) := by
  rw [splitWordEllipsisLoop, if_neg (by decide)]
  simp

theorem splitWordEllipsisLoop_rune (r : Char) (rest buf : List Char) (out : List Inline)
    (h1 : r ≠ '…') (h2 : ¬ ['.', '.', '.'] <+: r :: rest) :
    splitWordEllipsisLoop (r :: rest) buf out = splitWordEllipsisLoop rest (buf ++ [r]) out := by
  match rest with
  | [] => simp [splitWordEllipsisLoop, h1]
  | [a] => simp [splitWordEllipsisLoop, h1]
  | a :: b :: c =>
    rw [splitWordEllipsisLoop, if_neg h1, if_neg]
    intro h
    simp only [Bool.and_eq_true, decide_eq_true_eq] at h
    obtain ⟨⟨rfl, rfl⟩, rfl⟩ := h
    exact h2 ⟨c, rfl⟩

theorem ellipsisBufferOK_nil (rs : List Char) : ellipsisBufferOK [] rs :=
  ⟨by simp, fun _ _ _ => Nat.zero_le _⟩

theorem ellipsisBufferOK_infix {buf rs : List Char} (h : ellipsisBufferOK buf rs) :
    ¬ ['.', '.', '.'] <:+: buf := by
  rintro ⟨p, q, hpq⟩
  have := h.2 p (q ++ rs) (by rw [← hpq]; simp)
  have hl := congrArg List.length hpq
  simp at hl
  omega

theorem ellipsisBufferOK_snoc {buf rest : List Char} {r : Char}
    (h : ellipsisBufferOK buf (r :: rest)) (h1 : r ≠ '…') (h2 : ¬ ['.', '.', '.'] <+: r :: rest) :
    ellipsisBufferOK (buf ++ [r]) rest := by
  refine ⟨by simpa [h.1] using Ne.symm h1, fun p q hpq => ?_⟩
  have hpq2 : buf ++ r :: rest = p ++ '.' :: '.' :: '.' :: q := by rw [← hpq]; simp
  have hle := h.2 p q hpq2
  rcases Nat.lt_or_eq_of_le hle with hlt | heq
  · simp; omega
  · exfalso
    have := List.append_inj hpq2 heq
    exact h2 ⟨q, this.2.symm⟩

theorem flushWord_clean (buf rs : List Char) (out : List Inline)
    (hout : ∀ it ∈ out, isEllipsisOrCleanWord it) (h : ellipsisBufferOK buf rs) :
    ∀ it ∈ flushWord buf out, isEllipsisOrCleanWord it := by
  unfold flushWord
  split
  · exact hout
  · intro it hit
    rcases List.mem_append.mp hit with hit | hit
    · exact hout it hit
    · rw [List.mem_singleton.mp hit]
      refine ⟨?_, h.1, ellipsisBufferOK_infix h⟩
      intro hb
      simp at hb
      simp_all

theorem splitWordEllipsisLoop_clean_aux (n : Nat) :
    ∀ (rs buf : List Char) (out : List Inline), rs.length ≤ n →
      (∀ it ∈ out, isEllipsisOrCleanWord it) → ellipsisBufferOK buf rs →
      ∀ it ∈ splitWordEllipsisLoop rs buf out, isEllipsisOrCleanWord it := by
  induction n with
  | zero =>
    intro rs buf out hn hout hbuf
    have : rs = [] := List.length_eq_zero.mp (Nat.le_zero.mp hn)
    subst this
    rw [splitWordEllipsisLoop]
    exact flushWord_clean buf [] out hout hbuf
  | succ n ih =>
    intro rs buf out hn hout hbuf
    match rs, hn, hbuf with
    | [], _, hbuf =>
      rw [splitWordEllipsisLoop]
      exact flushWord_clean buf [] out hout hbuf
    | r :: rest, hn, hbuf =>
      have hnext : ∀ it ∈ flushWord buf out ++ [Inline.Ellipsis], isEllipsisOrCleanWord it := by
        intro it hit
        rcases List.mem_append.mp hit with hit | hit
        · exact flushWord_clean buf _ out hout hbuf it hit
        · rw [List.mem_singleton.mp hit]; trivial
      have hlen : rest.length ≤ n := by simpa using hn
      by_cases h1 : r = '…'
      · subst h1
        rw [splitWordEllipsisLoop_ellipsis]
        exact ih rest _ _ hlen hnext (ellipsisBufferOK_nil _)
      · by_cases h2 : ['.', '.', '.'] <+: r :: rest
        · obtain ⟨q, hq⟩ := h2
          simp at hq
          obtain ⟨rfl, rfl⟩ := hq
          rw [splitWordEllipsisLoop_tripleDot]
          exact ih q _ _ (by simp at hlen; omega) hnext (ellipsisBufferOK_nil _)
        · rw [splitWordEllipsisLoop_rune r rest buf out h1 h2]
          exact ih rest _ _ hlen hout (ellipsisBufferOK_snoc hbuf h1 h2)

theorem splitWordEllipsisLoop_plain (rs : List Char) :
    ∀ (buf : List Char) (out : List Inline), '…' ∉ rs → ¬ ['.', '.', '.'] <:+: rs →
      splitWordEllipsisLoop rs buf out = flushWord (buf ++ rs) out := by
  induction rs with
  | nil => intro buf out _ _; simp [splitWordEllipsisLoop]
  | cons r rest ih =>
    intro buf out h1 h2
    have hr : r ≠ '…' := fun e => h1 (by simp [e])
    have hp : ¬ ['.', '.', '.'] <+: r :: rest := fun e => h2 e.isInfix
    rw [splitWordEllipsisLoop_rune r rest buf out hr hp,
      ih (buf ++ [r]) out (fun e => h1 (List.mem_cons_of_mem _ e))
        (fun e => h2 (e.trans (List.suffix_cons r rest).isInfix))]
    simp

theorem replaceTripleDots_eq_nil (rs : List Char) (h : replaceTripleDots rs = []) : rs = [] := by
  match rs with
  | [] => rfl
  | [a] => simp [replaceTripleDots] at h
  | [a, b] => simp [replaceTripleDots] at h
  | a :: b :: c :: rest =>
    rw [replaceTripleDots] at h
    split at h <;> simp at h

theorem splitWordEllipsis_eq_loop (s : String) (hs : s ≠ "") :
    splitWordEllipsis s = splitWordEllipsisLoop s.data [] [] := by
  unfold splitWordEllipsis
  simp only
  split
  · rename_i h0
    exfalso
    have hr := renderWordsAndEllipses_loop s.data [] []
    rw [List.length_eq_zero.mp h0] at hr
    have := replaceTripleDots_eq_nil s.data (by simpa [renderWordsAndEllipses] using hr.symm)
    exact hs (String.ext this)
  · rfl

/-- Claim C11: for a non-empty payload `s`, `splitWordEllipsis s` consists of Ellipsis items
and of Words that are not empty and hold neither the ellipsis glyph nor three full stops in
a row; rendered back, a Word as its payload and an Ellipsis as the glyph, it is `s` with
every occurrence of three full stops, from left to right and without overlap, replaced by
the glyph; and a payload with neither the glyph nor three full stops in a row comes back as
the one unchanged Word. -/
theorem splitWordEllipsis_spec (s : String) (hs : s ≠ "") :
    (∀ it ∈ splitWordEllipsis s, isEllipsisOrCleanWord it)
      ∧ renderWordsAndEllipses (splitWordEllipsis s) = replaceTripleDots s.data
      ∧ ('…' ∉ s.data → ¬ ['.', '.', '.'] <:+: s.data → splitWordEllipsis s = [.Word s]) := by
  rw [splitWordEllipsis_eq_loop s hs]
  refine ⟨?_, ?_, ?_⟩
  · exact splitWordEllipsisLoop_clean_aux s.data.length s.data [] [] (le_refl _)
      (by simp) (ellipsisBufferOK_nil _)
  · simpa [renderWordsAndEllipses] using renderWordsAndEllipses_loop s.data [] []
  · intro h1 h2
    rw [splitWordEllipsisLoop_plain s.data [] [] h1 h2]
    have : s.data.length ≠ 0 := fun h => hs (String.ext (List.length_eq_zero.mp h))
    have h3 : s.length ≠ 0 := this
    simp [flushWord, h3]

/-- Claim C11 at the payload `a....b…c..`: the split is `a`, Ellipsis, `.b`, Ellipsis,
`c..`. -/
theorem splitWordEllipsis_spec_witness :
    "a....b…c.." ≠ ""
      ∧ splitWordEllipsis "a....b…c.." = [.Word "a", .Ellipsis, .Word ".b", .Ellipsis, .Word "c.."]
      ∧ (∀ it ∈ splitWordEllipsis "a....b…c..", isEllipsisOrCleanWord it)
      ∧ renderWordsAndEllipses (splitWordEllipsis "a....b…c..") = "a….b…c..".data :=
  ⟨by decide, by decide, (splitWordEllipsis_spec "a....b…c.." (by decide)).1,
    (splitWordEllipsis_spec "a....b…c.." (by decide)).2.1.trans (by decide)⟩

/-! ## NBSP: what the second loop of `applyNBSPList` reads and writes -/

theorem prevNonSpaceIndex_spec (pre : List Inline) : ∀ (suf : List Inline),
    match prevNonSpaceIndex (pre ++ suf) pre.length with
    | none => leftNeighbours pre = []
    | some j => (leftNeighbours pre)[0]? = (pre ++ suf)[j]? ∧ (pre ++ suf)[j]?.isSome = true
        ∧ (leftNeighbours pre)[1]? = if j < 1 then none else (pre ++ suf)[j - 1]? := by
  induction pre using List.reverseRecOn with
  | nil => intro suf; simp [prevNonSpaceIndex, leftNeighbours]
  | append_singleton p a ih =>
    intro suf
    have hlen : (p ++ [a]).length = p.length + 1 := by simp
    have hget : (p ++ [a] ++ suf)[p.length]? = some a := by
      rw [List.append_assoc]; exact getElem?_append_length p suf a
    rw [hlen, prevNonSpaceIndex, hget]
    simp only
    by_cases ha : isSpace a = true
    · rw [if_pos ha]
      have hl : leftNeighbours (p ++ [a]) = leftNeighbours p := by
        simp [leftNeighbours, List.dropWhile, ha]
      rw [hl]
      have := ih (a :: suf)
      simpa using this
    · rw [if_neg ha]
      simp only [hget, Option.isSome_some, true_and]
      have hl : leftNeighbours (p ++ [a]) = a :: p.reverse := by
        simp [leftNeighbours, List.dropWhile, ha]
      rw [hl]
      refine ⟨by simp, ?_⟩
      rcases List.eq_nil_or_concat' p with hp | ⟨q, b, hp⟩
      · subst hp; simp
      · subst hp
        have h1 : (q ++ [b]).length - 1 = q.length := by simp
        have h2 : (q ++ [b] ++ [a] ++ suf)[q.length]? = some b := by
          have := getElem?_append_length q ([a] ++ suf) b
          simpa using this
        rw [h1, h2, if_neg (by simp)]
        simp

theorem nextNonSpaceIndexFrom_spec (ins : List Inline) : ∀ (fuel i : Nat),
    ins.length ≤ i + fuel →
    match nextNonSpaceIndexFrom ins fuel i with
    | none => (ins.drop i).dropWhile isSpace = []
    | some j => (ins.drop i).dropWhile isSpace = ins.drop j ∧ j < ins.length := by
  intro fuel
  induction fuel with
  | zero =>
    intro i h
    simp only [nextNonSpaceIndexFrom]
    rw [List.drop_of_length_le (by omega)]
    rfl
  | succ n ih =>
    intro i h
    rw [nextNonSpaceIndexFrom]
    cases hi : ins[i]? with
    | none =>
      simp only
      rw [List.drop_of_length_le (List.getElem?_eq_none_iff.mp hi)]
      rfl
    | some item =>
      have hlt : i < ins.length := (List.getElem?_eq_some_iff.mp hi).1
      have hd : ins.drop i = item :: ins.drop (i + 1) := by
        rw [List.drop_eq_getElem_cons hlt]
        congr 1
        exact (List.getElem?_eq_some_iff.mp hi).2
      simp only
      cases hs : isSpace item
      · simp only [Bool.false_eq_true, if_false]
        exact ⟨by rw [hd]; simp [List.dropWhile, hs], hlt⟩
      · simp only [if_true]
        have := ih (i + 1) (by omega)
        rw [hd]
        simpa [List.dropWhile, hs] using this

theorem nextNonSpaceIndex_spec (pre post : List Inline) (x : Inline) :
    match nextNonSpaceIndex (pre ++ x :: post) pre.length with
    | none => rightNeighbours post = []
    | some j => (rightNeighbours post)[0]? = (pre ++ x :: post)[j]?
        ∧ (pre ++ x :: post)[j]?.isSome = true
        ∧ (rightNeighbours post)[1]? = (pre ++ x :: post)[j + 1]? := by
  have h := nextNonSpaceIndexFrom_spec (pre ++ x :: post) (pre ++ x :: post).length
    (pre.length + 1) (by omega)
  have hd : (pre ++ x :: post).drop (pre.length + 1) = post := by
    simp [List.drop_append]
  rw [hd] at h
  unfold nextNonSpaceIndex
  cases hn : nextNonSpaceIndexFrom (pre ++ x :: post) (pre ++ x :: post).length
      (pre.length + 1) with
  | none => rw [hn] at h; exact h
  | some j =>
    rw [hn] at h
    simp only at h ⊢
    unfold rightNeighbours
    rw [h.1]
    refine ⟨by simp, ?_, ?_⟩
    · exact Option.isSome_iff_exists.mpr ⟨_, List.getElem?_eq_getElem h.2⟩
    · simp [List.getElem?_drop]

theorem isUpperSingleLetter_eq [Unicode] (S : String) :
    isUpperSingleLetter S = isUpperLetterWord (.Word S) := by
  unfold isUpperSingleLetter isUpperLetterWord
  obtain ⟨d⟩ := S
  match d with
  | [] => simp
  | [r] => simp [String.length]
  | a :: b :: c => simp [String.length]

theorem isNumericWordInline_eq [Unicode] (x : Inline) :
    isNumericWordInline x = isAllDigitWord x := by
  cases x <;> rfl

theorem shouldNBSPShortWord_eq [Unicode] (prev next : Inline) (lang : Lang) :
    shouldNBSPShortWord prev next lang
      = (isShortWordOf lang prev && isNonEmptyWord next) := by
  unfold shouldNBSPShortWord
  by_cases hen : lang = LangEN
  · subst hen
    cases prev <;> simp [isShortWordOf, shortWordsOf, LangEN]
  · rw [if_neg hen]
    cases prev <;> cases next <;> simp only [isShortWordOf, isNonEmptyWord, Bool.false_and,
      Bool.and_false]
    rename_i pw nw
    by_cases hnw : nw = ""
    · simp [hnw]
    · rw [if_neg hnw]
      by_cases hru : lang = LangRU
      · subst hru
        simp [shortWordsOf, LangRU, shortWordsRU, hnw]
      · rw [if_neg hru]
        by_cases hua : lang = LangUA
        · subst hua
          simp [shortWordsOf, LangUA, shortWordsUA, hnw]
        · rw [if_neg hua]
          have h1 : ¬ lang = "ru" := hru
          have h2 : ¬ lang = "ua" := hua
          simp [shortWordsOf, h1, h2]

theorem shouldNBSPNumero_eq [Unicode] (out : List Inline) (p n : Nat) (l r : Inline)
    (hl : out[p]? = some l) (hr : out[n]? = some r) :
    shouldNBSPNumero out p n = (isNumeroWord l && isAllDigitWord r) := by
  unfold shouldNBSPNumero
  rw [hl, hr]
  cases l <;> simp only [isNumeroWord, Bool.false_and]
  rename_i pw
  by_cases h : pw = "№"
  · simp [h, isNumericWordInline_eq]
  · simp [h]

theorem shouldNBSPPageAbbr_eq [Unicode] (out : List Inline) (p n : Nat) (l r : Inline)
    (hl : out[p]? = some l) (hr : out[n]? = some r) :
    shouldNBSPPageAbbr out p n
      = (isFullStop l && (if p < 1 then none else out[p - 1]?).any isPageWord
          && isAllDigitWord r) := by
  unfold shouldNBSPPageAbbr
  rw [hl, hr]
  cases l <;> simp only [isFullStop, Bool.false_and]
  rename_i ch
  by_cases hch : ch = '.'
  · subst hch
    by_cases hp : p < 1
    · simp [hp]
    · simp only [hp, bne_self_eq_false, decide_False, Bool.or_self, Bool.false_eq_true,
        if_false, decide_True, Bool.true_and]
      cases h2 : out[p - 1]? with
      | none => simp
      | some l2 =>
        cases l2 <;> simp only [Option.any_some, isPageWord, Bool.false_and]
        rename_i w
        by_cases hw : stringsToLower w = "стр"
        · simp [hw, isNumericWordInline_eq]
        · simp [hw]
  · simp [hch]

theorem isInitialEndingAt_eq [Unicode] (out : List Inline) (p : Nat) (l : Inline)
    (hl : out[p]? = some l) :
    isInitialEndingAt out p
      = (isFullStop l && (if p < 1 then none else out[p - 1]?).any isUpperLetterWord) := by
  unfold isInitialEndingAt
  rw [hl]
  cases l <;> simp only [isFullStop, Bool.false_and]
  rename_i ch
  by_cases hch : ch = '.'
  · subst hch
    by_cases hp : p < 1
    · simp [hp]
    · simp only [hp, bne_self_eq_false, decide_False, Bool.or_self, Bool.false_eq_true,
        if_false, decide_True, Bool.true_and]
      cases h2 : out[p - 1]? with
      | none => simp
      | some l2 =>
        cases l2 <;> simp only [Option.any_some, isUpperLetterWord]
        exact isUpperSingleLetter_eq _
  · simp [hch]

theorem isInitialStartingAt_eq [Unicode] (out : List Inline) (n : Nat) (r : Inline)
    (hr : out[n]? = some r) :
    isInitialStartingAt out n = (isUpperLetterWord r && out[n + 1]?.any isFullStop) := by
  unfold isInitialStartingAt
  rw [hr]
  cases r <;> simp only [isUpperLetterWord, Bool.false_and]
  rename_i w
  rw [isUpperSingleLetter_eq]
  cases hu : isUpperLetterWord (.Word w)
  · simp [isUpperLetterWord] at hu ⊢
    intro h; simp [hu h]
  · have hu2 := hu
    simp only [isUpperLetterWord] at hu2
    rw [hu2]
    simp only [Bool.not_true, Bool.false_eq_true, if_false, Bool.true_and]
    cases h2 : out[n + 1]? with
    | none => simp
    | some r2 => cases r2 <;> simp [isFullStop]

theorem shouldNBSPInitialPattern_eq [Unicode] (out : List Inline) (p n : Nat) (l r : Inline)
    (hl : out[p]? = some l) (hr : out[n]? = some r) :
    shouldNBSPInitialPattern out p n
      = (isFullStop l && (if p < 1 then none else out[p - 1]?).any isUpperLetterWord
          && ((isUpperLetterWord r && out[n + 1]?.any isFullStop) || isLongWord r)) := by
  unfold shouldNBSPInitialPattern
  rw [isInitialEndingAt_eq out p l hl, isInitialStartingAt_eq out n r hr, hr]
  cases h1 : (isFullStop l && (if p < 1 then none else out[p - 1]?).any isUpperLetterWord)
  · simp
  · cases h2 : (isUpperLetterWord r && out[n + 1]?.any isFullStop)
    · cases r <;> simp [isLongWord]
    · simp

theorem nbspRule_nil_left [Unicode] (lang : Lang) (right : List Inline) :
    nbspRule lang [] right = false := by
  simp [nbspRule, shortWordRule, languageIndependentRule]

theorem nbspRule_nil_right [Unicode] (lang : Lang) (left : List Inline) :
    nbspRule lang left [] = false := by
  simp [nbspRule, shortWordRule, languageIndependentRule]

theorem isEmpty_of_getElem?_zero {l : List Inline} {a : Inline} (h : l[0]? = some a) :
    l.isEmpty = false := by
  cases l with
  | nil => simp at h
  | cons => rfl

theorem applyNBSPAt_append [Unicode] (lang : Lang) (pre post : List Inline) (x : Inline) :
    applyNBSPAt lang (pre ++ x :: post) pre.length
      = pre ++ promoteSpace lang pre post x :: post := by
  have hget := getElem?_append_length pre post x
  have hset : ∀ v, (pre ++ x :: post).set pre.length v = pre ++ v :: post := by
    intro v; simp
  unfold applyNBSPAt
  rw [hget]
  by_cases hx : x = .Space .SpaceNormal
  · subst hx
    simp only [promoteSpace]
    have hp := prevNonSpaceIndex_spec pre (.Space .SpaceNormal :: post)
    have hn := nextNonSpaceIndex_spec pre post (.Space .SpaceNormal)
    cases hpi : prevNonSpaceIndex (pre ++ .Space .SpaceNormal :: post) pre.length with
    | none =>
      rw [hpi] at hp
      simp only at hp
      simp [hp, nbspRule_nil_left]
    | some j =>
      rw [hpi] at hp
      simp only at hp
      cases hni : nextNonSpaceIndex (pre ++ .Space .SpaceNormal :: post) pre.length with
      | none =>
        rw [hni] at hn
        simp only at hn
        simp [hn, nbspRule_nil_right]
      | some n =>
        rw [hni] at hn
        simp only at hn
        obtain ⟨l, hl⟩ := Option.isSome_iff_exists.mp hp.2.1
        obtain ⟨r, hr⟩ := Option.isSome_iff_exists.mp hn.2.1
        have hl0 := hp.1.trans hl
        have hr0 := hn.1.trans hr
        simp only [hl, hr]
        rw [shouldNBSPShortWord_eq, shouldNBSPNumero_eq _ _ _ l r hl hr,
          shouldNBSPPageAbbr_eq _ _ _ l r hl hr, shouldNBSPInitialPattern_eq _ _ _ l r hl hr,
          ← hp.2.2, ← hn.2.2, hset]
        have hrule : nbspRule lang (leftNeighbours pre) (rightNeighbours post)
            = (isShortWordOf lang l && isNonEmptyWord r || isNumeroWord l && isAllDigitWord r
              || isFullStop l && (leftNeighbours pre)[1]?.any isPageWord && isAllDigitWord r
              || isFullStop l && (leftNeighbours pre)[1]?.any isUpperLetterWord
                && ((isUpperLetterWord r && (rightNeighbours post)[1]?.any isFullStop)
                    || isLongWord r)) := by
          simp only [nbspRule, shortWordRule, languageIndependentRule, numeroRule, pageAbbrRule,
            initialsRule, hl0, hr0, Option.any_some, isEmpty_of_getElem?_zero hl0,
            isEmpty_of_getElem?_zero hr0, Bool.not_false, Bool.true_and, Bool.or_assoc]
        rw [hrule]
        split <;> simp_all
  · have h1 : promoteSpace lang pre post x = x := by
      cases x with
      | Space k => cases k <;> simp_all [promoteSpace]
      | _ => rfl
    rw [h1]
    cases x with
    | Space k => cases k <;> simp_all
    | _ => rfl

theorem isSpace_nbspView (x : Inline) : isSpace (nbspView x) = isSpace x := by
  cases x <;> rfl

theorem leftNeighbours_map_nbspView (l : List Inline) :
    leftNeighbours (l.map nbspView) = (leftNeighbours l).map nbspView := by
  unfold leftNeighbours
  rw [← List.map_reverse, List.dropWhile_map]
  congr 2
  funext x
  exact isSpace_nbspView x

theorem rightNeighbours_map_nbspView (l : List Inline) :
    rightNeighbours (l.map nbspView) = (rightNeighbours l).map nbspView := by
  unfold rightNeighbours
  rw [List.dropWhile_map]
  congr 2
  funext x
  exact isSpace_nbspView x

theorem any_map_nbspView (f : Inline → Bool) (hf : ∀ x, f (nbspView x) = f x)
    (l : List Inline) (i : Nat) : (l.map nbspView)[i]?.any f = l[i]?.any f := by
  rw [List.getElem?_map]
  cases l[i]? <;> simp [hf]

theorem isEmpty_map_nbspView (l : List Inline) : (l.map nbspView).isEmpty = l.isEmpty := by
  cases l <;> rfl

theorem nbspRule_map_nbspView [Unicode] (lang : Lang) (l r : List Inline) :
    nbspRule lang (l.map nbspView) (r.map nbspView) = nbspRule lang l r := by
  have h1 : ∀ x, isShortWordOf lang (nbspView x) = isShortWordOf lang x := by
    intro x; cases x <;> rfl
  have h2 : ∀ x, isNonEmptyWord (nbspView x) = isNonEmptyWord x := by
    intro x; cases x <;> rfl
  have h3 : ∀ x, isNumeroWord (nbspView x) = isNumeroWord x := by
    intro x; cases x <;> rfl
  have h4 : ∀ x, isAllDigitWord (nbspView x) = isAllDigitWord x := by
    intro x; cases x <;> rfl
  have h5 : ∀ x, isFullStop (nbspView x) = isFullStop x := by
    intro x; cases x <;> rfl
  have h6 : ∀ x, isPageWord (nbspView x) = isPageWord x := by
    intro x; cases x <;> rfl
  have h7 : ∀ x, isUpperLetterWord (nbspView x) = isUpperLetterWord x := by
    intro x; cases x <;> rfl
  have h8 : ∀ x, isLongWord (nbspView x) = isLongWord x := by
    intro x; cases x <;> rfl
  simp only [nbspRule, shortWordRule, languageIndependentRule, numeroRule, pageAbbrRule,
    initialsRule, any_map_nbspView _ h1, any_map_nbspView _ h2, any_map_nbspView _ h3,
    any_map_nbspView _ h4, any_map_nbspView _ h5, any_map_nbspView _ h6,
    any_map_nbspView _ h7, any_map_nbspView _ h8, isEmpty_map_nbspView]

theorem nbspRule_congr [Unicode] (lang : Lang) (l l2 r r2 : List Inline)
    (hl : l.map nbspView = l2.map nbspView) (hr : r.map nbspView = r2.map nbspView) :
    nbspRule lang l r = nbspRule lang l2 r2 := by
  rw [← nbspRule_map_nbspView lang l r, ← nbspRule_map_nbspView lang l2 r2, hl, hr]

theorem promoteSpace_congr [Unicode] (lang : Lang) (pre pre2 post post2 : List Inline)
    (x : Inline) (hpre : pre.map nbspView = pre2.map nbspView)
    (hpost : post.map nbspView = post2.map nbspView) :
    promoteSpace lang pre post x = promoteSpace lang pre2 post2 x := by
  have h : nbspRule lang (leftNeighbours pre) (rightNeighbours post)
      = nbspRule lang (leftNeighbours pre2) (rightNeighbours post2) := by
    apply nbspRule_congr
    · rw [← leftNeighbours_map_nbspView, ← leftNeighbours_map_nbspView, hpre]
    · rw [← rightNeighbours_map_nbspView, ← rightNeighbours_map_nbspView, hpost]
  cases x with
  | Space k => cases k <;> simp only [promoteSpace, h]
  | _ => rfl

theorem nbspView_promoteSpace [Unicode] (lang : Lang) (pre post : List Inline) (x : Inline) :
    nbspView (promoteSpace lang pre post x) = nbspView x := by
  cases x with
  | Space k =>
    cases k <;> simp only [promoteSpace]
    split <;> rfl
  | _ => rfl

theorem promoteFlat_congr [Unicode] (lang : Lang) (ins : List Inline) :
    ∀ (pre pre2 : List Inline), pre.map nbspView = pre2.map nbspView →
      promoteFlat lang pre ins = promoteFlat lang pre2 ins := by
  induction ins with
  | nil => intro _ _ _; rfl
  | cons x rest ih =>
    intro pre pre2 h
    simp only [promoteFlat]
    rw [promoteSpace_congr lang pre pre2 rest rest x h rfl,
      ih (pre ++ [x]) (pre2 ++ [x]) (by simp [h])]

theorem foldl_applyNBSPAt [Unicode] (lang : Lang) (suf : List Inline) :
    ∀ (pre : List Inline),
      (List.range' pre.length suf.length).foldl (applyNBSPAt lang) (pre ++ suf)
        = pre ++ promoteFlat lang pre suf := by
  induction suf with
  | nil => intro pre; simp [promoteFlat]
  | cons x rest ih =>
    intro pre
    rw [List.length_cons, List.range'_succ, List.foldl_cons, applyNBSPAt_append]
    have h := ih (pre ++ [promoteSpace lang pre rest x])
    simp only [List.length_append, List.length_singleton, List.append_assoc,
      List.singleton_append] at h
    rw [h, promoteFlat]
    congr 2
    apply promoteFlat_congr
    simp [nbspView_promoteSpace]

theorem applyNBSPLoop_eq [Unicode] (lang : Lang) (out : List Inline) :
    applyNBSPLoop lang out = promoteFlat lang [] out := by
  have h := foldl_applyNBSPAt lang out []
  simpa [applyNBSPLoop, List.range_eq_range'] using h

theorem promoteFlat_getElem? [Unicode] (lang : Lang) (pre : List Inline) :
    ∀ (before post : List Inline) (x : Inline),
      (promoteFlat lang before (pre ++ x :: post))[pre.length]?
        = some (promoteSpace lang (before ++ pre) post x) := by
  induction pre with
  | nil => intro before post x; simp [promoteFlat]
  | cons a pre ih =>
    intro before post x
    have h := ih (before ++ [a]) post x
    simp only [List.append_assoc, List.singleton_append] at h
    simpa [promoteFlat] using h

theorem applyNBSPItems_eq_map [Unicode] (lang : Lang) (ins : List Inline) :
    applyNBSPItems lang ins = ins.map (applyNBSPItem lang) := by
  induction ins with
  | nil => rfl
  | cons x rest ih => simp [applyNBSPItems, ih]

theorem nbspView_applyNBSPItem [Unicode] (lang : Lang) (x : Inline) :
    nbspView (applyNBSPItem lang x) = nbspView x := by
  cases x <;> simp [applyNBSPItem, nbspView]

/-- The item `applyNBSPList` leaves at a position, from the items before and after it in
the input. -/
theorem applyNBSPList_getElem? [Unicode] (lang : Lang) (pre post : List Inline) (x : Inline) :
    (applyNBSPList (pre ++ x :: post) lang)[pre.length]?
      = some (promoteSpace lang pre post (applyNBSPItem lang x)) := by
  rw [applyNBSPList, applyNBSPLoop_eq, applyNBSPItems_eq_map, List.map_append, List.map_cons]
  have h := promoteFlat_getElem? lang (pre.map (applyNBSPItem lang)) []
    (post.map (applyNBSPItem lang)) (applyNBSPItem lang x)
  rw [List.length_map] at h
  rw [h, List.nil_append]
  congr 1
  apply promoteSpace_congr <;> simp [nbspView_applyNBSPItem]

/-! ## NBSP: the claims about `applyNBSPList` -/

theorem nbspPromotedItem_promoteSpace [Unicode] (lang : Lang) (pre post : List Inline)
    (a b : Inline) (h : nbspPromotedItem a b = true) :
    nbspPromotedItem a (promoteSpace lang pre post b) = true := by
  by_cases hb : b = .Space .SpaceNormal
  · subst hb
    cases a with
    | Space k =>
      cases k <;> simp [nbspPromotedItem] at h
      simp only [promoteSpace]
      split <;> simp [nbspPromotedItem]
    | _ => simp [nbspPromotedItem] at h
  · have : promoteSpace lang pre post b = b := by
      cases b with
      | Space k => cases k <;> simp_all [promoteSpace]
      | _ => rfl
    rw [this]; exact h

theorem nbspPromotedList_promoteFlat [Unicode] (lang : Lang) (as : List Inline) :
    ∀ (bs before : List Inline), nbspPromotedList as bs = true →
      nbspPromotedList as (promoteFlat lang before bs) = true := by
  induction as with
  | nil =>
    intro bs before h
    cases bs with
    | nil => simp [promoteFlat, nbspPromotedList]
    | cons b bs => simp [nbspPromotedList] at h
  | cons a as ih =>
    intro bs before h
    cases bs with
    | nil => simp [nbspPromotedList] at h
    | cons b bs =>
      simp only [nbspPromotedList, Bool.and_eq_true] at h
      simp only [promoteFlat, nbspPromotedList, Bool.and_eq_true]
      exact ⟨nbspPromotedItem_promoteSpace lang before bs a b h.1, ih bs _ h.2⟩

theorem length_of_nbspPromotedList (as : List Inline) :
    ∀ (bs : List Inline), nbspPromotedList as bs = true → bs.length = as.length := by
  induction as with
  | nil =>
    intro bs h
    cases bs with
    | nil => rfl
    | cons b bs => simp [nbspPromotedList] at h
  | cons a as ih =>
    intro bs h
    cases bs with
    | nil => simp [nbspPromotedList] at h
    | cons b bs =>
      simp only [nbspPromotedList, Bool.and_eq_true] at h
      simp [ih bs h.2]

mutual
theorem nbspPromotedItem_applyNBSPItem [Unicode] (lang : Lang) : ∀ (x : Inline),
    nbspPromotedItem x (applyNBSPItem lang x) = true
  | .QuoteSpan level c => by
    simp only [applyNBSPItem, nbspPromotedItem, decide_True, Bool.true_and, applyNBSPLoop_eq]
    exact nbspPromotedList_promoteFlat lang c _ [] (nbspPromotedList_applyNBSPItems lang c)
  | .ParenSpan o cl c => by
    simp only [applyNBSPItem, nbspPromotedItem, decide_True, Bool.true_and, applyNBSPLoop_eq]
    exact nbspPromotedList_promoteFlat lang c _ [] (nbspPromotedList_applyNBSPItems lang c)
  | .Word _ => by simp [applyNBSPItem, nbspPromotedItem]
  | .Space _ => by simp [applyNBSPItem, nbspPromotedItem]
  | .Punct _ => by simp [applyNBSPItem, nbspPromotedItem]
  | .Dash _ => by simp [applyNBSPItem, nbspPromotedItem]
  | .Ellipsis => by simp [applyNBSPItem, nbspPromotedItem]
theorem nbspPromotedList_applyNBSPItems [Unicode] (lang : Lang) : ∀ (l : List Inline),
    nbspPromotedList l (applyNBSPItems lang l) = true
  | [] => by simp [applyNBSPItems, nbspPromotedList]
  | x :: rest => by
    simp only [applyNBSPItems, nbspPromotedList, Bool.and_eq_true]
    exact ⟨nbspPromotedItem_applyNBSPItem lang x, nbspPromotedList_applyNBSPItems lang rest⟩
end

theorem nbspPromotedList_applyNBSPList [Unicode] (ins : List Inline) (lang : Lang) :
    nbspPromotedList ins (applyNBSPList ins lang) = true := by
  rw [applyNBSPList, applyNBSPLoop_eq]
  exact nbspPromotedList_promoteFlat lang ins _ [] (nbspPromotedList_applyNBSPItems lang ins)

/-- Claim C12: `applyNBSPList` returns a list of the length of its input that differs from
it only in that Spaces of kind Normal, at any nesting level, may have become NonBreaking:
every other item is unchanged and a Space that was NonBreaking or Thin keeps its kind. -/
theorem applyNBSPList_frame [Unicode] (ins : List Inline) (lang : Lang) :
    (applyNBSPList ins lang).length = ins.length
      ∧ nbspPromotedList ins (applyNBSPList ins lang) = true :=
  ⟨length_of_nbspPromotedList ins _ (nbspPromotedList_applyNBSPList ins lang),
    nbspPromotedList_applyNBSPList ins lang⟩

theorem applyNBSPList_space [Unicode] (lang : Lang) (pre post : List Inline) :
    (applyNBSPList (pre ++ .Space .SpaceNormal :: post) lang)[pre.length]?
      = some (.Space (if nbspRule lang (leftNeighbours pre) (rightNeighbours post)
          then .SpaceNBSP else .SpaceNormal)) := by
  rw [applyNBSPList_getElem?]
  simp only [applyNBSPItem, promoteSpace]
  split <;> rfl

/-- Claim C13, amended: for every language, a Normal Space whose left non-space neighbour is
a Word whose lowercased payload is a short word of the language (there are such words for
ru and ua only) and whose right non-space neighbour is a Word that is not empty is promoted
to NonBreaking by `applyNBSPList`; and for the language en `shouldNBSPShortWord` holds of no
pair of neighbours. -/
theorem applyNBSPList_shortWord [Unicode] :
    (∀ (lang : Lang) (pre post : List Inline),
        (leftNeighbours pre)[0]?.any (isShortWordOf lang) = true →
        (rightNeighbours post)[0]?.any isNonEmptyWord = true →
        (applyNBSPList (pre ++ .Space .SpaceNormal :: post) lang)[pre.length]?
          = some (.Space .SpaceNBSP))
      ∧ ∀ (prev next : Inline), shouldNBSPShortWord prev next LangEN = false := by
  refine ⟨fun lang pre post hl hr => ?_, fun prev next => ?_⟩
  · rw [applyNBSPList_space]
    simp [nbspRule, shortWordRule, hl, hr]
  · simp [shouldNBSPShortWord]

/-- Claim C14: a Normal Space whose left non-space neighbour is not a short word of the
language, or with the language en, is left by `applyNBSPList` NonBreaking if it has a
non-space neighbour on both sides and the Numero, the Page abbreviation or the Initials rule
holds between them, and Normal if not. -/
theorem applyNBSPList_languageIndependent [Unicode] (lang : Lang) (pre post : List Inline)
    (h : lang = LangEN ∨ (leftNeighbours pre)[0]?.any (isShortWordOf lang) = false) :
    (applyNBSPList (pre ++ .Space .SpaceNormal :: post) lang)[pre.length]?
      = some (.Space (if languageIndependentRule (leftNeighbours pre) (rightNeighbours post)
          then .SpaceNBSP else .SpaceNormal)) := by
  rw [applyNBSPList_space]
  have hs : shortWordRule lang (leftNeighbours pre) (rightNeighbours post) = false := by
    rcases h with h | h
    · subst h
      have : ∀ x, isShortWordOf LangEN x = false := by
        intro x; cases x <;> simp [isShortWordOf, shortWordsOf, LangEN]
      cases hl : (leftNeighbours pre)[0]? <;> simp [shortWordRule, hl, this]
    · simp [shortWordRule, h]
  simp [nbspRule, hs]

/-- Claim C13 fails at the inlines of `в «доме»` with the language ru: the Normal Space has
the short word `в` on its left and a QuoteSpan on its right, and `applyNBSPList` leaves it
Normal; so does the whole pipeline with the NBSP pass switched on. -/
theorem applyNBSPList_shortWord_beforeQuote :
    (leftNeighbours [.Word "в"])[0]?.any (@isShortWordOf basicTables LangRU) = true
      ∧ rightNeighbours [.QuoteSpan 1 [.Word "доме"]] = [.QuoteSpan 1 [.Word "доме"]]
      ∧ (@applyNBSPList basicTables shortWordBeforeQuote LangRU)[1]?
          = some (.Space .SpaceNormal)
      ∧ (@Apply basicTables (@Parse basicTables "в «доме»" { DefaultConfig with UseNBSP := true })
            { DefaultConfig with UseNBSP := true }).Blocks
          = [.Paragraph shortWordBeforeQuote] := by
  decide

/-- Claim C13, amended, at the inlines of `В доме` with the language ru: the Space between
the short word and the Word becomes NonBreaking. -/
theorem applyNBSPList_shortWord_witness :
    (leftNeighbours [.Word "В"])[0]?.any (@isShortWordOf basicTables LangRU) = true
      ∧ (rightNeighbours [.Word "доме"])[0]?.any isNonEmptyWord = true
      ∧ (@applyNBSPList basicTables [.Word "В", .Space .SpaceNormal, .Word "доме"] LangRU)[1]?
          = some (.Space .SpaceNBSP) :=
  ⟨by decide, by decide,
    (@applyNBSPList_shortWord basicTables).1 LangRU [.Word "В"] [.Word "доме"]
      (by decide) (by decide)⟩

/-- Claim C14 at the inlines of `А. Б. Иванов` with the language ru: the Space after the
first initial has no short word on its left and becomes NonBreaking by the Initials rule. -/
theorem applyNBSPList_languageIndependent_witness :
    (LangRU = LangEN ∨ (leftNeighbours [.Word "А", .Punct '.'])[0]?.any
        (@isShortWordOf basicTables LangRU) = false)
      ∧ (@applyNBSPList basicTables
          [.Word "А", .Punct '.', .Space .SpaceNormal, .Word "Б", .Punct '.',
            .Space .SpaceNormal, .Word "Иванов"] LangRU)[2]? = some (.Space .SpaceNBSP) :=
  ⟨Or.inr (by decide),
    (@applyNBSPList_languageIndependent basicTables LangRU [.Word "А", .Punct '.']
      [.Word "Б", .Punct '.', .Space .SpaceNormal, .Word "Иванов"]
      (Or.inr (by decide))).trans (by decide)⟩

/-! ## Structure lines: what `strings.Fields` returns -/

theorem fieldsLoop_out [Unicode] (rs : List Char) : ∀ (cur : List Char) (out : List String),
    fieldsLoop rs cur out = out ++ fieldsLoop rs cur [] := by
  induction rs with
  | nil => intro cur out; simp only [fieldsLoop]; split <;> simp
  | cons r rest ih =>
    intro cur out
    simp only [fieldsLoop]
    split
    · split
      · exact ih [] out
      · rw [ih [] (out ++ [String.mk cur]), ih [] ([] ++ [String.mk cur])]
        simp
    · exact ih _ out

theorem fieldsLoop_good [Unicode] (rs : List Char) : ∀ (cur : List Char) (out : List String),
    (∀ c ∈ cur, Unicode.IsSpace c = false) →
    (∀ w ∈ out, w.data ≠ [] ∧ ∀ c ∈ w.data, Unicode.IsSpace c = false) →
    ∀ w ∈ fieldsLoop rs cur out, w.data ≠ [] ∧ ∀ c ∈ w.data, Unicode.IsSpace c = false := by
  induction rs with
  | nil =>
    intro cur out hcur hout
    simp only [fieldsLoop]
    split
    · exact hout
    · rename_i h
      intro w hw
      rcases List.mem_append.mp hw with hw | hw
      · exact hout w hw
      · rw [List.mem_singleton.mp hw]
        exact ⟨fun e => h (by simp [show cur = [] from e]), hcur⟩
  | cons r rest ih =>
    intro cur out hcur hout
    simp only [fieldsLoop]
    split
    · split
      · exact ih [] out (by simp) hout
      · rename_i h
        apply ih [] _ (by simp)
        intro w hw
        rcases List.mem_append.mp hw with hw | hw
        · exact hout w hw
        · rw [List.mem_singleton.mp hw]
          exact ⟨fun e => h (by simp [show cur = [] from e]), hcur⟩
    · rename_i hr
      apply ih _ out _ hout
      intro c hc
      rcases List.mem_append.mp hc with hc | hc
      · exact hcur c hc
      · rw [List.mem_singleton.mp hc]; simpa using hr

theorem Fields_good [Unicode] (s : String) :
    ∀ w ∈ Fields s, w.data ≠ [] ∧ ∀ c ∈ w.data, Unicode.IsSpace c = false :=
  fieldsLoop_good s.data [] [] (by simp) (by simp)

theorem fieldsLoop_dropWhile [Unicode] (rs : List Char) (out : List String) :
    fieldsLoop (rs.dropWhile Unicode.IsSpace) [] out = fieldsLoop rs [] out := by
  induction rs with
  | nil => rfl
  | cons r rest ih =>
    by_cases hr : Unicode.IsSpace r = true
    · simp [List.dropWhile, hr, fieldsLoop, ih]
    · simp [List.dropWhile, hr]

theorem fieldsLoop_append_space [Unicode] (rs : List Char) (r : Char)
    (hr : Unicode.IsSpace r = true) : ∀ (cur : List Char) (out : List String),
    fieldsLoop (rs ++ [r]) cur out = fieldsLoop rs cur out := by
  induction rs with
  | nil => intro cur out; simp [fieldsLoop, hr]
  | cons a rest ih =>
    intro cur out
    have e : (a :: rest) ++ [r] = a :: (rest ++ [r]) := rfl
    rw [e, fieldsLoop, fieldsLoop, ih, ih, ih]

theorem fieldsLoop_append_spaces [Unicode] (sp : List Char) :
    ∀ (rs cur : List Char) (out : List String), (∀ c ∈ sp, Unicode.IsSpace c = true) →
    fieldsLoop (rs ++ sp) cur out = fieldsLoop rs cur out := by
  induction sp using List.reverseRecOn with
  | nil => intro rs cur out _; simp
  | append_singleton p a ih =>
    intro rs cur out h
    rw [← List.append_assoc, fieldsLoop_append_space _ a (h a (by simp))]
    exact ih rs cur out (fun c hc => h c (by simp [hc]))

theorem fieldsLoop_trimRight [Unicode] (rs cur : List Char) (out : List String) :
    fieldsLoop (trimRightFunc Unicode.IsSpace rs) cur out = fieldsLoop rs cur out := by
  have h : rs = trimRightFunc Unicode.IsSpace rs
      ++ (rs.reverse.takeWhile Unicode.IsSpace).reverse := by
    unfold trimRightFunc
    rw [← List.reverse_append, List.takeWhile_append_dropWhile, List.reverse_reverse]
  conv => rhs; rw [h]
  rw [fieldsLoop_append_spaces]
  intro c hc
  exact List.mem_takeWhile_imp (List.mem_reverse.mp hc)

theorem Fields_TrimSpace [Unicode] (s : String) : Fields (TrimSpace s) = Fields s := by
  simp only [Fields, TrimSpace, fieldsLoop_trimRight, trimLeftFunc, fieldsLoop_dropWhile]

/-! ## Structure lines: scene breaks -/

theorem isXLikeRune_eq (c : Char) : isXLikeRune c = decide (c ∈ xLikeGlyphs) := by
  simp [isXLikeRune, xLikeGlyphs, Bool.or_assoc]

theorem isSceneBreakRune_eq (c : Char) : isSceneBreakRune c = decide (c ∈ sceneBreakGlyphs) := by
  simp [isSceneBreakRune, sceneBreakGlyphs, Bool.or_assoc]

theorem foldl_join_data (ws : List String) : ∀ (acc : String),
    (ws.foldl (fun acc part => acc ++ " " ++ part) acc).data = acc.data ++ blankBefore ws := by
  induction ws with
  | nil => intro acc; simp [blankBefore]
  | cons w rest ih =>
    intro acc
    rw [List.foldl_cons, ih]
    simp [blankBefore, String.data_append]

theorem Join_data (w : String) (ws : List String) :
    (Join (w :: ws) " ").data = w.data ++ blankBefore ws := by
  simp only [Join, foldl_join_data]

theorem matchXGroups_nonSpace (fuel : Nat) (d : Char) (rest : List Char)
    (hd : reSpace d = false) : matchXGroups fuel (d :: rest) = (0, d :: rest) := by
  cases fuel with
  | zero => rfl
  | succ f => simp [matchXGroups, List.takeWhile, List.dropWhile, hd]

theorem matchXGroups_blankBefore (ws : List String)
    (hws : ∀ w ∈ ws, w.data ≠ [] ∧ ∀ c ∈ w.data, reSpace c = false) :
    ∀ (fuel : Nat), (blankBefore ws).length ≤ fuel →
      (ws.all isXLikeWord = true → matchXGroups fuel (blankBefore ws) = (ws.length, []))
        ∧ (ws.all isXLikeWord = false → (matchXGroups fuel (blankBefore ws)).2 ≠ []) := by
  induction ws with
  | nil =>
    intro fuel _
    refine ⟨fun _ => ?_, fun h => by simp at h⟩
    cases fuel <;> simp [blankBefore, matchXGroups]
  | cons w rest ih =>
    intro fuel hfuel
    obtain ⟨hne, hns⟩ := hws w (by simp)
    have hrest := fun v hv => hws v (List.mem_cons_of_mem _ hv)
    obtain ⟨wd⟩ := w
    cases wd with
    | nil => exact absurd rfl hne
    | cons c cs =>
      have hc : reSpace c = false := hns c (by simp)
      have hb : blankBefore (String.mk (c :: cs) :: rest)
          = ' ' :: c :: (cs ++ blankBefore rest) := by
        simp [blankBefore]
      rw [hb] at hfuel ⊢
      cases fuel with
      | zero => simp at hfuel
      | succ f =>
        have hstep : matchXGroups (f + 1) (' ' :: c :: (cs ++ blankBefore rest))
            = if isXLikeRune c then
                ((matchXGroups f (cs ++ blankBefore rest)).1 + 1,
                  (matchXGroups f (cs ++ blankBefore rest)).2)
              else (0, ' ' :: c :: (cs ++ blankBefore rest)) := by
          have hsp : reSpace ' ' = true := by decide
          simp [matchXGroups, List.takeWhile, List.dropWhile, hc, hsp]
        rw [hstep]
        cases cs with
        | nil =>
          have hw : isXLikeWord (String.mk [c]) = isXLikeRune c := by
            simp [isXLikeWord, isXLikeRune_eq]
          simp only [List.all_cons, hw, List.nil_append, List.length_cons]
          have hih := ih hrest f (by simp at hfuel; omega)
          by_cases hx : isXLikeRune c = true
          · simp only [hx, Bool.true_and, if_true]
            refine ⟨fun h => ?_, fun h => ?_⟩
            · rw [(hih.1 h)]
            · exact hih.2 h
          · simp [hx]
        | cons d ds =>
          have hd : reSpace d = false := hns d (by simp)
          have hw : isXLikeWord (String.mk (c :: d :: ds)) = false := by
            simp [isXLikeWord]
          simp only [List.all_cons, hw, Bool.false_and, List.cons_append,
            matchXGroups_nonSpace f d _ hd]
          refine ⟨fun h => by simp at h, fun _ => ?_⟩
          split <;> simp

theorem xSceneBreakRe_Join (w : String) (ws : List String)
    (hws : ∀ v ∈ w :: ws, v.data ≠ [] ∧ ∀ c ∈ v.data, reSpace c = false) :
    xSceneBreakRe (Join (w :: ws) " ")
      = (decide (3 ≤ (w :: ws).length) && (w :: ws).all isXLikeWord) := by
  unfold xSceneBreakRe
  rw [Join_data]
  obtain ⟨hne, hns⟩ := hws w (by simp)
  have hrest := fun v hv => hws v (List.mem_cons_of_mem _ hv)
  obtain ⟨wd⟩ := w
  cases wd with
  | nil => exact absurd rfl hne
  | cons c cs =>
    simp only [List.cons_append]
    cases cs with
    | nil =>
      have hw : isXLikeWord (String.mk [c]) = isXLikeRune c := by
        simp [isXLikeWord, isXLikeRune_eq]
      simp only [List.nil_append, List.all_cons, hw, List.length_cons]
      have hm := matchXGroups_blankBefore ws hrest (blankBefore ws).length (le_refl _)
      by_cases hx : isXLikeRune c = true
      · simp only [hx, if_true, Bool.true_and]
        cases hall : ws.all isXLikeWord
        · have := hm.2 hall
          cases h2 : (matchXGroups (blankBefore ws).length (blankBefore ws)).2 with
          | nil => exact absurd h2 this
          | cons a b => simp
        · have h1 := hm.1 hall
          simp only [h1, List.isEmpty_nil, Bool.and_true, decide_eq_decide]
          omega
      · simp [hx]
    | cons d ds =>
      have hd : reSpace d = false := hns d (by simp)
      have hw : isXLikeWord (String.mk (c :: d :: ds)) = false := by
        simp [isXLikeWord]
      simp only [List.all_cons, hw, Bool.false_and, Bool.and_false, List.cons_append,
        matchXGroups_nonSpace _ d _ hd]
      split <;> simp

theorem filter_blank_of_good (l : List Char) (h : ∀ c ∈ l, reSpace c = false) :
    l.filter (fun r => r != ' ') = l := by
  apply List.filter_eq_self.mpr
  intro c hc
  have := h c hc
  simp only [bne_iff_ne, ne_eq]
  intro e
  subst e
  exact absurd this (by decide)

theorem filter_blankBefore (ws : List String)
    (hws : ∀ w ∈ ws, w.data ≠ [] ∧ ∀ c ∈ w.data, reSpace c = false) :
    (blankBefore ws).filter (fun r => r != ' ') = (ws.map String.data).flatten := by
  induction ws with
  | nil => rfl
  | cons w rest ih =>
    have h1 := filter_blank_of_good w.data (hws w (by simp)).2
    have h2 := ih (fun v hv => hws v (List.mem_cons_of_mem _ hv))
    have e : blankBefore (w :: rest) = ' ' :: (w.data ++ blankBefore rest) := by
      simp [blankBefore]
    rw [e, List.filter_cons_of_neg (by simp), List.filter_append, h1, h2]
    simp

theorem removeBlanks_Join (w : String) (ws : List String)
    (hws : ∀ v ∈ w :: ws, v.data ≠ [] ∧ ∀ c ∈ v.data, reSpace c = false) :
    (removeBlanks (Join (w :: ws) " ")).data = ((w :: ws).map String.data).flatten := by
  simp only [removeBlanks, Join_data, List.filter_append,
    filter_blank_of_good w.data (hws w (by simp)).2,
    filter_blankBefore ws (fun v hv => hws v (List.mem_cons_of_mem _ hv)),
    List.map_cons, List.flatten_cons]

/-- Claim C15: `isSceneBreak` holds of a line exactly when, after trimming and collapsing
the whitespace, the line is three or more x-like glyphs (x, X, х, Х) separated by spaces, or
the line without its spaces has at least three runes, all of them scene-break glyphs, and
is not made of x-like glyphs only. The tables of `unicode.IsSpace` are assumed to hold the
five runes of the class `\s` of `regexp`, as Go's do. -/
theorem isSceneBreak_spec [Unicode] (line : String)
    (hs : ∀ c, reSpace c = true → Unicode.IsSpace c = true) :
    isSceneBreak line = sceneBreakSpec line := by
  have hgood : ∀ v ∈ Fields line, v.data ≠ [] ∧ ∀ c ∈ v.data, reSpace c = false := by
    intro v hv
    have h := Fields_good line v hv
    refine ⟨h.1, fun c hc => ?_⟩
    cases hr : reSpace c
    · rfl
    · have := hs c hr
      rw [h.2 c hc] at this
      exact absurd this (by simp)
  unfold isSceneBreak sceneBreakSpec normalizeStructureLine
  rw [Fields_TrimSpace]
  cases hw : Fields line with
  | nil => simp [Join]
  | cons w ws =>
    rw [hw] at hgood
    have hne : Join (w :: ws) " " ≠ "" := by
      intro e
      have h1 := Join_data w ws
      rw [e] at h1
      have h2 := (hgood w (by simp)).1
      cases hd : w.data with
      | nil => exact h2 hd
      | cons a b => rw [hd] at h1; simp at h1
    simp only [hne, if_false, xSceneBreakRe_Join w ws hgood, removeBlanks_Join w ws hgood]
    have e1 : ∀ l : List Char, l.all isSceneBreakRune
        = l.all (fun c => decide (c ∈ sceneBreakGlyphs)) := by
      intro l; congr 1; funext c; exact isSceneBreakRune_eq c
    have e2 : ∀ l : List Char, l.all isXLikeRune
        = l.all (fun c => decide (c ∈ xLikeGlyphs)) := by
      intro l; congr 1; funext c; exact isXLikeRune_eq c
    rw [e1, e2]
    generalize (decide (3 ≤ (w :: ws).length) && (w :: ws).all isXLikeWord) = a
    generalize ((w :: ws).map String.data).flatten = compact
    generalize compact.all (fun c => decide (c ∈ sceneBreakGlyphs)) = b
    generalize compact.all (fun c => decide (c ∈ xLikeGlyphs)) = x
    by_cases hl : compact.length < 3
    · have : ¬ 3 ≤ compact.length := by omega
      cases a <;> simp [hl, this]
    · have : 3 ≤ compact.length := by omega
      cases a <;> cases b <;> cases x <;> simp [hl, this]

/-- Claim C15 on the lines of the repository's test: `***`, `* * *`, `— * —`, `-----` and
`x x x` are scene breaks, `**`, `x x`, `xxx` and `abc` are not. -/
theorem isSceneBreak_spec_witness :
    (∀ c, reSpace c = true → basicTables.IsSpace c = true)
      ∧ ["***", "* * *", "— * —", "--***--", "-----", "x x x", "х х х", "**", "x x", "xxx",
          "abc"].map (@sceneBreakSpec basicTables)
        = [true, true, true, true, true, true, true, false, false, false, false]
      ∧ @isSceneBreak basicTables "x  x\tx" = @sceneBreakSpec basicTables "x  x\tx" := by
  have h : ∀ c, reSpace c = true → basicTables.IsSpace c = true := by
    intro c h
    simp only [reSpace, Bool.or_eq_true, decide_eq_true_eq] at h
    rcases h with (((h | h) | h) | h) | h <;> subst h <;> decide
  exact ⟨h, by decide, @isSceneBreak_spec basicTables "x  x\tx" h⟩

/-! ## Dialogue lines -/

/-- Claim C16, amended: `isDialogueLine` holds of a line exactly when the line is some
spaces and tabs, then `-` or `—`, then a character of `unicode.IsSpace`, then anything. -/
theorem isDialogueLine_iff [Unicode] (s : String) :
    isDialogueLine s = true ↔
      ∃ (blanks : List Char) (c next : Char) (rest : List Char),
        s.data = blanks ++ c :: next :: rest ∧ (∀ b ∈ blanks, isBlankOrTab b = true)
          ∧ (c = '-' ∨ c = '—') ∧ Unicode.IsSpace next = true := by
  unfold isDialogueLine TrimLeftBlanks trimLeftFunc
  have hsplit := List.takeWhile_append_dropWhile (fun r => decide (r = ' ') || decide (r = '\t'))
    s.data
  constructor
  · intro h
    cases hd : s.data.dropWhile (fun r => decide (r = ' ') || decide (r = '\t')) with
    | nil => simp [hd] at h
    | cons c tl =>
      cases tl with
      | nil => simp [hd] at h
      | cons next rest =>
        simp only [hd, Bool.and_eq_true, Bool.or_eq_true, decide_eq_true_eq] at h
        refine ⟨s.data.takeWhile (fun r => decide (r = ' ') || decide (r = '\t')), c, next,
          rest, ?_, ?_, h.1.symm, h.2⟩
        · rw [← hd, hsplit]
        · intro b hb
          exact List.mem_takeWhile_imp hb
  · rintro ⟨blanks, c, next, rest, hs, hb, hc, hn⟩
    have hcb : (decide (c = ' ') || decide (c = '\t')) = false := by
      rcases hc with rfl | rfl <;> decide
    have hd : s.data.dropWhile (fun r => decide (r = ' ') || decide (r = '\t'))
        = c :: next :: rest := by
      rw [hs, List.dropWhile_append]
      have h1 : blanks.dropWhile (fun r => decide (r = ' ') || decide (r = '\t')) = [] := by
        rw [List.dropWhile_eq_nil_iff]
        exact hb
      simp [h1, List.dropWhile, hcb]
    simp only [hd, Bool.and_eq_true, Bool.or_eq_true, decide_eq_true_eq]
    exact ⟨hc.symm, hn⟩

/-- Claim C16 fails whichever characters count as whitespace. With the whitespace of
`unicode.IsSpace`, the line of a no-break space, `—`, a space and `a` has `—` as its first
character that is not whitespace, followed by whitespace, and `isDialogueLine` rejects it.
With the space and the tab only, the line of `—`, a no-break space and `a` has no whitespace
after the `—`, and `isDialogueLine` accepts it. -/
theorem isDialogueLine_not_spec :
    dialogueLineSpec basicTables.IsSpace (String.mk [Char.ofNat 0xA0, '—', ' ', 'a']) = true
      ∧ @isDialogueLine basicTables (String.mk [Char.ofNat 0xA0, '—', ' ', 'a']) = false
      ∧ dialogueLineSpec isBlankOrTab (String.mk ['—', Char.ofNat 0xA0, 'a']) = false
      ∧ @isDialogueLine basicTables (String.mk ['—', Char.ofNat 0xA0, 'a']) = true := by
  decide

/-- Claim C16, amended, on the lines of the repository's test: `- Привет`, `— Привет` and
the same after two spaces and a tab are dialogue lines. -/
theorem isDialogueLine_iff_witness :
    @isDialogueLine basicTables "- Привет" = true
      ∧ @isDialogueLine basicTables "  \t- Привет" = true
      ∧ @isDialogueLine basicTables "-- Привет" = false
      ∧ ∃ (blanks : List Char) (c next : Char) (rest : List Char),
          "  \t— Привет".data = blanks ++ c :: next :: rest
            ∧ (∀ b ∈ blanks, isBlankOrTab b = true)
            ∧ (c = '-' ∨ c = '—') ∧ basicTables.IsSpace next = true :=
  ⟨by decide, by decide, by decide,
    (@isDialogueLine_iff basicTables "  \t— Привет").mp (by decide)⟩

/-! ## Leading titles -/

theorem parseParts_noTitle [Unicode] (parts : List candidate) :
    ∀ b ∈ (parseParts parts).1, isTitleBlock b = false := by
  induction parts with
  | nil => simp [parseParts]
  | cons part rest ih =>
    intro b hb
    simp only [parseParts] at hb
    split at hb
    · rcases List.mem_cons.mp hb with h | h
      · rw [h]; rfl
      · exact ih b h
    · rcases List.mem_cons.mp hb with h | h
      · rw [h]; rfl
      · exact ih b h

theorem parseCandidate_noTitle [Unicode] (c : candidate) (bs : List Block) (ds : List Diag)
    (h : parseCandidate c = some (bs, ds)) : ∀ b ∈ bs, isTitleBlock b = false := by
  have hparts : ∀ ls ns, ∀ b ∈ (parseParts (splitParagraphByIndent ls ns)).1,
      isTitleBlock b = false := fun ls ns => parseParts_noTitle _
  unfold parseCandidate at h
  split at h
  · simp at h
  · split at h
    · simp only [Option.some.injEq, Prod.mk.injEq] at h
      rw [← h.1]; simp [isTitleBlock]
    · split at h
      · simp only [Option.some.injEq, Prod.mk.injEq] at h
        rw [← h.1]; simp [isTitleBlock]
      · split at h
        · simp only [Option.some.injEq, Prod.mk.injEq] at h
          rw [← h.1]; simp [isTitleBlock]
        · split at h
          · simp only [Option.some.injEq, Prod.mk.injEq] at h
            rw [← h.1]; simp [isTitleBlock]
          · simp only [Option.some.injEq] at h
            have := hparts c.lines c.lineNums
            rw [h] at this
            exact this
  · split at h
    · simp only [Option.some.injEq, Prod.mk.injEq] at h
      rw [← h.1]; simp [isTitleBlock]
    · simp only [Option.some.injEq] at h
      have := hparts c.lines c.lineNums
      rw [h] at this
      exact this

theorem parseLoop_noTitle [Unicode] (fuel : Nat) :
    ∀ (cs : List candidate) (blocks : List Block) (diags : List Diag),
      (∀ b ∈ blocks, isTitleBlock b = false) →
      ∀ b ∈ (parseLoop fuel cs blocks diags).1, isTitleBlock b = false := by
  induction fuel with
  | zero => intro cs blocks diags h; simpa [parseLoop] using h
  | succ n ih =>
    intro cs blocks diags h
    cases cs with
    | nil => simpa [parseLoop] using h
    | cons c rest =>
      rw [parseLoop]
      split
      · apply ih
        intro b hb
        rcases List.mem_append.mp hb with hb | hb
        · exact h b hb
        · rw [List.mem_singleton.mp hb]; rfl
      · split
        · rename_i bs ds hc
          apply ih
          intro b hb
          rcases List.mem_append.mp hb with hb | hb
          · exact h b hb
          · exact parseCandidate_noTitle c bs ds hc b hb
        · exact ih _ _ _ h

theorem Parse_noTitle [Unicode] (input : String) (cfg : Config) :
    ∀ b ∈ (Parse input cfg).Blocks, isTitleBlock b = false := by
  unfold Parse
  exact parseLoop_noTitle _ _ [] [] (by simp)

/-- Claim C17 fails on the code: whatever the input, no block that `Parse` returns is a
TitleBlock; and on a title line, a line of dashes, a blank line and a body line, the shape of
the repository's test `TestParseLeadingTitleWithSceneBreakThenBody`, `Parse` returns a
Paragraph, a SceneBreak and a Paragraph where the test and the claim expect a TitleBlock
first. -/
theorem Parse_leadingTitle_isParagraph :
    (@Parse basicTables leadingTitleInput DefaultConfig).Blocks
        = [.Paragraph [.Word "Заглавие"], .SceneBreak "***",
            .Paragraph [.Word "Текст", .Punct '.']]
      ∧ ∀ (tables : Unicode) (input : String) (cfg : Config),
          ∀ b ∈ (@Parse tables input cfg).Blocks, isTitleBlock b = false :=
  ⟨by decide, fun tables input cfg => @Parse_noTitle tables input cfg⟩

/-! ## Configuration -/

theorem validateLang_eq_none (lang : Lang) :
    validateLang lang = none ↔ lang ∈ ["en", "ru", "ua"] := by
  simp [validateLang, LangEN, LangRU, LangUA]
  tauto

theorem validateInnerQuotes_eq_none (inner : InnerQuotes) :
    validateInnerQuotes inner = none ↔ inner ∈ ["german", "english", "guillemets"] := by
  simp [validateInnerQuotes, InnerQuotesGerman, InnerQuotesEnglish, InnerQuotesGuillemet]
  tauto

/-- What `config.New` returns, by cases on its arguments. -/
theorem New_cases [Unicode] (lang inner : String) (nbsp : Bool) :
    (newRejects lang inner ∧ ∃ e, New lang inner nbsp = .error e)
      ∨ (¬ newRejects lang inner
          ∧ New lang inner nbsp = .ok
              { Lang := if lang = "" then "ru" else stringsToLower lang,
                InnerQuotes := if inner = "" then "german" else stringsToLower inner,
                UseNBSP := nbsp,
                Style :=
                  { Outer := (defaultStyleForLang
                      (if lang = "" then "ru" else stringsToLower lang)).Outer,
                    Inner := if inner = "" then (defaultStyleForLang
                        (if lang = "" then "ru" else stringsToLower lang)).Inner
                      else innerPair (stringsToLower inner) } }) := by
  unfold New newRejects
  by_cases hl : lang = ""
  · subst hl
    have hv : validateLang "ru" = none := by decide
    by_cases hi : inner = ""
    · subst hi
      right
      simp [DefaultConfig, hv, LangRU, InnerQuotesGerman]
    · cases hvi : validateInnerQuotes (stringsToLower inner) with
      | none =>
        right
        have := (validateInnerQuotes_eq_none _).mp hvi
        simp [DefaultConfig, hv, hi, hvi, LangRU, this]
      | some e =>
        left
        have : stringsToLower inner ∉ ["german", "english", "guillemets"] := by
          intro h
          rw [(validateInnerQuotes_eq_none _).mpr h] at hvi
          simp at hvi
        simp [DefaultConfig, hv, hi, hvi, this, LangRU]
  · cases hv : validateLang (stringsToLower lang) with
    | some e =>
      left
      have : stringsToLower lang ∉ ["en", "ru", "ua"] := by
        intro h
        rw [(validateLang_eq_none _).mpr h] at hv
        simp at hv
      simp [DefaultConfig, hl, hv, this]
    | none =>
      have hin := (validateLang_eq_none _).mp hv
      by_cases hi : inner = ""
      · subst hi
        right
        simp [DefaultConfig, hl, hv, hin, InnerQuotesGerman]
      · cases hvi : validateInnerQuotes (stringsToLower inner) with
        | none =>
          right
          have := (validateInnerQuotes_eq_none _).mp hvi
          simp [DefaultConfig, hl, hv, hi, hvi, hin, this]
        | some e =>
          left
          have : stringsToLower inner ∉ ["german", "english", "guillemets"] := by
            intro h
            rw [(validateInnerQuotes_eq_none _).mpr h] at hvi
            simp at hvi
          simp [DefaultConfig, hl, hv, hi, hvi, this]

/-- Claim C18: `config.New` returns an error exactly when the language is not empty and is
not en, ru or ua once lowercased, or the inner-quotes option is not empty and is not german,
english or guillemets once lowercased, and the Config beside the error is the zero Config;
otherwise it returns no error and a Config with `UseNBSP` as given and `Lang` the lowercased
language, ru when the language is empty. -/
theorem New_error_iff [Unicode] (lang inner : String) (nbsp : Bool) :
    ((∃ e, New lang inner nbsp = .error e) ↔ newRejects lang inner)
      ∧ (newRejects lang inner →
          (NewPair lang inner nbsp).1 = zeroConfig ∧ (NewPair lang inner nbsp).2 ≠ none)
      ∧ (¬ newRejects lang inner →
          ∃ cfg, New lang inner nbsp = .ok cfg ∧ NewPair lang inner nbsp = (cfg, none)
            ∧ cfg.UseNBSP = nbsp
            ∧ cfg.Lang = if lang = "" then "ru" else stringsToLower lang) := by
  rcases New_cases lang inner nbsp with ⟨hr, e, he⟩ | ⟨hr, hok⟩
  · refine ⟨⟨fun _ => hr, fun _ => ⟨e, he⟩⟩, fun _ => ?_, fun h => absurd hr h⟩
    simp [NewPair, he]
  · refine ⟨⟨fun ⟨e, he⟩ => ?_, fun h => absurd h hr⟩, fun h => absurd h hr,
      fun _ => ⟨_, hok, ?_, rfl, rfl⟩⟩
    · rw [hok] at he
      cases he
    · simp [NewPair, hok]

/-- Claim C19: after a successful `config.New` the outer pair is the pair of the language,
“ ” for en and « » for ru and ua, whatever the inner-quotes option; the inner pair is
the default of the language, ‘ ’ for en and „ “ for ru and ua, when the option is empty,
and otherwise the pair of the option, „ “ for german, ‘ ’ for english, « » for guillemets. -/
theorem New_style [Unicode] (lang inner : String) (nbsp : Bool) (cfg : Config)
    (h : New lang inner nbsp = .ok cfg) :
    some cfg.Style.Outer = outerPairOf cfg.Lang
      ∧ some cfg.Style.Inner
          = if inner = "" then defaultInnerPairOf cfg.Lang
            else innerPairOf (stringsToLower inner) := by
  rcases New_cases lang inner nbsp with ⟨_, e, he⟩ | ⟨hr, hok⟩
  · rw [he] at h; cases h
  · rw [hok] at h
    injection h with h
    subst h
    simp only [newRejects, not_or, not_and, not_not] at hr
    have hlang : (if lang = "" then "ru" else stringsToLower lang) ∈ ["en", "ru", "ua"] := by
      by_cases hl : lang = ""
      · simp [hl]
      · simpa [hl] using hr.1 hl
    dsimp only
    generalize (if lang = "" then "ru" else stringsToLower lang) = l at hlang ⊢
    have hl3 : l = "en" ∨ l = "ru" ∨ l = "ua" := by simpa using hlang
    constructor
    · rcases hl3 with rfl | rfl | rfl <;> decide
    · by_cases hi : inner = ""
      · simp only [hi, if_true]
        rcases hl3 with rfl | rfl | rfl <;> decide
      · simp only [hi, if_false]
        have hin := hr.2 hi
        generalize stringsToLower inner = i at hin ⊢
        have hi3 : i = "german" ∨ i = "english" ∨ i = "guillemets" := by simpa using hin
        rcases hi3 with rfl | rfl | rfl <;> decide

/-- Claim C19 at the language `EN` with the option `Guillemets`: the outer pair is “ ” and
the inner pair « ». -/
theorem New_style_witness :
    @New basicTables "EN" "Guillemets" true
        = .ok { Lang := "en", InnerQuotes := "guillemets", UseNBSP := true,
                Style := { Outer := { Open := '“', Close := '”' },
                           Inner := { Open := '«', Close := '»' } } }
      ∧ outerPairOf "en" = some { Open := '“', Close := '”' }
      ∧ innerPairOf (@stringsToLower basicTables "Guillemets")
          = some { Open := '«', Close := '»' } :=
  ⟨rfl, (@New_style basicTables "EN" "Guillemets" true _ rfl).1.symm,
    (@New_style basicTables "EN" "Guillemets" true _ rfl).2.symm.trans (by decide)⟩

/-! ## Diagnostics of `Apply` -/

theorem normalizeDialogueTurn_cases (ins : List Inline) :
    normalizeDialogueTurn ins = ([.Dash .DashEmDash], true)
      ∨ ∃ rest, normalizeDialogueTurn ins
          = (.Dash .DashEmDash :: .Space .SpaceNormal :: rest, false) := by
  unfold normalizeDialogueTurn
  cases h1 : trimLeadingSpaces ins with
  | nil => exact Or.inl rfl
  | cons x xs =>
    cases x with
    | Dash k =>
      simp only
      cases h2 : trimLeadingSpaces xs with
      | nil => exact Or.inl rfl
      | cons y ys => exact Or.inr ⟨_, rfl⟩
    | _ =>
      simp only
      split
      · exact Or.inl rfl
      · exact Or.inr ⟨_, rfl⟩

theorem normalizeDialogueTurn_flag (ins : List Inline) :
    (normalizeDialogueTurn ins).2
      = decide ((normalizeDialogueTurn ins).1 = [.Dash .DashEmDash]) := by
  rcases normalizeDialogueTurn_cases ins with h | ⟨rest, h⟩ <;> rw [h] <;> simp

theorem normalizeDialogueTurns_fst (turns : List DialogueTurn) : ∀ (diags : List Diag),
    (normalizeDialogueTurns turns diags).1
      = turns.map fun t => { t with In := (normalizeDialogueTurn t.In).1 } := by
  induction turns with
  | nil => intro diags; rfl
  | cons t rest ih => intro diags; simp only [normalizeDialogueTurns, ih, List.map_cons]

theorem normalizeDialogueTurns_diags (turns : List DialogueTurn) : ∀ (diags : List Diag),
    (normalizeDialogueTurns turns diags).2
      = diags ++ (((normalizeDialogueTurns turns diags).1.filter
          fun t => t.In = [.Dash .DashEmDash]).map fun _ => dialogueEmptyDiag) := by
  induction turns with
  | nil => intro diags; simp [normalizeDialogueTurns]
  | cons t rest ih =>
    intro diags
    simp only [normalizeDialogueTurns]
    rw [ih, normalizeDialogueTurns_fst, normalizeDialogueTurn_flag]
    by_cases h : (normalizeDialogueTurn t.In).1 = [.Dash .DashEmDash]
    · simp [h, List.filter_cons]
    · simp [h, List.filter_cons]

theorem normalizeDialogueBlocksLoop_diags (blocks : List Block) : ∀ (diags : List Diag),
    (normalizeDialogueBlocksLoop blocks diags).2
      = diags ++ emptyTurnDiags (normalizeDialogueBlocksLoop blocks diags).1 := by
  induction blocks with
  | nil => intro diags; simp [normalizeDialogueBlocksLoop, emptyTurnDiags]
  | cons b rest ih =>
    intro diags
    cases b with
    | DialogueBlock turns =>
      simp only [normalizeDialogueBlocksLoop, emptyTurnDiags]
      rw [ih, normalizeDialogueTurns_diags turns diags, List.append_assoc]
    | _ =>
      simp only [normalizeDialogueBlocksLoop, emptyTurnDiags]
      exact ih diags
theorem nbspPromotedList_loneDash_left (out : List Inline)
    (h : nbspPromotedList [.Dash .DashEmDash] out = true) : out = [.Dash .DashEmDash] := by
  match out, h with
  | [b], h =>
    simp only [nbspPromotedList, nbspPromotedItem, Bool.and_true, decide_eq_true_eq] at h
    rw [h]
  | [], h => simp [nbspPromotedList] at h
  | _ :: _ :: _, h => simp [nbspPromotedList] at h

theorem nbspPromotedList_loneDash_right (l : List Inline)
    (h : nbspPromotedList l [.Dash .DashEmDash] = true) : l = [.Dash .DashEmDash] := by
  match l, h with
  | [a], h =>
    simp only [nbspPromotedList, Bool.and_true] at h
    cases a <;> simp_all [nbspPromotedItem]
  | [], h => simp [nbspPromotedList] at h
  | _ :: _ :: _, h => simp [nbspPromotedList] at h

theorem applyNBSPList_eq_loneDash [Unicode] (l : List Inline) (lang : Lang) :
    applyNBSPList l lang = [.Dash .DashEmDash] ↔ l = [.Dash .DashEmDash] := by
  have h := nbspPromotedList_applyNBSPList l lang
  constructor
  · intro e
    rw [e] at h
    exact nbspPromotedList_loneDash_right l h
  · intro e
    rw [e] at h ⊢
    exact nbspPromotedList_loneDash_left _ h

theorem emptyTurnDiags_applyToAllInlines (fn : List Inline → List Inline)
    (hfn : ∀ l, fn l = [.Dash .DashEmDash] ↔ l = [.Dash .DashEmDash]) (blocks : List Block) :
    emptyTurnDiags (blocks.map (applyToAllInlinesBlock fn)) = emptyTurnDiags blocks := by
  induction blocks with
  | nil => rfl
  | cons b rest ih =>
    cases b with
    | DialogueBlock turns =>
      simp only [List.map_cons, applyToAllInlinesBlock, emptyTurnDiags, ih]
      congr 1
      induction turns with
      | nil => rfl
      | cons t ts iht =>
        simp only [List.map_cons, List.filter_cons, hfn]
        split <;> simp [iht]
    | _ => simp only [List.map_cons, applyToAllInlinesBlock, emptyTurnDiags, ih]

/-- Claim C20: `Apply` keeps the diagnostics of the document as a prefix and appends one
DIALOGUE_EMPTY diagnostic for each dialogue turn that it leaves as the lone EmDash, in block
and turn order, and nothing else. -/
theorem Apply_diags [Unicode] (doc : Document) (cfg : Config) :
    (Apply doc cfg).Diags = doc.Diags ++ emptyTurnDiags (Apply doc cfg).Blocks := by
  unfold Apply
  simp only
  have h := normalizeDialogueBlocksLoop_diags
    (normalizeSpacingDocument (emitCanonicalPairsDocument
      (classifyDashesDocument (normalizeEllipsisDocument doc)))).Blocks doc.Diags
  split
  · simp only [applyNBSPDocument, applyToAllInlines]
    rw [emptyTurnDiags_applyToAllInlines _ (fun l => applyNBSPList_eq_loneDash l cfg.Lang)]
    exact h
  · exact h

/-! ## Printer: `printInlines` -/

mutual
theorem printInline_render (style : Style) : ∀ (item : Inline) (runes : List Char),
    renderInline style item = some runes → (printInline style item).data = runes
  | .Word S, runes, h => by simpa [renderInline] using h
  | .Punct ch, runes, h => by simpa [renderInline, printInline] using h
  | .Space kind, runes, h => by
    cases kind <;> simpa [renderInline, printInline, spaceGlyph] using h
  | .Dash kind, runes, h => by
    cases kind <;> simpa [renderInline, printInline, dashGlyph] using h
  | .Ellipsis, runes, h => by simpa [renderInline, printInline] using h
  | .ParenSpan o cl c, runes, h => by
    simp only [renderInline, Option.map_eq_some'] at h
    obtain ⟨inner, hin, rfl⟩ := h
    simp [printInline, printInlines_render style c inner hin]
  | .QuoteSpan level c, runes, h => by
    simp only [renderInline] at h
    by_cases h1 : level = QuotePrimary
    · simp only [h1, if_true, Option.map_eq_some'] at h
      obtain ⟨inner, hin, rfl⟩ := h
      simp [h1, printInline, pairForLevel, QuotePrimary, QuoteSecondary,
        printInlines_render style c inner hin]
    · by_cases h2 : level = QuoteSecondary
      · simp only [h1, h2, if_true, if_false, Option.map_eq_some'] at h
        have h3 : ¬ QuoteSecondary = QuotePrimary := by decide
        simp only [h3, if_false, Option.map_eq_some'] at h
        obtain ⟨inner, hin, rfl⟩ := h
        simp [h2, printInline, pairForLevel, printInlines_render style c inner hin]
      · simp [h1, h2] at h
theorem printInlines_render (style : Style) : ∀ (ins : List Inline) (runes : List Char),
    renderInlines style ins = some runes → (printInlines style ins).data = runes
  | [], runes, h => by simpa [renderInlines, printInlines] using h
  | item :: rest, runes, h => by
    simp only [renderInlines] at h
    cases h1 : renderInline style item with
    | none => simp [h1] at h
    | some a =>
      cases h2 : renderInlines style rest with
      | none => simp [h1, h2] at h
      | some b =>
        simp only [h1, h2, Option.some.injEq] at h
        subst h
        simp [printInlines, printInline_render style item a h1,
          printInlines_render style rest b h2]
end
/-- Claim C21: wherever the claim gives a rendering, `printInlines` returns it: `-`, `–`,
`—` for a Dash of kind Hyphen, EnDash, EmDash, `…` for an Ellipsis, U+0020, U+00A0, U+2009
for a Space of kind Normal, NonBreaking, Thin, the glyphs of a ParenSpan around its rendered
children, and around the rendered children of a QuoteSpan the outer pair of the style at the
level Primary and the inner pair at the level Secondary. -/
theorem printInlines_spec (style : Style) (ins : List Inline) (runes : List Char)
    (h : renderInlines style ins = some runes) :
    printInlines style ins = String.mk runes :=
  String.ext (printInlines_render style ins runes h)

/-- Claim C21 at a list with every kind of inline, under the default style of ru. -/
theorem printInlines_spec_witness :
    renderInlines DefaultConfig.Style
        [.QuoteSpan QuotePrimary [.Word "а", .Space .SpaceNBSP, .Dash .DashEmDash,
            .Space .SpaceThin, .QuoteSpan QuoteSecondary [.Word "б", .Ellipsis]],
          .Space .SpaceNormal, .ParenSpan '[' ']' [.Word "1", .Dash .DashNDash, .Word "2"],
          .Dash .DashHyphen, .Punct '.']
      = some "«а — „б…“» [1–2]-.".data
    ∧ printInlines DefaultConfig.Style
        [.QuoteSpan QuotePrimary [.Word "а", .Space .SpaceNBSP, .Dash .DashEmDash,
            .Space .SpaceThin, .QuoteSpan QuoteSecondary [.Word "б", .Ellipsis]],
          .Space .SpaceNormal, .ParenSpan '[' ']' [.Word "1", .Dash .DashNDash, .Word "2"],
          .Dash .DashHyphen, .Punct '.']
      = "«а — „б…“» [1–2]-." :=
  ⟨by decide, printInlines_spec _ _ _ (by decide)⟩

/-! ## Symmetric quotes: opening -/

/-- Claim C28, amended: `shouldOpenSymmetric` holds exactly when the next non-space node
suggests an open and either no previous non-space node exists, or the quote is not one with
no space to its left and a space to its right and one of these holds: the previous node
suggests an open; a frame is open with a space to the left and none to the right; there is
a space to the left. -/
theorem shouldOpenSymmetric_spec [Unicode] (nodes : List node) (idx stackOpen : Nat) :
    shouldOpenSymmetric nodes idx stackOpen = openSymmetricSpec nodes idx stackOpen := by
  unfold shouldOpenSymmetric openSymmetricSpec spaceToTheLeft spaceToTheRight
  cases hn : nextSignificant nodes idx with
  | none => simp
  | some next =>
    cases hno : nextSuggestsQuoteOpen next
    · simp [hno]
    · cases hp : prevSignificant nodes idx with
      | none => simp [hno]
      | some prev =>
        simp only [hno, Bool.not_true, Bool.false_eq_true, if_false, Option.any_some,
          Option.isNone_some, Bool.false_or, Bool.true_and]
        generalize (decide (0 < idx) && nodes[idx - 1]?.any fun n => n.kind = .nodeSpace) = B
        generalize (nodes[idx + 1]?.any fun n => n.kind = .nodeSpace) = A
        have hs : decide (stackOpen > 0) = decide (0 < stackOpen) := rfl
        rw [hs]
        generalize decide (0 < stackOpen) = S
        generalize prevSuggestsQuoteOpen prev = pO
        generalize prevSuggestsQuoteClose prev = pC
        cases B <;> cases A <;> cases S <;> cases pO <;> cases pC <;> rfl

/-- Claim C28 fails at the quote of the line `a:" b`: no frame is open, so the quote is not
decided as a close; the next non-space node `b` suggests an open and the previous one, the
colon, suggests an open, so the claim says open; but the quote has no space to its left and
a space to its right, `shouldOpenSymmetric` answers no and the quote stays a literal Word. -/
theorem shouldOpenSymmetric_not_claim :
    colonQuoteNodes.map (fun n => (n.kind, n.text))
        = [(.nodeWord, "a"), (.nodePunct, ":"), (.nodeQuoteMark, String.mk [Char.ofNat 0x22]),
            (.nodeSpace, " "), (.nodeWord, "b")]
      ∧ @shouldCloseSymmetric basicTables colonQuoteNodes 2 0 = false
      ∧ @openSymmetricClaim basicTables colonQuoteNodes 2 0 = true
      ∧ @shouldOpenSymmetric basicTables colonQuoteNodes 2 0 = false
      ∧ (@parseInlineLines basicTables [String.mk ['a', ':', Char.ofNat 0x22, ' ', 'b']]
            [1] true).1
          = [.Word "a", .Punct ':', .Word (String.mk [Char.ofNat 0x22]), .Space .SpaceNormal,
              .Word "b"] := by
  decide

/-! ## Symmetric quotes: closing -/

/-- Claim C27 fails on the code at the second quote of the lines `"а б "` and `в`: one
frame is open, the previous non-space node `б` suggests a close and the next non-space node
`в` is on a later line, which is the last case of the claim, yet `shouldCloseSymmetric`
answers no, and the parser leaves both quotes as literal Words. -/
theorem shouldCloseSymmetric_laterLine :
    lineEndQuoteNodes.map (fun n => (n.kind, n.text, n.pos.Line))
        = [(.nodeQuoteMark, String.mk [Char.ofNat 0x22], 1), (.nodeWord, "а", 1),
            (.nodeSpace, " ", 1), (.nodeWord, "б", 1), (.nodeSpace, " ", 1),
            (.nodeQuoteMark, String.mk [Char.ofNat 0x22], 1), (.nodeSpace, " ", 1),
            (.nodeWord, "в", 2)]
      ∧ (@quoteLoop basicTables lineEndQuoteNodes (lineEndQuoteNodes.take 5) 0
            { root := [], stack := [], diags := [] }).stack.length = 1
      ∧ (prevSignificant lineEndQuoteNodes 5).map (fun n => n.text) = some "б"
      ∧ (prevSignificant lineEndQuoteNodes 5).any (@prevSuggestsQuoteClose basicTables) = true
      ∧ (nextSignificant lineEndQuoteNodes 5).map (fun n => (n.text, n.pos.Line))
          = some ("в", 2)
      ∧ @closeSymmetricClaim basicTables lineEndQuoteNodes 5 1 = true
      ∧ @shouldCloseSymmetric basicTables lineEndQuoteNodes 5 1 = false
      ∧ (@parseInlineLines basicTables
            [String.mk [Char.ofNat 0x22, 'а', ' ', 'б', ' ', Char.ofNat 0x22], "в"] [1, 2] true).1
          = [.Word (String.mk [Char.ofNat 0x22]), .Word "а", .Space .SpaceNormal, .Word "б",
              .Space .SpaceNormal, .Word (String.mk [Char.ofNat 0x22]), .Space .SpaceNormal,
              .Word "в"] := by
  decide

/-! ## Structure lines: a scene break at the end of a line -/

theorem takeWhile_append_cons_of_all {p : Char → Bool} (l1 l2 : List Char) (c : Char)
    (h1 : ∀ x ∈ l1, p x = true) (hc : p c = false) :
    (l1 ++ c :: l2).takeWhile p = l1 ∧ (l1 ++ c :: l2).dropWhile p = c :: l2 := by
  induction l1 with
  | nil => simp [List.takeWhile, List.dropWhile, hc]
  | cons a l ih =>
    have ha := h1 a (by simp)
    have := ih (fun x hx => h1 x (by simp [hx]))
    simp [List.takeWhile, List.dropWhile, ha, this]

theorem trimRightFunc_concat (p : Char → Bool) (q : List Char) (c : Char) (hc : p c = false) :
    trimRightFunc p (q ++ [c]) = q ++ [c] := by
  simp [trimRightFunc, List.dropWhile, hc]

theorem TrimSpace_concat_ne [Unicode] (pre : List Char) (c : Char)
    (hc : Unicode.IsSpace c = false) : TrimSpace (String.mk (pre ++ [c])) ≠ "" := by
  unfold TrimSpace trimLeftFunc
  have h : ∃ q, (pre ++ [c]).dropWhile Unicode.IsSpace = q ++ [c] := by
    rw [List.dropWhile_append]
    split
    · exact ⟨[], by simp [List.dropWhile, hc]⟩
    · exact ⟨_, rfl⟩
  obtain ⟨q, hq⟩ := h
  simp only [hq, trimRightFunc_concat _ q c hc]
  intro e
  have := congrArg String.data e
  simp at this

theorem isSceneBreak_empty [Unicode] : isSceneBreak "" = false := by
  simp [isSceneBreak, normalizeStructureLine, TrimSpace, trimLeftFunc, trimRightFunc, Fields,
    fieldsLoop, Join]

theorem mem_TrimSpace [Unicode] (s : String) (x : Char) (h : x ∈ (TrimSpace s).data) :
    x ∈ s.data := by
  unfold TrimSpace trimRightFunc trimLeftFunc at h
  simp only [List.mem_reverse] at h
  exact (List.dropWhile_sublist _).subset ((List.mem_reverse.mp
    ((List.dropWhile_sublist _).subset h)))

/-- Claim C26, amended: `splitTrailingSceneBreak` returns a lead and a tail exactly when the
line, without its trailing whitespace, is some runes up to a rune that is neither whitespace
nor a scene-break glyph, followed by runes that are all whitespace or scene-break glyphs,
and these, trimmed, are a scene break with at least six runes that are not whitespace; the
lead is the first part trimmed and the tail the second part trimmed. -/
theorem splitTrailingSceneBreak_iff [Unicode] (line lead tail : String) :
    splitTrailingSceneBreak line = some (lead, tail) ↔
      ∃ (pre : List Char) (c : Char) (suf : List Char),
        trimRightFunc Unicode.IsSpace line.data = pre ++ c :: suf
          ∧ isBreakOrSpace c = false ∧ (∀ x ∈ suf, isBreakOrSpace x = true)
          ∧ lead = TrimSpace (String.mk (pre ++ [c])) ∧ tail = TrimSpace (String.mk suf)
          ∧ isSceneBreak tail = true ∧ 6 ≤ sceneBreakRuneCount tail := by
  have hp : (fun c => Unicode.IsSpace c || isSceneBreakRune c) = isBreakOrSpace := by
    funext c; simp only [isBreakOrSpace, isSceneBreakRune_eq]
  unfold splitTrailingSceneBreak
  simp only [hp]
  generalize trimRightFunc Unicode.IsSpace line.data = r
  have hsplit := List.takeWhile_append_dropWhile isBreakOrSpace r.reverse
  constructor
  · intro h
    split at h
    · simp at h
    · split at h
      · simp at h
      · rename_i hne
        split at h
        · simp at h
        · rename_i hok
          simp only [Option.some.injEq, Prod.mk.injEq] at h
          simp only [Bool.or_eq_true, decide_eq_true_eq, not_or, Bool.not_eq_true',
            Bool.not_eq_false, Nat.not_lt] at hne hok
          cases hd : r.reverse.dropWhile isBreakOrSpace with
          | nil =>
            exfalso
            apply hne.1
            rw [hd]
            simp [TrimSpace, trimLeftFunc, trimRightFunc]
          | cons c rest =>
            have hc : isBreakOrSpace c = false := by
              have := List.head_dropWhile_not isBreakOrSpace r.reverse
                (by rw [hd]; simp)
              simpa [hd] using this
            refine ⟨rest.reverse, c, (r.reverse.takeWhile isBreakOrSpace).reverse, ?_, hc, ?_,
              ?_, h.2.symm, ?_, ?_⟩
            · have := congrArg List.reverse hsplit
              rw [List.reverse_append, List.reverse_reverse, hd] at this
              exact this.symm.trans (by simp)
            · intro x hx
              exact List.mem_takeWhile_imp (List.mem_reverse.mp hx)
            · rw [← h.1, hd]; simp
            · rw [← h.2]; exact hok.1
            · rw [← h.2]; exact hok.2
  · rintro ⟨pre, c, suf, hr, hc, hsuf, hlead, htail, hsb, hcount⟩
    subst hlead htail
    have hrev : r.reverse = suf.reverse ++ c :: pre.reverse := by
      rw [hr]; simp
    have htd := takeWhile_append_cons_of_all (p := isBreakOrSpace) suf.reverse pre.reverse c
      (fun x hx => hsuf x (List.mem_reverse.mp hx)) hc
    have hcs : Unicode.IsSpace c = false := by
      simp only [isBreakOrSpace, Bool.or_eq_false_iff] at hc
      exact hc.1
    have h1 : r.length ≠ 0 := by rw [hr]; simp
    have h4 := TrimSpace_concat_ne pre c hcs
    have h5 : TrimSpace (String.mk suf) ≠ "" := by
      intro e
      rw [e, isSceneBreak_empty] at hsb
      exact absurd hsb (by simp)
    have h6 : ¬ sceneBreakRuneCount (TrimSpace (String.mk suf)) < 6 := by omega
    simp [h1, hrev, htd.1, htd.2, h4, h5, hsb, h6]
/-- Claim C26 fails at the line `Конец. ******`: the text after its last letter holds a
full stop, so the claim says no split, and `splitTrailingSceneBreak` returns the lead
`Конец.` and the tail `******`. It fails at the line `а x x x x x x` too: nothing follows
its last letter, and the code returns a tail made of the letters `x`. -/
theorem splitTrailingSceneBreak_not_claim :
    "Конец. ******".data.any basicTables.IsLetter = true
      ∧ @trailingBreakClaim basicTables "Конец. ******" = none
      ∧ @splitTrailingSceneBreak basicTables "Конец. ******" = some ("Конец.", "******")
      ∧ @trailingBreakClaim basicTables "а x x x x x x" = none
      ∧ @splitTrailingSceneBreak basicTables "а x x x x x x" = some ("а", "x x x x x x")
      ∧ "x x x x x x".data.any basicTables.IsLetter = true := by
  decide

/-- Claim C26, amended, at the line `Конец. ******` followed by two spaces: the parts the
theorem names exist. -/
theorem splitTrailingSceneBreak_iff_witness :
    @splitTrailingSceneBreak basicTables "Конец. ******  " = some ("Конец.", "******")
      ∧ ∃ (pre : List Char) (c : Char) (suf : List Char),
        trimRightFunc basicTables.IsSpace "Конец. ******  ".data = pre ++ c :: suf
          ∧ @isBreakOrSpace basicTables c = false
          ∧ (∀ x ∈ suf, @isBreakOrSpace basicTables x = true)
          ∧ "Конец." = @TrimSpace basicTables (String.mk (pre ++ [c]))
          ∧ "******" = @TrimSpace basicTables (String.mk suf)
          ∧ @isSceneBreak basicTables "******" = true
          ∧ 6 ≤ @sceneBreakRuneCount basicTables "******" :=
  ⟨by decide,
    (@splitTrailingSceneBreak_iff basicTables "Конец. ******  " "Конец." "******").mp
      (by decide)⟩

/-! ## Paragraph candidates: splitting by indentation -/

theorem shouldSplitBetweenLines_eq [Unicode] (prev cur : String) :
    shouldSplitBetweenLines prev cur = partBoundaryClaim prev cur := by
  have h : ∀ s, hasLeadingIndent s = startsWithSpaceOrTab s := by
    intro s
    obtain ⟨d⟩ := s
    cases d <;> simp [hasLeadingIndent, startsWithSpaceOrTab]
  unfold shouldSplitBetweenLines partBoundaryClaim
  rw [h, h]
  cases isDialogueLine prev <;> cases isDialogueLine cur <;> simp

theorem splitByIndentLoop_spec [Unicode] : ∀ (rest init : List (String × Nat))
    (prev : String) (n : Nat),
    ((init ++ [(prev, n)]).map Prod.fst).Chain' (fun a c => partBoundaryClaim a c = false) →
    ∃ first more, splitByIndentLoop prev (init ++ [(prev, n)]) rest = first :: more
      ∧ first.lines.head? = ((init ++ [(prev, n)]).map Prod.fst).head?
      ∧ ((first :: more).map fun p => p.lines).flatten
          = (init ++ (prev, n) :: rest).map Prod.fst
      ∧ ((first :: more).map fun p => p.lineNums).flatten
          = (init ++ (prev, n) :: rest).map Prod.snd
      ∧ (∀ p ∈ first :: more, p.lines ≠ []
          ∧ p.lines.Chain' fun a c => partBoundaryClaim a c = false)
      ∧ ((first :: more).map fun p => p.lines).Chain' fun p q => boundaryAt p q = true
  | [], init, prev, n, hc => by
    refine ⟨candidateOf (init ++ [(prev, n)]), [], rfl, rfl, ?_, ?_, ?_, ?_⟩
    · simp [candidateOf]
    · simp [candidateOf]
    · intro p hp
      simp only [List.mem_singleton] at hp
      subst hp
      exact ⟨by simp [candidateOf], hc⟩
    · simp
  | line :: rest, init, prev, n, hc => by
    rw [splitByIndentLoop, shouldSplitBetweenLines_eq]
    by_cases hb : partBoundaryClaim prev line.1 = true
    · rw [if_pos hb]
      obtain ⟨first, more, he, hh, hl, hn, hp, hq⟩ :=
        splitByIndentLoop_spec rest [] line.1 line.2 (by simp)
      simp only [List.nil_append] at he hh hl hn
      have hline : [line] = [(line.1, line.2)] := rfl
      rw [hline, he]
      refine ⟨candidateOf (init ++ [(prev, n)]), first :: more, rfl, rfl, ?_, ?_, ?_, ?_⟩
      · rw [List.map_cons, List.flatten_cons, hl]
        simp [candidateOf]
      · rw [List.map_cons, List.flatten_cons, hn]
        simp [candidateOf]
      · intro p hp1
        rcases List.mem_cons.mp hp1 with rfl | hp1
        · exact ⟨by simp [candidateOf], hc⟩
        · exact hp p hp1
      · rw [List.map_cons, List.chain'_cons']
        refine ⟨?_, hq⟩
        intro q hq1
        simp only [List.map_cons, List.head?_cons, Option.mem_def, Option.some.injEq] at hq1
        subst hq1
        simp only [List.map_cons, List.map_nil, List.head?_cons] at hh
        simp [boundaryAt, candidateOf, hh, hb]
    · rw [if_neg hb]
      have hline : init ++ [(prev, n)] ++ [line] = (init ++ [(prev, n)]) ++ [(line.1, line.2)] :=
        rfl
      have hc2 : (((init ++ [(prev, n)]) ++ [(line.1, line.2)]).map Prod.fst).Chain'
          (fun a c => partBoundaryClaim a c = false) := by
        rw [List.map_append, List.chain'_append]
        refine ⟨hc, by simp, ?_⟩
        intro x hx y hy
        simp at hx hy
        subst hx hy
        simpa using hb
      obtain ⟨first, more, he, hh, hl, hn, hp, hq⟩ :=
        splitByIndentLoop_spec rest (init ++ [(prev, n)]) line.1 line.2 hc2
      rw [hline, he]
      refine ⟨first, more, rfl, ?_, ?_, ?_, hp, hq⟩
      · rw [hh]; cases init <;> simp
      · rw [hl]; simp
      · rw [hn]; simp

/-- Claim C30: for a candidate that does not qualify for the long-indented mode,
`splitParagraphByIndent` splits the lines exactly at the boundaries of the claim: the parts
put end to end are the lines (and their numbers the line numbers), no part is empty, two
consecutive lines of one part never meet the condition of the claim, and the last line of a
part and the first line of the next part always meet it. -/
theorem splitParagraphByIndent_spec [Unicode] (lines : List String) (lineNums : List Nat)
    (hlen : lineNums.length = lines.length)
    (hlong : shouldSplitLongIndentedLines lines = false) :
    splitsAtBoundaries lines ((splitParagraphByIndent lines lineNums).map fun p => p.lines)
      ∧ ((splitParagraphByIndent lines lineNums).map fun p => p.lineNums).flatten = lineNums := by
  unfold splitParagraphByIndent splitsAtBoundaries
  have hfst : (lines.zip lineNums).map Prod.fst = lines :=
    List.map_fst_zip _ _ (by omega)
  have hsnd : (lines.zip lineNums).map Prod.snd = lineNums :=
    List.map_snd_zip _ _ (by omega)
  cases hz : lines.zip lineNums with
  | nil =>
    rw [hz] at hfst hsnd
    simp only [List.map_nil] at hfst hsnd
    subst hfst hsnd
    simp
  | cons first rest =>
    rw [hz] at hfst hsnd
    have hne : lines.length ≠ 0 := by
      rw [← hfst]; simp
    obtain ⟨p, more, he, -, hl, hn, hp, hq⟩ :=
      splitByIndentLoop_spec rest [] first.1 first.2 (by simp)
    simp only [List.nil_append] at he hl hn
    have hfirst : [first] = [(first.1, first.2)] := rfl
    have hcons : (first.1, first.2) :: rest = first :: rest := rfl
    rw [hcons, hfst] at hl
    rw [hcons, hsnd] at hn
    simp only [hne, hlong, if_false, Bool.false_eq_true, hfirst, he]
    refine ⟨⟨hl, ?_, hq⟩, hn⟩
    intro q hq1
    obtain ⟨c, hc, rfl⟩ := List.mem_map.mp hq1
    exact hp c hc

/-- Claim C30 at five lines: a plain line, an indented line, two dialogue lines and a plain
line give four parts. -/
theorem splitParagraphByIndent_spec_witness :
    @shouldSplitLongIndentedLines basicTables
        ["Первая", " вторая", "— реплика", "— ответ", "конец"] = false
      ∧ (@splitParagraphByIndent basicTables
            ["Первая", " вторая", "— реплика", "— ответ", "конец"] [3, 4, 5, 6, 7])
          = [⟨["Первая"], [3]⟩, ⟨[" вторая"], [4]⟩, ⟨["— реплика", "— ответ"], [5, 6]⟩,
              ⟨["конец"], [7]⟩]
      ∧ @splitsAtBoundaries basicTables ["Первая", " вторая", "— реплика", "— ответ", "конец"]
          ((@splitParagraphByIndent basicTables
            ["Первая", " вторая", "— реплика", "— ответ", "конец"] [3, 4, 5, 6, 7]).map
              fun p => p.lines) :=
  ⟨by decide, by decide,
    (@splitParagraphByIndent_spec basicTables
      ["Первая", " вторая", "— реплика", "— ответ", "конец"] [3, 4, 5, 6, 7] rfl
      (by decide)).1⟩

/-! ## Structure lines: metadata -/

theorem isMetaKeyRune_iff [Unicode] (c : Char) : isMetaKeyRune c = true ↔ isKeyRuneClaim c := by
  simp [isMetaKeyRune, isKeyRuneClaim, or_assoc]

theorem blankBefore_last [Unicode] : ∀ (ws : List String) (w : String),
    (∀ v ∈ w :: ws, v.data ≠ [] ∧ ∀ c ∈ v.data, Unicode.IsSpace c = false) →
    ∃ init last, w.data ++ blankBefore ws = init ++ [last] ∧ Unicode.IsSpace last = false
  | [], w, h => by
    obtain ⟨hne, hns⟩ := h w (by simp)
    rcases List.eq_nil_or_concat w.data with h0 | ⟨init, last, hl⟩
    · exact absurd h0 hne
    · refine ⟨init, last, by simp [blankBefore, hl], hns last (by simp [hl])⟩
  | v :: vs, w, h => by
    obtain ⟨init, last, hl, hs⟩ := blankBefore_last vs v
      (fun u hu => h u (List.mem_cons_of_mem _ hu))
    refine ⟨w.data ++ ' ' :: init, last, ?_, hs⟩
    have : blankBefore (v :: vs) = ' ' :: (v.data ++ blankBefore vs) := by
      simp [blankBefore]
    rw [this, hl]
    simp

theorem mem_blankBefore (ws : List String) (c : Char) (hc : c ∈ blankBefore ws) :
    c = ' ' ∨ ∃ v ∈ ws, c ∈ v.data := by
  simp only [blankBefore, List.mem_flatten, List.mem_map] at hc
  obtain ⟨l, ⟨v, hv, rfl⟩, hcl⟩ := hc
  rcases List.mem_cons.mp hcl with h | h
  · exact Or.inl h
  · exact Or.inr ⟨v, hv, h⟩

/-- The runes of a normalized line: the only whitespace in it is the space between two
fields, and its last rune is not whitespace. -/
theorem normalizeStructureLine_runes [Unicode] (line : String) :
    (∀ c ∈ (normalizeStructureLine line).data, Unicode.IsSpace c = true → c = ' ')
      ∧ (normalizeStructureLine line = ""
          ∨ ∃ init last, (normalizeStructureLine line).data = init ++ [last]
              ∧ Unicode.IsSpace last = false) := by
  unfold normalizeStructureLine
  have hgood := Fields_good (TrimSpace line)
  cases hf : Fields (TrimSpace line) with
  | nil => simp [Join]
  | cons w ws =>
    rw [hf] at hgood
    rw [Join_data]
    refine ⟨?_, Or.inr (blankBefore_last ws w hgood)⟩
    intro c hc hsp
    rcases List.mem_append.mp hc with h | h
    · have := (hgood w (by simp)).2 c h
      rw [this] at hsp
      exact absurd hsp (by simp)
    · rcases mem_blankBefore ws c h with h1 | ⟨v, hv, hcv⟩
      · exact h1
      · have := (hgood v (List.mem_cons_of_mem _ hv)).2 c hcv
        rw [this] at hsp
        exact absurd hsp (by simp)

theorem TrimSpace_noSpace [Unicode] (rs : List Char)
    (h : ∀ c ∈ rs, Unicode.IsSpace c = false) : TrimSpace (String.mk rs) = String.mk rs := by
  rcases List.eq_nil_or_concat rs with h0 | ⟨init, last, hl⟩
  · subst h0; simp [TrimSpace, trimLeftFunc, trimRightFunc]
  · cases rs with
    | nil => simp [TrimSpace, trimLeftFunc, trimRightFunc]
    | cons a as =>
      have ha := h a (by simp)
      have hlast := h last (by rw [hl]; simp)
      unfold TrimSpace trimLeftFunc
      simp only [List.dropWhile, ha]
      rw [hl, List.concat_eq_append, trimRightFunc_concat _ init last hlast]

theorem matchSpacesThenRest_strict (runes v : List Char) :
    matchSpacesThenRest true runes = some v ↔
      runes.takeWhile reSpace ≠ [] ∧ v = runes.dropWhile reSpace ∧ v ≠ []
        ∧ (∀ c ∈ v, c ≠ '\n') := by
  unfold matchSpacesThenRest
  simp only [List.length_eq_zero]
  by_cases h1 : runes.takeWhile reSpace = []
  · simp [h1]
  · rw [if_neg h1]
    cases hd : runes.dropWhile reSpace with
    | nil =>
      simp only [List.any_nil, Bool.false_eq_true, if_false]
      constructor
      · intro h; exact absurd h (by simp)
      · rintro ⟨-, rfl, h, -⟩
        exact absurd rfl h
    | cons a as =>
      by_cases h2 : (a :: as).any (fun r => r = '\n') = true
      · rw [if_pos h2]
        constructor
        · intro h; exact absurd h (by simp)
        · rintro ⟨-, rfl, -, h⟩
          simp only [List.any_eq_true, decide_eq_true_eq] at h2
          obtain ⟨c, hc, rfl⟩ := h2
          exact absurd rfl (h _ hc)
      · rw [if_neg h2]
        have h3 : ∀ c ∈ a :: as, c ≠ '\n' := by
          intro c hc e
          apply h2
          simp only [List.any_eq_true, decide_eq_true_eq]
          exact ⟨c, hc, e⟩
        constructor
        · intro h
          simp only [Option.some.injEq] at h
          subst h
          exact ⟨h1, rfl, by simp, h3⟩
        · rintro ⟨-, rfl, -, -⟩
          rfl

theorem metaLineRe_eq_some [Unicode] (t k v : String) :
    metaLineRe t = some (k, v) ↔
      ∃ first rest after, t.data = first :: rest ∧ Unicode.IsLetter first = true
        ∧ 1 ≤ (rest.takeWhile isMetaKeyRune).length
        ∧ (rest.takeWhile isMetaKeyRune).length ≤ 30
        ∧ rest.dropWhile isMetaKeyRune = ':' :: after
        ∧ matchSpacesThenRest true after = some v.data
        ∧ k = String.mk (first :: rest.takeWhile isMetaKeyRune) := by
  obtain ⟨d⟩ := t
  unfold metaLineRe
  cases d with
  | nil => simp
  | cons first rest =>
    simp only [List.cons.injEq, exists_and_left]
    by_cases hl : Unicode.IsLetter first = true
    · simp only [hl, Bool.not_true, Bool.false_eq_true, if_false]
      by_cases hlen : ((rest.takeWhile isMetaKeyRune).length < 1
          || (rest.takeWhile isMetaKeyRune).length > 30) = true
      · rw [if_pos hlen]
        simp only [Bool.or_eq_true, decide_eq_true_eq] at hlen
        constructor
        · intro h; exact absurd h (by simp)
        · rintro ⟨f, r, ⟨rfl, rfl⟩, -, h1, h2, -⟩
          omega
      · rw [if_neg hlen]
        simp only [Bool.or_eq_true, decide_eq_true_eq, not_or, not_lt] at hlen
        cases hd : rest.dropWhile isMetaKeyRune with
        | nil =>
          constructor
          · intro h; exact absurd h (by simp)
          · rintro ⟨f, r, ⟨rfl, rfl⟩, -, -, -, a, h, -⟩
            rw [hd] at h
            exact absurd h (by simp)
        | cons x after =>
          by_cases hx : x = ':'
          · subst hx
            cases hm : matchSpacesThenRest true after with
            | none =>
              constructor
              · intro h; simp [hm] at h
              · rintro ⟨f, r, ⟨rfl, rfl⟩, -, -, -, a, h, h2, -⟩
                rw [hd] at h
                simp only [List.cons.injEq, true_and] at h
                subst h
                rw [hm] at h2
                exact absurd h2 (by simp)
            | some value =>
              constructor
              · intro h
                simp only [hm, Option.some.injEq, Prod.mk.injEq] at h
                refine ⟨first, rest, ⟨rfl, rfl⟩, hl, hlen.1, hlen.2, after, hd, ?_, h.1.symm⟩
                rw [hm, ← h.2]
              · rintro ⟨f, r, ⟨rfl, rfl⟩, -, -, -, a, h, h2, h3⟩
                rw [hd] at h
                simp only [List.cons.injEq, true_and] at h
                subst h
                rw [hm] at h2
                simp only [Option.some.injEq] at h2
                subst h3
                simp [hm, h2]
          · constructor
            · intro h
              split at h
              · rename_i heq
                simp only [List.cons.injEq] at heq
                exact absurd heq.1 hx
              · exact absurd h (by simp)
            · rintro ⟨f, r, ⟨rfl, rfl⟩, -, -, -, a, h, -⟩
              rw [hd] at h
              simp only [List.cons.injEq] at h
              exact absurd h.1 hx
    · simp only [hl, Bool.not_false, if_true]
      constructor
      · intro h; exact absurd h (by simp)
      · rintro ⟨f, r, ⟨rfl, rfl⟩, h, -⟩
        exact absurd h hl

theorem dropWhile_space_dropWhile [Unicode]
    (hs : ∀ c, reSpace c = true → Unicode.IsSpace c = true) (rs : List Char) :
    (rs.dropWhile reSpace).dropWhile Unicode.IsSpace = rs.dropWhile Unicode.IsSpace := by
  induction rs with
  | nil => rfl
  | cons a as ih =>
    by_cases ha : reSpace a = true
    · simp [List.dropWhile, ha, hs a ha, ih]
    · simp [List.dropWhile, ha]

theorem takeWhile_append_of_all {p : Char → Bool} (l1 l2 : List Char)
    (h1 : ∀ x ∈ l1, p x = true) :
    (l1 ++ l2).takeWhile p = l1 ++ l2.takeWhile p
      ∧ (l1 ++ l2).dropWhile p = l2.dropWhile p := by
  induction l1 with
  | nil => simp
  | cons a l ih =>
    have ha := h1 a (by simp)
    have := ih (fun x hx => h1 x (by simp [hx]))
    simp [List.takeWhile, List.dropWhile, ha, this]

/-- Claim C23, amended: `parseMetaLine` succeeds with a key and a value exactly when the
normalized line is a key that starts with a letter and has 2 to 31 runes, each after the
first a letter, a number (`unicode.IsNumber`, not only a digit), `_` or `-`, followed by a
colon,
whitespace and a text that is not empty; the key returned is that key and the value is the
text trimmed. The hypotheses are facts of Go's tables: the whitespace of the expression is
whitespace for `unicode.IsSpace`, and neither the colon nor the space is a letter or a
number. -/
theorem parseMetaLine_iff [Unicode]
    (hs : ∀ c, reSpace c = true → Unicode.IsSpace c = true)
    (hcolonL : Unicode.IsLetter ':' = false) (hcolonN : Unicode.IsNumber ':' = false)
    (hblankL : Unicode.IsLetter ' ' = false) (hblankN : Unicode.IsNumber ' ' = false)
    (line key value : String) :
    parseMetaLine line = some (key, value)
      ↔ metaLineClaim (normalizeStructureLine line) key value := by
  obtain ⟨hT1, hT2⟩ := normalizeStructureLine_runes line
  unfold parseMetaLine metaLineClaim
  generalize normalizeStructureLine line = t at hT1 hT2 ⊢
  have hkc : isMetaKeyRune ':' = false := by simp [isMetaKeyRune, hcolonL, hcolonN]
  have hkb : isMetaKeyRune ' ' = false := by simp [isMetaKeyRune, hblankL, hblankN]
  have hkey : ∀ c ∈ t.data, isMetaKeyRune c = true → Unicode.IsSpace c = false := by
    intro c hc hk
    cases hsp : Unicode.IsSpace c with
    | false => rfl
    | true =>
      have := hT1 c hc hsp
      subst this
      rw [hkb] at hk
      exact absurd hk (by simp)
  have hnl : ∀ c ∈ t.data, c ≠ '\n' := by
    intro c hc e
    subst e
    have := hT1 _ hc (hs _ (by decide))
    exact absurd this (by decide)
  constructor
  · intro h
    simp only at h
    by_cases ht : t = ""
    · simp [ht] at h
    · rw [if_neg ht] at h
      cases hm : metaLineRe t with
      | none => simp [hm] at h
      | some kv =>
        obtain ⟨k, v⟩ := kv
        simp only [hm] at h
        split at h
        · exact absurd h (by simp)
        · simp only [Option.some.injEq, Prod.mk.injEq] at h
          obtain ⟨hk, hv⟩ := h
          obtain ⟨first, rest, after, hd, hl, h1, h30, hdw, hms, hkk⟩ :=
            (metaLineRe_eq_some t k v).mp hm
          obtain ⟨hsp, hvd, hvne, -⟩ := (matchSpacesThenRest_strict after v.data).mp hms
          have e1 := List.takeWhile_append_dropWhile isMetaKeyRune rest
          have e2 := List.takeWhile_append_dropWhile reSpace after
          rw [hdw] at e1
          rw [← hvd] at e2
          have hdata : t.data = first :: rest.takeWhile isMetaKeyRune
              ++ ':' :: after.takeWhile reSpace ++ v.data := by
            rw [hd, ← e1, ← e2]
            simp [e1, e2]
          refine ⟨first, rest.takeWhile isMetaKeyRune, after.takeWhile reSpace, v.data, hdata,
            ?_, hl, ?_, ?_, ?_, hsp, ?_, hvne, ?_⟩
          · rw [← hk, hkk]
            apply TrimSpace_noSpace
            intro c hc
            have hct : c ∈ t.data := by
              rw [hdata]
              simp only [List.cons_append, List.append_assoc, List.mem_cons, List.mem_append]
              rcases List.mem_cons.mp hc with h | h
              · exact Or.inl h
              · exact Or.inr (Or.inl h)
            apply hkey c hct
            rcases List.mem_cons.mp hc with h | h
            · subst h; simp [isMetaKeyRune, hl]
            · exact List.mem_takeWhile_imp h
          · intro c hc
            exact (isMetaKeyRune_iff c).mp (List.mem_takeWhile_imp hc)
          · simp only [List.length_cons]; omega
          · simp only [List.length_cons]; omega
          · intro c hc
            exact hs c (List.mem_takeWhile_imp hc)
          · rw [← hv]
  · rintro ⟨first, tail, ws, rest, hd, hkey1, hl, htail, h2, h31, hws, hwsp, hrest, hval⟩
    simp only [List.length_cons] at h2 h31
    have ht : t ≠ "" := by
      intro e
      rw [e] at hd
      exact absurd hd (by simp)
    have hlast : ∃ r1 l1, rest = r1 ++ [l1] ∧ Unicode.IsSpace l1 = false := by
      rcases hT2 with h | ⟨init, last, hi, hsl⟩
      · exact absurd h ht
      · rcases List.eq_nil_or_concat rest with h0 | ⟨r1, l1, hr⟩
        · exact absurd h0 hrest
        · rw [List.concat_eq_append] at hr
          refine ⟨r1, l1, hr, ?_⟩
          rw [hd, hr, ← List.append_assoc] at hi
          have := (List.append_inj' hi rfl).2
          simp only [List.cons.injEq, and_true] at this
          rw [this]
          exact hsl
    obtain ⟨r1, l1, hr, hl1⟩ := hlast
    have hwsre : ∀ c ∈ ws, reSpace c = true := by
      intro c hc
      have hct : c ∈ t.data := by rw [hd]; simp [hc]
      rw [hT1 c hct (hwsp c hc)]
      decide
    have hk1 := takeWhile_append_cons_of_all (p := isMetaKeyRune) tail (ws ++ rest) ':'
      (fun c hc => (isMetaKeyRune_iff c).mpr (htail c hc)) hkc
    have hw1 := takeWhile_append_of_all (p := reSpace) ws rest hwsre
    have hl1re : reSpace l1 = false := by
      cases h : reSpace l1 with
      | false => rfl
      | true => rw [hs l1 h] at hl1; exact absurd hl1 (by simp)
    have hvne : rest.dropWhile reSpace ≠ [] := by
      intro e
      have := List.dropWhile_eq_nil_iff.mp e l1 (by rw [hr]; simp)
      rw [hl1re] at this
      exact absurd this (by simp)
    have hm : metaLineRe t
        = some (String.mk (first :: tail), String.mk (rest.dropWhile reSpace)) := by
      rw [metaLineRe_eq_some]
      refine ⟨first, tail ++ ':' :: (ws ++ rest), ws ++ rest, by rw [hd]; simp, hl, ?_, ?_,
        hk1.2, ?_, by rw [hk1.1]⟩
      · rw [hk1.1]; omega
      · rw [hk1.1]; omega
      · rw [matchSpacesThenRest_strict]
        refine ⟨?_, by rw [hw1.2], hvne, ?_⟩
        · rw [hw1.1]
          cases ws with
          | nil => exact absurd rfl hws
          | cons a as => simp
        · intro c hc
          apply hnl c
          rw [hd]
          have := (List.dropWhile_sublist _).subset hc
          simp [this]
    have hkt : TrimSpace (String.mk (first :: tail)) = String.mk (first :: tail) := by
      apply TrimSpace_noSpace
      intro c hc
      have hct : c ∈ t.data := by
        rw [hd]
        simp only [List.cons_append, List.append_assoc, List.mem_cons, List.mem_append]
        rcases List.mem_cons.mp hc with h | h
        · exact Or.inl h
        · exact Or.inr (Or.inl h)
      apply hkey c hct
      rcases List.mem_cons.mp hc with h | h
      · subst h; simp [isMetaKeyRune, hl]
      · exact (isMetaKeyRune_iff c).mpr (htail c h)
    have hvt : TrimSpace (String.mk (rest.dropWhile reSpace)) = TrimSpace (String.mk rest) := by
      simp only [TrimSpace, trimLeftFunc, dropWhile_space_dropWhile hs]
    have hvn : TrimSpace (String.mk rest) ≠ "" := by
      rw [hr]; exact TrimSpace_concat_ne r1 l1 hl1
    have hkn : String.mk (first :: tail) ≠ "" := by
      intro e
      have := congrArg String.data e
      simp at this
    simp only [if_neg ht, hm, hkt, hvt]
    rw [hkey1, hval]
    simp [hkn, hvn]

/-- The whitespace of Go's regular expressions is whitespace in the concrete tables. -/
theorem reSpace_basicTables : ∀ c, reSpace c = true → basicTables.IsSpace c = true := by
  intro c h
  simp only [reSpace, Bool.or_eq_true, decide_eq_true_eq] at h
  rcases h with (((h | h) | h) | h) | h <;> subst h <;> decide

/-- Claim C23 at a line of the repository's test with more whitespace: the key is `Author`
and the value `Лев Толстой`; a key of one letter and a key that starts with a digit are not
accepted. -/
theorem parseMetaLine_iff_witness :
    (∀ c, reSpace c = true → basicTables.IsSpace c = true)
      ∧ basicTables.IsLetter ':' = false ∧ basicTables.IsNumber ':' = false
      ∧ basicTables.IsLetter ' ' = false ∧ basicTables.IsNumber ' ' = false
      ∧ @normalizeStructureLine basicTables "  Author:\t Лев   Толстой " = "Author: Лев Толстой"
      ∧ @parseMetaLine basicTables "  Author:\t Лев   Толстой " = some ("Author", "Лев Толстой")
      ∧ @parseMetaLine basicTables "A: Лев Толстой" = none
      ∧ @parseMetaLine basicTables "1st: Лев Толстой" = none
      ∧ @metaLineClaim basicTables (@normalizeStructureLine basicTables
          "  Author:\t Лев   Толстой ") "Author" "Лев Толстой" :=
  ⟨reSpace_basicTables, by decide, by decide, by decide, by decide, by decide, by decide,
    by decide, by decide,
    (@parseMetaLine_iff basicTables reSpace_basicTables (by decide) (by decide) (by decide)
      (by decide) "  Author:\t Лев   Толстой " "Author" "Лев Толстой").mp (by decide)⟩

/-! ## Structure lines: headings -/

theorem chain_noSpace [Unicode] (x : List Char) (h : ∀ c ∈ x, Unicode.IsSpace c = false) :
    x.Chain' (fun a b => ¬ (Unicode.IsSpace a = true ∧ Unicode.IsSpace b = true)) := by
  induction x with
  | nil => exact List.chain'_nil
  | cons a as ih =>
    rw [List.chain'_cons']
    refine ⟨?_, ih (fun c hc => h c (List.mem_cons_of_mem _ hc))⟩
    intro y _ hy
    rw [h a (by simp)] at hy
    exact absurd hy.1 (by simp)

theorem blankBefore_chain [Unicode] : ∀ (ws : List String) (x : List Char),
    (∀ c ∈ x, Unicode.IsSpace c = false) →
    (∀ v ∈ ws, v.data ≠ [] ∧ ∀ c ∈ v.data, Unicode.IsSpace c = false) →
    (x ++ blankBefore ws).Chain'
      (fun a b => ¬ (Unicode.IsSpace a = true ∧ Unicode.IsSpace b = true))
  | [], x, hx, _ => by simpa [blankBefore] using chain_noSpace x hx
  | v :: vs, x, hx, h => by
    have hb : blankBefore (v :: vs) = [' '] ++ (v.data ++ blankBefore vs) := by
      simp [blankBefore]
    obtain ⟨hne, hv⟩ := h v (by simp)
    have ih := blankBefore_chain vs v.data hv (fun u hu => h u (List.mem_cons_of_mem _ hu))
    rw [hb, List.chain'_append]
    refine ⟨chain_noSpace x hx, ?_, ?_⟩
    · rw [List.singleton_append, List.chain'_cons']
      refine ⟨?_, ih⟩
      intro y hy hsp
      cases hvd : v.data with
      | nil => exact hne hvd
      | cons a as =>
        rw [hvd] at hy
        simp only [List.cons_append, List.head?_cons, Option.mem_def, Option.some.injEq] at hy
        subst hy
        rw [hv a (by rw [hvd]; simp)] at hsp
        exact absurd hsp.2 (by simp)
    · intro a ha y _ hsp
      have : a ∈ x := List.mem_of_mem_getLast? ha
      rw [hx a this] at hsp
      exact absurd hsp.1 (by simp)

theorem normalizeStructureLine_tidy [Unicode] (line : String) :
    tidyRunes (normalizeStructureLine line).data := by
  obtain ⟨h1, h2⟩ := normalizeStructureLine_runes line
  refine ⟨h1, ?_, ?_⟩
  · unfold normalizeStructureLine
    have hgood := Fields_good (TrimSpace line)
    cases hf : Fields (TrimSpace line) with
    | nil => simp [Join]
    | cons w ws =>
      rw [hf] at hgood
      rw [Join_data]
      exact blankBefore_chain ws w.data (hgood w (by simp)).2
        (fun v hv => hgood v (List.mem_cons_of_mem _ hv))
  · intro c hc
    rcases h2 with h | ⟨init, last, hi, hl⟩
    · rw [h] at hc; simp at hc
    · rw [hi] at hc
      rw [List.getLast?_append_of_ne_nil _ (by simp)] at hc
      simp only [List.getLast?_singleton, Option.some.injEq] at hc
      rw [← hc]; exact hl

theorem tidyRunes_suffix [Unicode] (p s : List Char) (h : tidyRunes (p ++ s)) :
    tidyRunes s := by
  obtain ⟨h1, h2, h3⟩ := h
  refine ⟨fun c hc => h1 c (List.mem_append_right _ hc), h2.suffix (List.suffix_append p s), ?_⟩
  intro c hc
  apply h3
  rw [List.getLast?_append, hc]
  rfl

theorem TrimSpace_isInfix [Unicode] (u : String) : (TrimSpace u).data <:+: u.data := by
  unfold TrimSpace trimRightFunc trimLeftFunc
  have h1 : (List.dropWhile Unicode.IsSpace (List.dropWhile Unicode.IsSpace u.data).reverse).reverse
      <:+: (List.dropWhile Unicode.IsSpace u.data) := by
    rw [← List.reverse_infix, List.reverse_reverse]
    exact (List.dropWhile_suffix _).isInfix
  exact h1.trans (List.dropWhile_suffix _).isInfix

theorem TrimSpace_last [Unicode] (u : String) (c : Char)
    (h : (TrimSpace u).data.getLast? = some c) : Unicode.IsSpace c = false := by
  unfold TrimSpace trimRightFunc at h
  simp only [List.getLast?_reverse] at h
  have := List.head?_dropWhile_not Unicode.IsSpace (trimLeftFunc Unicode.IsSpace u.data).reverse
  rw [h] at this
  exact this

theorem trimHeadingDecorationsLoop_isInfix [Unicode] : ∀ (fuel : Nat) (s : String),
    ∃ u : String, trimHeadingDecorationsLoop fuel s = TrimSpace u ∧ u.data <:+: s.data
  | 0, s => ⟨s, rfl, List.infix_refl _⟩
  | fuel + 1, s => by
    rw [trimHeadingDecorationsLoop]
    split
    · exact ⟨s, rfl, List.infix_refl _⟩
    · split
      · split
        · exact ⟨String.mk (TrimSpace s).data, rfl, TrimSpace_isInfix s⟩
        · obtain ⟨u, hu, hi⟩ := trimHeadingDecorationsLoop_isInfix fuel
            (String.mk (((TrimSpace s).data.drop 1).take ((TrimSpace s).data.length - 2)))
          refine ⟨u, hu, hi.trans ?_⟩
          exact ((List.take_prefix _ _).isInfix.trans (List.drop_suffix _ _).isInfix).trans
            (TrimSpace_isInfix s)
      · exact ⟨s, rfl, List.infix_refl _⟩

theorem trimHeadingDecorations_tidy [Unicode] (s : String) (h : tidyRunes s.data) :
    tidyRunes (trimHeadingDecorations s).data := by
  obtain ⟨u, hu, hi⟩ := trimHeadingDecorationsLoop_isInfix s.data.length s
  unfold trimHeadingDecorations
  rw [hu]
  have hinf := (TrimSpace_isInfix u).trans hi
  exact ⟨fun c hc => h.1 c (hinf.subset hc), List.Chain'.infix h.2.1 hinf, TrimSpace_last u⟩

theorem TrimSpace_ends [Unicode] (a l : Char) (as init : List Char)
    (h : a :: as = init ++ [l]) (ha : Unicode.IsSpace a = false)
    (hl : Unicode.IsSpace l = false) : TrimSpace (String.mk (a :: as)) = String.mk (a :: as) := by
  unfold TrimSpace trimLeftFunc
  simp only [List.dropWhile, ha]
  rw [h, trimRightFunc_concat _ init l hl]

/-- The end of a tidy line that starts with a space is that space and a text whose first
and last runes are not whitespace. -/
theorem tidyRunes_afterSpace [Unicode] (hsp : Unicode.IsSpace ' ' = true) (v : List Char)
    (h : tidyRunes (' ' :: v)) :
    ∃ a as init l, v = a :: as ∧ a :: as = init ++ [l] ∧ Unicode.IsSpace a = false
      ∧ Unicode.IsSpace l = false := by
  obtain ⟨-, h2, h3⟩ := h
  cases v with
  | nil =>
    have := h3 ' ' rfl
    rw [hsp] at this
    exact absurd this (by simp)
  | cons a as =>
    have ha : Unicode.IsSpace a = false := by
      rw [List.chain'_cons] at h2
      cases h : Unicode.IsSpace a with
      | false => rfl
      | true => exact absurd ⟨hsp, h⟩ h2.1
    rcases List.eq_nil_or_concat (a :: as) with h0 | ⟨init, l, hl⟩
    · exact absurd h0 (by simp)
    · rw [List.concat_eq_append] at hl
      refine ⟨a, as, init, l, rfl, hl, ha, ?_⟩
      apply h3
      rw [List.getLast?_cons_cons, hl, List.getLast?_append_of_ne_nil _ (by simp)]
      rfl

theorem matchSpacesThenRest_tidy [Unicode]
    (hs : ∀ c, reSpace c = true → Unicode.IsSpace c = true)
    (strict : Bool) (after v : List Char) (h : tidyRunes after) :
    matchSpacesThenRest strict after = some v ↔ after = ' ' :: v ∧ v ≠ [] := by
  have hsp : Unicode.IsSpace ' ' = true := hs _ (by decide)
  have hre : ∀ c, Unicode.IsSpace c = false → reSpace c = false := by
    intro c hc
    cases h : reSpace c with
    | false => rfl
    | true => rw [hs c h] at hc; exact absurd hc (by simp)
  cases after with
  | nil => simp [matchSpacesThenRest]
  | cons x rest =>
    by_cases hx : reSpace x = true
    · have hx2 : x = ' ' := h.1 x (by simp) (hs x hx)
      subst hx2
      obtain ⟨a, as, init, l, hv, hil, ha, hl⟩ := tidyRunes_afterSpace hsp rest h
      subst hv
      have hnl : ¬ ((a :: as).any (fun r => r = '\n') = true) := by
        simp only [List.any_eq_true, decide_eq_true_eq, not_exists, not_and]
        intro c hc e
        subst e
        have := h.1 _ (List.mem_cons_of_mem _ hc) (hs _ (by decide))
        exact absurd this (by decide)
      have h1 : matchSpacesThenRest strict (' ' :: a :: as) = some (a :: as) := by
        unfold matchSpacesThenRest
        simp only [List.takeWhile, List.dropWhile, hx, hre a ha]
        rw [if_neg (by simp), if_neg hnl]
      rw [h1]
      constructor
      · intro e
        simp only [Option.some.injEq] at e
        subst e
        exact ⟨rfl, by simp⟩
      · rintro ⟨e, -⟩
        simp only [List.cons.injEq, true_and] at e
        rw [e]
    · constructor
      · intro e
        unfold matchSpacesThenRest at e
        simp [List.takeWhile, hx] at e
      · rintro ⟨e, -⟩
        simp only [List.cons.injEq] at e
        rw [e.1] at hx
        exact absurd (by decide) hx

theorem spaceThenText_tidy [Unicode] (hsp : Unicode.IsSpace ' ' = true)
    (after text : List Char) (h : tidyRunes after) :
    spaceThenText after text ↔ after = ' ' :: text ∧ text ≠ [] := by
  constructor
  · rintro ⟨ws, he, hne, hws, ht⟩
    refine ⟨?_, ht⟩
    subst he
    cases ws with
    | nil => exact absurd rfl hne
    | cons a as =>
      have ha : a = ' ' := h.1 a (by simp) (hws a (by simp))
      subst ha
      cases as with
      | nil => rfl
      | cons b bs =>
        have := h.2.1
        simp only [List.cons_append] at this
        rw [List.chain'_cons] at this
        exact absurd ⟨hsp, hws b (by simp)⟩ this.1
  · rintro ⟨he, ht⟩
    exact ⟨[' '], by rw [he]; rfl, by simp, by simpa using hsp, ht⟩

theorem headingRe_tidy [Unicode] (hs : ∀ c, reSpace c = true → Unicode.IsSpace c = true)
    (t : String) (ht : tidyRunes t.data) (h x : String) :
    headingRe t = some (h, x) ↔
      ∃ n, 1 ≤ n ∧ n ≤ 6 ∧ h = String.mk (List.replicate n '#')
        ∧ t.data = List.replicate n '#' ++ ' ' :: x.data ∧ x.data ≠ [] := by
  have hsplit := List.takeWhile_append_dropWhile (fun r => decide (r = '#')) t.data
  have htd : tidyRunes (t.data.dropWhile fun r => decide (r = '#')) := by
    apply tidyRunes_suffix (t.data.takeWhile fun r => decide (r = '#'))
    rw [hsplit]; exact ht
  constructor
  · intro e
    unfold headingRe at e
    simp only at e
    split at e
    · exact absurd e (by simp)
    · rename_i hlen
      simp only [Bool.or_eq_true, decide_eq_true_eq, not_or, not_lt] at hlen
      cases hm : matchSpacesThenRest true (t.data.dropWhile fun r => decide (r = '#')) with
      | none => simp [hm] at e
      | some rest =>
        simp only [hm, Option.some.injEq, Prod.mk.injEq] at e
        obtain ⟨hd, hne⟩ := (matchSpacesThenRest_tidy hs true _ rest htd).mp hm
        have hrep : (t.data.takeWhile fun r => decide (r = '#'))
            = List.replicate (t.data.takeWhile fun r => decide (r = '#')).length '#' := by
          rw [List.eq_replicate_iff]
          refine ⟨rfl, fun b hb => ?_⟩
          simpa using List.mem_takeWhile_imp hb
        refine ⟨_, hlen.1, hlen.2, ?_, ?_, ?_⟩
        · rw [← e.1, ← hrep]
        · rw [← hrep, ← e.2, ← hd, hsplit]
        · rw [← e.2]; exact hne
  · rintro ⟨n, h1, h6, hh, hd, hx⟩
    have htk := takeWhile_append_cons_of_all (p := fun r => decide (r = '#'))
      (List.replicate n '#') x.data ' ' (by
        intro c hc
        simp [(List.eq_replicate_iff.mp rfl).2 c hc]) (by decide)
    rw [← hd] at htk
    have hdt : tidyRunes (' ' :: x.data) := by rw [← htk.2]; exact htd
    have hm := (matchSpacesThenRest_tidy hs true (' ' :: x.data) x.data hdt).mpr ⟨rfl, hx⟩
    unfold headingRe
    simp only [htk.1, htk.2, List.length_replicate, hm, hh]
    rw [if_neg (by simp; omega)]

theorem foldEqWord_length [Unicode] : ∀ (ps rs : List Char),
    foldEqWord ps rs = true → ps.length = rs.length
  | [], [], _ => rfl
  | [], _ :: _, h => by simp [foldEqWord] at h
  | _ :: _, [], h => by simp [foldEqWord] at h
  | p :: ps, r :: rs, h => by
    simp only [foldEqWord, Bool.and_eq_true] at h
    simp [foldEqWord_length ps rs h.2]

theorem foldEqWord_noSpace [Unicode] : ∀ (ps rs : List Char),
    (∀ p ∈ ps, ∀ r, foldEq p r = true → Unicode.IsSpace r = false) →
    foldEqWord ps rs = true → ∀ r ∈ rs, Unicode.IsSpace r = false
  | [], [], _, _ => by simp
  | [], _ :: _, _, h => by simp [foldEqWord] at h
  | _ :: _, [], _, h => by simp [foldEqWord] at h
  | p :: ps, r :: rs, hf, h => by
    simp only [foldEqWord, Bool.and_eq_true] at h
    intro c hc
    rcases List.mem_cons.mp hc with e | e
    · subst e; exact hf p (by simp) c h.1
    · exact foldEqWord_noSpace ps rs (fun q hq => hf q (List.mem_cons_of_mem _ hq)) h.2 c e

theorem split_unique (c : Char) (l1 l2 r1 r2 : List Char) (h : l1 ++ c :: r1 = l2 ++ c :: r2)
    (h1 : c ∉ l1) (h2 : c ∉ l2) : l1 = l2 ∧ r1 = r2 := by
  have a1 := takeWhile_append_cons_of_all (p := fun x => decide (x ≠ c)) l1 r1 c
    (fun x hx => by
      simp only [ne_eq, decide_eq_true_eq]
      intro e; subst e; exact h1 hx) (by simp)
  have a2 := takeWhile_append_cons_of_all (p := fun x => decide (x ≠ c)) l2 r2 c
    (fun x hx => by
      simp only [ne_eq, decide_eq_true_eq]
      intro e; subst e; exact h2 hx) (by simp)
  rw [h] at a1
  have e1 : l1 = l2 := a1.1.symm.trans a2.1
  have e2 : c :: r1 = c :: r2 := a1.2.symm.trans a2.2
  exact ⟨e1, by simpa using e2⟩

theorem matchBookHeadingWord_tidy [Unicode]
    (hs : ∀ c, reSpace c = true → Unicode.IsSpace c = true)
    (w t : String) (ht : tidyRunes t.data) (word text : String) :
    matchBookHeadingWord w t = some (word, text) ↔
      foldEqWord w.data word.data = true ∧ t.data = word.data ++ ' ' :: text.data
        ∧ text.data ≠ [] := by
  have hsplit := List.take_append_drop w.data.length t.data
  constructor
  · intro e
    unfold matchBookHeadingWord at e
    simp only at e
    split at e
    · exact absurd e (by simp)
    · rename_i hf
      simp only [Bool.not_eq_true, Bool.not_eq_false] at hf
      have htd : tidyRunes (t.data.drop w.data.length) := by
        apply tidyRunes_suffix (t.data.take w.data.length)
        rw [hsplit]; exact ht
      cases hm : matchSpacesThenRest false (t.data.drop w.data.length) with
      | none =>
        rw [hm] at e
        exact absurd e (by simp)
      | some rest =>
        rw [hm] at e
        simp only [Option.some.injEq, Prod.mk.injEq] at e
        have e1 : String.mk (t.data.take w.data.length) = word := e.1
        have e2 : String.mk rest = text := e.2
        replace e := And.intro e1 e2
        obtain ⟨hd, hne⟩ := (matchSpacesThenRest_tidy hs false _ rest htd).mp hm
        refine ⟨by rw [← e.1]; simpa using hf, ?_, by rw [← e.2]; exact hne⟩
        rw [← e.1, ← e.2, ← hd, hsplit]
  · rintro ⟨hf, hd, hx⟩
    have hlen := foldEqWord_length _ _ hf
    have htk : t.data.take w.data.length = word.data := by
      rw [hd, hlen, List.take_left']
      rfl
    have hdr : t.data.drop w.data.length = ' ' :: text.data := by
      rw [hd, hlen, List.drop_left']
      rfl
    have hdt : tidyRunes (' ' :: text.data) := by
      apply tidyRunes_suffix word.data
      rw [← hd]; exact ht
    have hm := (matchSpacesThenRest_tidy hs false (' ' :: text.data) text.data hdt).mpr ⟨rfl, hx⟩
    have htk2 : t.data.take w.length = word.data := htk
    have hdr2 : t.data.drop w.length = ' ' :: text.data := hdr
    unfold matchBookHeadingWord
    simp [htk2, hdr2, hf, hm]

theorem findSome?_unique {α β : Type} (f : α → Option β) (v : β) : ∀ (l : List α),
    (∃ a ∈ l, f a = some v) → (∀ a ∈ l, ∀ u, f a = some u → u = v) → l.findSome? f = some v
  | [], h, _ => by simp at h
  | a :: l, h, hu => by
    rw [List.findSome?_cons]
    cases hfa : f a with
    | some u => rw [hu a (by simp) u hfa]
    | none =>
      obtain ⟨b, hb, hfb⟩ := h
      rcases List.mem_cons.mp hb with e | e
      · subst e; rw [hfa] at hfb; exact absurd hfb (by simp)
      · exact findSome?_unique f v l ⟨b, e, hfb⟩ (fun c hc => hu c (List.mem_cons_of_mem _ hc))

theorem bookHeadingRe_tidy [Unicode]
    (hs : ∀ c, reSpace c = true → Unicode.IsSpace c = true)
    (hfold : ∀ w ∈ bookHeadingWords, ∀ p ∈ w.data, ∀ r, foldEq p r = true →
      Unicode.IsSpace r = false)
    (t : String) (ht : tidyRunes t.data) (word text : String) :
    bookHeadingRe t = some (word, text) ↔
      (∃ w ∈ bookHeadingWords, foldEqWord w.data word.data = true)
        ∧ t.data = word.data ++ ' ' :: text.data ∧ text.data ≠ [] := by
  have hsp : Unicode.IsSpace ' ' = true := hs _ (by decide)
  unfold bookHeadingRe
  constructor
  · intro e
    obtain ⟨l1, w, l2, hl, hw, -⟩ := List.findSome?_eq_some_iff.mp e
    obtain ⟨hf, hd, hx⟩ := (matchBookHeadingWord_tidy hs w t ht word text).mp hw
    exact ⟨⟨w, by rw [hl]; simp, hf⟩, hd, hx⟩
  · rintro ⟨⟨w, hw, hf⟩, hd, hx⟩
    apply findSome?_unique
    · exact ⟨w, hw, (matchBookHeadingWord_tidy hs w t ht word text).mpr ⟨hf, hd, hx⟩⟩
    · rintro w0 hw0 ⟨word0, text0⟩ h0
      obtain ⟨hf0, hd0, -⟩ := (matchBookHeadingWord_tidy hs w0 t ht word0 text0).mp h0
      have n1 : ' ' ∉ word.data := by
        intro hm
        have := foldEqWord_noSpace _ _ (hfold w hw) hf ' ' hm
        rw [hsp] at this
        exact absurd this (by simp)
      have n0 : ' ' ∉ word0.data := by
        intro hm
        have := foldEqWord_noSpace _ _ (hfold w0 hw0) hf0 ' ' hm
        rw [hsp] at this
        exact absurd this (by simp)
      have := split_unique ' ' word0.data word.data text0.data text.data
        (hd0.symm.trans hd) n0 n1
      rw [Prod.mk.injEq]
      exact ⟨String.ext this.1, String.ext this.2⟩

theorem TrimSpace_afterSpace [Unicode] (hsp : Unicode.IsSpace ' ' = true) (pre v : List Char)
    (h : tidyRunes (pre ++ ' ' :: v)) :
    TrimSpace (String.mk v) = String.mk v ∧ TrimSpace (String.mk v) ≠ "" := by
  obtain ⟨a, as, init, l, hv, hil, ha, hl⟩ :=
    tidyRunes_afterSpace hsp v (tidyRunes_suffix pre _ h)
  subst hv
  have e := TrimSpace_ends a l as init hil ha hl
  refine ⟨e, ?_⟩
  rw [e]
  intro h0
  have := congrArg String.data h0
  simp at this

theorem isHashHeading_iff [Unicode] (hs : ∀ c, reSpace c = true → Unicode.IsSpace c = true)
    (t : String) (ht : tidyRunes t.data) (n : Nat) (text : String) :
    isHashHeading t n text ↔ headingRe t = some (String.mk (List.replicate n '#'), text) := by
  have hsp : Unicode.IsSpace ' ' = true := hs _ (by decide)
  rw [headingRe_tidy hs t ht]
  unfold isHashHeading
  constructor
  · rintro ⟨h1, h6, after, hd, hst⟩
    have hta : tidyRunes after := tidyRunes_suffix (List.replicate n '#') after (hd ▸ ht)
    obtain ⟨ha, hne⟩ := (spaceThenText_tidy hsp after text.data hta).mp hst
    exact ⟨n, h1, h6, rfl, by rw [hd, ha], hne⟩
  · rintro ⟨m, h1, h6, hm, hd, hne⟩
    have hnm : n = m := by
      have := congrArg (fun s => s.data.length) hm
      simpa using this
    subst hnm
    have hta : tidyRunes (' ' :: text.data) :=
      tidyRunes_suffix (List.replicate n '#') _ (hd ▸ ht)
    exact ⟨h1, h6, ' ' :: text.data, hd,
      (spaceThenText_tidy hsp _ _ hta).mpr ⟨rfl, hne⟩⟩

theorem isKeywordHeading_iff [Unicode]
    (hs : ∀ c, reSpace c = true → Unicode.IsSpace c = true)
    (hfold : ∀ w ∈ bookHeadingWords, ∀ p ∈ w.data, ∀ r, foldEq p r = true →
      Unicode.IsSpace r = false)
    (t : String) (ht : tidyRunes t.data) (kw : String) :
    isKeywordHeading t kw ↔ ∃ text, bookHeadingRe t = some (kw, text) := by
  have hsp : Unicode.IsSpace ' ' = true := hs _ (by decide)
  unfold isKeywordHeading
  constructor
  · rintro ⟨hw, after, rem, hd, hst⟩
    have hta : tidyRunes after := tidyRunes_suffix kw.data after (hd ▸ ht)
    obtain ⟨ha, hne⟩ := (spaceThenText_tidy hsp after rem hta).mp hst
    exact ⟨String.mk rem, (bookHeadingRe_tidy hs hfold t ht kw (String.mk rem)).mpr
      ⟨hw, by rw [hd, ha], hne⟩⟩
  · rintro ⟨text, h⟩
    obtain ⟨hw, hd, hne⟩ := (bookHeadingRe_tidy hs hfold t ht kw text).mp h
    have hta : tidyRunes (' ' :: text.data) := tidyRunes_suffix kw.data _ (hd ▸ ht)
    exact ⟨hw, ' ' :: text.data, text.data, hd, (spaceThenText_tidy hsp _ _ hta).mpr ⟨rfl, hne⟩⟩

theorem trimHeadingDecorations_empty [Unicode] : trimHeadingDecorations "" = "" := by
  simp [trimHeadingDecorations, trimHeadingDecorationsLoop, TrimSpace, trimLeftFunc,
    trimRightFunc]

theorem keywordLevel_eq [Unicode] (kw : String) :
    headingLevelForKeyword (stringsToLower kw) = keywordLevel kw := rfl

/-- What `parseHeading` returns on every line: a normalized line of one to six `#`,
whitespace and a text gives the number of `#` as level and the text as body; failing that, a
line that, with its decorations trimmed, starts with a chapter keyword up to case,
whitespace and a remainder gives level 1 when the text matched, lowered with
`strings.ToLower`, is часть, частина, part, книга, book, том or volume and level 2
otherwise (so also for a keyword of level 1 written with a rune that only the case folding
of the expression maps to its letter); any other line gives no heading; and every level
returned is from 1 to 6. The hypotheses are facts of Go's
tables: the whitespace of the expressions is whitespace for `unicode.IsSpace`, and no rune
that matches a letter of a keyword up to case is whitespace. -/
theorem parseHeading_spec [Unicode]
    (hs : ∀ c, reSpace c = true → Unicode.IsSpace c = true)
    (hfold : ∀ w ∈ bookHeadingWords, ∀ p ∈ w.data, ∀ r, foldEq p r = true →
      Unicode.IsSpace r = false)
    (line : String) : headingClaim line (parseHeading line) := by
  have hsp : Unicode.IsSpace ' ' = true := hs _ (by decide)
  have ht := normalizeStructureLine_tidy line
  have ht2 := trimHeadingDecorations_tidy _ ht
  unfold headingClaim
  cases hre : headingRe (normalizeStructureLine line) with
  | some hx =>
    obtain ⟨h, x⟩ := hx
    obtain ⟨n, h1, h6, hh, hd, hne⟩ := (headingRe_tidy hs _ ht h x).mp hre
    have hts := TrimSpace_afterSpace hsp (List.replicate n '#') x.data (hd ▸ ht)
    have htrim : TrimSpace x = x := hts.1
    have hxne : TrimSpace x ≠ "" := hts.2
    have hres : parseHeading line = some (n, x) := by
      have htne : normalizeStructureLine line ≠ "" := by
        intro e
        rw [e] at hd
        exact absurd hd (by simp)
      unfold parseHeading
      have hx0 : x ≠ "" := by rw [← htrim]; exact hxne
      simp only [if_neg htne, hre, htrim, if_neg hx0, hh, List.length_replicate]
    rw [hres]
    refine ⟨?_, ?_, ?_⟩
    · intro m text hm
      have := (isHashHeading_iff hs _ ht m text).mp hm
      rw [hre, hh] at this
      simp only [Option.some.injEq, Prod.mk.injEq] at this
      have hnm : n = m := by simpa using congrArg (fun s => s.data.length) this.1
      rw [hnm, this.2]
    · intro hno
      exact absurd ⟨n, x, (isHashHeading_iff hs _ ht n x).mpr (by rw [hre, hh])⟩ hno
    · intro level body e
      simp only [Option.some.injEq, Prod.mk.injEq] at e
      omega
  | none =>
    have hnoHash : ∀ n text, ¬ isHashHeading (normalizeStructureLine line) n text := by
      intro n text hm
      have := (isHashHeading_iff hs _ ht n text).mp hm
      rw [hre] at this
      exact absurd this (by simp)
    have hkwne : ∀ kw, isKeywordHeading
        (trimHeadingDecorations (normalizeStructureLine line)) kw →
        trimHeadingDecorations (normalizeStructureLine line) ≠ ""
          ∧ normalizeStructureLine line ≠ "" := by
      rintro kw ⟨-, after, rem, hd, ws, ha, -, -, hrem⟩
      have h1 : trimHeadingDecorations (normalizeStructureLine line) ≠ "" := by
        intro e
        rw [e, ha] at hd
        have := congrArg List.length hd
        simp at this
        exact hrem (List.length_eq_zero.mp (by omega))
      refine ⟨h1, ?_⟩
      intro e
      rw [e, trimHeadingDecorations_empty] at h1
      exact h1 rfl
    cases hbk : bookHeadingRe (trimHeadingDecorations (normalizeStructureLine line)) with
    | none =>
      have hnoKw : ∀ kw, ¬ isKeywordHeading
          (trimHeadingDecorations (normalizeStructureLine line)) kw := by
        intro kw hk
        obtain ⟨text, h⟩ := (isKeywordHeading_iff hs hfold _ ht2 kw).mp hk
        rw [hbk] at h
        exact absurd h (by simp)
      have hres : parseHeading line = none := by
        unfold parseHeading
        simp only [hre, hbk]
        split
        · rfl
        · split <;> rfl
      rw [hres]
      refine ⟨fun n text hm => absurd hm (hnoHash n text), fun _ => ⟨?_, fun _ => rfl⟩, ?_⟩
      · intro kw hk
        exact absurd hk (hnoKw kw)
      · intro level body e
        exact absurd e (by simp)
    | some wx =>
      obtain ⟨word, text⟩ := wx
      have hk : isKeywordHeading (trimHeadingDecorations (normalizeStructureLine line)) word :=
        (isKeywordHeading_iff hs hfold _ ht2 word).mpr ⟨text, hbk⟩
      obtain ⟨hne2, hne1⟩ := hkwne word hk
      obtain ⟨-, hd, -⟩ := (bookHeadingRe_tidy hs hfold _ ht2 word text).mp hbk
      have hxne : TrimSpace text ≠ "" :=
        (TrimSpace_afterSpace hsp word.data text.data (hd ▸ ht2)).2
      have hres : parseHeading line
          = some (keywordLevel word, trimHeadingDecorations (normalizeStructureLine line)) := by
        unfold parseHeading
        simp only [if_neg hne1, hre, if_neg hne2, hbk, if_neg hxne, keywordLevel_eq]
      rw [hres]
      refine ⟨fun n text hm => absurd hm (hnoHash n text), fun _ => ⟨?_, ?_⟩, ?_⟩
      · intro kw hkw
        obtain ⟨text2, h⟩ := (isKeywordHeading_iff hs hfold _ ht2 kw).mp hkw
        rw [hbk] at h
        simp only [Option.some.injEq, Prod.mk.injEq] at h
        rw [h.1]
      · intro hno
        exact absurd ⟨word, hk⟩ hno
      · intro level body e
        simp only [Option.some.injEq, Prod.mk.injEq] at e
        have : keywordLevel word = 1 ∨ keywordLevel word = 2 := by
          unfold keywordLevel
          split
          · exact Or.inl rfl
          · exact Or.inr rfl
        omega

theorem keywordLetters_mem : ∀ w ∈ bookHeadingWords, ∀ p ∈ w.data, p ∈ keywordLetters := by
  decide

set_option maxHeartbeats 2000000 in
theorem keywordLetters_fold : (keywordLetters.all fun p =>
      !basicTables.IsSpace p
        && !basicTables.IsSpace (basicTables.SimpleFold p)
        && !basicTables.IsSpace (basicTables.SimpleFold (basicTables.SimpleFold p))
        && !basicTables.IsSpace (basicTables.SimpleFold (basicTables.SimpleFold
            (basicTables.SimpleFold p)))) = true := by
  decide

theorem foldEq_cases [Unicode] (p r : Char) (h : foldEq p r = true) :
    r = p ∨ r = Unicode.SimpleFold p ∨ r = Unicode.SimpleFold (Unicode.SimpleFold p)
      ∨ r = Unicode.SimpleFold (Unicode.SimpleFold (Unicode.SimpleFold p)) := by
  unfold foldEq at h
  simp only [Bool.or_eq_true, decide_eq_true_eq] at h
  tauto

/-- In the concrete tables no rune that matches a letter of a chapter keyword up to case is
whitespace. -/
theorem foldEq_basicTables : ∀ w ∈ bookHeadingWords, ∀ p ∈ w.data, ∀ r,
    @foldEq basicTables p r = true → basicTables.IsSpace r = false := by
  intro w hw p hp r hr
  have hm := keywordLetters_mem w hw p hp
  have k := List.all_eq_true.mp keywordLetters_fold p hm
  simp only [Bool.and_eq_true, Bool.not_eq_true'] at k
  obtain ⟨⟨⟨k1, k2⟩, k3⟩, k4⟩ := k
  rcases @foldEq_cases basicTables p r hr with h | h | h | h
  · rw [h]; exact k1
  · rw [h]; exact k2
  · rw [h]; exact k3
  · rw [h]; exact k4

/-- The result of `parseHeading` on five lines: a line of `#` with more whitespace, a
decorated line with a keyword of level 1 in upper case, a keyword of level 2, a plain line
and a line of seven `#`; `headingClaim` holds of the first with its result written out. -/
theorem parseHeading_spec_witness :
    (∀ c, reSpace c = true → basicTables.IsSpace c = true)
      ∧ (∀ w ∈ bookHeadingWords, ∀ p ∈ w.data, ∀ r,
          @foldEq basicTables p r = true → basicTables.IsSpace r = false)
      ∧ @parseHeading basicTables "  ##   Глава  первая " = some (2, "Глава первая")
      ∧ @parseHeading basicTables "*** ЧАСТЬ 2 ***" = some (1, "ЧАСТЬ 2")
      ∧ @parseHeading basicTables "Глава 1" = some (2, "Глава 1")
      ∧ @parseHeading basicTables "Просто текст" = none
      ∧ @parseHeading basicTables "####### x" = none
      ∧ @headingClaim basicTables "  ##   Глава  первая " (some (2, "Глава первая")) :=
  ⟨reSpace_basicTables, foldEq_basicTables, by decide, by decide, by decide, by decide,
    by decide,
    (by decide : @parseHeading basicTables "  ##   Глава  первая " = some (2, "Глава первая"))
      ▸ @parseHeading_spec basicTables reSpace_basicTables foldEq_basicTables
        "  ##   Глава  первая "⟩

/-! ## Tokenizer: the loop of `tokenizeInline` step by step -/

theorem tokenizeLoop_succ [Unicode] (runes : List Char) (line fuel i col off : Nat)
    (out : List token) (r : Char) (hr : runes[i]? = some r) :
    tokenizeLoop runes line (fuel + 1) i col off out
      = tokenizeLoop runes line fuel (nextToken runes line i col off r).1
          (col + ((nextToken runes line i col off r).1 - i))
          (off + ((nextToken runes line i col off r).1 - i))
          (out ++ (nextToken runes line i col off r).2) := by
  have e1 : i + 1 - i = 1 := by omega
  have e3 : i + 3 - i = 3 := by omega
  rw [tokenizeLoop, hr]
  unfold nextToken
  dsimp only
  by_cases h1 : isIgnorableInlineRune r = true
  · simp only [if_pos h1, e1, List.append_nil]
  simp only [if_neg h1]
  by_cases h2 : Unicode.IsSpace r = true
  · simp only [if_pos h2]
  simp only [if_neg h2]
  by_cases h3 : (r = '.' && runes[i + 1]? = some '.' && runes[i + 2]? = some '.') = true
  · simp only [if_pos h3, e3]
  simp only [if_neg h3]
  by_cases h4 : r = '…'
  · simp only [if_pos h4, e1]
  simp only [if_neg h4]
  by_cases h5 : (r = '-' || r = '–' || r = '—') = true
  · simp only [if_pos h5, e1]
  simp only [if_neg h5]
  by_cases h6 : (r = '(' || r = '[') = true
  · simp only [if_pos h6, e1]
  simp only [if_neg h6]
  by_cases h7 : (r = ')' || r = ']') = true
  · simp only [if_pos h7, e1]
  simp only [if_neg h7]
  by_cases h8 : r ∈ punctRunes
  · simp only [if_pos h8, e1]
  simp only [if_neg h8]
  by_cases h9 : r ∈ quoteRunes
  · simp only [if_pos h9, e1]
  simp only [if_neg h9]
  split
  · rfl
  · simp only [e1]

theorem scanWhile_spec (p : Nat → Bool) : ∀ (fuel i : Nat),
    i ≤ scanWhile p fuel i ∧ scanWhile p fuel i ≤ i + fuel
      ∧ (∀ k, i ≤ k → k < scanWhile p fuel i → p k = true)
      ∧ (scanWhile p fuel i < i + fuel → p (scanWhile p fuel i) = false)
  | 0, i => by
    rw [scanWhile]
    exact ⟨le_refl _, by omega, fun k h1 h2 => by omega, fun h => by omega⟩
  | fuel + 1, i => by
    rw [scanWhile]
    by_cases h : p i = true
    · rw [if_pos h]
      obtain ⟨a, b, c, d⟩ := scanWhile_spec p fuel (i + 1)
      refine ⟨by omega, by omega, ?_, ?_⟩
      · intro k hk1 hk2
        by_cases hki : k = i
        · rw [hki]; exact h
        · exact c k (by omega) hk2
      · intro hlt
        exact d (by omega)
    · rw [if_neg h]
      refine ⟨le_refl _, by omega, ?_, ?_⟩
      · intro k hk1 hk2; omega
      · intro _; simpa using h

/-! ## Tokenizer: the cases of one step -/

/-- The five ways an iteration of the loop of `tokenizeInline` can go: one rune that is
skipped or gives a token that is not a Word; a run of whitespace; three full stops; a run
of word runes; one rune that is nothing else and becomes a Word by itself. -/
theorem nextToken_cases [Unicode] (runes : List Char) (line i col off : Nat) (r : Char) :
    ((nextToken runes line i col off r).1 = i + 1
        ∧ (isIgnorableInlineRune r = true ∨ r ∈ otherTokenRunes)
        ∧ ∀ tk ∈ (nextToken runes line i col off r).2, tk.kind ≠ .tokenWord)
      ∨ (Unicode.IsSpace r = true
        ∧ (nextToken runes line i col off r).1
            = scanWhile (fun k => (runes[k]?.any Unicode.IsSpace)) (runes.length - i) i
        ∧ ∀ tk ∈ (nextToken runes line i col off r).2, tk.kind ≠ .tokenWord)
      ∨ (r = '.' ∧ runes[i + 1]? = some '.' ∧ runes[i + 2]? = some '.'
        ∧ (nextToken runes line i col off r).1 = i + 3
        ∧ ∀ tk ∈ (nextToken runes line i col off r).2, tk.kind ≠ .tokenWord)
      ∨ (isIgnorableInlineRune r = false ∧ Unicode.IsSpace r = false ∧ r ∉ otherTokenRunes
        ∧ i < scanWhile (fun k => decide (k < runes.length) && isWordRune runes k)
            (runes.length - i) i
        ∧ nextToken runes line i col off r
            = (scanWhile (fun k => decide (k < runes.length) && isWordRune runes k)
                (runes.length - i) i,
              [{ kind := .tokenWord,
                 text := String.mk ((runes.drop i).take
                   (scanWhile (fun k => decide (k < runes.length) && isWordRune runes k)
                     (runes.length - i) i - i)),
                 ch := zeroRune, dashKind := .DashHyphen,
                 pos := { Line := line, Col := col, Off := off } }]))
      ∨ (isIgnorableInlineRune r = false ∧ Unicode.IsSpace r = false ∧ r ∉ otherTokenRunes
        ∧ ¬ i < scanWhile (fun k => decide (k < runes.length) && isWordRune runes k)
            (runes.length - i) i
        ∧ nextToken runes line i col off r
            = (i + 1, [{ kind := .tokenWord, text := String.singleton r, ch := zeroRune,
                         dashKind := .DashHyphen,
                         pos := { Line := line, Col := col, Off := off } }])) := by
  unfold nextToken
  dsimp only
  by_cases h1 : isIgnorableInlineRune r = true
  · rw [if_pos h1]
    exact Or.inl ⟨rfl, Or.inl h1, by simp⟩
  simp only [if_neg h1]
  by_cases h2 : Unicode.IsSpace r = true
  · rw [if_pos h2]
    exact Or.inr (Or.inl ⟨h2, rfl, by simp⟩)
  simp only [if_neg h2]
  by_cases h3 : (r = '.' && runes[i + 1]? = some '.' && runes[i + 2]? = some '.') = true
  · rw [if_pos h3]
    simp only [Bool.and_eq_true, decide_eq_true_eq] at h3
    exact Or.inr (Or.inr (Or.inl ⟨h3.1.1, h3.1.2, h3.2, rfl, by simp⟩))
  simp only [if_neg h3]
  by_cases h4 : r = '…'
  · rw [if_pos h4]
    exact Or.inl ⟨rfl, Or.inr (by rw [h4]; decide), by simp⟩
  simp only [if_neg h4]
  by_cases h5 : (r = '-' || r = '–' || r = '—') = true
  · rw [if_pos h5]
    refine Or.inl ⟨rfl, Or.inr ?_, by simp⟩
    simp only [Bool.or_eq_true, decide_eq_true_eq] at h5
    rcases h5 with (h | h) | h <;> rw [h] <;> decide
  simp only [if_neg h5]
  by_cases h6 : (r = '(' || r = '[') = true
  · rw [if_pos h6]
    refine Or.inl ⟨rfl, Or.inr ?_, by simp [runeToken]⟩
    simp only [Bool.or_eq_true, decide_eq_true_eq] at h6
    rcases h6 with h | h <;> rw [h] <;> decide
  simp only [if_neg h6]
  by_cases h7 : (r = ')' || r = ']') = true
  · rw [if_pos h7]
    refine Or.inl ⟨rfl, Or.inr ?_, by simp [runeToken]⟩
    simp only [Bool.or_eq_true, decide_eq_true_eq] at h7
    rcases h7 with h | h <;> rw [h] <;> decide
  simp only [if_neg h7]
  by_cases h8 : r ∈ punctRunes
  · rw [if_pos h8]
    exact Or.inl ⟨rfl, Or.inr (by simp [otherTokenRunes, h8]), by simp [runeToken]⟩
  simp only [if_neg h8]
  by_cases h9 : r ∈ quoteRunes
  · rw [if_pos h9]
    exact Or.inl ⟨rfl, Or.inr (by simp [otherTokenRunes, h9]), by simp [runeToken]⟩
  simp only [if_neg h9]
  have hno : r ∉ otherTokenRunes := by
    simp only [Bool.or_eq_true, decide_eq_true_eq, not_or] at h5 h6 h7
    simp only [otherTokenRunes, List.mem_append, List.mem_cons, List.mem_singleton,
      List.not_mem_nil, or_false, not_or]
    exact ⟨⟨⟨h4, h5.1.1, h5.1.2, h5.2, h6.1, h6.2, h7.1, h7.2⟩, h8⟩, h9⟩
  have h1f : isIgnorableInlineRune r = false := by simpa using h1
  have h2f : Unicode.IsSpace r = false := by simpa using h2
  by_cases hj : scanWhile (fun k => decide (k < runes.length) && isWordRune runes k)
      (runes.length - i) i > i
  · rw [if_pos hj]
    exact Or.inr (Or.inr (Or.inr (Or.inl ⟨h1f, h2f, hno, hj, rfl⟩)))
  · rw [if_neg hj]
    exact Or.inr (Or.inr (Or.inr (Or.inr ⟨h1f, h2f, hno, hj, rfl⟩)))

/-! ## Tokenizer: the hyphen -/

theorem isWordRune_hyphen [Unicode] (hLh : Unicode.IsLetter '-' = false)
    (hD : Unicode.IsDigit '-' = false) (runes : List Char) (k : Nat)
    (hk : runes[k]? = some '-') : isWordRune runes k = betweenLetters runes k := by
  have hlen : k < runes.length := by
    rcases Nat.lt_or_ge k runes.length with h | h
    · exact h
    · rw [List.getElem?_eq_none h] at hk; exact absurd hk (by simp)
  unfold isWordRune betweenLetters
  rw [hk]
  simp only [hLh, hD, Bool.or_false, Bool.false_eq_true, if_false]
  rw [if_pos trivial, if_neg (by decide)]
  by_cases h0 : k = 0
  · simp [h0]
  · by_cases h1 : k + 1 ≥ runes.length
    · have : runes[k + 1]? = none := List.getElem?_eq_none h1
      simp [h0, h1, this]
    · have hb : k - 1 < runes.length := by omega
      have ha : k + 1 < runes.length := by omega
      have hpos : 0 < k := by omega
      have hc : ¬ (decide (k = 0) || decide (k + 1 ≥ runes.length)) = true := by
        simp only [Bool.or_eq_true, decide_eq_true_eq, not_or]
        exact ⟨h0, h1⟩
      rw [List.getElem?_eq_getElem hb, List.getElem?_eq_getElem ha]
      simp only [Option.any_some, hpos, decide_True, Bool.true_and]
      rw [if_neg hc]

theorem isWordRune_letter [Unicode] (runes : List Char) (i : Nat) (r : Char)
    (hr : runes[i]? = some r) (h : Unicode.IsLetter r = true) : isWordRune runes i = true := by
  unfold isWordRune
  rw [hr]
  simp [h]

theorem nextToken_dash [Unicode] (hI : isIgnorableInlineRune '-' = false)
    (hS : Unicode.IsSpace '-' = false) (runes : List Char) (line i col off : Nat) :
    nextToken runes line i col off '-'
      = (i + 1, [{ kind := .tokenDash, text := "-", ch := '-', dashKind := .DashHyphen,
                   pos := { Line := line, Col := col, Off := off } }]) := by
  unfold nextToken
  dsimp only
  rw [if_neg (by simp [hI]), if_neg (by simp [hS]), if_neg (by simp), if_neg (by decide),
    if_pos (by decide)]
  rfl

theorem betweenLetters_false [Unicode] (runes : List Char) (k : Nat) (b : Char)
    (hb : runes[k - 1]? = some b) (hl : Unicode.IsLetter b = false) :
    betweenLetters runes k = false := by
  unfold betweenLetters
  rw [hb]
  simp [hl]

theorem getElem?_lt_length {α : Type} (l : List α) (i : Nat) (a : α) (h : l[i]? = some a) :
    i < l.length := by
  rcases Nat.lt_or_ge i l.length with h1 | h1
  · exact h1
  · rw [List.getElem?_eq_none h1] at h; exact absurd h (by simp)

/-- One step of the tokenizer and the hyphens of the line: the step moves forward; a `-` at
the index where the next step starts is not between letters; a `-` the step passes is in
the Word of the step when it is between letters and is a Dash token of kind Hyphen when it
is not; and a `-` in a Word of the step is a `-` of the line between letters. -/
theorem nextToken_hyphen [Unicode]
    (hL : ∀ c, Unicode.IsLetter c = true →
      isIgnorableInlineRune c = false ∧ Unicode.IsSpace c = false ∧ c ∉ otherTokenRunes)
    (hD : Unicode.IsDigit '-' = false) (hI : isIgnorableInlineRune '-' = false)
    (hS : Unicode.IsSpace '-' = false)
    (runes : List Char) (line i col : Nat) (r : Char) (hr : runes[i]? = some r)
    (hinv : r = '-' → betweenLetters runes i = false) :
    i < (nextToken runes line i col i r).1
      ∧ (runes[(nextToken runes line i col i r).1]? = some '-' →
          betweenLetters runes (nextToken runes line i col i r).1 = false)
      ∧ (∀ k, i ≤ k → k < (nextToken runes line i col i r).1 → runes[k]? = some '-' →
          (betweenLetters runes k = true →
              ∃ tk ∈ (nextToken runes line i col i r).2, hyphenInWord tk k)
            ∧ (betweenLetters runes k = false →
              ∃ tk ∈ (nextToken runes line i col i r).2, hyphenDashAt tk k))
      ∧ (∀ tk ∈ (nextToken runes line i col i r).2, tk.kind = .tokenWord →
          ∀ m, tk.text.data[m]? = some '-' →
            runes[tk.pos.Off + m]? = some '-' ∧ betweenLetters runes (tk.pos.Off + m) = true) := by
  have hLh : Unicode.IsLetter '-' = false := by
    cases h : Unicode.IsLetter '-' with
    | false => rfl
    | true => exact absurd (by decide) (hL _ h).2.2
  have hilen := getElem?_lt_length runes i r hr
  have notLetter : ∀ c, (isIgnorableInlineRune c = true ∨ Unicode.IsSpace c = true
      ∨ c ∈ otherTokenRunes) → Unicode.IsLetter c = false := by
    intro c hc
    cases h : Unicode.IsLetter c with
    | false => rfl
    | true =>
      obtain ⟨a, b, d⟩ := hL c h
      rcases hc with hc | hc | hc
      · rw [a] at hc; exact absurd hc (by simp)
      · rw [b] at hc; exact absurd hc (by simp)
      · exact absurd hc d
  rcases nextToken_cases runes line i col i r with
    ⟨h1, hk, hw⟩ | ⟨hsp, h1, hw⟩ | ⟨hdot, hd1, hd2, h1, hw⟩ | ⟨hi, hs, hno, hj, he⟩
      | ⟨hi, hs, hno, hj, he⟩
  · -- one rune that is skipped or gives a token that is not a Word
    rw [h1]
    have hprev : Unicode.IsLetter r = false :=
      notLetter r (hk.elim Or.inl (fun h => Or.inr (Or.inr h)))
    refine ⟨by omega, ?_, ?_, ?_⟩
    · intro _
      exact betweenLetters_false runes (i + 1) r (by simpa using hr) hprev
    · intro k hk1 hk2 hkd
      have hki : k = i := by omega
      subst hki
      have hrd : r = '-' := by rw [hr] at hkd; simpa using hkd
      subst hrd
      refine ⟨fun hb => ?_, fun _ => ?_⟩
      · rw [hinv rfl] at hb; exact absurd hb (by simp)
      · rw [nextToken_dash hI hS]
        exact ⟨_, List.mem_singleton.mpr rfl, rfl, rfl, rfl, rfl⟩
    · intro tk htk hkind
      exact absurd hkind (hw tk htk)
  · -- a run of whitespace
    rw [h1]
    obtain ⟨a, b, c, d⟩ := scanWhile_spec (fun k => (runes[k]?.any Unicode.IsSpace))
      (runes.length - i) i
    have hgt : i < scanWhile (fun k => (runes[k]?.any Unicode.IsSpace)) (runes.length - i) i := by
      rcases Nat.lt_or_ge i (scanWhile (fun k => (runes[k]?.any Unicode.IsSpace))
        (runes.length - i) i) with h | h
      · exact h
      · have hd := d (by omega)
        have e : scanWhile (fun k => (runes[k]?.any Unicode.IsSpace)) (runes.length - i) i = i := by
          omega
        rw [e] at hd
        simp only [hr, Option.any_some] at hd
        rw [hsp] at hd
        exact absurd hd (by simp)
    refine ⟨hgt, ?_, ?_, ?_⟩
    · intro _
      have hp := c (scanWhile (fun k => (runes[k]?.any Unicode.IsSpace)) (runes.length - i) i - 1)
        (by omega) (by omega)
      cases hb : runes[scanWhile (fun k => (runes[k]?.any Unicode.IsSpace))
          (runes.length - i) i - 1]? with
      | none => simp [hb] at hp
      | some b =>
        simp only [hb, Option.any_some] at hp
        exact betweenLetters_false runes _ b hb (notLetter b (Or.inr (Or.inl hp)))
    · intro k hk1 hk2 hkd
      have hp := c k hk1 hk2
      simp only [hkd, Option.any_some] at hp
      rw [hS] at hp
      exact absurd hp (by simp)
    · intro tk htk hkind
      exact absurd hkind (hw tk htk)
  · -- three full stops
    rw [h1]
    refine ⟨by omega, ?_, ?_, ?_⟩
    · intro _
      exact betweenLetters_false runes (i + 3) '.' (by simpa using hd2)
        (notLetter '.' (Or.inr (Or.inr (by decide))))
    · intro k hk1 hk2 hkd
      have hk3 : k = i ∨ k = i + 1 ∨ k = i + 2 := by omega
      rcases hk3 with e | e | e <;> subst e
      · rw [hr, hdot] at hkd; exact absurd hkd (by decide)
      · rw [hd1] at hkd; exact absurd hkd (by decide)
      · rw [hd2] at hkd; exact absurd hkd (by decide)
    · intro tk htk hkind
      exact absurd hkind (hw tk htk)
  · -- a run of word runes
    rw [he]
    obtain ⟨a, b, c, d⟩ := scanWhile_spec
      (fun k => decide (k < runes.length) && isWordRune runes k) (runes.length - i) i
    generalize scanWhile (fun k => decide (k < runes.length) && isWordRune runes k)
      (runes.length - i) i = j at a b c d hj
    have hword : ∀ k, i ≤ k → k < j → isWordRune runes k = true := by
      intro k hk1 hk2
      have := c k hk1 hk2
      simp only [Bool.and_eq_true, decide_eq_true_eq] at this
      exact this.2
    have hget : ∀ m, m < j - i →
        ((runes.drop i).take (j - i))[m]? = runes[i + m]? := by
      intro m hm
      rw [List.getElem?_take_of_lt hm, List.getElem?_drop]
    refine ⟨hj, ?_, ?_, ?_⟩
    · intro hjd
      have hjlen := getElem?_lt_length runes j _ hjd
      have := d (by omega)
      simp only [Bool.and_eq_false_iff, decide_eq_false_iff_not] at this
      rcases this with h | h
      · exact absurd hjlen h
      · rw [← isWordRune_hyphen hLh hD runes j hjd]; exact h
    · intro k hk1 hk2 hkd
      have hb : betweenLetters runes k = true := by
        rw [← isWordRune_hyphen hLh hD runes k hkd]; exact hword k hk1 hk2
      refine ⟨fun _ => ?_, fun hf => ?_⟩
      · refine ⟨_, List.mem_singleton.mpr rfl, rfl, hk1, ?_⟩
        dsimp only
        rw [hget (k - i) (by omega)]
        have e : i + (k - i) = k := by omega
        rw [e]; exact hkd
      · rw [hb] at hf; exact absurd hf (by simp)
    · intro tk htk _ m hm
      rw [List.mem_singleton.mp htk] at hm ⊢
      dsimp only at hm ⊢
      have hmlt : m < j - i := by
        have := getElem?_lt_length _ m _ hm
        simp only [List.length_take, List.length_drop] at this
        omega
      rw [hget m hmlt] at hm
      exact ⟨hm, by rw [← isWordRune_hyphen hLh hD runes (i + m) hm]; exact hword _ (by omega) (by omega)⟩
  · -- one rune that becomes a Word by itself
    rw [he]
    obtain ⟨a, b, c, d⟩ := scanWhile_spec
      (fun k => decide (k < runes.length) && isWordRune runes k) (runes.length - i) i
    have hrd : r ≠ '-' := by
      intro e
      apply hno
      rw [e]; decide
    have hnw : isWordRune runes i = false := by
      have e : scanWhile (fun k => decide (k < runes.length) && isWordRune runes k)
          (runes.length - i) i = i := by omega
      have := d (by omega)
      rw [e] at this
      simp only [Bool.and_eq_false_iff, decide_eq_false_iff_not] at this
      rcases this with h | h
      · exact absurd hilen h
      · exact h
    have hprev : Unicode.IsLetter r = false := by
      cases h : Unicode.IsLetter r with
      | false => rfl
      | true => rw [isWordRune_letter runes i r hr h] at hnw; exact absurd hnw (by simp)
    refine ⟨by simp, ?_, ?_, ?_⟩
    · intro _
      exact betweenLetters_false runes (i + 1) r (by simpa using hr) hprev
    · intro k hk1 hk2 hkd
      have hki : k = i := by simp only at hk2; omega
      subst hki
      rw [hr] at hkd
      exact absurd (by simpa using hkd) hrd
    · intro tk htk _ m hm
      rw [List.mem_singleton.mp htk] at hm
      simp only [String.singleton, String.push, String.data_append, List.nil_append] at hm
      exfalso
      cases m with
      | zero => simp at hm; exact hrd (by simpa using hm)
      | succ m => simp at hm

theorem tokenizeLoop_append [Unicode] (runes : List Char) (line : Nat) :
    ∀ (fuel i col off : Nat) (out : List token),
      ∃ extra, tokenizeLoop runes line fuel i col off out = out ++ extra
  | 0, i, col, off, out => ⟨[], by simp [tokenizeLoop]⟩
  | fuel + 1, i, col, off, out => by
    cases hr : runes[i]? with
    | none => exact ⟨[], by rw [tokenizeLoop, hr]; simp⟩
    | some r =>
      rw [tokenizeLoop_succ runes line fuel i col off out r hr]
      obtain ⟨extra, he⟩ := tokenizeLoop_append runes line fuel
        (nextToken runes line i col off r).1
        (col + ((nextToken runes line i col off r).1 - i))
        (off + ((nextToken runes line i col off r).1 - i))
        (out ++ (nextToken runes line i col off r).2)
      exact ⟨(nextToken runes line i col off r).2 ++ extra, by rw [he, List.append_assoc]⟩

theorem mem_collapseSpacesLoop_keep (tokens : List token) : ∀ (out : List token) (t : token),
    (t ∈ out ∨ (t ∈ tokens ∧ t.kind ≠ .tokenSpace)) → t ∈ collapseSpacesLoop tokens out := by
  induction tokens with
  | nil =>
    intro out t h
    rcases h with h | h
    · simpa [collapseSpacesLoop] using h
    · exact absurd h.1 (by simp)
  | cons tok rest ih =>
    intro out t h
    rw [collapseSpacesLoop]
    split
    · rename_i hc
      apply ih
      rcases h with h | ⟨h, hk⟩
      · exact Or.inl h
      · rcases List.mem_cons.mp h with e | e
        · subst e
          simp only [Bool.and_eq_true, decide_eq_true_eq] at hc
          exact absurd hc.1 hk
        · exact Or.inr ⟨e, hk⟩
    · apply ih
      rcases h with h | ⟨h, hk⟩
      · exact Or.inl (List.mem_append_left _ h)
      · rcases List.mem_cons.mp h with e | e
        · exact Or.inl (by simp [e])
        · exact Or.inr ⟨e, hk⟩

theorem tokenizeLoop_hyphen [Unicode]
    (hL : ∀ c, Unicode.IsLetter c = true →
      isIgnorableInlineRune c = false ∧ Unicode.IsSpace c = false ∧ c ∉ otherTokenRunes)
    (hD : Unicode.IsDigit '-' = false) (hI : isIgnorableInlineRune '-' = false)
    (hS : Unicode.IsSpace '-' = false) (runes : List Char) (line : Nat) :
    ∀ (fuel i col : Nat) (out : List token), runes.length - i ≤ fuel →
      (runes[i]? = some '-' → betweenLetters runes i = false) →
      (∀ k, i ≤ k → runes[k]? = some '-' →
          (betweenLetters runes k = true →
              ∃ tk ∈ tokenizeLoop runes line fuel i col i out, hyphenInWord tk k)
            ∧ (betweenLetters runes k = false →
              ∃ tk ∈ tokenizeLoop runes line fuel i col i out, hyphenDashAt tk k))
        ∧ (∀ tk ∈ tokenizeLoop runes line fuel i col i out, tk ∈ out ∨ (tk.kind = .tokenWord →
            ∀ m, tk.text.data[m]? = some '-' →
              runes[tk.pos.Off + m]? = some '-'
                ∧ betweenLetters runes (tk.pos.Off + m) = true))
  | 0, i, col, out, hf, _ => by
    refine ⟨?_, ?_⟩
    · intro k hk hkd
      have := getElem?_lt_length runes k _ hkd
      omega
    · intro tk htk
      rw [tokenizeLoop] at htk
      exact Or.inl htk
  | fuel + 1, i, col, out, hf, hinv => by
    cases hr : runes[i]? with
    | none =>
      refine ⟨?_, ?_⟩
      · intro k hk hkd
        have := getElem?_lt_length runes k _ hkd
        have hi : runes.length ≤ i := by
          rcases Nat.lt_or_ge i runes.length with h | h
          · rw [List.getElem?_eq_getElem h] at hr; exact absurd hr (by simp)
          · exact h
        omega
      · intro tk htk
        rw [tokenizeLoop, hr] at htk
        exact Or.inl htk
    | some r =>
      have hilen := getElem?_lt_length runes i r hr
      obtain ⟨s0, sb, sa, sc⟩ := nextToken_hyphen hL hD hI hS runes line i col r hr
        (fun e => hinv (by rw [hr, e]))
      rw [tokenizeLoop_succ runes line fuel i col i out r hr]
      have eoff : i + ((nextToken runes line i col i r).1 - i)
          = (nextToken runes line i col i r).1 := by omega
      rw [eoff]
      obtain ⟨ih1, ih2⟩ := tokenizeLoop_hyphen hL hD hI hS runes line fuel
        (nextToken runes line i col i r).1
        (col + ((nextToken runes line i col i r).1 - i))
        (out ++ (nextToken runes line i col i r).2) (by omega) sb
      obtain ⟨extra, hex⟩ := tokenizeLoop_append runes line fuel
        (nextToken runes line i col i r).1
        (col + ((nextToken runes line i col i r).1 - i))
        (nextToken runes line i col i r).1
        (out ++ (nextToken runes line i col i r).2)
      refine ⟨?_, ?_⟩
      · intro k hk hkd
        by_cases hlt : k < (nextToken runes line i col i r).1
        · obtain ⟨p1, p2⟩ := sa k hk hlt hkd
          refine ⟨fun hb => ?_, fun hb => ?_⟩
          · obtain ⟨tk, htk, hp⟩ := p1 hb
            exact ⟨tk, by rw [hex]; simp [htk], hp⟩
          · obtain ⟨tk, htk, hp⟩ := p2 hb
            exact ⟨tk, by rw [hex]; simp [htk], hp⟩
        · exact ih1 k (by omega) hkd
      · intro tk htk
        rcases ih2 tk htk with h | h
        · rcases List.mem_append.mp h with h | h
          · exact Or.inl h
          · exact Or.inr (sc tk h)
        · exact Or.inr h

/-- Claim C25: for a `-` at the index `k` of a line, `tokenizeInline` gives a Word token that
holds this `-` when the runes before and after it are both letters, and a Dash token of kind
Hyphen at this index when they are not; and every `-` inside a Word token is a `-` of the
line whose neighbours are both letters. The hypotheses are facts of Go's tables: a letter is
not ignorable, not whitespace and none of the runes that start a token of their own, and `-`
is not a digit, not ignorable and not whitespace. -/
theorem tokenizeInline_hyphen [Unicode]
    (hL : ∀ c, Unicode.IsLetter c = true →
      isIgnorableInlineRune c = false ∧ Unicode.IsSpace c = false ∧ c ∉ otherTokenRunes)
    (hD : Unicode.IsDigit '-' = false) (hI : isIgnorableInlineRune '-' = false)
    (hS : Unicode.IsSpace '-' = false) (s : String) (line startCol : Nat) :
    (∀ k, s.data[k]? = some '-' →
        (betweenLetters s.data k = true →
            ∃ tk ∈ tokenizeInline s line startCol, hyphenInWord tk k)
          ∧ (betweenLetters s.data k = false →
            ∃ tk ∈ tokenizeInline s line startCol, hyphenDashAt tk k))
      ∧ (∀ tk ∈ tokenizeInline s line startCol, tk.kind = .tokenWord →
          ∀ m, tk.text.data[m]? = some '-' →
            s.data[tk.pos.Off + m]? = some '-'
              ∧ betweenLetters s.data (tk.pos.Off + m) = true) := by
  obtain ⟨h1, h2⟩ := tokenizeLoop_hyphen hL hD hI hS s.data line s.data.length 0 startCol []
    (by omega) (fun _ => by simp [betweenLetters])
  unfold tokenizeInline collapseSpaces
  refine ⟨?_, ?_⟩
  · intro k hk
    obtain ⟨p1, p2⟩ := h1 k (by omega) hk
    refine ⟨fun hb => ?_, fun hb => ?_⟩
    · obtain ⟨tk, htk, hp⟩ := p1 hb
      refine ⟨tk, mem_collapseSpacesLoop_keep _ _ tk (Or.inr ⟨htk, ?_⟩), hp⟩
      rw [hp.1]; decide
    · obtain ⟨tk, htk, hp⟩ := p2 hb
      refine ⟨tk, mem_collapseSpacesLoop_keep _ _ tk (Or.inr ⟨htk, ?_⟩), hp⟩
      rw [hp.1]; decide
  · intro tk htk hkind
    rcases mem_collapseSpacesLoop _ _ tk htk with h | h
    · simp at h
    · rcases h2 tk h with h3 | h3
      · simp at h3
      · exact h3 hkind

/-- In the concrete tables a letter is not ignorable, not whitespace and none of the runes
that start a token of their own. -/
theorem letters_basicTables : ∀ c, basicTables.IsLetter c = true →
    @isIgnorableInlineRune basicTables c = false ∧ basicTables.IsSpace c = false
      ∧ c ∉ otherTokenRunes := by
  intro c hc
  have hr : (0x41 ≤ c.toNat ∧ c.toNat ≤ 0x5A) ∨ (0x61 ≤ c.toNat ∧ c.toNat ≤ 0x7A)
      ∨ (0x400 ≤ c.toNat ∧ c.toNat ≤ 0x45F) := by
    have h : (runeIn c 0x41 0x5A || runeIn c 0x61 0x7A || runeIn c 0x400 0x45F) = true := hc
    simp only [runeIn, Bool.or_eq_true, Bool.and_eq_true, decide_eq_true_eq] at h
    omega
  have hsp : (runeIn c 0x09 0x0D || c.toNat = 0x20 || c.toNat = 0x85 || c.toNat = 0xA0
      || c.toNat = 0x1680 || runeIn c 0x2000 0x200A || c.toNat = 0x2028 || c.toNat = 0x2029
      || c.toNat = 0x202F || c.toNat = 0x205F || c.toNat = 0x3000) = false := by
    simp only [runeIn, Bool.or_eq_false_iff, Bool.and_eq_false_iff, decide_eq_false_iff_not]
    omega
  have hct : (runeIn c 0x00 0x1F || runeIn c 0x7F 0x9F) = false := by
    simp only [runeIn, Bool.or_eq_false_iff, Bool.and_eq_false_iff, decide_eq_false_iff_not]
    omega
  have hfm : (decide (c.toNat = 0xAD) || runeIn c 0x200B 0x200F || runeIn c 0x202A 0x202E
      || runeIn c 0x2060 0x2064 || runeIn c 0x2066 0x206F || decide (c.toNat = 0xFEFF))
      = false := by
    simp only [runeIn, Bool.or_eq_false_iff, Bool.and_eq_false_iff, decide_eq_false_iff_not]
    omega
  have h1 : basicTables.IsSpace c = false := hsp
  have h2 : basicTables.IsControl c = false := hct
  have h3 : basicTables.IsFormat c = false := hfm
  refine ⟨?_, h1, ?_⟩
  · unfold isIgnorableInlineRune
    rw [h2, h3]
    rfl
  · intro hm
    have hn : ∀ d ∈ otherTokenRunes, basicTables.IsLetter d = false := by decide
    rw [hn c hm] at hc
    exact absurd hc (by simp)

/-- Claim C25 on the examples of the claim: `из-за` is one Word, `1990-2000` is a Word, a
Dash of kind Hyphen and a Word, and a `-` at the start or at the end of a line is a Dash;
the `-` of `из-за` is inside a Word token and the one of `1990-2000` is a Dash token. -/
theorem tokenizeInline_hyphen_witness :
    (∀ c, basicTables.IsLetter c = true →
        @isIgnorableInlineRune basicTables c = false ∧ basicTables.IsSpace c = false
          ∧ c ∉ otherTokenRunes)
      ∧ basicTables.IsDigit '-' = false ∧ @isIgnorableInlineRune basicTables '-' = false
      ∧ basicTables.IsSpace '-' = false
      ∧ (@tokenizeInline basicTables "из-за" 1 1).map (fun tk => (tk.kind, tk.text))
          = [(.tokenWord, "из-за")]
      ∧ (@tokenizeInline basicTables "1990-2000" 1 1).map
            (fun tk => (tk.kind, tk.text, tk.dashKind))
          = [(.tokenWord, "1990", .DashHyphen), (.tokenDash, "-", .DashHyphen),
              (.tokenWord, "2000", .DashHyphen)]
      ∧ (@tokenizeInline basicTables "-а" 1 1).map (fun tk => (tk.kind, tk.text))
          = [(.tokenDash, "-"), (.tokenWord, "а")]
      ∧ (@tokenizeInline basicTables "а-" 1 1).map (fun tk => (tk.kind, tk.text))
          = [(.tokenWord, "а"), (.tokenDash, "-")]
      ∧ (∃ tk ∈ @tokenizeInline basicTables "из-за" 1 1, hyphenInWord tk 2)
      ∧ (∃ tk ∈ @tokenizeInline basicTables "1990-2000" 1 1, hyphenDashAt tk 4) :=
  ⟨letters_basicTables, by decide, by decide, by decide, by decide, by decide, by decide,
    by decide,
    ((@tokenizeInline_hyphen basicTables letters_basicTables (by decide) (by decide)
      (by decide) "из-за" 1 1).1 2 (by decide)).1 (by decide),
    ((@tokenizeInline_hyphen basicTables letters_basicTables (by decide) (by decide)
      (by decide) "1990-2000" 1 1).1 4 (by decide)).2 (by decide)⟩

/-! ## Paragraph candidates: the long-indented mode -/

theorem hasLeadingIndent_eq (s : String) : hasLeadingIndent s = startsWithSpaceOrTab s := by
  obtain ⟨d⟩ := s
  cases d <;> simp [hasLeadingIndent, startsWithSpaceOrTab]

theorem foldl_add_eq_sum (l : List Nat) : ∀ (a : Nat),
    l.foldl (fun a b => a + b) a = a + l.sum := by
  induction l with
  | nil => intro a; simp
  | cons x xs ih => intro a; simp [ih, Nat.add_assoc]

theorem filter_length_eq_iff {α : Type} (p : α → Bool) (l : List α) :
    (l.filter p).length = l.length ↔ ∀ x ∈ l, p x = true := by
  induction l with
  | nil => simp
  | cons x xs ih =>
    by_cases hx : p x = true
    · simp [List.filter, hx, ih]
    · have hle := List.length_filter_le p xs
      simp only [Bool.not_eq_true] at hx
      simp only [List.filter, hx, List.length_cons, List.mem_cons, forall_eq_or_imp]
      constructor
      · intro h; omega
      · intro h; exact absurd h.1 (by simp)

/-- Claim C31: `shouldSplitLongIndentedLines` holds exactly when the candidate has at least
two lines, every line starts with a space or a tab, and the exact rational average of the
trimmed rune lengths is at least 140 or at least 60% of the lines have a trimmed rune length
of at least 120; the truncating divisions of the code decide the same. -/
theorem shouldSplitLongIndentedLines_iff [Unicode] (lines : List String) :
    shouldSplitLongIndentedLines lines = true ↔ longIndentedClaim lines := by
  unfold shouldSplitLongIndentedLines longIndentedClaim exactAverage longShare trimmedLengths
  by_cases hlen : lines.length < 2
  · simp only [hlen, if_true]
    constructor
    · intro h; exact absurd h (by simp)
    · rintro ⟨h, -⟩; omega
  · simp only [hlen, if_false, lineRuneLen, foldl_add_eq_sum, Nat.zero_add, Bool.and_eq_true,
      Bool.or_eq_true, decide_eq_true_eq, List.length_map]
    have hpos : 0 < lines.length := by omega
    have hposq : (0 : ℚ) < (lines.length : ℚ) := by exact_mod_cast hpos
    have h1 : (List.filter hasLeadingIndent lines).length = lines.length
        ↔ ∀ l ∈ lines, startsWithSpaceOrTab l = true := by
      rw [filter_length_eq_iff]
      simp only [hasLeadingIndent_eq]
    have h2 : ∀ (total : Nat), total / lines.length ≥ 140
        ↔ (140 : ℚ) ≤ (total : ℚ) / (lines.length : ℚ) := by
      intro total
      rw [ge_iff_le, Nat.le_div_iff_mul_le hpos, le_div_iff₀ hposq]
      exact_mod_cast Iff.rfl
    have h3 : ∀ (long : Nat), long * 100 / lines.length ≥ 60
        ↔ (60 : ℚ) / 100 ≤ (long : ℚ) / (lines.length : ℚ) := by
      intro long
      rw [ge_iff_le, Nat.le_div_iff_mul_le hpos, le_div_iff₀ hposq]
      constructor
      · intro h
        have : ((60 * lines.length : ℕ) : ℚ) ≤ ((long * 100 : ℕ) : ℚ) := by exact_mod_cast h
        push_cast at this
        linarith
      · intro h
        have : ((60 * lines.length : ℕ) : ℚ) ≤ ((long * 100 : ℕ) : ℚ) := by
          push_cast; linarith
        exact_mod_cast this
    rw [h1, h2, h3]
    constructor
    · rintro ⟨ha, hb⟩
      refine ⟨by omega, ha, ?_⟩
      rcases hb with hb | hb
      · exact Or.inl hb
      · right
        convert hb using 3
    · rintro ⟨-, ha, hb⟩
      refine ⟨ha, ?_⟩
      rcases hb with hb | hb
      · exact Or.inl hb
      · right
        convert hb using 3

/-! ## `Apply` and the TitleBlock -/

/-- Claim C32 fails on the code: `Apply` turns the Paragraph of the list `unfoldedInlines`
into a Paragraph with the Spaces rebuilt, the full stops folded into an Ellipsis and the
Dash classified, and leaves the TitleBlock of the same list as it was; of all the passes
only the one for quote levels reaches a TitleBlock. -/
theorem Apply_titleBlock_untouched :
    (@Apply basicTables (oneBlockDocument (.Paragraph unfoldedInlines)) DefaultConfig).Blocks
        = [.Paragraph [.Word "а", .Space .SpaceNormal, .Word "б", .Ellipsis,
            .Space .SpaceNormal, .Dash .DashEmDash, .Space .SpaceNormal, .Word "в"]]
      ∧ (@Apply basicTables (oneBlockDocument (.TitleBlock unfoldedInlines))
            DefaultConfig).Blocks
          = [.TitleBlock unfoldedInlines]
      ∧ (@Apply basicTables (oneBlockDocument (.TitleBlock [.QuoteSpan 2 [.Word "а"]]))
            DefaultConfig).Blocks
          = [.TitleBlock [.QuoteSpan 1 [.Word "а"]]] := by
  decide

/-! ## Paren pass: the enumerator `)` -/

theorem isEnumerationWord_eq [Unicode] (s : String) :
    isEnumerationWord s = isEnumerationPayload s := by
  unfold isEnumerationWord isEnumerationPayload
  by_cases h : s = ""
  · simp [h]
  · simp only [h, if_false, ne_eq, not_false_eq_true, decide_True, Bool.true_and]
    congr 2
    funext r
    simp [isRomanRune, Bool.or_assoc]

/-- Claim C33, amended: `isEnumeratorClose` holds exactly when the token at `idx` is `)`,
the nearest non-space token before it is a non-empty Word made of digits only or of
Roman-numeral letters only, and the nearest non-space token after it, when there is one and
it is a Word, a quote mark or an opening bracket, is separated from the `)` by a Space. -/
theorem isEnumeratorClose_spec [Unicode] (tokens : List token) (idx : Nat) :
    isEnumeratorClose tokens idx = enumeratorCloseSpec tokens idx := by
  unfold isEnumeratorClose enumeratorCloseSpec isCloseParenAt enumerationWordBefore
    spaceRightAfter startsNewItem
  cases ht : tokens[idx]? with
  | none => simp
  | some tok =>
    by_cases h1 : tok.kind = .tokenParenClose
    · by_cases h2 : tok.ch = ')'
      · cases hp : prevNonSpaceToken tokens idx with
        | none => simp [h1, h2]
        | some prev =>
          by_cases h3 : prev.kind = .tokenWord
          · cases h4 : isEnumerationPayload prev.text
            · simp [h1, h2, h3, isEnumerationWord_eq, h4]
            · cases hn : nextNonSpaceToken tokens idx with
              | none => simp [h1, h2, h3, isEnumerationWord_eq, h4]
              | some next =>
                cases ha : tokens[idx + 1]? with
                | none =>
                  cases hk : next.kind <;> simp [h1, h2, h3, isEnumerationWord_eq, h4, hk]
                | some after =>
                  cases hk : next.kind <;> simp [h1, h2, h3, isEnumerationWord_eq, h4, hk]
          · simp [h1, h2, h3]
      · simp [h1, h2]
    · simp [h1]

/-- Claim C33 fails at the `)` of the line `1)`, which no token follows, and at the first
`)` of the line `1), 2)`, which a comma follows: the claim asks for a Word, a quote mark or
an opening bracket after the `)`, and `isEnumeratorClose` holds in both cases. -/
theorem isEnumeratorClose_not_claim :
    lineEndEnumerator.map (fun tk => (tk.kind, tk.text))
        = [(.tokenWord, "1"), (.tokenParenClose, ")")]
      ∧ @isEnumeratorClose basicTables lineEndEnumerator 1 = true
      ∧ @enumeratorCloseClaim basicTables lineEndEnumerator 1 = false
      ∧ commaEnumerator.map (fun tk => (tk.kind, tk.text))
          = [(.tokenWord, "1"), (.tokenParenClose, ")"), (.tokenPunct, ","),
              (.tokenSpace, " "), (.tokenWord, "2"), (.tokenParenClose, ")")]
      ∧ @isEnumeratorClose basicTables commaEnumerator 1 = true
      ∧ @enumeratorCloseClaim basicTables commaEnumerator 1 = false := by
  decide

/-! ## Quote pass: an explicit closing glyph -/

theorem isExplicitCloseQuote_iff (ch : Char) :
    isExplicitCloseQuote ch = true ↔ ch ∈ explicitCloseGlyphs := by
  simp [isExplicitCloseQuote, explicitCloseGlyphs, or_assoc]

theorem not_explicitOpen_of_close (ch : Char) (h : ch ∈ explicitCloseGlyphs) :
    isExplicitOpenQuote ch = false := by
  simp only [explicitCloseGlyphs, List.mem_cons, List.mem_singleton, List.not_mem_nil,
    or_false] at h
  rcases h with h | h | h <;> subst h <;> decide

/-- Claim C38: when the second loop of `buildQuoteNodes` meets a quote mark with an explicit
closing glyph while a frame is open, it pops the innermost frame `top` and appends its
QuoteSpan (level, position and nodes of the frame) to the frame below, or to the root when
none is left, and adds no diagnostic, whatever glyph opened the frame. -/
theorem quoteStep_explicitClose [Unicode] (prepared : List node) (st : quoteState) (i : Nat)
    (n : node) (top : quoteFrame) (below : List quoteFrame)
    (hk : n.kind = .nodeQuoteMark) (hc : n.ch ∈ explicitCloseGlyphs)
    (hs : st.stack = top :: below) :
    quoteStep prepared st i n
        = quoteAppendCurrent { st with stack := below } (quoteSpanNode top)
      ∧ (quoteStep prepared st i n).diags = st.diags
      ∧ (quoteStep prepared st i n).stack.length = below.length
      ∧ (quoteSpanNode top).kind = .nodeQuoteSpan
      ∧ (quoteSpanNode top).children = top.nodes
      ∧ (quoteSpanNode top).level = top.level := by
  have h1 : quoteStep prepared st i n
      = quoteAppendCurrent { st with stack := below } (quoteSpanNode top) := by
    unfold quoteStep
    rw [if_neg (by simp [hk]), if_neg (by simp [not_explicitOpen_of_close n.ch hc]),
      if_pos ((isExplicitCloseQuote_iff n.ch).mpr hc), if_neg (by simp [hs])]
    simp [quotePopSpan, hs]
  refine ⟨h1, ?_, ?_, rfl, rfl, rfl⟩
  · rw [h1]
    unfold quoteAppendCurrent
    cases below <;> rfl
  · rw [h1]
    unfold quoteAppendCurrent
    cases below <;> rfl

/-- Claim C38 at the line of the claim, a symmetric quote, `abc` and `»`: the tokens give
one QuoteSpan that holds the Word `abc` and no diagnostic; the step of the loop at the `»`
is the one the theorem states. -/
theorem quoteStep_explicitClose_witness :
    @parseInlineLines basicTables [String.mk [Char.ofNat 0x22, 'a', 'b', 'c', '»']] [1] true
        = ([.QuoteSpan QuotePrimary [.Word "abc"]], [])
      ∧ (@quoteStep basicTables []
            { root := [], diags := [],
              stack := [{ quote := Char.ofNat 0x22, pos := zeroPos, level := QuotePrimary,
                          nodes := [wordNode "abc" zeroPos] }] }
            2 (quoteMarkNode '»' zeroPos)).diags = []
      ∧ (@quoteStep basicTables []
            { root := [], diags := [],
              stack := [{ quote := Char.ofNat 0x22, pos := zeroPos, level := QuotePrimary,
                          nodes := [wordNode "abc" zeroPos] }] }
            2 (quoteMarkNode '»' zeroPos)).stack.length = 0 :=
  ⟨by decide,
    (@quoteStep_explicitClose basicTables [] _ 2 (quoteMarkNode '»' zeroPos)
      { quote := Char.ofNat 0x22, pos := zeroPos, level := QuotePrimary,
        nodes := [wordNode "abc" zeroPos] } [] rfl (by decide) rfl).2.1,
    (@quoteStep_explicitClose basicTables [] _ 2 (quoteMarkNode '»' zeroPos)
      { quote := Char.ofNat 0x22, pos := zeroPos, level := QuotePrimary,
        nodes := [wordNode "abc" zeroPos] } [] rfl (by decide) rfl).2.2.1⟩

/-! ## `Apply` and three full stops apart -/

/-- Claim C34 fails on the code at the line `а . . .`: the parser gives a Word and three
full stops with a Space before each; the pass for ellipses, which folds only three full
stops next to one another, leaves them, and the spacing pass then drops the Spaces, so that
after `Apply` the Paragraph holds three Punct inlines `.` in a row. Formatting the line
gives `а...` and formatting that again gives `а…`. -/
theorem Apply_spacedFullStops :
    (@Parse basicTables "а . . ." DefaultConfig).Blocks = [.Paragraph spacedFullStops]
      ∧ normalizeEllipsisList spacedFullStops = spacedFullStops
      ∧ (@Apply basicTables (@Parse basicTables "а . . ." DefaultConfig) DefaultConfig).Blocks
          = [.Paragraph [.Word "а", .Punct '.', .Punct '.', .Punct '.']]
      ∧ hasThreeFullStops [.Word "а", .Punct '.', .Punct '.', .Punct '.'] = true
      ∧ @formatText basicTables "а . . ." DefaultConfig = "а..."
      ∧ @formatText basicTables "а..." DefaultConfig = "а…" := by
  decide

/-! ## Paragraph candidates: the parts are a partition -/

theorem splitLongIndentedLoop_partition [Unicode] : ∀ (fuel : Nat) (l : List (String × Nat)),
    l.length ≤ fuel →
      (∀ p ∈ splitLongIndentedLoop fuel l, p.lines ≠ [])
        ∧ ((splitLongIndentedLoop fuel l).map fun p => p.lines).flatten = l.map Prod.fst
        ∧ ((splitLongIndentedLoop fuel l).map fun p => p.lineNums).flatten = l.map Prod.snd
  | 0, l, h => by
    have : l = [] := List.length_eq_zero.mp (by omega)
    subst this
    simp [splitLongIndentedLoop]
  | fuel + 1, [], _ => by simp [splitLongIndentedLoop]
  | fuel + 1, first :: rest, h => by
    have key : ∀ (p : String × Nat → Bool),
        (∀ q ∈ candidateOf (first :: rest.takeWhile p)
            :: splitLongIndentedLoop fuel (rest.dropWhile p), q.lines ≠ [])
          ∧ ((candidateOf (first :: rest.takeWhile p)
              :: splitLongIndentedLoop fuel (rest.dropWhile p)).map fun q => q.lines).flatten
            = (first :: rest).map Prod.fst
          ∧ ((candidateOf (first :: rest.takeWhile p)
              :: splitLongIndentedLoop fuel (rest.dropWhile p)).map fun q => q.lineNums).flatten
            = (first :: rest).map Prod.snd := by
      intro p
      have hl : (rest.dropWhile p).length ≤ fuel := by
        have := (List.dropWhile_sublist p (l := rest)).length_le
        simp only [List.length_cons] at h
        omega
      obtain ⟨a, b, c⟩ := splitLongIndentedLoop_partition fuel (rest.dropWhile p) hl
      have hsplit := List.takeWhile_append_dropWhile p rest
      refine ⟨?_, ?_, ?_⟩
      · intro q hq
        rcases List.mem_cons.mp hq with e | e
        · rw [e]; simp [candidateOf]
        · exact a q e
      · rw [List.map_cons, List.flatten_cons, b]
        simp only [candidateOf, List.map_cons, List.cons_append, ← List.map_append, hsplit]
      · rw [List.map_cons, List.flatten_cons, c]
        simp only [candidateOf, List.map_cons, List.cons_append, ← List.map_append, hsplit]
    rw [splitLongIndentedLoop]
    split
    · exact key _
    · exact key _

/-- Claim C37: for a candidate with as many line numbers as lines, the parts of
`splitParagraphByIndent` are a partition of it, in the default mode and in the long-indented
mode alike: no part is empty, and the parts put end to end give back exactly the lines and
the line numbers of the candidate. -/
theorem splitParagraphByIndent_partition [Unicode] (lines : List String) (lineNums : List Nat)
    (hlen : lineNums.length = lines.length) :
    isPartitionOf lines lineNums (splitParagraphByIndent lines lineNums) := by
  have hfst : (lines.zip lineNums).map Prod.fst = lines :=
    List.map_fst_zip _ _ (by omega)
  have hsnd : (lines.zip lineNums).map Prod.snd = lineNums :=
    List.map_snd_zip _ _ (by omega)
  unfold splitParagraphByIndent isPartitionOf
  by_cases h0 : lines.length = 0
  · have hl : lines = [] := List.length_eq_zero.mp h0
    have hn : lineNums = [] := List.length_eq_zero.mp (by omega)
    subst hl hn
    simp
  · rw [if_neg h0]
    by_cases hlong : shouldSplitLongIndentedLines lines = true
    · rw [if_pos hlong]
      unfold splitLongIndentedParagraphs
      have := splitLongIndentedLoop_partition lines.length (lines.zip lineNums)
        (by rw [List.length_zip]; omega)
      rw [hfst, hsnd] at this
      exact this
    · rw [if_neg hlong]
      cases hz : lines.zip lineNums with
      | nil =>
        rw [hz] at hfst
        simp only [List.map_nil] at hfst
        rw [← hfst] at h0
        exact absurd rfl h0
      | cons first rest =>
        rw [hz] at hfst hsnd
        obtain ⟨p, more, he, -, hl, hn, hp, -⟩ :=
          splitByIndentLoop_spec rest [] first.1 first.2 (by simp)
        simp only [List.nil_append] at he hl hn
        have hfirst : [first] = [(first.1, first.2)] := rfl
        have hcons : (first.1, first.2) :: rest = first :: rest := rfl
        rw [hcons, hfst] at hl
        rw [hcons, hsnd] at hn
        simp only [hfirst, he]
        exact ⟨fun q hq => (hp q hq).1, hl, hn⟩

set_option maxRecDepth 100000 in
/-- Claim C37 in both modes: five short lines in the default mode give four parts, two long
indented lines in the long-indented mode give two parts, and both results are partitions. -/
theorem splitParagraphByIndent_partition_witness :
    @shouldSplitLongIndentedLines basicTables
        ["Первая", " вторая", "— реплика", "— ответ", "конец"] = false
      ∧ @isPartitionOf ["Первая", " вторая", "— реплика", "— ответ", "конец"] [3, 4, 5, 6, 7]
          (@splitParagraphByIndent basicTables
            ["Первая", " вторая", "— реплика", "— ответ", "конец"] [3, 4, 5, 6, 7])
      ∧ @shouldSplitLongIndentedLines basicTables longIndentedLines = true
      ∧ (@splitParagraphByIndent basicTables longIndentedLines [1, 2]).map
            (fun p => p.lineNums) = [[1], [2]]
      ∧ @isPartitionOf longIndentedLines [1, 2]
          (@splitParagraphByIndent basicTables longIndentedLines [1, 2]) :=
  ⟨by decide,
    @splitParagraphByIndent_partition basicTables _ [3, 4, 5, 6, 7] rfl,
    by decide, by decide,
    @splitParagraphByIndent_partition basicTables longIndentedLines [1, 2] rfl⟩

theorem fieldsLoop_cover [Unicode] (rs : List Char) :
    ∀ (cur : List Char) (out : List String) (c : Char),
      ((c ∈ rs ∧ Unicode.IsSpace c = false) ∨ c ∈ cur ∨ ∃ w ∈ out, c ∈ w.data) →
        ∃ w ∈ fieldsLoop rs cur out, c ∈ w.data := by
  induction rs with
  | nil =>
    intro cur out c h
    simp only [fieldsLoop]
    rcases h with ⟨h, _⟩ | h | ⟨w, hw, hc⟩
    · simp at h
    · have : cur.length ≠ 0 := by
        cases cur with
        | nil => simp at h
        | cons a b => simp
      rw [if_neg this]
      exact ⟨String.mk cur, by simp, h⟩
    · split
      · exact ⟨w, hw, hc⟩
      · exact ⟨w, by simp [hw], hc⟩
  | cons r rest ih =>
    intro cur out c h
    simp only [fieldsLoop]
    by_cases hr : Unicode.IsSpace r = true
    · rw [if_pos hr]
      split
      · apply ih
        rcases h with ⟨h, hn⟩ | h | h
        · rcases List.mem_cons.mp h with e | e
          · subst e; rw [hr] at hn; exact absurd hn (by simp)
          · exact Or.inl ⟨e, hn⟩
        · rename_i h0
          cases cur with
          | nil => simp at h
          | cons a b => simp at h0
        · exact Or.inr (Or.inr h)
      · apply ih
        rcases h with ⟨h, hn⟩ | h | ⟨w, hw, hc⟩
        · rcases List.mem_cons.mp h with e | e
          · subst e; rw [hr] at hn; exact absurd hn (by simp)
          · exact Or.inl ⟨e, hn⟩
        · exact Or.inr (Or.inr ⟨String.mk cur, by simp, h⟩)
        · exact Or.inr (Or.inr ⟨w, by simp [hw], hc⟩)
    · rw [if_neg hr]
      apply ih
      rcases h with ⟨h, hn⟩ | h | h
      · rcases List.mem_cons.mp h with e | e
        · subst e; exact Or.inr (Or.inl (by simp))
        · exact Or.inl ⟨e, hn⟩
      · exact Or.inr (Or.inl (by simp [h]))
      · exact Or.inr (Or.inr h)

theorem Fields_cover [Unicode] (s : String) (c : Char) (hc : c ∈ s.data) :
    Unicode.IsSpace c = true ∨ ∃ w ∈ Fields s, c ∈ w.data := by
  cases h : Unicode.IsSpace c
  · exact Or.inr (fieldsLoop_cover s.data [] [] c (Or.inl ⟨hc, h⟩))
  · exact Or.inl rfl

theorem isSceneBreak_fields [Unicode] (hs : ∀ c, reSpace c = true → Unicode.IsSpace c = true)
    (line : String) (h : isSceneBreak line = true) :
    Fields line ≠ [] ∧ ∀ w ∈ Fields line, ∀ c ∈ w.data, c ∈ sceneBreakGlyphs := by
  rw [isSceneBreak_spec line hs] at h
  unfold sceneBreakSpec at h
  simp only [Bool.or_eq_true, Bool.and_eq_true, decide_eq_true_eq, List.all_eq_true] at h
  rcases h with ⟨h3, hall⟩ | ⟨⟨h3, hall⟩, _⟩
  · refine ⟨fun e => by rw [e] at h3; simp at h3, fun w hw c hc => ?_⟩
    have := hall w hw
    unfold isXLikeWord at this
    split at this
    · rename_i d hd
      rw [hd] at hc
      simp only [List.mem_singleton] at hc
      subst hc
      simp only [decide_eq_true_eq, xLikeGlyphs, List.mem_cons, List.mem_singleton] at this
      simp only [sceneBreakGlyphs, List.mem_cons, List.mem_singleton]
      tauto
    · exact absurd this (by simp)
  · refine ⟨fun e => by rw [e] at h3; simp at h3, fun w hw c hc => ?_⟩
    exact hall c (List.mem_flatten.mpr ⟨w.data, List.mem_map.mpr ⟨w, hw, rfl⟩, hc⟩)

theorem isSceneBreak_runes [Unicode] (hs : ∀ c, reSpace c = true → Unicode.IsSpace c = true)
    (line : String) (h : isSceneBreak line = true) :
    ∀ c ∈ line.data, Unicode.IsSpace c = true ∨ c ∈ sceneBreakGlyphs := by
  intro c hc
  rcases Fields_cover line c hc with h1 | ⟨w, hw, hcw⟩
  · exact Or.inl h1
  · exact Or.inr ((isSceneBreak_fields hs line h).2 w hw c hcw)

theorem replaceCRLF_noNewline : ∀ (l : List Char), '\n' ∉ l → replaceCRLF l = l
  | [], _ => rfl
  | r :: rest, h => by
    have h2 : '\n' ∉ rest := fun e => h (List.mem_cons_of_mem _ e)
    have ih := replaceCRLF_noNewline rest h2
    unfold replaceCRLF
    split
    · rename_i e; simp at e
    · rename_i rest2 e
      simp only [List.cons.injEq] at e
      exfalso
      apply h2
      rw [e.2]
      simp
    · rename_i r3 rest3 _ e
      simp only [List.cons.injEq] at e
      obtain ⟨e1, e2⟩ := e
      subst e1; subst e2
      rw [ih]

theorem splitLinesLoop_noNewline : ∀ (l cur : List Char), '\n' ∉ l →
    splitLinesLoop l cur = [String.mk (cur ++ l)]
  | [], cur, _ => by simp [splitLinesLoop]
  | r :: rest, cur, h => by
    have hr : r ≠ '\n' := fun e => h (by simp [e])
    have h2 : '\n' ∉ rest := fun e => h (List.mem_cons_of_mem _ e)
    rw [splitLinesLoop, if_neg hr, splitLinesLoop_noNewline rest _ h2]
    simp

theorem stripInvisibleRunes_sceneBreak [Unicode]
    (hs : ∀ c, reSpace c = true → Unicode.IsSpace c = true)
    (hvis : ∀ c ∈ sceneBreakGlyphs, Unicode.IsControl c = false ∧ Unicode.IsFormat c = false)
    (hfmt : ∀ c, Unicode.IsSpace c = true → Unicode.IsFormat c = false)
    (line : String) (h : isSceneBreak line = true) : stripInvisibleRunes line = line := by
  unfold stripInvisibleRunes
  have : line.data.filter (fun r =>
      !((Unicode.IsControl r && !Unicode.IsSpace r) || Unicode.IsFormat r)) = line.data := by
    rw [List.filter_eq_self]
    intro c hc
    rcases isSceneBreak_runes hs line h c hc with h1 | h1
    · simp [h1, hfmt c h1]
    · simp [(hvis c h1).1, (hvis c h1).2]
  rw [this]

theorem splitTrailingSceneBreak_sceneBreak [Unicode]
    (hs : ∀ c, reSpace c = true → Unicode.IsSpace c = true)
    (line : String) (h : isSceneBreak line = true) : splitTrailingSceneBreak line = none := by
  unfold splitTrailingSceneBreak
  have hall : ∀ c ∈ trimRightFunc Unicode.IsSpace line.data,
      (Unicode.IsSpace c || isSceneBreakRune c) = true := by
    intro c hc
    have hc2 : c ∈ line.data := by
      unfold trimRightFunc at hc
      exact List.mem_reverse.mp ((List.dropWhile_sublist _).subset (List.mem_reverse.mp hc))
    rcases isSceneBreak_runes hs line h c hc2 with h1 | h1
    · simp [h1]
    · simp [isSceneBreakRune_eq, h1]
  have hd : (trimRightFunc Unicode.IsSpace line.data).reverse.dropWhile
      (fun c => Unicode.IsSpace c || isSceneBreakRune c) = [] := by
    rw [List.dropWhile_eq_nil_iff]
    intro c hc
    exact hall c (List.mem_reverse.mp hc)
  simp only [hd, List.reverse_nil]
  split
  · rfl
  · have : TrimSpace (String.mk []) = "" := by
      simp [TrimSpace, trimLeftFunc, trimRightFunc]
    simp [this]

theorem TrimSpace_sceneBreak [Unicode]
    (hs : ∀ c, reSpace c = true → Unicode.IsSpace c = true)
    (line : String) (h : isSceneBreak line = true) : TrimSpace line ≠ "" := by
  intro e
  have h1 := (isSceneBreak_fields hs line h).1
  rw [← Fields_TrimSpace, e] at h1
  exact h1 (by simp [Fields, fieldsLoop])

theorem foldEqWord_head [Unicode] (w t : List Char) (p r : Char) (hp : w.head? = some p)
    (hr : t.head? = some r) (h : foldEq p r = false) : foldEqWord w t = false := by
  cases w with
  | nil => simp at hp
  | cons a as =>
    cases t with
    | nil => simp at hr
    | cons b bs =>
      simp only [List.head?_cons, Option.some.injEq] at hp hr
      subst hp; subst hr
      simp [foldEqWord, h]

theorem contentsHeadingRe_sceneBreak [Unicode]
    (hfold : ∀ w ∈ contentsHeadingWords, ∀ p, w.data.head? = some p →
      ∀ r ∈ sceneBreakOrBlank, foldEq p r = false)
    (t : String) (ht : ∀ c ∈ t.data, c ∈ sceneBreakOrBlank) : contentsHeadingRe t = false := by
  unfold contentsHeadingRe
  rw [List.any_eq_false]
  intro w hw
  cases hwd : w.data with
  | nil =>
    exfalso
    simp only [contentsHeadingWords, List.mem_cons, List.mem_singleton, List.not_mem_nil,
      or_false] at hw
    rcases hw with e | e | e | e <;> subst e <;> simp at hwd
  | cons p ps =>
    cases htd : t.data with
    | nil => simp [foldEqWord]
    | cons r rs =>
      have := hfold w hw p (by rw [hwd]; rfl) r (ht r (by rw [htd]; simp))
      simp [foldEqWord, this]

theorem parseContentsLine_sceneBreak [Unicode]
    (hs : ∀ c, reSpace c = true → Unicode.IsSpace c = true)
    (hfold : ∀ w ∈ contentsHeadingWords, ∀ p, w.data.head? = some p →
      ∀ r ∈ sceneBreakOrBlank, foldEq p r = false)
    (line : String) (h : isSceneBreak line = true) : parseContentsLine line = none := by
  have hf := isSceneBreak_fields hs line h
  have ht : ∀ c ∈ (normalizeStructureLine line).data, c ∈ sceneBreakOrBlank := by
    unfold normalizeStructureLine
    rw [Fields_TrimSpace]
    cases hw : Fields line with
    | nil => exact absurd hw hf.1
    | cons w ws =>
      rw [Join_data]
      intro c hc
      rw [hw] at hf
      rcases List.mem_append.mp hc with h1 | h1
      · exact List.mem_cons_of_mem _ (hf.2 w (by simp) c h1)
      · rcases mem_blankBefore ws c h1 with e | ⟨v, hv, hcv⟩
        · rw [e]; simp [sceneBreakOrBlank]
        · exact List.mem_cons_of_mem _ (hf.2 v (List.mem_cons_of_mem _ hv) c hcv)
  have ht2 : ∀ c ∈ (trimHeadingDecorations (normalizeStructureLine line)).data,
      c ∈ sceneBreakOrBlank := by
    obtain ⟨u, hu, hi⟩ := trimHeadingDecorationsLoop_isInfix
      (normalizeStructureLine line).data.length (normalizeStructureLine line)
    unfold trimHeadingDecorations
    rw [hu]
    intro c hc
    exact ht c (hi.subset (mem_TrimSpace u c hc))
  unfold parseContentsLine
  simp only [contentsHeadingRe_sceneBreak hfold _ ht, contentsHeadingRe_sceneBreak hfold _ ht2]
  simp

/-- Claim C39: a scene-break line wins over every other reading of it, that of a dialogue
line included. For an input of a single line (no newline in it) that `isSceneBreak` accepts,
`Parse` returns exactly one block, the scene break with the marker `***`, and no diagnostic,
whether or not `isDialogueLine` accepts the line too. The tables enter through four facts
that hold of Go's: the regexp class `\s` is whitespace, no scene-break glyph is a control or
format rune, no whitespace rune is a format rune, and no first letter of a contents keyword
matches a blank or a scene-break glyph up to case. -/
theorem Parse_sceneBreakLine [Unicode]
    (hs : ∀ c, reSpace c = true → Unicode.IsSpace c = true)
    (hvis : ∀ c ∈ sceneBreakGlyphs, Unicode.IsControl c = false ∧ Unicode.IsFormat c = false)
    (hfmt : ∀ c, Unicode.IsSpace c = true → Unicode.IsFormat c = false)
    (hfold : ∀ w ∈ contentsHeadingWords, ∀ p, w.data.head? = some p →
      ∀ r ∈ sceneBreakOrBlank, foldEq p r = false)
    (input : String) (cfg : Config) (hline : '\n' ∉ input.data)
    (hsb : isSceneBreak input = true) :
    (Parse input cfg).Blocks = [.SceneBreak "***"] ∧ (Parse input cfg).Diags = [] := by
  have hlines : SplitLines (String.mk (replaceCRLF input.data)) = [input] := by
    rw [replaceCRLF_noNewline _ hline]
    unfold SplitLines
    rw [splitLinesLoop_noNewline _ _ hline]
    rfl
  have hprep : prepareSourceLines [input] = [{ text := input, line := 1 }] := by
    simp only [prepareSourceLines, prepareSourceLinesFrom,
      stripInvisibleRunes_sceneBreak hs hvis hfmt input hsb,
      splitTrailingSceneBreak_sceneBreak hs input hsb]
  have hcand : splitCandidates [{ text := input, line := 1 }]
      = [{ lines := [input], lineNums := [1] }] := by
    simp only [splitCandidates, splitCandidatesLoop, if_neg (TrimSpace_sceneBreak hs input hsb),
      isStandaloneStructuralLine, hsb, if_true, flushCandidate]
    simp
  have hloop : parseLoop 1 [{ lines := [input], lineNums := [1] }] [] []
      = ([.SceneBreak "***"], []) := by
    simp only [parseLoop, parseContentsCandidate, parseContentsLine_sceneBreak hs hfold input hsb,
      parseCandidate, hsb, if_true]
    simp
  unfold Parse
  simp only [hlines, hprep, hcand, List.length_singleton, hloop]
  exact ⟨trivial, trivial⟩

theorem format_of_space_basicTables : ∀ c, basicTables.IsSpace c = true →
    basicTables.IsFormat c = false := by
  intro c h
  simp only [basicTables, runeIn, Bool.or_eq_true, Bool.and_eq_true, decide_eq_true_eq] at h
  simp only [basicTables, runeIn, Bool.or_eq_false_iff, Bool.and_eq_false_iff,
    decide_eq_false_iff_not]
  omega

/-- Claim C39 at the three lines the claim names, `- - -`, `— * —` and `- xx`: each is a
scene break and a dialogue line, and is parsed as the scene break alone. -/
theorem Parse_sceneBreakLine_witness :
    (∀ c, reSpace c = true → basicTables.IsSpace c = true)
      ∧ (∀ c ∈ sceneBreakGlyphs,
          basicTables.IsControl c = false ∧ basicTables.IsFormat c = false)
      ∧ (∀ c, basicTables.IsSpace c = true → basicTables.IsFormat c = false)
      ∧ (∀ w ∈ contentsHeadingWords, ∀ p, w.data.head? = some p →
          ∀ r ∈ sceneBreakOrBlank, @foldEq basicTables p r = false)
      ∧ ["- - -", "— * —", "- xx"].map (fun s => decide ((Char.ofNat 10) ∈ s.data))
          = [false, false, false]
      ∧ ["- - -", "— * —", "- xx"].map (@isSceneBreak basicTables) = [true, true, true]
      ∧ ["- - -", "— * —", "- xx"].map (@isDialogueLine basicTables) = [true, true, true]
      ∧ ["- - -", "— * —", "- xx"].map
            (fun s => ((@Parse basicTables s DefaultConfig).Blocks,
              (@Parse basicTables s DefaultConfig).Diags))
          = [([.SceneBreak "***"], []), ([.SceneBreak "***"], []), ([.SceneBreak "***"], [])] := by
  have hvis : ∀ c ∈ sceneBreakGlyphs,
      basicTables.IsControl c = false ∧ basicTables.IsFormat c = false := by decide
  have hfold : ∀ w ∈ contentsHeadingWords, ∀ p, w.data.head? = some p →
      ∀ r ∈ sceneBreakOrBlank, @foldEq basicTables p r = false := by
    intro w hw p hp
    simp only [contentsHeadingWords, List.mem_cons, List.mem_singleton, List.not_mem_nil,
      or_false] at hw
    rcases hw with e | e | e | e <;> subst e <;>
      simp only [List.head?_cons, Option.some.injEq] at hp <;> subst hp <;> decide
  have h1 := @Parse_sceneBreakLine basicTables reSpace_basicTables hvis
    format_of_space_basicTables hfold "- - -" DefaultConfig (by decide) (by decide)
  have h2 := @Parse_sceneBreakLine basicTables reSpace_basicTables hvis
    format_of_space_basicTables hfold "— * —" DefaultConfig (by decide) (by decide)
  have h3 := @Parse_sceneBreakLine basicTables reSpace_basicTables hvis
    format_of_space_basicTables hfold "- xx" DefaultConfig (by decide) (by decide)
  refine ⟨reSpace_basicTables, hvis, format_of_space_basicTables, hfold, by decide, by decide,
    by decide, ?_⟩
  simp only [List.map, h1.1, h1.2, h2.1, h2.2, h3.1, h3.2]

theorem tokenTexts_append (a b : List token) :
    tokenTexts (a ++ b) = tokenTexts a ++ tokenTexts b := by
  simp [tokenTexts]

theorem tokenTexts_collapseSpacesLoop (tokens : List token) : ∀ out : List token,
    tokenTexts (collapseSpacesLoop tokens out) = tokenTexts out ++ tokenTexts tokens := by
  induction tokens with
  | nil => intro out; simp [collapseSpacesLoop, tokenTexts]
  | cons tok rest ih =>
    intro out
    rw [collapseSpacesLoop]
    have hc : tokenTexts (tok :: rest) = tokenTexts [tok] ++ tokenTexts rest :=
      tokenTexts_append [tok] rest
    split
    · rename_i h
      simp only [Bool.and_eq_true, decide_eq_true_eq] at h
      rw [ih, hc]
      have : tokenTexts [tok] = [] := by simp [tokenTexts, h.1]
      rw [this, List.nil_append]
    · rw [ih, tokenTexts_append, hc, List.append_assoc]

theorem take_drop_one (runes : List Char) (i : Nat) (r : Char) (hr : runes[i]? = some r) :
    (runes.drop i).take 1 = [r] := by
  obtain ⟨hlt, he⟩ := List.getElem?_eq_some_iff.mp hr
  rw [List.drop_eq_getElem_cons hlt, he]
  simp

theorem mem_take_drop (runes : List Char) (i m : Nat) (c : Char)
    (hc : c ∈ (runes.drop i).take m) : ∃ k, i ≤ k ∧ k < i + m ∧ runes[k]? = some c := by
  obtain ⟨n, hn⟩ := List.mem_iff_getElem?.mp hc
  rw [List.getElem?_take] at hn
  split at hn
  · rw [List.getElem?_drop] at hn
    exact ⟨i + n, by omega, by omega, hn⟩
  · exact absurd hn (by simp)

theorem isWordRune_char [Unicode] (runes : List Char) (k : Nat) (c : Char)
    (hc : runes[k]? = some c) (h : isWordRune runes k = true) :
    (Unicode.IsLetter c || Unicode.IsDigit c) = true ∨ c ∈ wordGlyphs := by
  unfold isWordRune at h
  rw [hc] at h
  dsimp only at h
  by_cases h1 : (Unicode.IsLetter c || Unicode.IsDigit c) = true
  · exact Or.inl h1
  · rw [if_neg h1] at h
    right
    by_cases h2 : (c = Char.ofNat 0x27 || c = '’' || c = '№') = true
    · simp only [Bool.or_eq_true, decide_eq_true_eq] at h2
      simp only [wordGlyphs, List.mem_cons, List.mem_singleton, List.not_mem_nil, or_false]
      tauto
    · rw [if_neg h2] at h
      by_cases h3 : c = '-'
      · simp [wordGlyphs, h3]
      · rw [if_neg h3] at h
        exact absurd h (by simp)

theorem scanWhile_gt (p : Nat → Bool) (fuel i : Nat) (hp : p i = true) (hf : 0 < fuel) :
    i < scanWhile p fuel i := by
  cases fuel with
  | zero => omega
  | succ f =>
    rw [scanWhile, if_pos hp]
    have := (scanWhile_spec p f (i + 1)).1
    omega

theorem visibleOf_one [Unicode] (r : Char) (h1 : isIgnorableInlineRune r = false)
    (h2 : Unicode.IsSpace r = false) : visibleOf [r] = [r] := by
  simp [visibleOf, h1, h2]

theorem nextToken_texts [Unicode]
    (hL : ∀ c, (Unicode.IsLetter c || Unicode.IsDigit c) = true →
      Unicode.IsSpace c = false ∧ isIgnorableInlineRune c = false)
    (hG : ∀ c ∈ wordGlyphs, Unicode.IsSpace c = false ∧ isIgnorableInlineRune c = false)
    (runes : List Char) (line i col off : Nat) (r : Char) (hr : runes[i]? = some r) :
    i < (nextToken runes line i col off r).1
      ∧ (nextToken runes line i col off r).1 ≤ runes.length
      ∧ tokenTexts (nextToken runes line i col off r).2
          = visibleOf ((runes.drop i).take ((nextToken runes line i col off r).1 - i)) := by
  have hlt : i < runes.length := (List.getElem?_eq_some_iff.mp hr).1
  have e1 : i + 1 - i = 1 := by omega
  have h1r := take_drop_one runes i r hr
  unfold nextToken
  dsimp only
  by_cases h1 : isIgnorableInlineRune r = true
  · rw [if_pos h1]
    refine ⟨by simp, by simpa using hlt, ?_⟩
    simp only [e1, h1r]
    simp [tokenTexts, visibleOf, h1]
  rw [if_neg h1]
  have h1f : isIgnorableInlineRune r = false := by simpa using h1
  by_cases h2 : Unicode.IsSpace r = true
  · rw [if_pos h2]
    obtain ⟨a, b, c, _⟩ := scanWhile_spec (fun k => (runes[k]?.any Unicode.IsSpace))
      (runes.length - i) i
    have hpi : (fun k => (runes[k]?.any Unicode.IsSpace)) i = true := by simp [hr, h2]
    have hgt : i < scanWhile (fun k => (runes[k]?.any Unicode.IsSpace)) (runes.length - i) i :=
      scanWhile_gt _ _ _ hpi (by omega)
    refine ⟨hgt, by dsimp only; omega, ?_⟩
    dsimp only
    have : visibleOf ((runes.drop i).take
        (scanWhile (fun k => (runes[k]?.any Unicode.IsSpace)) (runes.length - i) i - i)) = [] := by
      unfold visibleOf
      rw [List.filter_eq_nil_iff]
      intro x hx
      obtain ⟨k, hk1, hk2, hk3⟩ := mem_take_drop _ _ _ _ hx
      have := c k hk1 (by omega)
      simp only [hk3, Option.any_some] at this
      simp [this]
    rw [this]
    simp [tokenTexts]
  rw [if_neg h2]
  have h2f : Unicode.IsSpace r = false := by simpa using h2
  have hone := visibleOf_one r h1f h2f
  by_cases h3 : (r = '.' && runes[i + 1]? = some '.' && runes[i + 2]? = some '.') = true
  · rw [if_pos h3]
    simp only [Bool.and_eq_true, decide_eq_true_eq] at h3
    obtain ⟨⟨ha, hb⟩, hc⟩ := h3
    have hlt2 : i + 2 < runes.length := (List.getElem?_eq_some_iff.mp hc).1
    refine ⟨by simp, by dsimp only; omega, ?_⟩
    dsimp only
    have e3 : i + 3 - i = 3 := by omega
    have htk : (runes.drop i).take 3 = ['.', '.', '.'] := by
      have q0 := (List.getElem?_eq_some_iff.mp hr).2
      have q1 := (List.getElem?_eq_some_iff.mp hb).2
      have q2 := (List.getElem?_eq_some_iff.mp hc).2
      rw [List.drop_eq_getElem_cons hlt, List.drop_eq_getElem_cons (by omega : i + 1 < runes.length),
        List.drop_eq_getElem_cons (by omega : i + 1 + 1 < runes.length)]
      simp only [List.take_succ_cons, List.take_zero]
      rw [q0, q1, q2, ha]
    rw [e3, htk]
    subst ha
    simp [tokenTexts, visibleOf, h1f, h2f]
  rw [if_neg h3]
  by_cases h4 : r = '…'
  · rw [if_pos h4]
    refine ⟨by simp, by simpa using hlt, ?_⟩
    simp only [e1, h1r, hone]
    subst h4
    simp [tokenTexts]
  rw [if_neg h4]
  by_cases h5 : (r = '-' || r = '–' || r = '—') = true
  · rw [if_pos h5]
    refine ⟨by simp, by simpa using hlt, ?_⟩
    simp only [e1, h1r, hone]
    simp [tokenTexts, String.singleton]
  rw [if_neg h5]
  by_cases h6 : (r = '(' || r = '[') = true
  · rw [if_pos h6]
    refine ⟨by simp, by simpa using hlt, ?_⟩
    simp only [e1, h1r, hone]
    simp [tokenTexts, runeToken, String.singleton]
  rw [if_neg h6]
  by_cases h7 : (r = ')' || r = ']') = true
  · rw [if_pos h7]
    refine ⟨by simp, by simpa using hlt, ?_⟩
    simp only [e1, h1r, hone]
    simp [tokenTexts, runeToken, String.singleton]
  rw [if_neg h7]
  by_cases h8 : r ∈ punctRunes
  · rw [if_pos h8]
    refine ⟨by simp, by simpa using hlt, ?_⟩
    simp only [e1, h1r, hone]
    simp [tokenTexts, runeToken, String.singleton]
  rw [if_neg h8]
  by_cases h9 : r ∈ quoteRunes
  · rw [if_pos h9]
    refine ⟨by simp, by simpa using hlt, ?_⟩
    simp only [e1, h1r, hone]
    simp [tokenTexts, runeToken, String.singleton]
  rw [if_neg h9]
  by_cases h10 : scanWhile (fun k => decide (k < runes.length) && isWordRune runes k)
      (runes.length - i) i > i
  · rw [if_pos h10]
    obtain ⟨a, b, c, _⟩ := scanWhile_spec
      (fun k => decide (k < runes.length) && isWordRune runes k) (runes.length - i) i
    refine ⟨h10, by dsimp only; omega, ?_⟩
    dsimp only
    have : visibleOf ((runes.drop i).take
        (scanWhile (fun k => decide (k < runes.length) && isWordRune runes k)
          (runes.length - i) i - i)) = (runes.drop i).take
        (scanWhile (fun k => decide (k < runes.length) && isWordRune runes k)
          (runes.length - i) i - i) := by
      unfold visibleOf
      rw [List.filter_eq_self]
      intro x hx
      obtain ⟨k, hk1, hk2, hk3⟩ := mem_take_drop _ _ _ _ hx
      have := c k hk1 (by omega)
      simp only [Bool.and_eq_true, decide_eq_true_eq] at this
      rcases isWordRune_char runes k x hk3 this.2 with hw | hw
      · simp [(hL x hw).1, (hL x hw).2]
      · simp [(hG x hw).1, (hG x hw).2]
    rw [this]
    simp [tokenTexts]
  · rw [if_neg h10]
    refine ⟨by simp, by simpa using hlt, ?_⟩
    simp only [e1, h1r, hone]
    simp [tokenTexts, String.singleton]

theorem tokenizeLoop_texts [Unicode]
    (hL : ∀ c, (Unicode.IsLetter c || Unicode.IsDigit c) = true →
      Unicode.IsSpace c = false ∧ isIgnorableInlineRune c = false)
    (hG : ∀ c ∈ wordGlyphs, Unicode.IsSpace c = false ∧ isIgnorableInlineRune c = false)
    (runes : List Char) (line : Nat) :
    ∀ (fuel i col off : Nat) (out : List token), runes.length - i ≤ fuel →
      tokenTexts (tokenizeLoop runes line fuel i col off out)
        = tokenTexts out ++ visibleOf (runes.drop i)
  | 0, i, col, off, out, hf => by
    rw [tokenizeLoop, List.drop_eq_nil_of_le (by omega)]
    simp [visibleOf]
  | fuel + 1, i, col, off, out, hf => by
    cases hr : runes[i]? with
    | none =>
      rw [tokenizeLoop, hr]
      have : runes.length ≤ i := by
        by_contra hc
        have := List.getElem?_eq_getElem (l := runes) (by omega : i < runes.length)
        rw [hr] at this
        exact absurd this (by simp)
      rw [List.drop_eq_nil_of_le this]
      simp [visibleOf]
    | some r =>
      rw [tokenizeLoop_succ runes line fuel i col off out r hr]
      obtain ⟨h1, h2, h3⟩ := nextToken_texts hL hG runes line i col off r hr
      rw [tokenizeLoop_texts hL hG runes line fuel _ _ _ _ (by omega), tokenTexts_append, h3,
        List.append_assoc]
      congr 1
      have hsplit : runes.drop i
          = (runes.drop i).take ((nextToken runes line i col off r).1 - i)
            ++ runes.drop (nextToken runes line i col off r).1 := by
        have := (List.take_append_drop ((nextToken runes line i col off r).1 - i)
          (runes.drop i)).symm
        rw [List.drop_drop] at this
        have e : i + ((nextToken runes line i col off r).1 - i)
            = (nextToken runes line i col off r).1 := by omega
        rw [e] at this
        exact this
      conv_rhs => rw [hsplit]
      simp [visibleOf]

/-- Claim C35: `tokenizeInline` loses no visible rune. The texts of the tokens other than
Space, put together in order, are the runes of the line without its whitespace runes and its
ignorable runes (control runes that are not whitespace, and format runes). The tables enter
through two facts that hold of Go's: no letter and no digit is whitespace or ignorable, and
neither is one of the apostrophes, the numero sign or the hyphen, the other runes of a
word. -/
theorem tokenizeInline_visible [Unicode]
    (hL : ∀ c, (Unicode.IsLetter c || Unicode.IsDigit c) = true →
      Unicode.IsSpace c = false ∧ isIgnorableInlineRune c = false)
    (hG : ∀ c ∈ wordGlyphs, Unicode.IsSpace c = false ∧ isIgnorableInlineRune c = false)
    (s : String) (line startCol : Nat) :
    tokenTexts (tokenizeInline s line startCol) = visibleOf s.data := by
  unfold tokenizeInline collapseSpaces
  rw [tokenTexts_collapseSpacesLoop, tokenizeLoop_texts hL hG s.data line _ _ _ _ _ (by omega)]
  simp [tokenTexts]

theorem wordRunes_basicTables : ∀ c, (basicTables.IsLetter c || basicTables.IsDigit c) = true →
    basicTables.IsSpace c = false ∧ @isIgnorableInlineRune basicTables c = false := by
  intro c hc
  have hr : (0x41 ≤ c.toNat ∧ c.toNat ≤ 0x5A) ∨ (0x61 ≤ c.toNat ∧ c.toNat ≤ 0x7A)
      ∨ (0x400 ≤ c.toNat ∧ c.toNat ≤ 0x45F) ∨ (0x30 ≤ c.toNat ∧ c.toNat ≤ 0x39) := by
    have h : ((runeIn c 0x41 0x5A || runeIn c 0x61 0x7A || runeIn c 0x400 0x45F)
        || runeIn c 0x30 0x39) = true := hc
    simp only [runeIn, Bool.or_eq_true, Bool.and_eq_true, decide_eq_true_eq] at h
    omega
  have hsp : (runeIn c 0x09 0x0D || c.toNat = 0x20 || c.toNat = 0x85 || c.toNat = 0xA0
      || c.toNat = 0x1680 || runeIn c 0x2000 0x200A || c.toNat = 0x2028 || c.toNat = 0x2029
      || c.toNat = 0x202F || c.toNat = 0x205F || c.toNat = 0x3000) = false := by
    simp only [runeIn, Bool.or_eq_false_iff, Bool.and_eq_false_iff, decide_eq_false_iff_not]
    omega
  have hct : (runeIn c 0x00 0x1F || runeIn c 0x7F 0x9F) = false := by
    simp only [runeIn, Bool.or_eq_false_iff, Bool.and_eq_false_iff, decide_eq_false_iff_not]
    omega
  have hfm : (decide (c.toNat = 0xAD) || runeIn c 0x200B 0x200F || runeIn c 0x202A 0x202E
      || runeIn c 0x2060 0x2064 || runeIn c 0x2066 0x206F || decide (c.toNat = 0xFEFF))
      = false := by
    simp only [runeIn, Bool.or_eq_false_iff, Bool.and_eq_false_iff, decide_eq_false_iff_not]
    omega
  have h1 : basicTables.IsSpace c = false := hsp
  have h2 : basicTables.IsControl c = false := hct
  have h3 : basicTables.IsFormat c = false := hfm
  refine ⟨h1, ?_⟩
  unfold isIgnorableInlineRune
  rw [h2, h3]
  rfl

/-- Claim C35 at a line with a tab, a zero-width space inside a word, an ellipsis of three
full stops and a hyphenated word: the texts of the tokens other than Space are the line
without the tab, the blanks and the zero-width space. -/
theorem tokenizeInline_visible_witness :
    (∀ c, (basicTables.IsLetter c || basicTables.IsDigit c) = true →
        basicTables.IsSpace c = false ∧ @isIgnorableInlineRune basicTables c = false)
      ∧ (∀ c ∈ wordGlyphs,
          basicTables.IsSpace c = false ∧ @isIgnorableInlineRune basicTables c = false)
      ∧ tokenTexts (@tokenizeInline basicTables
            (String.mk ['a', Char.ofNat 0x200B, 'b', '\t', ' ', '.', '.', '.', ' ', 'x', '-',
              'y', '!']) 1 1)
          = ['a', 'b', '.', '.', '.', 'x', '-', 'y', '!']
      ∧ @visibleOf basicTables ['a', Char.ofNat 0x200B, 'b', '\t', ' ', '.', '.', '.', ' ', 'x',
            '-', 'y', '!']
          = ['a', 'b', '.', '.', '.', 'x', '-', 'y', '!'] := by
  have hG : ∀ c ∈ wordGlyphs,
      basicTables.IsSpace c = false ∧ @isIgnorableInlineRune basicTables c = false := by decide
  have h := @tokenizeInline_visible basicTables wordRunes_basicTables hG
    (String.mk ['a', Char.ofNat 0x200B, 'b', '\t', ' ', '.', '.', '.', ' ', 'x', '-',
      'y', '!']) 1 1
  have hv : @visibleOf basicTables ['a', Char.ofNat 0x200B, 'b', '\t', ' ', '.', '.', '.', ' ',
      'x', '-', 'y', '!'] = ['a', 'b', '.', '.', '.', 'x', '-', 'y', '!'] := by decide
  exact ⟨wordRunes_basicTables, hG, h.trans hv, hv⟩

theorem nodesOK_iff [Unicode] (l : List node) : nodesOK l ↔ ∀ n ∈ l, nodeOK n := by
  induction l with
  | nil => simp [nodesOK]
  | cons a l ih => simp [nodesOK, ih]

theorem nodesOK_append [Unicode] (a b : List node) :
    nodesOK (a ++ b) ↔ nodesOK a ∧ nodesOK b := by
  simp only [nodesOK_iff, List.mem_append]
  constructor
  · intro h; exact ⟨fun n hn => h n (Or.inl hn), fun n hn => h n (Or.inr hn)⟩
  · rintro ⟨h1, h2⟩ n (hn | hn)
    · exact h1 n hn
    · exact h2 n hn

theorem wordNode_OK [Unicode] (t : String) (p : Pos) (h : wordPayloadOK t) :
    nodeOK (wordNode t p) := by
  simp [wordNode, nodeOK, nodesOK, h]

theorem singleton_OK [Unicode] (c : Char) (h1 : Unicode.IsSpace c = false) (h2 : c ≠ '…') :
    wordPayloadOK (String.singleton c) := by
  have hd : (String.singleton c).data = [c] := rfl
  refine ⟨?_, ?_, ?_, ?_⟩
  · intro e
    rw [e] at hd
    exact absurd hd (by simp)
  · intro x hx
    rw [hd, List.mem_singleton] at hx
    rw [hx]; exact h1
  · rw [hd, List.mem_singleton]
    exact fun e => h2 e.symm
  · intro h
    have := h.length_le
    rw [hd] at this
    simp at this

theorem glyph_OK [Unicode] (hG : ∀ c ∈ wordGlyphs ++ reifiedGlyphs, Unicode.IsSpace c = false)
    (c : Char) (h : c ∈ reifiedGlyphs) : wordPayloadOK (String.singleton c) := by
  apply singleton_OK c (hG c (List.mem_append_right _ h))
  intro e
  rw [e] at h
  revert h
  decide

theorem tokenToNode_OK [Unicode] (tok : token) (h : tokenOK tok)
    (h1 : tok.kind ≠ .tokenParenOpen) (h2 : tok.kind ≠ .tokenParenClose) :
    nodeOK (tokenToNode tok) := by
  unfold tokenOK at h
  unfold tokenToNode
  cases hk : tok.kind <;> rw [hk] at h <;> simp_all [nodeOK, nodesOK, wordNode]

theorem parenAppendCurrent_OK [Unicode] (st : parenState) (n : node) (h : parenStateOK st)
    (hn : nodeOK n) : parenStateOK (parenAppendCurrent st n) := by
  unfold parenAppendCurrent
  split
  · rename_i hs
    refine ⟨?_, ?_⟩
    · simp only [nodesOK_append]
      exact ⟨h.1, hn, trivial⟩
    · intro f hf
      exact h.2 f hf
  · rename_i top below hs
    refine ⟨h.1, ?_⟩
    intro f hf
    simp only [List.mem_cons] at hf
    rcases hf with e | e
    · have := h.2 top (by rw [hs]; simp)
      rw [e]
      exact ⟨this.1, (nodesOK_append _ _).mpr ⟨this.2, hn, trivial⟩⟩
    · exact h.2 f (by rw [hs]; exact List.mem_cons_of_mem _ e)

theorem parenStep_OK [Unicode]
    (hG : ∀ c ∈ wordGlyphs ++ reifiedGlyphs, Unicode.IsSpace c = false)
    (tokens : List token) (st : parenState) (idx : Nat) (tok : token)
    (h : parenStateOK st) (ht : tokenOK tok) : parenStateOK (parenStep tokens st idx tok) := by
  unfold parenStep
  have hdiag : ∀ (d : List Diag), parenStateOK { st with diags := d } := fun d => h
  cases hk : tok.kind with
  | tokenParenOpen =>
    simp only
    unfold tokenOK at ht
    rw [hk] at ht
    refine ⟨h.1, ?_⟩
    intro f hf
    simp only [List.mem_cons] at hf
    rcases hf with e | e
    · rw [e]; exact ⟨ht.2, trivial⟩
    · exact h.2 f e
  | tokenParenClose =>
    simp only
    unfold tokenOK at ht
    rw [hk] at ht
    have hw : nodeOK (wordNode tok.text tok.pos) := by
      apply wordNode_OK
      rw [ht.1]
      exact glyph_OK hG _ ht.2
    split
    · split
      · exact parenAppendCurrent_OK _ _ h hw
      · exact parenAppendCurrent_OK _ _ (hdiag _) hw
    · rename_i top below hs
      split
      · exact parenAppendCurrent_OK _ _ (hdiag _) hw
      · apply parenAppendCurrent_OK
        · refine ⟨h.1, ?_⟩
          intro f hf
          exact h.2 f (by rw [hs]; exact List.mem_cons_of_mem _ hf)
        · have := h.2 top (by rw [hs]; simp)
          simp only [nodeOK]
          exact ⟨by simp, by simp, this.2⟩
  | tokenWord => exact parenAppendCurrent_OK _ _ h (tokenToNode_OK tok ht (by simp [hk]) (by simp [hk]))
  | tokenSpace => exact parenAppendCurrent_OK _ _ h (tokenToNode_OK tok ht (by simp [hk]) (by simp [hk]))
  | tokenPunct => exact parenAppendCurrent_OK _ _ h (tokenToNode_OK tok ht (by simp [hk]) (by simp [hk]))
  | tokenDash => exact parenAppendCurrent_OK _ _ h (tokenToNode_OK tok ht (by simp [hk]) (by simp [hk]))
  | tokenEllipsis => exact parenAppendCurrent_OK _ _ h (tokenToNode_OK tok ht (by simp [hk]) (by simp [hk]))
  | tokenQuote => exact parenAppendCurrent_OK _ _ h (tokenToNode_OK tok ht (by simp [hk]) (by simp [hk]))

theorem parenLoop_OK [Unicode]
    (hG : ∀ c ∈ wordGlyphs ++ reifiedGlyphs, Unicode.IsSpace c = false)
    (tokens : List token) : ∀ (rest : List token) (idx : Nat) (st : parenState),
      parenStateOK st → (∀ t ∈ rest, tokenOK t) → parenStateOK (parenLoop tokens rest idx st)
  | [], _, st, h, _ => h
  | tok :: rest, idx, st, h, ht => by
    rw [parenLoop]
    exact parenLoop_OK hG tokens rest (idx + 1) _
      (parenStep_OK hG tokens st idx tok h (ht tok (by simp)))
      (fun t hm => ht t (List.mem_cons_of_mem _ hm))

theorem parenUnwind_OK [Unicode]
    (hG : ∀ c ∈ wordGlyphs ++ reifiedGlyphs, Unicode.IsSpace c = false) :
    ∀ (stack : List parenFrame) (carry root : List node) (diags : List Diag),
      (∀ f ∈ stack, f.openRune ∈ reifiedGlyphs ∧ nodesOK f.nodes) → nodesOK carry →
        nodesOK root → nodesOK (parenUnwind stack carry root diags).1
  | [], carry, root, diags, _, hc, hr => by
    rw [parenUnwind]
    exact (nodesOK_append _ _).mpr ⟨hr, hc⟩
  | top :: below, carry, root, diags, hs, hc, hr => by
    rw [parenUnwind]
    apply parenUnwind_OK hG below _ root _ (fun f hf => hs f (List.mem_cons_of_mem _ hf)) _ hr
    have := hs top (by simp)
    exact ⟨wordNode_OK _ _ (glyph_OK hG _ this.1), (nodesOK_append _ _).mpr ⟨this.2, hc⟩⟩

theorem buildParenNodes_OK [Unicode]
    (hG : ∀ c ∈ wordGlyphs ++ reifiedGlyphs, Unicode.IsSpace c = false)
    (tokens : List token) (h : ∀ t ∈ tokens, tokenOK t) :
    nodesOK (buildParenNodes tokens).1 := by
  unfold buildParenNodes
  have := parenLoop_OK hG tokens tokens 0 { root := [], stack := [], diags := [] }
    ⟨trivial, by simp⟩ h
  exact parenUnwind_OK hG _ _ _ _ this.2 trivial this.1

theorem quoteAppendCurrent_OK [Unicode] (st : quoteState) (n : node) (h : quoteStateOK st)
    (hn : nodeOK n) : quoteStateOK (quoteAppendCurrent st n) := by
  unfold quoteAppendCurrent
  split
  · rename_i hs
    refine ⟨?_, ?_⟩
    · simp only [nodesOK_append]
      exact ⟨h.1, hn, trivial⟩
    · intro f hf
      exact h.2 f hf
  · rename_i top below hs
    refine ⟨h.1, ?_⟩
    intro f hf
    simp only [List.mem_cons] at hf
    rcases hf with e | e
    · have := h.2 top (by rw [hs]; simp)
      rw [e]
      exact ⟨this.1, (nodesOK_append _ _).mpr ⟨this.2, hn, trivial⟩⟩
    · exact h.2 f (by rw [hs]; exact List.mem_cons_of_mem _ e)

theorem quotePopSpan_OK [Unicode] (st : quoteState) (h : quoteStateOK st) :
    quoteStateOK (quotePopSpan st) := by
  unfold quotePopSpan
  cases hs : st.stack with
  | nil => exact h
  | cons top below =>
    simp only
    apply quoteAppendCurrent_OK
    · refine ⟨h.1, ?_⟩
      intro f hf
      exact h.2 f (by rw [hs]; exact List.mem_cons_of_mem _ hf)
    · have := h.2 top (by rw [hs]; simp)
      simp only [quoteSpanNode, nodeOK]
      exact ⟨by simp, by simp, this.2⟩

theorem quotePush_OK [Unicode] (st : quoteState) (n : node) (h : quoteStateOK st)
    (hn : n.ch ∈ reifiedGlyphs) : quoteStateOK (quotePush st n) := by
  unfold quotePush
  refine ⟨h.1, ?_⟩
  intro f hf
  simp only [List.mem_cons] at hf
  rcases hf with e | e
  · rw [e]; exact ⟨hn, trivial⟩
  · exact h.2 f e

theorem nodeOK_mark [Unicode] (n : node) (h : nodeOK n) (hk : n.kind = .nodeQuoteMark) :
    n.ch ∈ reifiedGlyphs := by
  cases n with
  | mk kind text ch dk pos level o c children =>
    simp only [node.kind] at hk
    simp only [nodeOK] at h
    exact h.2.1 hk

theorem quoteStep_OK [Unicode]
    (hG : ∀ c ∈ wordGlyphs ++ reifiedGlyphs, Unicode.IsSpace c = false)
    (prepared : List node) (st : quoteState) (i : Nat) (n : node)
    (h : quoteStateOK st) (hn : nodeOK n) : quoteStateOK (quoteStep prepared st i n) := by
  unfold quoteStep
  have hdiag : ∀ (d : List Diag), quoteStateOK { st with diags := d } := fun d => h
  by_cases hk : n.kind = .nodeQuoteMark
  · have hch := nodeOK_mark n hn hk
    have hw : nodeOK (wordNode (String.singleton n.ch) n.pos) :=
      wordNode_OK _ _ (glyph_OK hG _ hch)
    rw [if_neg (by simp [hk])]
    split
    · exact quotePush_OK st n h hch
    · split
      · split
        · exact quoteAppendCurrent_OK _ _ (hdiag _) hw
        · exact quotePopSpan_OK st h
      · split
        · split
          · exact quotePopSpan_OK st h
          · split
            · exact quotePush_OK st n h hch
            · exact quoteAppendCurrent_OK _ _ h hw
        · exact quoteAppendCurrent_OK _ _ h hw
  · rw [if_pos (by simpa using hk)]
    exact quoteAppendCurrent_OK _ _ h hn

theorem quoteLoop_OK [Unicode]
    (hG : ∀ c ∈ wordGlyphs ++ reifiedGlyphs, Unicode.IsSpace c = false)
    (prepared : List node) : ∀ (rest : List node) (i : Nat) (st : quoteState),
      quoteStateOK st → nodesOK rest → quoteStateOK (quoteLoop prepared rest i st)
  | [], _, st, h, _ => h
  | n :: rest, i, st, h, hr => by
    rw [quoteLoop]
    exact quoteLoop_OK hG prepared rest (i + 1) _
      (quoteStep_OK hG prepared st i n h hr.1) hr.2

theorem quoteUnwind_OK [Unicode]
    (hG : ∀ c ∈ wordGlyphs ++ reifiedGlyphs, Unicode.IsSpace c = false) :
    ∀ (stack : List quoteFrame) (carry root : List node) (diags : List Diag),
      (∀ f ∈ stack, f.quote ∈ reifiedGlyphs ∧ nodesOK f.nodes) → nodesOK carry →
        nodesOK root → nodesOK (quoteUnwind stack carry root diags).1
  | [], carry, root, diags, _, hc, hr => by
    rw [quoteUnwind]
    exact (nodesOK_append _ _).mpr ⟨hr, hc⟩
  | top :: below, carry, root, diags, hs, hc, hr => by
    rw [quoteUnwind]
    apply quoteUnwind_OK hG below _ root _ (fun f hf => hs f (List.mem_cons_of_mem _ hf)) _ hr
    have := hs top (by simp)
    exact ⟨wordNode_OK _ _ (glyph_OK hG _ this.1), (nodesOK_append _ _).mpr ⟨this.2, hc⟩⟩

theorem quotePass_OK [Unicode]
    (hG : ∀ c ∈ wordGlyphs ++ reifiedGlyphs, Unicode.IsSpace c = false)
    (prepared : List node) (diags : List Diag) (h : nodesOK prepared) :
    nodesOK (quotePass prepared diags).1 := by
  unfold quotePass
  have := quoteLoop_OK hG prepared prepared 0 { root := [], stack := [], diags := diags }
    ⟨trivial, by simp⟩ h
  exact quoteUnwind_OK hG _ _ _ _ this.2 trivial this.1

mutual
theorem prepareQuoteNode_OK [Unicode]
    (hG : ∀ c ∈ wordGlyphs ++ reifiedGlyphs, Unicode.IsSpace c = false) :
    ∀ (n : node), nodeOK n → nodeOK (prepareQuoteNode n).1
  | .mk kind text ch dk pos level o c children, h => by
    simp only [nodeOK] at h
    simp only [prepareQuoteNode]
    split
    · simp only [nodeOK]
      exact ⟨h.1, h.2.1, quotePass_OK hG _ _ (prepareQuoteNodes_OK hG children h.2.2)⟩
    · simp only [nodeOK]
      exact h
theorem prepareQuoteNodes_OK [Unicode]
    (hG : ∀ c ∈ wordGlyphs ++ reifiedGlyphs, Unicode.IsSpace c = false) :
    ∀ (nodes : List node), nodesOK nodes → nodesOK (prepareQuoteNodes nodes).1
  | [], _ => by simp [prepareQuoteNodes, nodesOK]
  | n :: rest, h => by
    simp only [nodesOK] at h
    simp only [prepareQuoteNodes, nodesOK]
    exact ⟨prepareQuoteNode_OK hG n h.1, prepareQuoteNodes_OK hG rest h.2⟩
end

theorem buildQuoteNodes_OK [Unicode]
    (hG : ∀ c ∈ wordGlyphs ++ reifiedGlyphs, Unicode.IsSpace c = false)
    (nodes : List node) (h : nodesOK nodes) : nodesOK (buildQuoteNodes nodes).1 := by
  unfold buildQuoteNodes
  exact quotePass_OK hG _ _ (prepareQuoteNodes_OK hG nodes h)

theorem wordPayloads_append (a b : List Inline) :
    wordPayloads (a ++ b) = wordPayloads a ++ wordPayloads b := by
  induction a with
  | nil => simp [wordPayloads]
  | cons x a ih => simp [wordPayloads, ih]

mutual
theorem nodeToInlines_OK [Unicode]
    (hG : ∀ c ∈ wordGlyphs ++ reifiedGlyphs, Unicode.IsSpace c = false) :
    ∀ (n : node), nodeOK n → ∀ w ∈ wordPayloads (nodeToInlines n), wordPayloadOK w
  | .mk kind text ch dk pos level o c children, h => by
    simp only [nodeOK] at h
    have ih := nodesToInlines_OK hG children h.2.2
    intro w hw
    cases kind with
    | nodeWord =>
      simp only [nodeToInlines] at hw
      split at hw
      · simp only [wordPayloads, wordPayloadsOf, List.append_nil, List.mem_singleton] at hw
        rw [hw]; exact h.1 rfl
      · simp [wordPayloads] at hw
    | nodeSpace => simp [nodeToInlines, wordPayloads, wordPayloadsOf] at hw
    | nodePunct => simp [nodeToInlines, wordPayloads, wordPayloadsOf] at hw
    | nodeDash => simp [nodeToInlines, wordPayloads, wordPayloadsOf] at hw
    | nodeEllipsis => simp [nodeToInlines, wordPayloads, wordPayloadsOf] at hw
    | nodeQuoteMark =>
      simp only [nodeToInlines, wordPayloads, wordPayloadsOf, List.append_nil,
        List.mem_singleton] at hw
      rw [hw]; exact glyph_OK hG _ (h.2.1 rfl)
    | nodeParenSpan =>
      simp only [nodeToInlines, wordPayloads, wordPayloadsOf, List.append_nil] at hw
      exact ih w hw
    | nodeQuoteSpan =>
      simp only [nodeToInlines, wordPayloads, wordPayloadsOf, List.append_nil] at hw
      exact ih w hw
theorem nodesToInlines_OK [Unicode]
    (hG : ∀ c ∈ wordGlyphs ++ reifiedGlyphs, Unicode.IsSpace c = false) :
    ∀ (nodes : List node), nodesOK nodes →
      ∀ w ∈ wordPayloads (nodesToInlines nodes), wordPayloadOK w
  | [], _ => by simp [nodesToInlines, wordPayloads]
  | n :: rest, h => by
    simp only [nodesOK] at h
    intro w hw
    simp only [nodesToInlines, wordPayloads_append, List.mem_append] at hw
    rcases hw with hw | hw
    · exact nodeToInlines_OK hG n h.1 w hw
    · exact nodesToInlines_OK hG rest h.2 w hw
end

theorem nextToken_OK [Unicode]
    (hL : ∀ c, (Unicode.IsLetter c || Unicode.IsDigit c) = true →
      Unicode.IsSpace c = false ∧ c ≠ '…' ∧ c ≠ '.')
    (hG : ∀ c ∈ wordGlyphs ++ reifiedGlyphs, Unicode.IsSpace c = false)
    (runes : List Char) (line i col off : Nat) (r : Char) (hr : runes[i]? = some r) :
    ∀ t ∈ (nextToken runes line i col off r).2, tokenOK t := by
  have hlt : i < runes.length := (List.getElem?_eq_some_iff.mp hr).1
  unfold nextToken
  dsimp only
  by_cases h1 : isIgnorableInlineRune r = true
  · rw [if_pos h1]; simp
  rw [if_neg h1]
  by_cases h2 : Unicode.IsSpace r = true
  · rw [if_pos h2]; simp [tokenOK]
  rw [if_neg h2]
  have h2f : Unicode.IsSpace r = false := by simpa using h2
  by_cases h3 : (r = '.' && runes[i + 1]? = some '.' && runes[i + 2]? = some '.') = true
  · rw [if_pos h3]; simp [tokenOK]
  rw [if_neg h3]
  by_cases h4 : r = '…'
  · rw [if_pos h4]; simp [tokenOK]
  rw [if_neg h4]
  by_cases h5 : (r = '-' || r = '–' || r = '—') = true
  · rw [if_pos h5]; simp [tokenOK]
  rw [if_neg h5]
  by_cases h6 : (r = '(' || r = '[') = true
  · rw [if_pos h6]
    simp only [Bool.or_eq_true, decide_eq_true_eq] at h6
    rcases h6 with e | e <;> subst e <;> simp [tokenOK, runeToken, reifiedGlyphs]
  rw [if_neg h6]
  by_cases h7 : (r = ')' || r = ']') = true
  · rw [if_pos h7]
    simp only [Bool.or_eq_true, decide_eq_true_eq] at h7
    rcases h7 with e | e <;> subst e <;> simp [tokenOK, runeToken, reifiedGlyphs]
  rw [if_neg h7]
  by_cases h8 : r ∈ punctRunes
  · rw [if_pos h8]; simp [tokenOK, runeToken]
  rw [if_neg h8]
  by_cases h9 : r ∈ quoteRunes
  · rw [if_pos h9]
    simp only [List.mem_singleton, forall_eq, tokenOK, runeToken, reifiedGlyphs]
    exact List.mem_append_right _ h9
  rw [if_neg h9]
  by_cases h10 : scanWhile (fun k => decide (k < runes.length) && isWordRune runes k)
      (runes.length - i) i > i
  · rw [if_pos h10]
    obtain ⟨a, b, c, _⟩ := scanWhile_spec
      (fun k => decide (k < runes.length) && isWordRune runes k) (runes.length - i) i
    simp only [List.mem_singleton, forall_eq, tokenOK]
    have hmem : ∀ x ∈ (runes.drop i).take
        (scanWhile (fun k => decide (k < runes.length) && isWordRune runes k)
          (runes.length - i) i - i),
        Unicode.IsSpace x = false ∧ x ≠ '…' ∧ x ≠ '.' := by
      intro x hx
      obtain ⟨k, hk1, hk2, hk3⟩ := mem_take_drop _ _ _ _ hx
      have := c k hk1 (by omega)
      simp only [Bool.and_eq_true, decide_eq_true_eq] at this
      rcases isWordRune_char runes k x hk3 this.2 with hw | hw
      · exact hL x hw
      · refine ⟨hG x (List.mem_append_left _ hw), ?_, ?_⟩
        · intro e; rw [e] at hw; revert hw; decide
        · intro e; rw [e] at hw; revert hw; decide
    refine ⟨?_, fun x hx => (hmem x hx).1, fun hx => (hmem _ hx).2.1 rfl, ?_⟩
    · intro e
      have hl : ((runes.drop i).take
        (scanWhile (fun k => decide (k < runes.length) && isWordRune runes k)
          (runes.length - i) i - i)).length = 0 := by
        have := congrArg String.data e
        simp only at this
        rw [this]; rfl
      rw [List.length_take, List.length_drop] at hl
      omega
    · intro hinf
      exact (hmem '.' (hinf.subset (by simp))).2.2 rfl
  · rw [if_neg h10]
    simp only [List.mem_singleton, forall_eq, tokenOK]
    exact singleton_OK r h2f h4

theorem tokenizeLoop_OK [Unicode]
    (hL : ∀ c, (Unicode.IsLetter c || Unicode.IsDigit c) = true →
      Unicode.IsSpace c = false ∧ c ≠ '…' ∧ c ≠ '.')
    (hG : ∀ c ∈ wordGlyphs ++ reifiedGlyphs, Unicode.IsSpace c = false)
    (runes : List Char) (line : Nat) :
    ∀ (fuel i col off : Nat) (out : List token), (∀ t ∈ out, tokenOK t) →
      ∀ t ∈ tokenizeLoop runes line fuel i col off out, tokenOK t
  | 0, i, col, off, out, h => by rw [tokenizeLoop]; exact h
  | fuel + 1, i, col, off, out, h => by
    cases hr : runes[i]? with
    | none => rw [tokenizeLoop, hr]; exact h
    | some r =>
      rw [tokenizeLoop_succ runes line fuel i col off out r hr]
      apply tokenizeLoop_OK hL hG runes line fuel
      intro t ht
      rcases List.mem_append.mp ht with h1 | h1
      · exact h t h1
      · exact nextToken_OK hL hG runes line i col off r hr t h1

theorem tokenizeInline_OK [Unicode]
    (hL : ∀ c, (Unicode.IsLetter c || Unicode.IsDigit c) = true →
      Unicode.IsSpace c = false ∧ c ≠ '…' ∧ c ≠ '.')
    (hG : ∀ c ∈ wordGlyphs ++ reifiedGlyphs, Unicode.IsSpace c = false)
    (s : String) (line startCol : Nat) : ∀ t ∈ tokenizeInline s line startCol, tokenOK t := by
  intro t ht
  unfold tokenizeInline collapseSpaces at ht
  rcases mem_collapseSpacesLoop _ _ t ht with h | h
  · simp at h
  · exact tokenizeLoop_OK hL hG s.data line _ _ _ _ [] (by simp) t h

theorem tokensOfLines_OK [Unicode]
    (hL : ∀ c, (Unicode.IsLetter c || Unicode.IsDigit c) = true →
      Unicode.IsSpace c = false ∧ c ≠ '…' ∧ c ≠ '.')
    (hG : ∀ c ∈ wordGlyphs ++ reifiedGlyphs, Unicode.IsSpace c = false) :
    ∀ (lines : List String) (lineNums cols : List Nat) (join : Bool),
      ∀ t ∈ tokensOfLines lines lineNums cols join, tokenOK t
  | [], _, _, _ => by simp [tokensOfLines]
  | line :: rest, lineNums, cols, join => by
    intro t ht
    simp only [tokensOfLines, List.mem_append] at ht
    rcases ht with (h | h) | h
    · exact tokenizeInline_OK hL hG _ _ _ t h
    · split at h
      · simp only [List.mem_singleton] at h
        rw [h]; simp [tokenOK]
      · simp at h
    · exact tokensOfLines_OK hL hG rest _ _ join t h

/-- Claim C29: every Word that `parseInlineLines` returns, at every nesting level, the
brackets and quotation marks turned into Words included, has a payload that is not empty
and holds no whitespace rune, no `…` and no three full stops in a row. The tables enter
through two facts that hold of Go's: no letter and no digit is whitespace, the ellipsis or
the full stop, and none of the other runes of a word (the apostrophes, the numero sign, the
hyphen), of the brackets and of the quotation marks is whitespace. -/
theorem parseInlineLines_wordPayloads [Unicode]
    (hL : ∀ c, (Unicode.IsLetter c || Unicode.IsDigit c) = true →
      Unicode.IsSpace c = false ∧ c ≠ '…' ∧ c ≠ '.')
    (hG : ∀ c ∈ wordGlyphs ++ reifiedGlyphs, Unicode.IsSpace c = false)
    (lines : List String) (lineNums : List Nat) (joinWithSpace : Bool) :
    ∀ w ∈ wordPayloads (parseInlineLines lines lineNums joinWithSpace).1, wordPayloadOK w := by
  unfold parseInlineLines parseInlineLinesWithCols buildSpans
  exact nodesToInlines_OK hG _ (buildQuoteNodes_OK hG _ (buildParenNodes_OK hG _
    (tokensOfLines_OK hL hG lines lineNums _ joinWithSpace)))

theorem wordRunes_plain_basicTables : ∀ c,
    (basicTables.IsLetter c || basicTables.IsDigit c) = true →
      basicTables.IsSpace c = false ∧ c ≠ '…' ∧ c ≠ '.' := by
  intro c hc
  refine ⟨(wordRunes_basicTables c hc).1, ?_, ?_⟩
  · intro e; rw [e] at hc; revert hc; decide
  · intro e; rw [e] at hc; revert hc; decide

/-- Claim C29 at two lines with a quotation inside brackets, a stray closing bracket, an
unclosed bracket, a stray closing quotation mark and an ellipsis inside a word: the Words are
the nine below, the reified `]`, `[` and `»` among them. -/
theorem parseInlineLines_wordPayloads_witness :
    (∀ c, (basicTables.IsLetter c || basicTables.IsDigit c) = true →
        basicTables.IsSpace c = false ∧ c ≠ '…' ∧ c ≠ '.')
      ∧ (∀ c ∈ wordGlyphs ++ reifiedGlyphs, basicTables.IsSpace c = false)
      ∧ (∀ w ∈ wordPayloads (@parseInlineLines basicTables ["(a «b») c] …", "[d» e…f"] [1, 2] true).1,
          @wordPayloadOK basicTables w)
      ∧ wordPayloads (@parseInlineLines basicTables ["(a «b») c] …", "[d» e…f"] [1, 2] true).1
          = ["a", "b", "c", "]", "[", "d", "»", "e", "f"] := by
  have hG : ∀ c ∈ wordGlyphs ++ reifiedGlyphs, basicTables.IsSpace c = false := by decide
  exact ⟨wordRunes_plain_basicTables, hG,
    @parseInlineLines_wordPayloads basicTables wordRunes_plain_basicTables hG
      ["(a «b») c] …", "[d» e…f"] [1, 2] true, by decide⟩

theorem wordPayloads_set (l : List Inline) : ∀ (i : Nat) (x y : Inline), l[i]? = some x →
    wordPayloadsOf y = wordPayloadsOf x → wordPayloads (l.set i y) = wordPayloads l := by
  induction l with
  | nil => intro i x y hx; simp at hx
  | cons a l ih =>
    intro i x y hx hxy
    cases i with
    | zero =>
      simp only [List.getElem?_cons_zero, Option.some.injEq] at hx
      subst hx
      simp only [List.set_cons_zero, wordPayloads, hxy]
    | succ j =>
      simp only [List.getElem?_cons_succ] at hx
      simp only [List.set_cons_succ, wordPayloads, ih j x y hx hxy]

theorem wordPayloads_foldl (f : List Inline → Nat → List Inline)
    (hf : ∀ out i, wordPayloads (f out i) = wordPayloads out) (idxs : List Nat) :
    ∀ out : List Inline, wordPayloads (idxs.foldl f out) = wordPayloads out := by
  induction idxs with
  | nil => intro out; rfl
  | cons i rest ih => intro out; rw [List.foldl_cons, ih, hf]

theorem splitWordEllipsis_plain (s : String) (h : noEllipsisInWord s) :
    splitWordEllipsis s = [.Word s] := by
  by_cases hs : s = ""
  · subst hs; rfl
  · exact (splitWordEllipsis_spec s hs).2.2 h.1 h.2

theorem foldEllipsis_words : ∀ (n : Nat) (l : List Inline), l.length ≤ n →
    (∀ w ∈ wordPayloads l, noEllipsisInWord w) →
      wordPayloads (foldEllipsis l) = wordPayloads l
  | 0, l, hn, _ => by
    have : l = [] := List.length_eq_zero.mp (by omega)
    subst this; rfl
  | n + 1, [], _, _ => rfl
  | n + 1, x :: rest, hn, h => by
    have hrest : ∀ w ∈ wordPayloads rest, noEllipsisInWord w := fun w hw =>
      h w (by simp only [wordPayloads, List.mem_append]; exact Or.inr hw)
    have ih := foldEllipsis_words n rest (by simpa using hn) hrest
    have hdef : ∀ (y : Inline), (∀ s, y ≠ .Word s) → (∀ p, y ≠ .Punct p) →
        wordPayloads (foldEllipsis (y :: rest)) = wordPayloads (y :: rest) := by
      intro y h1 h2
      cases y with
      | Word s => exact absurd rfl (h1 s)
      | Punct p => exact absurd rfl (h2 p)
      | _ => simp only [foldEllipsis, wordPayloads, ih]
    cases x with
    | Word s =>
      have hs : noEllipsisInWord s := h s (by simp [wordPayloads, wordPayloadsOf])
      simp only [foldEllipsis, splitWordEllipsis_plain s hs, List.singleton_append, wordPayloads,
        ih]
    | Punct p1 =>
      cases rest with
      | nil => simp [foldEllipsis, wordPayloads]
      | cons y rest2 =>
        cases y with
        | Punct p2 =>
          cases rest2 with
          | nil => simp [foldEllipsis, wordPayloads, wordPayloadsOf]
          | cons z rest3 =>
            cases z with
            | Punct p3 =>
              have h3 : ∀ w ∈ wordPayloads rest3, noEllipsisInWord w := fun w hw =>
                h w (by simp only [wordPayloads, wordPayloadsOf, List.nil_append]; exact hw)
              have ih3 := foldEllipsis_words n rest3 (by simp at hn; omega) h3
              simp only [foldEllipsis]
              split
              · simp only [wordPayloads, wordPayloadsOf, List.nil_append, ih3]
              · simp only [wordPayloads, wordPayloadsOf, List.nil_append]
                have := ih
                simp only [wordPayloads, wordPayloadsOf, List.nil_append] at this
                exact this
            | _ =>
              have := ih
              simp only [foldEllipsis, wordPayloads, wordPayloadsOf, List.nil_append] at this ⊢
              exact this
        | _ =>
          have := ih
          simp only [foldEllipsis, wordPayloads, wordPayloadsOf, List.nil_append] at this ⊢
          exact this
    | Space k => exact hdef _ (by simp) (by simp)
    | Dash k => exact hdef _ (by simp) (by simp)
    | Ellipsis => exact hdef _ (by simp) (by simp)
    | QuoteSpan lv c => exact hdef _ (by simp) (by simp)
    | ParenSpan o cl c => exact hdef _ (by simp) (by simp)

mutual
theorem normalizeEllipsisItem_words : ∀ (item : Inline),
    (∀ w ∈ wordPayloadsOf item, noEllipsisInWord w) →
      wordPayloadsOf (normalizeEllipsisItem item) = wordPayloadsOf item
  | .QuoteSpan lv c, h => by
    have ih := normalizeEllipsisItems_words c (by simpa [wordPayloadsOf] using h)
    simp only [normalizeEllipsisItem, wordPayloadsOf]
    rw [foldEllipsis_words _ _ (le_refl _) (by rw [ih]; simpa [wordPayloadsOf] using h), ih]
  | .ParenSpan o cl c, h => by
    have ih := normalizeEllipsisItems_words c (by simpa [wordPayloadsOf] using h)
    simp only [normalizeEllipsisItem, wordPayloadsOf]
    rw [foldEllipsis_words _ _ (le_refl _) (by rw [ih]; simpa [wordPayloadsOf] using h), ih]
  | .Word _, _ => rfl
  | .Space _, _ => rfl
  | .Punct _, _ => rfl
  | .Dash _, _ => rfl
  | .Ellipsis, _ => rfl
theorem normalizeEllipsisItems_words : ∀ (l : List Inline),
    (∀ w ∈ wordPayloads l, noEllipsisInWord w) →
      wordPayloads (normalizeEllipsisItems l) = wordPayloads l
  | [], _ => rfl
  | x :: rest, h => by
    simp only [normalizeEllipsisItems, wordPayloads]
    rw [normalizeEllipsisItem_words x (fun w hw =>
        h w (by simp only [wordPayloads, List.mem_append]; exact Or.inl hw)),
      normalizeEllipsisItems_words rest (fun w hw =>
        h w (by simp only [wordPayloads, List.mem_append]; exact Or.inr hw))]
end

theorem normalizeEllipsisList_words (l : List Inline)
    (h : ∀ w ∈ wordPayloads l, noEllipsisInWord w) :
    wordPayloads (normalizeEllipsisList l) = wordPayloads l := by
  have ih := normalizeEllipsisItems_words l h
  unfold normalizeEllipsisList
  rw [foldEllipsis_words _ _ (le_refl _) (by rw [ih]; exact h), ih]

theorem classifyDashAt_words [Unicode] (out : List Inline) (i : Nat) :
    wordPayloads (classifyDashAt out i) = wordPayloads out := by
  unfold classifyDashAt
  split
  · rename_i k h
    have hs : ∀ k2, wordPayloads (out.set i (.Dash k2)) = wordPayloads out := fun k2 =>
      wordPayloads_set out i (.Dash k) (.Dash k2) h (by simp [wordPayloadsOf])
    dsimp only
    split
    · split
      · split
        · exact hs _
        · exact hs _
      · exact hs _
    · exact hs _
  · rfl

theorem classifyDashesLoop_words [Unicode] (out : List Inline) :
    wordPayloads (classifyDashesLoop out) = wordPayloads out :=
  wordPayloads_foldl classifyDashAt classifyDashAt_words _ out

mutual
theorem classifyDashesItem_words [Unicode] : ∀ (item : Inline),
    wordPayloadsOf (classifyDashesItem item) = wordPayloadsOf item
  | .QuoteSpan lv c => by
    simp only [classifyDashesItem, wordPayloadsOf, classifyDashesLoop_words,
      classifyDashesItems_words c]
  | .ParenSpan o cl c => by
    simp only [classifyDashesItem, wordPayloadsOf, classifyDashesLoop_words,
      classifyDashesItems_words c]
  | .Word _ => rfl
  | .Space _ => rfl
  | .Punct _ => rfl
  | .Dash _ => rfl
  | .Ellipsis => rfl
theorem classifyDashesItems_words [Unicode] : ∀ (l : List Inline),
    wordPayloads (classifyDashesItems l) = wordPayloads l
  | [] => rfl
  | x :: rest => by
    simp only [classifyDashesItems, wordPayloads, classifyDashesItem_words x,
      classifyDashesItems_words rest]
end

theorem classifyDashesList_words [Unicode] (l : List Inline) :
    wordPayloads (classifyDashesList l) = wordPayloads l := by
  unfold classifyDashesList
  rw [classifyDashesLoop_words, classifyDashesItems_words]

mutual
theorem normalizeQuoteLevelsItem_words : ∀ (item : Inline) (d : Nat),
    wordPayloadsOf (normalizeQuoteLevelsItem item d) = wordPayloadsOf item
  | .QuoteSpan lv c, d => by
    simp only [normalizeQuoteLevelsItem, wordPayloadsOf, normalizeQuoteLevels_words c (d + 1)]
  | .ParenSpan o cl c, d => by
    simp only [normalizeQuoteLevelsItem, wordPayloadsOf, normalizeQuoteLevels_words c d]
  | .Word _, _ => rfl
  | .Space _, _ => rfl
  | .Punct _, _ => rfl
  | .Dash _, _ => rfl
  | .Ellipsis, _ => rfl
theorem normalizeQuoteLevels_words : ∀ (l : List Inline) (d : Nat),
    wordPayloads (normalizeQuoteLevels l d) = wordPayloads l
  | [], _ => rfl
  | x :: rest, d => by
    simp only [normalizeQuoteLevels, wordPayloads, normalizeQuoteLevelsItem_words x d,
      normalizeQuoteLevels_words rest d]
end

theorem wordPayloads_filter_nonSpace (l : List Inline) :
    wordPayloads (l.filter fun item => !isSpace item) = wordPayloads l := by
  induction l with
  | nil => rfl
  | cons x rest ih =>
    rw [List.filter_cons]
    cases hx : isSpace x
    · rw [if_pos (by simp)]
      simp only [wordPayloads, ih]
    · have hw : wordPayloadsOf x = [] := by
        cases x <;> simp [isSpace] at hx
        rfl
      rw [if_neg (by simp)]
      simp only [wordPayloads, hw, ih, List.nil_append]

theorem spacingLoop_words (rest : List Inline) : ∀ prev : Inline,
    wordPayloads (spacingLoop prev rest) = wordPayloads rest := by
  induction rest with
  | nil => intro prev; rfl
  | cons cur rest ih =>
    intro prev
    simp only [spacingLoop]
    split <;> simp [wordPayloads, wordPayloadsOf, ih]

theorem rebuildSpacing_words (l : List Inline) :
    wordPayloads (rebuildSpacing l) = wordPayloads l := by
  rw [← wordPayloads_filter_nonSpace l]
  unfold rebuildSpacing
  cases l.filter (fun item => !isSpace item) with
  | nil => rfl
  | cons first rest => simp only [wordPayloads, spacingLoop_words]

mutual
theorem normalizeSpacingItem_words : ∀ (item : Inline),
    wordPayloadsOf (normalizeSpacingItem item) = wordPayloadsOf item
  | .QuoteSpan lv c => by
    simp only [normalizeSpacingItem, wordPayloadsOf, rebuildSpacing_words,
      normalizeSpacingItems_words c]
  | .ParenSpan o cl c => by
    simp only [normalizeSpacingItem, wordPayloadsOf, rebuildSpacing_words,
      normalizeSpacingItems_words c]
  | .Word _ => rfl
  | .Space _ => rfl
  | .Punct _ => rfl
  | .Dash _ => rfl
  | .Ellipsis => rfl
theorem normalizeSpacingItems_words : ∀ (l : List Inline),
    wordPayloads (normalizeSpacingItems l) = wordPayloads l
  | [] => rfl
  | x :: rest => by
    simp only [normalizeSpacingItems, wordPayloads, normalizeSpacingItem_words x,
      normalizeSpacingItems_words rest]
end

theorem normalizeSpacingList_words (l : List Inline) :
    wordPayloads (normalizeSpacingList l) = wordPayloads l := by
  unfold normalizeSpacingList
  rw [rebuildSpacing_words, normalizeSpacingItems_words]

theorem applyNBSPAt_words [Unicode] (lang : Lang) (out : List Inline) (i : Nat) :
    wordPayloads (applyNBSPAt lang out i) = wordPayloads out := by
  rcases applyNBSPAt_cases lang out i with h | ⟨h1, h2⟩
  · rw [h]
  · rw [h2]
    exact wordPayloads_set out i _ _ h1 (by simp [wordPayloadsOf])

theorem applyNBSPLoop_words [Unicode] (lang : Lang) (out : List Inline) :
    wordPayloads (applyNBSPLoop lang out) = wordPayloads out :=
  wordPayloads_foldl (applyNBSPAt lang) (applyNBSPAt_words lang) _ out

mutual
theorem applyNBSPItem_words [Unicode] (lang : Lang) : ∀ (item : Inline),
    wordPayloadsOf (applyNBSPItem lang item) = wordPayloadsOf item
  | .QuoteSpan lv c => by
    simp only [applyNBSPItem, wordPayloadsOf, applyNBSPLoop_words, applyNBSPItems_words lang c]
  | .ParenSpan o cl c => by
    simp only [applyNBSPItem, wordPayloadsOf, applyNBSPLoop_words, applyNBSPItems_words lang c]
  | .Word _ => rfl
  | .Space _ => rfl
  | .Punct _ => rfl
  | .Dash _ => rfl
  | .Ellipsis => rfl
theorem applyNBSPItems_words [Unicode] (lang : Lang) : ∀ (l : List Inline),
    wordPayloads (applyNBSPItems lang l) = wordPayloads l
  | [] => rfl
  | x :: rest => by
    simp only [applyNBSPItems, wordPayloads, applyNBSPItem_words lang x,
      applyNBSPItems_words lang rest]
end

theorem applyNBSPList_words [Unicode] (l : List Inline) (lang : Lang) :
    wordPayloads (applyNBSPList l lang) = wordPayloads l := by
  unfold applyNBSPList
  rw [applyNBSPLoop_words, applyNBSPItems_words]

theorem trimLeadingSpaces_words (l : List Inline) :
    wordPayloads (trimLeadingSpaces l) = wordPayloads l := by
  induction l with
  | nil => rfl
  | cons x rest ih =>
    simp only [trimLeadingSpaces]
    split
    · rename_i h
      cases x <;> simp [isSpace] at h
      simp [wordPayloads, wordPayloadsOf, ih]
    · rfl

theorem normalizeDialogueTurn_words (ins : List Inline) :
    wordPayloads (normalizeDialogueTurn ins).1 = wordPayloads ins := by
  have h0 := trimLeadingSpaces_words ins
  unfold normalizeDialogueTurn
  cases h1 : trimLeadingSpaces ins with
  | nil =>
    rw [h1] at h0
    rw [← h0]
    simp [wordPayloads, wordPayloadsOf]
  | cons x xs =>
    rw [h1] at h0
    have h2 := trimLeadingSpaces_words (x :: xs)
    cases x with
    | Dash k =>
      simp only
      have h3 := trimLeadingSpaces_words xs
      cases h4 : trimLeadingSpaces xs with
      | nil =>
        rw [h4] at h3
        rw [← h0]
        simp only [wordPayloads, wordPayloadsOf, List.nil_append] at h3 ⊢
        exact h3
      | cons y ys =>
        rw [h4] at h3
        rw [← h0]
        simp only [wordPayloads, wordPayloadsOf, List.nil_append] at h3 ⊢
        exact h3
    | _ =>
      simp only
      split
      · rename_i h5
        rw [h5] at h2
        rw [← h0, ← h2]
        simp [wordPayloads, wordPayloadsOf]
      · rw [← h0]
        simp only [wordPayloads, wordPayloadsOf, List.nil_append] at h2 ⊢ <;> exact h2

theorem applyToAllInlinesBlock_frame (fn : List Inline → List Inline) (b : Block)
    (h : ∀ ins ∈ blockInlines b, wordPayloads (fn ins) = wordPayloads ins) :
    blockVariant (applyToAllInlinesBlock fn b) = blockVariant b
      ∧ blockWordPayloads (applyToAllInlinesBlock fn b) = blockWordPayloads b := by
  cases b with
  | Paragraph ins =>
    exact ⟨rfl, by simp [applyToAllInlinesBlock, blockWordPayloads, blockInlines,
      h ins (by simp [blockInlines])]⟩
  | Heading lv ins =>
    exact ⟨rfl, by simp [applyToAllInlinesBlock, blockWordPayloads, blockInlines,
      h ins (by simp [blockInlines])]⟩
  | MetaLineBlock key ins =>
    exact ⟨rfl, by simp [applyToAllInlinesBlock, blockWordPayloads, blockInlines,
      h ins (by simp [blockInlines])]⟩
  | TitleBlock ins => exact ⟨rfl, rfl⟩
  | SceneBreak m => exact ⟨rfl, rfl⟩
  | DialogueBlock turns =>
    refine ⟨rfl, ?_⟩
    simp only [applyToAllInlinesBlock, blockWordPayloads, blockInlines, List.map_map]
    apply List.map_congr_left
    intro t ht
    exact h t.In (by simp only [blockInlines, List.mem_map]; exact ⟨t, ht, rfl⟩)
  | ContentsBlock ins entries =>
    refine ⟨rfl, ?_⟩
    simp only [applyToAllInlinesBlock, blockWordPayloads, blockInlines, List.map_cons,
      List.map_map, h ins (by simp [blockInlines])]
    congr 1
    apply List.map_congr_left
    intro e he
    exact h e.In (by
      simp only [blockInlines, List.mem_cons, List.mem_map]
      exact Or.inr ⟨e, he, rfl⟩)

theorem applyToAllInlines_frame (fn : List Inline → List Inline) (doc : Document)
    (h : ∀ b ∈ doc.Blocks, ∀ ins ∈ blockInlines b, wordPayloads (fn ins) = wordPayloads ins) :
    sameWordsAndBlocks (applyToAllInlines doc fn) doc := by
  unfold sameWordsAndBlocks applyToAllInlines
  simp only [List.map_map]
  exact ⟨List.map_congr_left fun b hb => (applyToAllInlinesBlock_frame fn b (h b hb)).1,
    List.map_congr_left fun b hb => (applyToAllInlinesBlock_frame fn b (h b hb)).2⟩

theorem emitCanonicalPairsBlock_frame (b : Block) :
    blockVariant (emitCanonicalPairsBlock b) = blockVariant b
      ∧ blockWordPayloads (emitCanonicalPairsBlock b) = blockWordPayloads b := by
  cases b with
  | DialogueBlock turns =>
    refine ⟨rfl, ?_⟩
    simp only [emitCanonicalPairsBlock, blockWordPayloads, blockInlines, List.map_map]
    apply List.map_congr_left
    intro t _
    exact normalizeQuoteLevels_words t.In 0
  | ContentsBlock ins entries =>
    refine ⟨rfl, ?_⟩
    simp only [emitCanonicalPairsBlock, blockWordPayloads, blockInlines, List.map_cons,
      List.map_map, normalizeQuoteLevels_words]
    congr 1
    apply List.map_congr_left
    intro e _
    exact normalizeQuoteLevels_words e.In 0
  | SceneBreak m => exact ⟨rfl, rfl⟩
  | _ =>
    exact ⟨rfl, by simp [emitCanonicalPairsBlock, blockWordPayloads, blockInlines,
      normalizeQuoteLevels_words]⟩

theorem emitCanonicalPairsDocument_frame (doc : Document) :
    sameWordsAndBlocks (emitCanonicalPairsDocument doc) doc := by
  unfold sameWordsAndBlocks emitCanonicalPairsDocument
  simp only [List.map_map]
  exact ⟨List.map_congr_left fun b _ => (emitCanonicalPairsBlock_frame b).1,
    List.map_congr_left fun b _ => (emitCanonicalPairsBlock_frame b).2⟩

theorem normalizeDialogueBlocksLoop_frame (blocks : List Block) : ∀ (diags : List Diag),
    (normalizeDialogueBlocksLoop blocks diags).1.map blockVariant = blocks.map blockVariant
      ∧ (normalizeDialogueBlocksLoop blocks diags).1.map blockWordPayloads
          = blocks.map blockWordPayloads := by
  induction blocks with
  | nil => intro diags; exact ⟨rfl, rfl⟩
  | cons b rest ih =>
    intro diags
    cases b with
    | DialogueBlock turns =>
      simp only [normalizeDialogueBlocksLoop, List.map_cons]
      refine ⟨by rw [(ih _).1]; rfl, ?_⟩
      rw [(ih _).2]
      congr 1
      simp only [blockWordPayloads, blockInlines, normalizeDialogueTurns_fst, List.map_map]
      apply List.map_congr_left
      intro t _
      exact normalizeDialogueTurn_words t.In
    | _ =>
      simp only [normalizeDialogueBlocksLoop, List.map_cons]
      exact ⟨by rw [(ih _).1], by rw [(ih _).2]⟩

theorem normalizeDialogueBlocks_frame (doc : Document) :
    sameWordsAndBlocks (normalizeDialogueBlocks doc) doc := by
  unfold sameWordsAndBlocks normalizeDialogueBlocks
  exact normalizeDialogueBlocksLoop_frame doc.Blocks doc.Diags

theorem sameWordsAndBlocks_trans (a b c : Document) (h1 : sameWordsAndBlocks a b)
    (h2 : sameWordsAndBlocks b c) : sameWordsAndBlocks a c :=
  ⟨h1.1.trans h2.1, h1.2.trans h2.2⟩

/-- The Word payloads and the blocks under `Apply`: for every document in which no Word
payload holds `…` or three full stops in a row, `Apply` keeps the number of the blocks, their
variants and their order, and in every inline list of every block the Word payloads in
order, those inside QuoteSpans and ParenSpans included. -/
theorem Apply_sameWordsAndBlocks [Unicode] (doc : Document) (cfg : Config)
    (h : ∀ b ∈ doc.Blocks, ∀ ins ∈ blockInlines b, ∀ w ∈ wordPayloads ins,
      noEllipsisInWord w) :
    sameWordsAndBlocks (Apply doc cfg) doc := by
  have h1 : sameWordsAndBlocks (normalizeEllipsisDocument doc) doc :=
    applyToAllInlines_frame _ doc fun b hb ins hi =>
      normalizeEllipsisList_words ins (h b hb ins hi)
  have h2 : sameWordsAndBlocks (classifyDashesDocument (normalizeEllipsisDocument doc))
      (normalizeEllipsisDocument doc) :=
    applyToAllInlines_frame _ _ fun _ _ ins _ => classifyDashesList_words ins
  have h3 := emitCanonicalPairsDocument_frame
    (classifyDashesDocument (normalizeEllipsisDocument doc))
  have h4 : sameWordsAndBlocks (normalizeSpacingDocument (emitCanonicalPairsDocument
      (classifyDashesDocument (normalizeEllipsisDocument doc))))
      (emitCanonicalPairsDocument (classifyDashesDocument (normalizeEllipsisDocument doc))) :=
    applyToAllInlines_frame _ _ fun _ _ ins _ => normalizeSpacingList_words ins
  have h5 := normalizeDialogueBlocks_frame (normalizeSpacingDocument (emitCanonicalPairsDocument
      (classifyDashesDocument (normalizeEllipsisDocument doc))))
  have h15 := sameWordsAndBlocks_trans _ _ _ h5 (sameWordsAndBlocks_trans _ _ _ h4
    (sameWordsAndBlocks_trans _ _ _ h3 (sameWordsAndBlocks_trans _ _ _ h2 h1)))
  unfold Apply
  dsimp only
  split
  · refine sameWordsAndBlocks_trans _ _ _ ?_ h15
    exact applyToAllInlines_frame _ _ fun _ _ ins _ => applyNBSPList_words ins cfg.Lang
  · exact h15

/-- Claim C40 as stated fails in its last part: the passes do not only add or remove Spaces,
Dashes and Ellipses. From the paragraph `a...`, given as a Word and three full-stop Puncts,
`Apply` removes the three Puncts and puts one Ellipsis. -/
theorem Apply_removesFullStops :
    (@Apply basicTables
        (oneBlockDocument (.Paragraph [.Word "a", .Punct '.', .Punct '.', .Punct '.']))
        DefaultConfig).Blocks
      = [.Paragraph [.Word "a", .Ellipsis]] := by decide

theorem stripChildren_fields (n : node) :
    (stripChildren n).kind = n.kind ∧ (stripChildren n).ch = n.ch
      ∧ (stripChildren n).pos = n.pos ∧ (stripChildren n).text = n.text := by
  cases n; exact ⟨rfl, rfl, rfl, rfl⟩

theorem fields_of_stripChildren (a b : node) (h : stripChildren a = stripChildren b) :
    a.kind = b.kind ∧ a.ch = b.ch ∧ a.pos = b.pos := by
  have ha := stripChildren_fields a
  have hb := stripChildren_fields b
  rw [h] at ha
  exact ⟨ha.1.symm.trans hb.1, ha.2.1.symm.trans hb.2.1, ha.2.2.1.symm.trans hb.2.2.1⟩

theorem prevSignificant_strip (l : List node) : ∀ i : Nat,
    prevSignificant (l.map stripChildren) i = (prevSignificant l i).map stripChildren
  | 0 => rfl
  | i + 1 => by
    simp only [prevSignificant, List.getElem?_map]
    cases h : l[i]? with
    | none => rfl
    | some n =>
      simp only [Option.map_some', (stripChildren_fields n).1]
      split
      · exact prevSignificant_strip l i
      · rfl

theorem nextSignificant_strip (l : List node) (i : Nat) :
    nextSignificant (l.map stripChildren) i = (nextSignificant l i).map stripChildren := by
  have hf : ((fun n : node => n.kind != .nodeSpace) ∘ stripChildren)
      = fun n : node => n.kind != .nodeSpace := by
    funext n
    simp [(stripChildren_fields n).1]
  unfold nextSignificant
  rw [← List.map_drop, List.find?_map, hf]

theorem prevSuggestsQuoteClose_strip [Unicode] (n : node) :
    prevSuggestsQuoteClose (stripChildren n) = prevSuggestsQuoteClose n := by
  cases n; rfl

theorem prevSuggestsQuoteOpen_strip (n : node) :
    prevSuggestsQuoteOpen (stripChildren n) = prevSuggestsQuoteOpen n := by
  cases n; rfl

theorem nextSuggestsQuoteClose_strip (n : node) :
    nextSuggestsQuoteClose (stripChildren n) = nextSuggestsQuoteClose n := by
  cases n; rfl

theorem nextSuggestsQuoteOpen_strip [Unicode] (n : node) :
    nextSuggestsQuoteOpen (stripChildren n) = nextSuggestsQuoteOpen n := by
  cases n; rfl

theorem any_space_strip (o : Option node) :
    ((o.map stripChildren).any fun n => n.kind = .nodeSpace)
      = o.any fun n => n.kind = .nodeSpace := by
  cases o with
  | none => rfl
  | some n => simp [(stripChildren_fields n).1]

theorem shouldCloseSymmetric_strip [Unicode] (l : List node) (i d : Nat) :
    shouldCloseSymmetric (l.map stripChildren) i d = shouldCloseSymmetric l i d := by
  unfold shouldCloseSymmetric
  simp only [List.getElem?_map, prevSignificant_strip, nextSignificant_strip, any_space_strip]
  split
  · rfl
  · cases l[i]? with
    | none => rfl
    | some q =>
      cases prevSignificant l i with
      | none => rfl
      | some p =>
        cases nextSignificant l i with
        | none => rfl
        | some nx =>
          simp only [Option.map_some', prevSuggestsQuoteClose_strip, nextSuggestsQuoteOpen_strip,
            nextSuggestsQuoteClose_strip, (stripChildren_fields q).2.2.1,
            (stripChildren_fields nx).2.2.1]

theorem shouldOpenSymmetric_strip [Unicode] (l : List node) (i d : Nat) :
    shouldOpenSymmetric (l.map stripChildren) i d = shouldOpenSymmetric l i d := by
  unfold shouldOpenSymmetric
  simp only [List.getElem?_map, prevSignificant_strip, nextSignificant_strip, any_space_strip]
  cases nextSignificant l i with
  | none => rfl
  | some nx =>
    cases prevSignificant l i with
    | none => simp only [Option.map_some', Option.map_none', nextSuggestsQuoteOpen_strip]
    | some p =>
      simp only [Option.map_some', prevSuggestsQuoteClose_strip, nextSuggestsQuoteOpen_strip,
        prevSuggestsQuoteOpen_strip]

theorem quoteDepthStep_congr [Unicode] (all1 all2 : List node) (d i : Nat) (a b : node)
    (hall : all1.map stripChildren = all2.map stripChildren)
    (hab : stripChildren a = stripChildren b) :
    quoteDepthStep all1 d i a = quoteDepthStep all2 d i b := by
  obtain ⟨h1, h2, _⟩ := fields_of_stripChildren a b hab
  unfold quoteDepthStep
  rw [h1, h2, ← shouldCloseSymmetric_strip all1, ← shouldOpenSymmetric_strip all1, hall,
    shouldCloseSymmetric_strip, shouldOpenSymmetric_strip]

theorem strayClosesFrom_congr [Unicode] (all1 all2 : List node)
    (hall : all1.map stripChildren = all2.map stripChildren) :
    ∀ (l1 l2 : List node) (i d : Nat), l1.map stripChildren = l2.map stripChildren →
      strayClosesFrom all1 l1 i d = strayClosesFrom all2 l2 i d
  | [], [], _, _, _ => rfl
  | [], _ :: _, _, _, h => by simp at h
  | _ :: _, [], _, _, h => by simp at h
  | a :: l1, b :: l2, i, d, h => by
    simp only [List.map_cons, List.cons.injEq] at h
    obtain ⟨h1, h2, h3⟩ := fields_of_stripChildren a b h.1
    simp only [strayClosesFrom, isStrayClose, h1, h2, h3,
      quoteDepthStep_congr all1 all2 d i a b hall h.1,
      strayClosesFrom_congr all1 all2 hall l1 l2 (i + 1) _ h.2]

theorem prepareQuoteNode_strip [Unicode] (n : node) :
    stripChildren (prepareQuoteNode n).1 = stripChildren n := by
  cases n with
  | mk kind text ch dk pos level o c children =>
    simp only [prepareQuoteNode]
    split <;> rfl

theorem prepareQuoteNodes_strip [Unicode] (nodes : List node) :
    (prepareQuoteNodes nodes).1.map stripChildren = nodes.map stripChildren := by
  induction nodes with
  | nil => simp [prepareQuoteNodes]
  | cons n rest ih =>
    simp only [prepareQuoteNodes, List.map_cons, prepareQuoteNode_strip, ih]

theorem quoteAppendCurrent_facts (st : quoteState) (n : node) :
    (quoteAppendCurrent st n).stack.length = st.stack.length
      ∧ (quoteAppendCurrent st n).diags = st.diags
      ∧ st.root <+: (quoteAppendCurrent st n).root
      ∧ (st.stack.length = 0 → n ∈ (quoteAppendCurrent st n).root) := by
  unfold quoteAppendCurrent
  split
  · rename_i hs
    refine ⟨by simp [hs], rfl, List.prefix_append _ _, fun _ => by simp⟩
  · rename_i top below hs
    refine ⟨by simp [hs], rfl, List.prefix_refl _, fun h => ?_⟩
    rw [hs] at h
    simp at h

theorem quotePopSpan_facts (st : quoteState) :
    (quotePopSpan st).stack.length = st.stack.length - 1
      ∧ (quotePopSpan st).diags = st.diags ∧ st.root <+: (quotePopSpan st).root := by
  unfold quotePopSpan
  split
  · rename_i hs
    exact ⟨by simp [hs], rfl, List.prefix_refl _⟩
  · rename_i top below hs
    obtain ⟨h1, h2, h3, _⟩ := quoteAppendCurrent_facts { st with stack := below }
      (quoteSpanNode top)
    exact ⟨by rw [h1, hs]; simp, h2, h3⟩

theorem quoteStep_depth [Unicode] (prepared : List node) (st : quoteState) (i : Nat)
    (n : node) :
    (quoteStep prepared st i n).stack.length = quoteDepthStep prepared st.stack.length i n
      ∧ (quoteStep prepared st i n).diags
          = st.diags ++ (if isStrayClose st.stack.length n then [mismatchDiag (n.ch, n.pos)]
              else [])
      ∧ st.root <+: (quoteStep prepared st i n).root
      ∧ (isStrayClose st.stack.length n = true →
          wordNode (String.singleton n.ch) n.pos ∈ (quoteStep prepared st i n).root) := by
  unfold quoteStep quoteDepthStep
  by_cases hk : n.kind = .nodeQuoteMark
  · have hk2 : (n.kind != .nodeQuoteMark) = false := by simp [hk]
    simp only [hk2, Bool.false_eq_true, if_false]
    by_cases ho : isExplicitOpenQuote n.ch = true
    · have hnc : n.ch ∉ explicitCloseGlyphs := fun hc => by
        rw [not_explicitOpen_of_close n.ch hc] at ho
        exact absurd ho (by simp)
      have hstray : isStrayClose st.stack.length n = false := by simp [isStrayClose, hnc]
      simp only [ho, if_true, hstray, Bool.false_eq_true, if_false]
      refine ⟨by simp [quotePush], by simp [quotePush], by simp [quotePush], by simp⟩
    · have ho2 : isExplicitOpenQuote n.ch = false := by simpa using ho
      simp only [ho2, Bool.false_eq_true, if_false]
      by_cases hc : n.ch ∈ explicitCloseGlyphs
      · have hc2 : isExplicitCloseQuote n.ch = true := (isExplicitCloseQuote_iff n.ch).mpr hc
        simp only [hc2, if_true, hc]
        by_cases h0 : st.stack.length = 0
        · have hstray : isStrayClose st.stack.length n = true := by
            simp [isStrayClose, hk, hc, h0]
          rw [if_pos h0, hstray, if_pos rfl]
          obtain ⟨a, b, c, d⟩ := quoteAppendCurrent_facts
            { st with diags := st.diags ++
                [{ Pos := n.pos, Code := "QUOTE_MISMATCH",
                   Message := "unexpected closing quote" }] }
            (wordNode (String.singleton n.ch) n.pos)
          refine ⟨by rw [a]; simp [h0], by rw [b]; simp [mismatchDiag], c, fun _ => d h0⟩
        · have hstray : isStrayClose st.stack.length n = false := by simp [isStrayClose, h0]
          rw [if_neg h0, hstray, if_neg (by simp)]
          obtain ⟨a, b, c⟩ := quotePopSpan_facts st
          exact ⟨a, by rw [b]; simp, c, by simp⟩
      · have hstray : isStrayClose st.stack.length n = false := by simp [isStrayClose, hc]
        have hc2 : isExplicitCloseQuote n.ch = false := by
          cases h : isExplicitCloseQuote n.ch
          · rfl
          · exact absurd ((isExplicitCloseQuote_iff n.ch).mp h) hc
        simp only [hc2, Bool.false_eq_true, if_false, hc, hstray]
        by_cases hsym : isSymmetricQuote n.ch = true
        · simp only [hsym, if_true]
          by_cases h1 : shouldCloseSymmetric prepared i st.stack.length = true
          · simp only [h1, if_true]
            obtain ⟨a, b, c⟩ := quotePopSpan_facts st
            exact ⟨a, by rw [b]; simp, c, by simp⟩
          · have h1f : shouldCloseSymmetric prepared i st.stack.length = false := by
              simpa using h1
            simp only [h1f, Bool.false_eq_true, if_false]
            by_cases h2 : shouldOpenSymmetric prepared i st.stack.length = true
            · simp only [h2, if_true]
              refine ⟨by simp [quotePush], by simp [quotePush], by simp [quotePush], by simp⟩
            · have h2f : shouldOpenSymmetric prepared i st.stack.length = false := by
                simpa using h2
              simp only [h2f, Bool.false_eq_true, if_false]
              obtain ⟨a, b, c, _⟩ := quoteAppendCurrent_facts st
                (wordNode (String.singleton n.ch) n.pos)
              exact ⟨a, by rw [b]; simp, c, by simp⟩
        · have hsf : isSymmetricQuote n.ch = false := by simpa using hsym
          simp only [hsf, Bool.false_eq_true, if_false]
          obtain ⟨a, b, c, _⟩ := quoteAppendCurrent_facts st
            (wordNode (String.singleton n.ch) n.pos)
          exact ⟨a, by rw [b]; simp, c, by simp⟩
  · have hk2 : (n.kind != .nodeQuoteMark) = true := by simp [hk]
    have hstray : isStrayClose st.stack.length n = false := by simp [isStrayClose, hk]
    simp only [hk2, if_true, hstray, Bool.false_eq_true, if_false]
    obtain ⟨a, b, c, _⟩ := quoteAppendCurrent_facts st n
    exact ⟨a, by rw [b]; simp, c, by simp⟩

theorem quoteLoop_depth [Unicode] (prepared : List node) :
    ∀ (rest : List node) (i : Nat) (st : quoteState),
      (quoteLoop prepared rest i st).diags
          = st.diags ++ (strayClosesFrom prepared rest i st.stack.length).map mismatchDiag
        ∧ st.root <+: (quoteLoop prepared rest i st).root
        ∧ ∀ p ∈ strayClosesFrom prepared rest i st.stack.length,
            wordNode (String.singleton p.1) p.2 ∈ (quoteLoop prepared rest i st).root
  | [], i, st => by simp [quoteLoop, strayClosesFrom]
  | n :: rest, i, st => by
    obtain ⟨a, b, c, d⟩ := quoteStep_depth prepared st i n
    obtain ⟨e, f, g⟩ := quoteLoop_depth prepared rest (i + 1) (quoteStep prepared st i n)
    rw [quoteLoop, strayClosesFrom]
    rw [a] at e g
    refine ⟨?_, c.trans f, ?_⟩
    · rw [e, b]
      cases isStrayClose st.stack.length n <;> simp
    · intro p hp
      rcases List.mem_append.mp hp with h | h
      · cases hs : isStrayClose st.stack.length n
        · rw [hs] at h; simp at h
        · rw [hs] at h
          simp only [if_true, List.mem_singleton] at h
          rw [h]
          exact f.subset (d hs)
      · exact g p h

theorem quoteUnwind_mismatch : ∀ (stack : List quoteFrame) (carry root : List node)
    (diags : List Diag),
    (quoteUnwind stack carry root diags).2.filter isMismatch = diags.filter isMismatch
      ∧ root <+: (quoteUnwind stack carry root diags).1
  | [], carry, root, diags => by
    rw [quoteUnwind]
    exact ⟨rfl, List.prefix_append _ _⟩
  | top :: below, carry, root, diags => by
    rw [quoteUnwind]
    obtain ⟨a, b⟩ := quoteUnwind_mismatch below
      (wordNode (String.singleton top.quote) top.pos :: (top.nodes ++ carry)) root
      (if shouldReportUnclosedQuote top then
        diags ++ [{ Pos := top.pos, Code := "QUOTE_UNCLOSED", Message := "unclosed quote" }]
       else diags)
    refine ⟨?_, b⟩
    rw [a]
    split
    · rw [List.filter_append]
      have : [({ Pos := top.pos, Code := "QUOTE_UNCLOSED", Message := "unclosed quote" } :
          Diag)].filter isMismatch = [] := by
        simp [isMismatch]
      rw [this, List.append_nil]
    · rfl

theorem filter_isMismatch_map (l : List (Char × Pos)) :
    (l.map mismatchDiag).filter isMismatch = l.map mismatchDiag := by
  rw [List.filter_eq_self]
  intro d hd
  obtain ⟨p, _, rfl⟩ := List.mem_map.mp hd
  simp [isMismatch, mismatchDiag]

theorem quotePass_mismatch [Unicode] (prepared : List node) (diags : List Diag) :
    (quotePass prepared diags).2.filter isMismatch
        = diags.filter isMismatch ++ (strayClosesFrom prepared prepared 0 0).map mismatchDiag
      ∧ ∀ p ∈ strayClosesFrom prepared prepared 0 0,
          wordNode (String.singleton p.1) p.2 ∈ (quotePass prepared diags).1 := by
  obtain ⟨a, _, c⟩ := quoteLoop_depth prepared prepared 0
    { root := [], stack := [], diags := diags }
  unfold quotePass
  dsimp only
  obtain ⟨d, e⟩ := quoteUnwind_mismatch
    (quoteLoop prepared prepared 0 { root := [], stack := [], diags := diags }).stack []
    (quoteLoop prepared prepared 0 { root := [], stack := [], diags := diags }).root
    (quoteLoop prepared prepared 0 { root := [], stack := [], diags := diags }).diags
  refine ⟨?_, fun p hp => e.subset (c p hp)⟩
  rw [d, a, List.filter_append, filter_isMismatch_map]
  rfl

theorem buildQuoteNodes_own [Unicode] (nodes : List node) :
    (buildQuoteNodes nodes).2.filter isMismatch
        = (prepareQuoteNodes nodes).2.filter isMismatch ++ ownMismatches nodes
      ∧ ∀ p ∈ strayCloses nodes,
          wordNode (String.singleton p.1) p.2 ∈ (buildQuoteNodes nodes).1 := by
  have hc : strayClosesFrom (prepareQuoteNodes nodes).1 (prepareQuoteNodes nodes).1 0 0
      = strayCloses nodes :=
    strayClosesFrom_congr _ _ (prepareQuoteNodes_strip nodes) _ _ 0 0
      (prepareQuoteNodes_strip nodes)
  have h := quotePass_mismatch (prepareQuoteNodes nodes).1 (prepareQuoteNodes nodes).2
  rw [hc] at h
  exact h

mutual
theorem prepareQuoteNode_mismatch [Unicode] : ∀ (n : node),
    (prepareQuoteNode n).2.filter isMismatch = mismatchesOfNode n
  | .mk kind text ch dk pos level o c children => by
    have ih := prepareQuoteNodes_mismatch children
    simp only [prepareQuoteNode, mismatchesOfNode]
    split
    · have h := (buildQuoteNodes_own children).1
      unfold buildQuoteNodes at h
      rw [← ih]
      exact h
    · rfl
theorem prepareQuoteNodes_mismatch [Unicode] : ∀ (nodes : List node),
    (prepareQuoteNodes nodes).2.filter isMismatch = mismatchesInside nodes
  | [] => by simp [prepareQuoteNodes, mismatchesInside]
  | n :: rest => by
    simp only [prepareQuoteNodes, mismatchesInside, List.filter_append,
      prepareQuoteNode_mismatch n, prepareQuoteNodes_mismatch rest]
end

/-- Claim C22: for every node sequence, the QUOTE_MISMATCH diagnostics of `buildQuoteNodes`
are, in order, those of the sequences inside its ParenSpans and then one for each explicit
closing glyph (`»`, `”`, `’`) of the sequence itself that is met while no quote frame is
open, at the position of the glyph, and no other; and each such glyph is kept in the result
as the Word of the glyph at that position. The open frames are counted along the sequence
by `quoteDepthStep`. -/
theorem buildQuoteNodes_mismatch [Unicode] (nodes : List node) :
    (buildQuoteNodes nodes).2.filter isMismatch = mismatchesInside nodes ++ ownMismatches nodes
      ∧ ∀ p ∈ strayCloses nodes,
          wordNode (String.singleton p.1) p.2 ∈ (buildQuoteNodes nodes).1 := by
  have h := buildQuoteNodes_own nodes
  rw [prepareQuoteNodes_mismatch] at h
  exact h

/-- Claim C22 at the line `a» («b» c”) d’`: the `»` after `a` is met with no frame open in
the line and the `”` after `c` with none open inside the brackets, the `»` after `b` closes
the frame of `«`, and the `’` belongs to the word `d’`; the QUOTE_MISMATCH diagnostics are
the one inside the brackets and then the one of the line. -/
theorem buildQuoteNodes_mismatch_witness :
    @strayCloses basicTables strayCloseNodes = [('»', { Off := 1, Line := 1, Col := 2 })]
      ∧ @mismatchesInside basicTables strayCloseNodes
          = [mismatchDiag ('”', { Off := 9, Line := 1, Col := 10 })]
      ∧ (@buildQuoteNodes basicTables strayCloseNodes).2.filter isMismatch
          = [mismatchDiag ('”', { Off := 9, Line := 1, Col := 10 }),
             mismatchDiag ('»', { Off := 1, Line := 1, Col := 2 })]
      ∧ wordNode "»" { Off := 1, Line := 1, Col := 2 }
          ∈ (@buildQuoteNodes basicTables strayCloseNodes).1 := by
  have h := @buildQuoteNodes_mismatch basicTables strayCloseNodes
  have h1 : @strayCloses basicTables strayCloseNodes
      = [('»', { Off := 1, Line := 1, Col := 2 })] := by decide
  have h2 : @mismatchesInside basicTables strayCloseNodes
      = [mismatchDiag ('”', { Off := 9, Line := 1, Col := 10 })] := by decide
  refine ⟨h1, h2, ?_, ?_⟩
  · rw [h.1, h2]
    unfold ownMismatches
    rw [h1]
    rfl
  · exact h.2 ('»', { Off := 1, Line := 1, Col := 2 }) (by rw [h1]; simp)

theorem nonQuoteLeaves_append (a b : List node) :
    nonQuoteLeaves (a ++ b) = nonQuoteLeaves a ++ nonQuoteLeaves b := by
  induction a with
  | nil => simp [nonQuoteLeaves]
  | cons x a ih => simp [nonQuoteLeaves, ih]

theorem leavesWithMarks_append (a b : List node) :
    leavesWithMarks (a ++ b) = leavesWithMarks a ++ leavesWithMarks b := by
  induction a with
  | nil => simp [leavesWithMarks]
  | cons x a ih => simp [leavesWithMarks, ih]

theorem leaves_wordNode (t : String) (p : Pos) :
    nonQuoteLeavesOf (wordNode t p) = [wordNode t p]
      ∧ leavesWithMarksOf (wordNode t p) = [wordNode t p] := by
  simp [wordNode, nonQuoteLeavesOf, leavesWithMarksOf]

theorem leaves_quoteSpanNode (top : quoteFrame) :
    nonQuoteLeavesOf (quoteSpanNode top) = nonQuoteLeaves top.nodes
      ∧ leavesWithMarksOf (quoteSpanNode top) = leavesWithMarks top.nodes := by
  simp [quoteSpanNode, nonQuoteLeavesOf, leavesWithMarksOf]

theorem leaves_mark (n : node) (h : n.kind = .nodeQuoteMark) :
    nonQuoteLeavesOf n = []
      ∧ leavesWithMarksOf n = [wordNode (String.singleton n.ch) n.pos] := by
  cases n with
  | mk kind text ch dk pos level o c children =>
    simp only [node.kind] at h
    subst h
    simp [nonQuoteLeavesOf, leavesWithMarksOf, node.ch, node.pos]

mutual
theorem nonQuoteLeavesOf_sublist : ∀ (n : node), List.Sublist (nonQuoteLeavesOf n) (leavesWithMarksOf n)
  | .mk kind text ch dk pos level o c children => by
    have ih := nonQuoteLeaves_sublist children
    simp only [nonQuoteLeavesOf, leavesWithMarksOf]
    split
    · exact ih
    · split
      · exact List.nil_sublist _
      · exact List.Sublist.refl _
theorem nonQuoteLeaves_sublist : ∀ (l : List node), List.Sublist (nonQuoteLeaves l) (leavesWithMarks l)
  | [] => by simp [nonQuoteLeaves, leavesWithMarks]
  | n :: rest => by
    simp only [nonQuoteLeaves, leavesWithMarks]
    exact (nonQuoteLeavesOf_sublist n).append (nonQuoteLeaves_sublist rest)
end

theorem quoteAppendCurrent_leaves (st : quoteState) (n : node) :
    loState (quoteAppendCurrent st n) = loState st ++ nonQuoteLeavesOf n
      ∧ hiState (quoteAppendCurrent st n) = hiState st ++ leavesWithMarksOf n := by
  unfold quoteAppendCurrent
  split
  · rename_i hs
    simp [loState, hiState, hs, loStack, hiStack, nonQuoteLeaves_append, leavesWithMarks_append,
      nonQuoteLeaves, leavesWithMarks]
  · rename_i top below hs
    simp [loState, hiState, hs, loStack, hiStack, nonQuoteLeaves_append, leavesWithMarks_append,
      nonQuoteLeaves, leavesWithMarks]

theorem quotePush_leaves (st : quoteState) (n : node) :
    loState (quotePush st n) = loState st
      ∧ hiState (quotePush st n)
          = hiState st ++ [wordNode (String.singleton n.ch) n.pos] := by
  simp [quotePush, loState, hiState, loStack, hiStack, nonQuoteLeaves, leavesWithMarks]

theorem quotePopSpan_leaves (st : quoteState) :
    loState (quotePopSpan st) = loState st ∧ List.Sublist (hiState (quotePopSpan st)) (hiState st) := by
  unfold quotePopSpan
  split
  · exact ⟨rfl, List.Sublist.refl _⟩
  · rename_i top below hs
    obtain ⟨a, b⟩ := quoteAppendCurrent_leaves { st with stack := below } (quoteSpanNode top)
    rw [a, b, (leaves_quoteSpanNode top).1, (leaves_quoteSpanNode top).2]
    refine ⟨by simp [loState, hs, loStack], ?_⟩
    simp only [hiState, hs, hiStack, List.append_assoc]
    exact (List.Sublist.refl _).append ((List.Sublist.refl _).append
      (List.sublist_cons_self _ _))

theorem quoteStep_cases [Unicode] (prepared : List node) (st : quoteState) (i : Nat)
    (n : node) (hk : n.kind = .nodeQuoteMark) :
    quoteStep prepared st i n = quotePush st n ∨ quoteStep prepared st i n = quotePopSpan st
      ∨ ∃ d, quoteStep prepared st i n
          = quoteAppendCurrent { st with diags := d } (wordNode (String.singleton n.ch) n.pos) := by
  have hst : ∀ (m : node), quoteAppendCurrent st m
      = quoteAppendCurrent { st with diags := st.diags } m := fun _ => rfl
  unfold quoteStep
  rw [if_neg (by simp [hk])]
  split
  · exact Or.inl rfl
  · split
    · split
      · exact Or.inr (Or.inr ⟨_, rfl⟩)
      · exact Or.inr (Or.inl rfl)
    · split
      · split
        · exact Or.inr (Or.inl rfl)
        · split
          · exact Or.inl rfl
          · exact Or.inr (Or.inr ⟨_, hst _⟩)
      · exact Or.inr (Or.inr ⟨_, hst _⟩)

theorem quoteStep_leaves [Unicode] (prepared : List node) (st : quoteState) (i : Nat)
    (n : node) :
    List.Sublist (loState st ++ nonQuoteLeavesOf n) (loState (quoteStep prepared st i n))
      ∧ List.Sublist (hiState (quoteStep prepared st i n)) (hiState st ++ leavesWithMarksOf n) := by
  by_cases hk : n.kind = .nodeQuoteMark
  · obtain ⟨h1, h2⟩ := leaves_mark n hk
    rw [h1, h2, List.append_nil]
    rcases quoteStep_cases prepared st i n hk with h | h | ⟨d, h⟩
    · rw [h, (quotePush_leaves st n).1, (quotePush_leaves st n).2]
      exact ⟨List.Sublist.refl _, List.Sublist.refl _⟩
    · rw [h, (quotePopSpan_leaves st).1]
      exact ⟨List.Sublist.refl _,
        (quotePopSpan_leaves st).2.trans (List.sublist_append_left _ _)⟩
    · obtain ⟨a, b⟩ := quoteAppendCurrent_leaves { st with diags := d }
        (wordNode (String.singleton n.ch) n.pos)
      rw [h, a, b, (leaves_wordNode _ _).1, (leaves_wordNode _ _).2]
      exact ⟨List.sublist_append_left _ _, List.Sublist.refl _⟩
  · have h : quoteStep prepared st i n = quoteAppendCurrent st n := by
      unfold quoteStep
      rw [if_pos (by simpa using hk)]
    obtain ⟨a, b⟩ := quoteAppendCurrent_leaves st n
    rw [h, a, b]
    exact ⟨List.Sublist.refl _, List.Sublist.refl _⟩

theorem quoteLoop_leaves [Unicode] (prepared : List node) :
    ∀ (rest : List node) (i : Nat) (st : quoteState),
      List.Sublist (loState st ++ nonQuoteLeaves rest) (loState (quoteLoop prepared rest i st))
        ∧ List.Sublist (hiState (quoteLoop prepared rest i st))
            (hiState st ++ leavesWithMarks rest)
  | [], i, st => by simp [quoteLoop, nonQuoteLeaves, leavesWithMarks]
  | n :: rest, i, st => by
    obtain ⟨a, b⟩ := quoteStep_leaves prepared st i n
    obtain ⟨c, d⟩ := quoteLoop_leaves prepared rest (i + 1) (quoteStep prepared st i n)
    rw [quoteLoop]
    simp only [nonQuoteLeaves, leavesWithMarks, ← List.append_assoc]
    exact ⟨(a.append (List.Sublist.refl _)).trans c, d.trans (b.append (List.Sublist.refl _))⟩

theorem loStack_sublist (stack : List quoteFrame) : List.Sublist (loStack stack) (hiStack stack) := by
  induction stack with
  | nil => exact List.Sublist.refl _
  | cons top below ih =>
    simp only [loStack, hiStack]
    exact ih.append ((nonQuoteLeaves_sublist _).trans (List.sublist_cons_self _ _))

theorem quoteUnwind_leaves : ∀ (stack : List quoteFrame) (carry root : List node)
    (diags : List Diag),
    List.Sublist (nonQuoteLeaves root ++ loStack stack ++ nonQuoteLeaves carry)
        (nonQuoteLeaves (quoteUnwind stack carry root diags).1)
      ∧ leavesWithMarks (quoteUnwind stack carry root diags).1
          = leavesWithMarks root ++ hiStack stack ++ leavesWithMarks carry
  | [], carry, root, diags => by
    simp [quoteUnwind, loStack, hiStack, nonQuoteLeaves_append, leavesWithMarks_append]
  | top :: below, carry, root, diags => by
    obtain ⟨a, b⟩ := quoteUnwind_leaves below
      (wordNode (String.singleton top.quote) top.pos :: (top.nodes ++ carry)) root
      (if shouldReportUnclosedQuote top then
        diags ++ [{ Pos := top.pos, Code := "QUOTE_UNCLOSED", Message := "unclosed quote" }]
       else diags)
    rw [quoteUnwind]
    refine ⟨?_, ?_⟩
    · refine List.Sublist.trans ?_ a
      simp only [loStack, nonQuoteLeaves, (leaves_wordNode _ _).1, nonQuoteLeaves_append,
        List.append_assoc]
      exact (List.Sublist.refl _).append ((List.Sublist.refl _).append
        (List.sublist_cons_self _ _))
    · rw [b]
      simp only [hiStack, leavesWithMarks, (leaves_wordNode _ _).2, leavesWithMarks_append,
        List.append_assoc, List.singleton_append, List.cons_append, List.nil_append]

theorem quotePass_leaves [Unicode] (prepared : List node) (diags : List Diag) :
    List.Sublist (nonQuoteLeaves prepared) (nonQuoteLeaves (quotePass prepared diags).1)
      ∧ List.Sublist (leavesWithMarks (quotePass prepared diags).1) (leavesWithMarks prepared) := by
  obtain ⟨a, b⟩ := quoteLoop_leaves prepared prepared 0
    { root := [], stack := [], diags := diags }
  unfold quotePass
  dsimp only
  obtain ⟨c, d⟩ := quoteUnwind_leaves
    (quoteLoop prepared prepared 0 { root := [], stack := [], diags := diags }).stack []
    (quoteLoop prepared prepared 0 { root := [], stack := [], diags := diags }).root
    (quoteLoop prepared prepared 0 { root := [], stack := [], diags := diags }).diags
  simp only [loState, hiState, loStack, hiStack, nonQuoteLeaves, leavesWithMarks,
    List.append_nil, List.nil_append] at a b c d
  exact ⟨a.trans c, by rw [d]; exact b⟩

mutual
theorem prepareQuoteNode_leaves [Unicode] : ∀ (n : node),
    List.Sublist (nonQuoteLeavesOf n) (nonQuoteLeavesOf (prepareQuoteNode n).1)
      ∧ List.Sublist (leavesWithMarksOf (prepareQuoteNode n).1) (leavesWithMarksOf n)
  | .mk kind text ch dk pos level o c children => by
    have ih := prepareQuoteNodes_leaves children
    simp only [prepareQuoteNode]
    split
    · rename_i hk
      obtain ⟨a, b⟩ := quotePass_leaves (prepareQuoteNodes children).1
        (prepareQuoteNodes children).2
      simp only [nonQuoteLeavesOf, leavesWithMarksOf, hk, true_or, if_true]
      exact ⟨ih.1.trans a, b.trans ih.2⟩
    · exact ⟨List.Sublist.refl _, List.Sublist.refl _⟩
theorem prepareQuoteNodes_leaves [Unicode] : ∀ (nodes : List node),
    List.Sublist (nonQuoteLeaves nodes) (nonQuoteLeaves (prepareQuoteNodes nodes).1)
      ∧ List.Sublist (leavesWithMarks (prepareQuoteNodes nodes).1) (leavesWithMarks nodes)
  | [] => by simp [prepareQuoteNodes, nonQuoteLeaves, leavesWithMarks]
  | n :: rest => by
    obtain ⟨a, b⟩ := prepareQuoteNode_leaves n
    obtain ⟨c, d⟩ := prepareQuoteNodes_leaves rest
    simp only [prepareQuoteNodes, nonQuoteLeaves, leavesWithMarks]
    exact ⟨a.append c, b.append d⟩
end

/-- Claim C36, amended: for every node sequence, `buildQuoteNodes` keeps every node that is
not a quote mark, in order: the leaves of the input that are not quote marks (the leaves
inside ParenSpans and QuoteSpans included) are a subsequence of those of the result, and
what the result has more are Words made of the glyphs of quote marks of the input at their
positions: the leaves of the result are a subsequence of the leaves of the input with
every quote mark replaced by the Word of its glyph. -/
theorem buildQuoteNodes_leaves [Unicode] (nodes : List node) :
    List.Sublist (nonQuoteLeaves nodes) (nonQuoteLeaves (buildQuoteNodes nodes).1)
      ∧ List.Sublist (nonQuoteLeaves (buildQuoteNodes nodes).1) (leavesWithMarks nodes) := by
  obtain ⟨a, b⟩ := prepareQuoteNodes_leaves nodes
  obtain ⟨c, d⟩ := quotePass_leaves (prepareQuoteNodes nodes).1 (prepareQuoteNodes nodes).2
  unfold buildQuoteNodes
  exact ⟨a.trans c, (nonQuoteLeaves_sublist _).trans (d.trans b)⟩

/-- Claim C36 as stated fails: from the one quote mark `»` the result has the Word `»` as a
leaf that is not a quote mark, and the input has no such leaf. -/
theorem buildQuoteNodes_leaves_not_claim :
    (nonQuoteLeaves (@buildQuoteNodes basicTables [quoteMarkNode '»' zeroPos]).1).map node.text
        = ["»"]
      ∧ (nonQuoteLeaves [quoteMarkNode '»' zeroPos]).map node.text = [] := by decide

/-- Claim C23 as worded fails: the key `x½` is accepted, and `½` is not a letter, a digit,
`_` or `-`; it is a number that is not a digit, and the class `\p{N}` of the expression
holds every number. -/
theorem parseMetaLine_not_claim :
    @parseMetaLine latin1Tables "x½: v" = some ("x½", "v")
      ∧ ¬ @isKeyRuneWorded latin1Tables '½'
      ∧ latin1Tables.IsNumber '½' = true ∧ latin1Tables.IsDigit '½' = false := by
  refine ⟨by decide, ?_, by decide, by decide⟩
  unfold isKeyRuneWorded
  decide

/-- Claim C24 fails at the line `ᲄом 1`, whose first rune is U+1C84, a case variant of `т`
for the flag `(?i)`: the expression takes `ᲄом` for the chapter keyword `том`, a keyword of
level 1, as it takes `ТОМ`; `strings.ToLower` leaves U+1C84 as it is, the switch of
`headingLevelForKeyword` does not find `ᲄом`, and the level is 2, while `том 1` and `ТОМ 1`
have level 1. -/
theorem parseHeading_foldedKeyword :
    @matchBookHeadingWord basicTables "том" (String.mk [Char.ofNat 0x1C84, 'о', 'м', ' ', '1'])
        = some (String.mk [Char.ofNat 0x1C84, 'о', 'м'], "1")
      ∧ @stringsToLower basicTables (String.mk [Char.ofNat 0x1C84, 'о', 'м'])
          = String.mk [Char.ofNat 0x1C84, 'о', 'м']
      ∧ @parseHeading basicTables (String.mk [Char.ofNat 0x1C84, 'о', 'м', ' ', '1'])
          = some (2, String.mk [Char.ofNat 0x1C84, 'о', 'м', ' ', '1'])
      ∧ @parseHeading basicTables "том 1" = some (1, "том 1")
      ∧ @parseHeading basicTables "ТОМ 1" = some (1, "ТОМ 1") := by decide

theorem coreList_set (l : List Inline) : ∀ (i : Nat) (x y : Inline), l[i]? = some x →
    coreItem y = coreItem x → coreList (l.set i y) = coreList l := by
  induction l with
  | nil => intro i x y hx; simp at hx
  | cons a l ih =>
    intro i x y hx hxy
    cases i with
    | zero =>
      simp only [List.getElem?_cons_zero, Option.some.injEq] at hx
      subst hx
      simp only [List.set_cons_zero, coreList, hxy]
    | succ j =>
      simp only [List.getElem?_cons_succ] at hx
      simp only [List.set_cons_succ, coreList, ih j x y hx hxy]

theorem coreList_foldl (f : List Inline → Nat → List Inline)
    (hf : ∀ out i, coreList (f out i) = coreList out) (idxs : List Nat) :
    ∀ out : List Inline, coreList (idxs.foldl f out) = coreList out := by
  induction idxs with
  | nil => intro out; rfl
  | cons i rest ih => intro out; rw [List.foldl_cons, ih, hf]

theorem foldEllipsis_triple (p1 p2 p3 : Char) (r : List Inline) :
    foldEllipsis (.Punct p1 :: .Punct p2 :: .Punct p3 :: r)
      = if p1 = '.' && p2 = '.' && p3 = '.' then .Ellipsis :: foldEllipsis r
        else .Punct p1 :: foldEllipsis (.Punct p2 :: .Punct p3 :: r) := by
  rw [foldEllipsis]

theorem foldStopsFlat_triple (p1 p2 p3 : Char) (r : List Inline) :
    foldStopsFlat (.Punct p1 :: .Punct p2 :: .Punct p3 :: r)
      = if p1 = '.' && p2 = '.' && p3 = '.' then .Ellipsis :: foldStopsFlat r
        else .Punct p1 :: foldStopsFlat (.Punct p2 :: .Punct p3 :: r) := by
  rw [foldStopsFlat]

theorem foldEllipsis_punct (p1 : Char) (rest : List Inline)
    (h : ∀ p2 p3 r, rest ≠ .Punct p2 :: .Punct p3 :: r) :
    foldEllipsis (.Punct p1 :: rest) = .Punct p1 :: foldEllipsis rest := by
  cases rest with
  | nil => simp [foldEllipsis]
  | cons y r2 =>
    cases y with
    | Punct p2 =>
      cases r2 with
      | nil => simp [foldEllipsis]
      | cons z r3 =>
        cases z with
        | Punct p3 => exact absurd rfl (h p2 p3 r3)
        | _ => simp [foldEllipsis]
    | _ => simp [foldEllipsis]

theorem foldStopsFlat_punct (p1 : Char) (rest : List Inline)
    (h : ∀ p2 p3 r, rest ≠ .Punct p2 :: .Punct p3 :: r) :
    foldStopsFlat (.Punct p1 :: rest) = .Punct p1 :: foldStopsFlat rest := by
  cases rest with
  | nil => simp [foldStopsFlat]
  | cons y r2 =>
    cases y with
    | Punct p2 =>
      cases r2 with
      | nil => simp [foldStopsFlat]
      | cons z r3 =>
        cases z with
        | Punct p3 => exact absurd rfl (h p2 p3 r3)
        | _ => simp [foldStopsFlat]
    | _ => simp [foldStopsFlat]

theorem foldEllipsis_eq_foldStopsFlat : ∀ (n : Nat) (l : List Inline), l.length ≤ n →
    (∀ w ∈ wordPayloads l, noEllipsisInWord w) → foldEllipsis l = foldStopsFlat l
  | 0, l, hn, _ => by
    have : l = [] := List.length_eq_zero.mp (by omega)
    subst this; rfl
  | n + 1, [], _, _ => rfl
  | n + 1, x :: rest, hn, h => by
    have hrest : ∀ w ∈ wordPayloads rest, noEllipsisInWord w := fun w hw =>
      h w (by simp only [wordPayloads, List.mem_append]; exact Or.inr hw)
    have ih := foldEllipsis_eq_foldStopsFlat n rest (by simpa using hn) hrest
    cases x with
    | Word s =>
      have hs : noEllipsisInWord s := h s (by simp [wordPayloads, wordPayloadsOf])
      simp only [foldEllipsis, foldStopsFlat, splitWordEllipsis_plain s hs,
        List.singleton_append, ih]
    | Punct p1 =>
      by_cases hsh : ∃ p2 p3 r, rest = .Punct p2 :: .Punct p3 :: r
      · obtain ⟨p2, p3, r, rfl⟩ := hsh
        have h3 : ∀ w ∈ wordPayloads r, noEllipsisInWord w := fun w hw =>
          h w (by simp only [wordPayloads, wordPayloadsOf, List.nil_append]; exact hw)
        have ih3 := foldEllipsis_eq_foldStopsFlat n r (by simp at hn; omega) h3
        rw [foldEllipsis_triple, foldStopsFlat_triple, ih3, ih]
      · have hne : ∀ p2 p3 r, rest ≠ .Punct p2 :: .Punct p3 :: r :=
          fun p2 p3 r e => hsh ⟨p2, p3, r, e⟩
        rw [foldEllipsis_punct _ _ hne, foldStopsFlat_punct _ _ hne, ih]
    | Space k => simp only [foldEllipsis, foldStopsFlat, ih]
    | Dash k => simp only [foldEllipsis, foldStopsFlat, ih]
    | Ellipsis => simp only [foldEllipsis, foldStopsFlat, ih]
    | QuoteSpan lv c => simp only [foldEllipsis, foldStopsFlat, ih]
    | ParenSpan o cl c => simp only [foldEllipsis, foldStopsFlat, ih]

mutual
theorem normalizeEllipsisItem_eq_foldStops : ∀ (item : Inline),
    (∀ w ∈ wordPayloadsOf item, noEllipsisInWord w) →
      normalizeEllipsisItem item = foldStopsItem item
  | .QuoteSpan lv c, h => by
    have hc : ∀ w ∈ wordPayloads c, noEllipsisInWord w := by simpa [wordPayloadsOf] using h
    have ih := normalizeEllipsisItems_eq_foldStops c hc
    simp only [normalizeEllipsisItem, foldStopsItem]
    rw [foldEllipsis_eq_foldStopsFlat _ _ (le_refl _)
      (by rw [normalizeEllipsisItems_words c hc]; exact hc), ih]
  | .ParenSpan o cl c, h => by
    have hc : ∀ w ∈ wordPayloads c, noEllipsisInWord w := by simpa [wordPayloadsOf] using h
    have ih := normalizeEllipsisItems_eq_foldStops c hc
    simp only [normalizeEllipsisItem, foldStopsItem]
    rw [foldEllipsis_eq_foldStopsFlat _ _ (le_refl _)
      (by rw [normalizeEllipsisItems_words c hc]; exact hc), ih]
  | .Word _, _ => rfl
  | .Space _, _ => rfl
  | .Punct _, _ => rfl
  | .Dash _, _ => rfl
  | .Ellipsis, _ => rfl
theorem normalizeEllipsisItems_eq_foldStops : ∀ (l : List Inline),
    (∀ w ∈ wordPayloads l, noEllipsisInWord w) →
      normalizeEllipsisItems l = foldStopsItems l
  | [], _ => rfl
  | x :: rest, h => by
    simp only [normalizeEllipsisItems, foldStopsItems]
    rw [normalizeEllipsisItem_eq_foldStops x (fun w hw =>
        h w (by simp only [wordPayloads, List.mem_append]; exact Or.inl hw)),
      normalizeEllipsisItems_eq_foldStops rest (fun w hw =>
        h w (by simp only [wordPayloads, List.mem_append]; exact Or.inr hw))]
end

theorem normalizeEllipsisList_eq_foldFullStops (l : List Inline)
    (h : ∀ w ∈ wordPayloads l, noEllipsisInWord w) :
    normalizeEllipsisList l = foldFullStops l := by
  unfold normalizeEllipsisList foldFullStops
  rw [foldEllipsis_eq_foldStopsFlat _ _ (le_refl _)
    (by rw [normalizeEllipsisItems_words l h]; exact h),
    normalizeEllipsisItems_eq_foldStops l h]

theorem classifyDashAt_core [Unicode] (out : List Inline) (i : Nat) :
    coreList (classifyDashAt out i) = coreList out := by
  unfold classifyDashAt
  split
  · rename_i k h
    have hs : ∀ k2, coreList (out.set i (.Dash k2)) = coreList out := fun k2 =>
      coreList_set out i (.Dash k) (.Dash k2) h (by simp [coreItem])
    dsimp only
    split
    · split
      · split
        · exact hs _
        · exact hs _
      · exact hs _
    · exact hs _
  · rfl

theorem classifyDashesLoop_core [Unicode] (out : List Inline) :
    coreList (classifyDashesLoop out) = coreList out :=
  coreList_foldl classifyDashAt classifyDashAt_core _ out

mutual
theorem classifyDashesItem_core [Unicode] : ∀ (item : Inline),
    coreItem (classifyDashesItem item) = coreItem item
  | .QuoteSpan lv c => by
    simp only [classifyDashesItem, coreItem, classifyDashesLoop_core,
      classifyDashesItems_core c]
  | .ParenSpan o cl c => by
    simp only [classifyDashesItem, coreItem, classifyDashesLoop_core,
      classifyDashesItems_core c]
  | .Word _ => rfl
  | .Space _ => rfl
  | .Punct _ => rfl
  | .Dash _ => rfl
  | .Ellipsis => rfl
theorem classifyDashesItems_core [Unicode] : ∀ (l : List Inline),
    coreList (classifyDashesItems l) = coreList l
  | [] => rfl
  | x :: rest => by
    simp only [classifyDashesItems, coreList, classifyDashesItem_core x,
      classifyDashesItems_core rest]
end

theorem classifyDashesList_core [Unicode] (l : List Inline) :
    coreList (classifyDashesList l) = coreList l := by
  unfold classifyDashesList
  rw [classifyDashesLoop_core, classifyDashesItems_core]

mutual
theorem normalizeQuoteLevelsItem_core : ∀ (item : Inline) (d : Nat),
    coreItem (normalizeQuoteLevelsItem item d) = coreItem item
  | .QuoteSpan lv c, d => by
    simp only [normalizeQuoteLevelsItem, coreItem, normalizeQuoteLevels_core c (d + 1)]
  | .ParenSpan o cl c, d => by
    simp only [normalizeQuoteLevelsItem, coreItem, normalizeQuoteLevels_core c d]
  | .Word _, _ => rfl
  | .Space _, _ => rfl
  | .Punct _, _ => rfl
  | .Dash _, _ => rfl
  | .Ellipsis, _ => rfl
theorem normalizeQuoteLevels_core : ∀ (l : List Inline) (d : Nat),
    coreList (normalizeQuoteLevels l d) = coreList l
  | [], _ => rfl
  | x :: rest, d => by
    simp only [normalizeQuoteLevels, coreList, normalizeQuoteLevelsItem_core x d,
      normalizeQuoteLevels_core rest d]
end

theorem coreItem_space (x : Inline) (hx : isSpace x = true) : coreItem x = [] := by
  cases x <;> simp [isSpace] at hx
  rfl

theorem coreList_filter_nonSpace (l : List Inline) :
    coreList (l.filter fun item => !isSpace item) = coreList l := by
  induction l with
  | nil => rfl
  | cons x rest ih =>
    rw [List.filter_cons]
    cases hx : isSpace x
    · rw [if_pos (by simp)]
      simp only [coreList, ih]
    · rw [if_neg (by simp)]
      simp only [coreList, coreItem_space x hx, ih, List.nil_append]

theorem spacingLoop_core (rest : List Inline) : ∀ prev : Inline,
    coreList (spacingLoop prev rest) = coreList rest := by
  induction rest with
  | nil => intro prev; rfl
  | cons cur rest ih =>
    intro prev
    simp only [spacingLoop]
    split <;> simp [coreList, coreItem, ih]

theorem rebuildSpacing_core (l : List Inline) :
    coreList (rebuildSpacing l) = coreList l := by
  rw [← coreList_filter_nonSpace l]
  unfold rebuildSpacing
  cases l.filter (fun item => !isSpace item) with
  | nil => rfl
  | cons first rest => simp only [coreList, spacingLoop_core]

mutual
theorem normalizeSpacingItem_core : ∀ (item : Inline),
    coreItem (normalizeSpacingItem item) = coreItem item
  | .QuoteSpan lv c => by
    simp only [normalizeSpacingItem, coreItem, rebuildSpacing_core,
      normalizeSpacingItems_core c]
  | .ParenSpan o cl c => by
    simp only [normalizeSpacingItem, coreItem, rebuildSpacing_core,
      normalizeSpacingItems_core c]
  | .Word _ => rfl
  | .Space _ => rfl
  | .Punct _ => rfl
  | .Dash _ => rfl
  | .Ellipsis => rfl
theorem normalizeSpacingItems_core : ∀ (l : List Inline),
    coreList (normalizeSpacingItems l) = coreList l
  | [] => rfl
  | x :: rest => by
    simp only [normalizeSpacingItems, coreList, normalizeSpacingItem_core x,
      normalizeSpacingItems_core rest]
end

theorem normalizeSpacingList_core (l : List Inline) :
    coreList (normalizeSpacingList l) = coreList l := by
  unfold normalizeSpacingList
  rw [rebuildSpacing_core, normalizeSpacingItems_core]

theorem applyNBSPAt_core [Unicode] (lang : Lang) (out : List Inline) (i : Nat) :
    coreList (applyNBSPAt lang out i) = coreList out := by
  rcases applyNBSPAt_cases lang out i with h | ⟨h1, h2⟩
  · rw [h]
  · rw [h2]
    exact coreList_set out i _ _ h1 (by simp [coreItem])

theorem applyNBSPLoop_core [Unicode] (lang : Lang) (out : List Inline) :
    coreList (applyNBSPLoop lang out) = coreList out :=
  coreList_foldl (applyNBSPAt lang) (applyNBSPAt_core lang) _ out

mutual
theorem applyNBSPItem_core [Unicode] (lang : Lang) : ∀ (item : Inline),
    coreItem (applyNBSPItem lang item) = coreItem item
  | .QuoteSpan lv c => by
    simp only [applyNBSPItem, coreItem, applyNBSPLoop_core, applyNBSPItems_core lang c]
  | .ParenSpan o cl c => by
    simp only [applyNBSPItem, coreItem, applyNBSPLoop_core, applyNBSPItems_core lang c]
  | .Word _ => rfl
  | .Space _ => rfl
  | .Punct _ => rfl
  | .Dash _ => rfl
  | .Ellipsis => rfl
theorem applyNBSPItems_core [Unicode] (lang : Lang) : ∀ (l : List Inline),
    coreList (applyNBSPItems lang l) = coreList l
  | [] => rfl
  | x :: rest => by
    simp only [applyNBSPItems, coreList, applyNBSPItem_core lang x,
      applyNBSPItems_core lang rest]
end

theorem applyNBSPList_core [Unicode] (l : List Inline) (lang : Lang) :
    coreList (applyNBSPList l lang) = coreList l := by
  unfold applyNBSPList
  rw [applyNBSPLoop_core, applyNBSPItems_core]

theorem trimLeadingSpaces_core (l : List Inline) :
    coreList (trimLeadingSpaces l) = coreList l := by
  induction l with
  | nil => rfl
  | cons x rest ih =>
    simp only [trimLeadingSpaces]
    split
    · rename_i h
      simp only [coreList, coreItem_space x h, List.nil_append, ih]
    · rfl

theorem normalizeDialogueTurn_core (ins : List Inline) :
    coreList (normalizeDialogueTurn ins).1 = coreList ins := by
  have h0 := trimLeadingSpaces_core ins
  unfold normalizeDialogueTurn
  cases h1 : trimLeadingSpaces ins with
  | nil =>
    rw [h1] at h0
    rw [← h0]
    simp [coreList, coreItem]
  | cons x xs =>
    rw [h1] at h0
    have h2 := trimLeadingSpaces_core (x :: xs)
    cases x with
    | Dash k =>
      simp only
      have h3 := trimLeadingSpaces_core xs
      cases h4 : trimLeadingSpaces xs with
      | nil =>
        rw [h4] at h3
        rw [← h0]
        simp only [coreList, coreItem, List.nil_append] at h3 ⊢
        exact h3
      | cons y ys =>
        rw [h4] at h3
        rw [← h0]
        simp only [coreList, coreItem, List.nil_append] at h3 ⊢
        exact h3
    | _ =>
      simp only
      split
      · rename_i h5
        rw [h5] at h2
        rw [← h0, ← h2]
        simp [coreList, coreItem]
      · rw [← h0]
        simp only [coreList, coreItem, List.nil_append] at h2 ⊢ <;> exact h2

theorem applyToAllInlinesBlock_core (fn : List Inline → List Inline)
    (h : ∀ ins, coreList (fn ins) = coreList ins) (b : Block) :
    mapBlockInlines coreList (applyToAllInlinesBlock fn b) = mapBlockInlines coreList b := by
  cases b <;> simp [applyToAllInlinesBlock, mapBlockInlines, h]

theorem emitCanonicalPairsBlock_core (b : Block) :
    mapBlockInlines coreList (emitCanonicalPairsBlock b) = mapBlockInlines coreList b := by
  cases b <;> simp [emitCanonicalPairsBlock, mapBlockInlines, normalizeQuoteLevels_core]

theorem normalizeDialogueBlocksLoop_core (blocks : List Block) : ∀ (diags : List Diag),
    (normalizeDialogueBlocksLoop blocks diags).1.map (mapBlockInlines coreList)
      = blocks.map (mapBlockInlines coreList) := by
  induction blocks with
  | nil => intro diags; rfl
  | cons b rest ih =>
    intro diags
    cases b with
    | DialogueBlock turns =>
      simp only [normalizeDialogueBlocksLoop, List.map_cons, ih, mapBlockInlines,
        normalizeDialogueTurns_fst, List.map_map]
      congr 2
      apply List.map_congr_left
      intro t _
      simp [normalizeDialogueTurn_core]
    | _ => simp only [normalizeDialogueBlocksLoop, List.map_cons, ih]

theorem applyToAllInlinesBlock_foldStops (b : Block)
    (h : ∀ ins ∈ blockInlines b, ∀ w ∈ wordPayloads ins, noEllipsisInWord w) :
    applyToAllInlinesBlock normalizeEllipsisList b = foldStopsBlock b := by
  cases b with
  | Paragraph ins =>
    simp only [applyToAllInlinesBlock, foldStopsBlock, mapBlockInlines,
      normalizeEllipsisList_eq_foldFullStops ins (h ins (by simp [blockInlines]))]
  | Heading lv ins =>
    simp only [applyToAllInlinesBlock, foldStopsBlock, mapBlockInlines,
      normalizeEllipsisList_eq_foldFullStops ins (h ins (by simp [blockInlines]))]
  | MetaLineBlock key ins =>
    simp only [applyToAllInlinesBlock, foldStopsBlock, mapBlockInlines,
      normalizeEllipsisList_eq_foldFullStops ins (h ins (by simp [blockInlines]))]
  | TitleBlock ins => rfl
  | SceneBreak m => rfl
  | DialogueBlock turns =>
    simp only [applyToAllInlinesBlock, foldStopsBlock, mapBlockInlines]
    congr 1
    apply List.map_congr_left
    intro t ht
    rw [normalizeEllipsisList_eq_foldFullStops t.In (h t.In (by
      simp only [blockInlines, List.mem_map]; exact ⟨t, ht, rfl⟩))]
  | ContentsBlock ins entries =>
    simp only [applyToAllInlinesBlock, foldStopsBlock, mapBlockInlines,
      normalizeEllipsisList_eq_foldFullStops ins (h ins (by simp [blockInlines]))]
    congr 1
    apply List.map_congr_left
    intro e he
    rw [normalizeEllipsisList_eq_foldFullStops e.In (h e.In (by
      simp only [blockInlines, List.mem_cons, List.mem_map]; exact Or.inr ⟨e, he, rfl⟩))]

theorem Apply_core [Unicode] (doc : Document) (cfg : Config)
    (h : ∀ b ∈ doc.Blocks, ∀ ins ∈ blockInlines b, ∀ w ∈ wordPayloads ins,
      noEllipsisInWord w) :
    sameUpToSpacesAndDashes (Apply doc cfg) doc := by
  have hpass : ∀ (fn : List Inline → List Inline) (d : Document),
      (∀ ins, coreList (fn ins) = coreList ins) →
        (applyToAllInlines d fn).Blocks.map (mapBlockInlines coreList)
          = d.Blocks.map (mapBlockInlines coreList) := by
    intro fn d hfn
    simp only [applyToAllInlines, List.map_map]
    exact List.map_congr_left fun b _ => applyToAllInlinesBlock_core fn hfn b
  have h1 : (normalizeEllipsisDocument doc).Blocks = doc.Blocks.map foldStopsBlock := by
    simp only [normalizeEllipsisDocument, applyToAllInlines]
    exact List.map_congr_left fun b hb => applyToAllInlinesBlock_foldStops b (h b hb)
  have h2 := hpass classifyDashesList (normalizeEllipsisDocument doc) classifyDashesList_core
  have h3 : (emitCanonicalPairsDocument (classifyDashesDocument
      (normalizeEllipsisDocument doc))).Blocks.map (mapBlockInlines coreList)
      = (classifyDashesDocument (normalizeEllipsisDocument doc)).Blocks.map
          (mapBlockInlines coreList) := by
    simp only [emitCanonicalPairsDocument, List.map_map]
    exact List.map_congr_left fun b _ => emitCanonicalPairsBlock_core b
  have h4 := hpass normalizeSpacingList (emitCanonicalPairsDocument (classifyDashesDocument
      (normalizeEllipsisDocument doc))) normalizeSpacingList_core
  have h5 : (normalizeDialogueBlocks (normalizeSpacingDocument (emitCanonicalPairsDocument
      (classifyDashesDocument (normalizeEllipsisDocument doc))))).Blocks.map
        (mapBlockInlines coreList)
      = (normalizeSpacingDocument (emitCanonicalPairsDocument (classifyDashesDocument
          (normalizeEllipsisDocument doc)))).Blocks.map (mapBlockInlines coreList) :=
    normalizeDialogueBlocksLoop_core _ _
  have h15 : (normalizeDialogueBlocks (normalizeSpacingDocument (emitCanonicalPairsDocument
      (classifyDashesDocument (normalizeEllipsisDocument doc))))).Blocks.map
        (mapBlockInlines coreList)
      = doc.Blocks.map fun blk => mapBlockInlines coreList (foldStopsBlock blk) := by
    rw [h5]
    unfold normalizeSpacingDocument
    rw [h4, h3]
    unfold classifyDashesDocument
    rw [h2, h1, List.map_map]
    rfl
  unfold sameUpToSpacesAndDashes Apply
  dsimp only
  split
  · unfold applyNBSPDocument
    rw [hpass _ _ (fun ins => applyNBSPList_core ins cfg.Lang)]
    exact h15
  · exact h15

/-- Claim C40, amended: for every document in which no Word payload holds `…` or three full
stops in a row, and every configuration, `Apply` keeps the number of the blocks, their
variants and their order, and in every inline list of every block (the entries of a
ContentsBlock and the turns of a DialogueBlock included) the Word payloads in order, those
inside QuoteSpans and ParenSpans included; and Spaces, Dashes and QuoteSpan levels set
aside, every block of the result is the block of the input with every three adjacent Puncts
`.` replaced by one Ellipsis at every nesting level (a TitleBlock is not folded). So the
passes add, remove or alter only Spaces and Dashes and the levels of QuoteSpans, and fold
full stops into Ellipses. -/
theorem Apply_frame [Unicode] (doc : Document) (cfg : Config)
    (h : ∀ b ∈ doc.Blocks, ∀ ins ∈ blockInlines b, ∀ w ∈ wordPayloads ins,
      noEllipsisInWord w) :
    sameWordsAndBlocks (Apply doc cfg) doc ∧ sameUpToSpacesAndDashes (Apply doc cfg) doc :=
  ⟨Apply_sameWordsAndBlocks doc cfg h, Apply_core doc cfg h⟩

/-- Claim C40, amended, at a document with a dialogue turn, a paragraph with a quotation and
a title, with the NBSP pass: the Word payloads and the blocks are kept, the three full stops
inside the quotation become an Ellipsis and the fourth stays, the title keeps its three, and
the rest of the change is in Spaces, Dashes and the level of the QuoteSpan. -/
theorem Apply_frame_witness :
    (∀ b ∈ frameDocument.Blocks, ∀ ins ∈ blockInlines b, ∀ w ∈ wordPayloads ins,
        noEllipsisInWord w)
      ∧ sameWordsAndBlocks
          (@Apply basicTables frameDocument { DefaultConfig with UseNBSP := true })
          frameDocument
      ∧ sameUpToSpacesAndDashes
          (@Apply basicTables frameDocument { DefaultConfig with UseNBSP := true })
          frameDocument
      ∧ (@Apply basicTables frameDocument { DefaultConfig with UseNBSP := true }).Blocks
          = [.DialogueBlock
              [{ In := [.Dash .DashEmDash, .Space .SpaceNormal, .Word "да", .Punct '.'] }],
             .Paragraph [.Word "в", .Space .SpaceNormal,
               .QuoteSpan 1 [.Word "дом", .Dash .DashHyphen, .Word "2", .Ellipsis,
                 .Punct '.']],
             .TitleBlock [.Word "т", .Space .SpaceNormal, .Punct '.', .Punct '.',
               .Punct '.']] := by
  have h : ∀ b ∈ frameDocument.Blocks, ∀ ins ∈ blockInlines b, ∀ w ∈ wordPayloads ins,
      noEllipsisInWord w := by
    unfold noEllipsisInWord
    decide
  have ht := @Apply_frame basicTables frameDocument { DefaultConfig with UseNBSP := true } h
  exact ⟨h, ht.1, ht.2, by decide⟩

end Txtfmt
